import Mathlib

/-!
# The datashape type algebra of libndtypes

A shallow embedding of `libndtypes/ndtypes.c`, `libndtypes/copy.c` and
`libndtypes/substitute.c`: type terms, their constructors with the layout
computation (size, alignment, padding, steps), the shallow copy and the
substitution of a solved symbol table.

Conventions of the embedding.

* C integers are `Int` (or `Nat` for `uint16_t`); the checked operations of
  `overflow.h` return the wrapped 64-bit value together with the overflow flag.
* A function that returns `NULL` or `-1` with an error code in the context
  returns `Except.error` with that code; allocation is assumed to succeed.
* A node is a header (access, flags, ndim, datasize, align) and a payload; the
  tag is the constructor of the payload. Reference counts are not modelled:
  terms are immutable values.
-/

namespace Xnd

/-! ## Machine integers and `overflow.h` -/

def INT64_MAX : Int := 9223372036854775807

def INT64_MIN : Int := -9223372036854775808

def UINT16_MAX : Nat := 65535

/-- Upper bound of the C type `int`, see `ndt_var_add_slice`. -/
def INT_MAX : Int := 2147483647

/-- Number of dimensions a type may have (`ndtypes.h`). -/
def NDT_MAX_DIM : Int := 16

/-- Two's complement reduction of an integer to the range of `int64_t`. -/
def wrap_i64 (x : Int) : Int :=
  (x + 9223372036854775808) % 18446744073709551616 - 9223372036854775808

/-- Conversion to `uint16_t`. -/
def wrap_u16 (x : Int) : Nat :=
  (x % 65536).toNat

/-- Range predicate of `int64_t`. -/
def fits_i64 (x : Int) : Bool :=
  decide (INT64_MIN ≤ x) && decide (x ≤ INT64_MAX)

/-- Modelled from the spec: `ADDi64` of `overflow.h` (checked 64-bit signed
addition; the flag is only ever raised, never cleared). -/
def ADDi64 (a b : Int) (overflow : Bool) : Int × Bool :=
  (wrap_i64 (a + b), overflow || !fits_i64 (a + b))

/-- Modelled from the spec: `MULi64` of `overflow.h` (checked 64-bit signed
multiplication). -/
def MULi64 (a b : Int) (overflow : Bool) : Int × Bool :=
  (wrap_i64 (a * b), overflow || !fits_i64 (a * b))

/-- Modelled from the spec: `ABSi64` of `overflow.h` (checked absolute value:
only `INT64_MIN` overflows). -/
def ABSi64 (a : Int) (overflow : Bool) : Int × Bool :=
  if a = INT64_MIN then (INT64_MIN, true) else (if 0 ≤ a then a else -a, overflow)

/-- Modelled from the spec: `DIVi64` of `overflow.h` (checked 64-bit signed
division, truncating; division by zero and `INT64_MIN / -1` raise the flag). -/
def DIVi64 (a b : Int) (overflow : Bool) : Int × Bool :=
  if b = 0 ∨ (a = INT64_MIN ∧ b = -1) then (0, true) else (Int.tdiv a b, overflow)

/-- The static helper `max` on `uint16_t`. -/
def max_u16 (x y : Nat) : Nat :=
  if x ≥ y then x else y

def max_i64 (x y : Int) : Int :=
  if x ≥ y then x else y

/-- The static helper `ispower2`: `n != 0 && (n & (n-1)) == 0`. -/
def ispower2 (n : Nat) : Bool :=
  n != 0 && (n &&& (n - 1)) == 0

/-- The static helper `round_up`: `size = ADDi64(offset, align-1)`, then
`(size / align) * align` in C (truncating) division. -/
def round_up (offset : Int) (align : Nat) (overflow : Bool) : Int × Bool :=
  let r := ADDi64 offset ((align : Int) - 1) overflow
  (Int.tdiv r.1 (align : Int) * (align : Int), r.2)

/-! ## Error codes -/

/-- Error codes of the context (`ndt_err_format`). `Undefined` is not an error
code of the library: it marks an execution that leaves defined behaviour, such
as a store through an uninitialised pointer, or that fails without an error
code. -/
inductive ndt_error where
  | MemoryError
  | ValueError
  | TypeError
  | IndexError
  | InvalidArgumentError
  | NotImplementedError
  | RuntimeError
  | OSError
  | Undefined
deriving DecidableEq, Repr

deriving instance DecidableEq for Except

/-! ## Type terms -/

/-- The tags of `enum ndt`, as listed by the exhaustive switch of `ndt_del`. -/
inductive ndt where
  | Module | Function | AnyKind
  | FixedDim | VarDim | VarDimElem | SymbolicDim | EllipsisDim | Array
  | Tuple | Record | Union | Ref | Constr | Nominal
  | ScalarKind | Categorical
  | FixedStringKind | FixedString | FixedBytesKind | FixedBytes
  | String | Bytes | Char
  | Bool
  | SignedKind | Int8 | Int16 | Int32 | Int64
  | UnsignedKind | Uint8 | Uint16 | Uint32 | Uint64
  | FloatKind | BFloat16 | Float16 | Float32 | Float64
  | ComplexKind | BComplex32 | Complex32 | Complex64 | Complex128
  | Typevar
deriving DecidableEq, Repr

inductive ndt_access where
  | Abstract
  | Concrete
deriving DecidableEq, Repr

inductive ndt_contig where
  | RequireNA
  | RequireC
  | RequireF
deriving DecidableEq, Repr

inductive ndt_variadic where
  | Nonvariadic
  | Variadic
deriving DecidableEq, Repr

inductive ndt_encoding where
  | Ascii | Utf8 | Utf16 | Utf32 | Ucs2
deriving DecidableEq, Repr

/-- The flag word of a node, one field per bit (`NDT_OPTION`,
`NDT_SUBTREE_OPTION`, `NDT_LITTLE_ENDIAN`, `NDT_BIG_ENDIAN`, `NDT_ELLIPSIS`,
`NDT_POINTER`, `NDT_REF`, `NDT_CHAR`). -/
structure ndt_flags where
  OPTION : Bool := false
  SUBTREE_OPTION : Bool := false
  LITTLE_ENDIAN : Bool := false
  BIG_ENDIAN : Bool := false
  ELLIPSIS : Bool := false
  POINTER : Bool := false
  REF : Bool := false
  CHAR : Bool := false
deriving DecidableEq, Repr

/-- Bitwise or of two flag words. -/
def ndt_flags.or (a b : ndt_flags) : ndt_flags :=
  { OPTION := a.OPTION || b.OPTION
    SUBTREE_OPTION := a.SUBTREE_OPTION || b.SUBTREE_OPTION
    LITTLE_ENDIAN := a.LITTLE_ENDIAN || b.LITTLE_ENDIAN
    BIG_ENDIAN := a.BIG_ENDIAN || b.BIG_ENDIAN
    ELLIPSIS := a.ELLIPSIS || b.ELLIPSIS
    POINTER := a.POINTER || b.POINTER
    REF := a.REF || b.REF
    CHAR := a.CHAR || b.CHAR }

/-- The flag word of a `bool opt` argument: `NDT_OPTION` is bit 0, so that
`true` is `NDT_OPTION`. -/
def flags_of_opt (opt : Bool) : ndt_flags :=
  { OPTION := opt }

structure ndt_slice_t where
  start : Int
  stop : Int
  step : Int
deriving DecidableEq, Repr

/-- A value of a categorical type (`ndt_value_t`); a float is kept as its bit
pattern. -/
inductive ndt_value_t where
  | ValNA
  | ValBool (b : Bool)
  | ValInt64 (i : Int)
  | ValFloat64 (bits : Nat)
  | ValString (s : String)
deriving DecidableEq, Repr

/-- The fields shared by all nodes (`copy_common` copies exactly these). -/
structure ndt_hdr where
  access : ndt_access
  flags : ndt_flags
  ndim : Int
  datasize : Int
  align : Nat
deriving DecidableEq, Repr

/-- A type term. Each constructor is a tag with its payload; `Scalar` holds
the tags without payload (kinds and primitive scalars). `offsets` is the shared
offset table (`none` for `NULL`); the length of a list is the stored count
(`nargs`, `shape`, `ntags`, `nslices`, `ntypes`, `offsets->n`). The field
`elemwise` is `none` when the code never writes it. -/
inductive ndt_t where
  | Module (h : ndt_hdr) (name : String) (type : ndt_t)
  | Function (h : ndt_hdr) (nin nout : Int) (elemwise : Option Bool) (types : List ndt_t)
  | FixedDim (h : ndt_hdr) (tag : ndt_contig) (shape : Int) (type : ndt_t)
      (itemsize step : Int)
  | VarDim (h : ndt_hdr) (type : ndt_t) (itemsize : Int) (offsets : Option (List Int))
      (slices : List ndt_slice_t)
  | VarDimElem (h : ndt_hdr) (type : ndt_t) (index : Int) (itemsize : Int)
      (offsets : Option (List Int)) (slices : List ndt_slice_t)
  | SymbolicDim (h : ndt_hdr) (tag : ndt_contig) (name : String) (type : ndt_t)
  | EllipsisDim (h : ndt_hdr) (tag : ndt_contig) (name : Option String) (type : ndt_t)
  | Array (h : ndt_hdr) (itemsize : Int) (type : ndt_t)
  | Tuple (h : ndt_hdr) (flag : ndt_variadic) (types : List ndt_t)
      (offset : List Int) (align : List Nat) (pad : List Nat)
  | Record (h : ndt_hdr) (flag : ndt_variadic) (names : List String) (types : List ndt_t)
      (offset : List Int) (align : List Nat) (pad : List Nat)
  | Union (h : ndt_hdr) (ntags : Int) (tags : List String) (types : List ndt_t)
  | Ref (h : ndt_hdr) (type : ndt_t)
  | Constr (h : ndt_hdr) (name : String) (type : ndt_t)
  | Nominal (h : ndt_hdr) (name : String) (type : ndt_t)
  | Categorical (h : ndt_hdr) (types : List ndt_value_t)
  | FixedString (h : ndt_hdr) (size : Int) (encoding : ndt_encoding)
  | FixedBytes (h : ndt_hdr) (size : Int) (align : Nat)
  | Bytes (h : ndt_hdr) (target_align : Nat)
  | Char (h : ndt_hdr) (encoding : ndt_encoding)
  | Typevar (h : ndt_hdr) (name : String)
  | Scalar (tag : ndt) (h : ndt_hdr)
deriving Repr

/-- The header of a node. -/
def ndt_t.hdr : ndt_t → ndt_hdr
  | .Module h _ _ => h
  | .Function h _ _ _ _ => h
  | .FixedDim h _ _ _ _ _ => h
  | .VarDim h _ _ _ _ => h
  | .VarDimElem h _ _ _ _ _ => h
  | .SymbolicDim h _ _ _ => h
  | .EllipsisDim h _ _ _ => h
  | .Array h _ _ => h
  | .Tuple h _ _ _ _ _ => h
  | .Record h _ _ _ _ _ _ => h
  | .Union h _ _ _ => h
  | .Ref h _ => h
  | .Constr h _ _ => h
  | .Nominal h _ _ => h
  | .Categorical h _ => h
  | .FixedString h _ _ => h
  | .FixedBytes h _ _ => h
  | .Bytes h _ => h
  | .Char h _ => h
  | .Typevar h _ => h
  | .Scalar _ h => h

/-- The tag field `t->tag`. -/
def ndt_t.tag : ndt_t → ndt
  | .Module _ _ _ => .Module
  | .Function _ _ _ _ _ => .Function
  | .FixedDim _ _ _ _ _ _ => .FixedDim
  | .VarDim _ _ _ _ _ => .VarDim
  | .VarDimElem _ _ _ _ _ _ => .VarDimElem
  | .SymbolicDim _ _ _ _ => .SymbolicDim
  | .EllipsisDim _ _ _ _ => .EllipsisDim
  | .Array _ _ _ => .Array
  | .Tuple _ _ _ _ _ _ => .Tuple
  | .Record _ _ _ _ _ _ _ => .Record
  | .Union _ _ _ _ => .Union
  | .Ref _ _ => .Ref
  | .Constr _ _ _ => .Constr
  | .Nominal _ _ _ => .Nominal
  | .Categorical _ _ => .Categorical
  | .FixedString _ _ _ => .FixedString
  | .FixedBytes _ _ _ => .FixedBytes
  | .Bytes _ _ => .Bytes
  | .Char _ _ => .Char
  | .Typevar _ _ => .Typevar
  | .Scalar tag _ => tag

/-- Replace the header of a node. -/
def ndt_t.with_hdr (h : ndt_hdr) : ndt_t → ndt_t
  | .Module _ a b => .Module h a b
  | .Function _ a b c d => .Function h a b c d
  | .FixedDim _ a b c d e => .FixedDim h a b c d e
  | .VarDim _ a b c d => .VarDim h a b c d
  | .VarDimElem _ a b c d e => .VarDimElem h a b c d e
  | .SymbolicDim _ a b c => .SymbolicDim h a b c
  | .EllipsisDim _ a b c => .EllipsisDim h a b c
  | .Array _ a b => .Array h a b
  | .Tuple _ a b c d e => .Tuple h a b c d e
  | .Record _ a b c d e f => .Record h a b c d e f
  | .Union _ n a b => .Union h n a b
  | .Ref _ a => .Ref h a
  | .Constr _ a b => .Constr h a b
  | .Nominal _ a b => .Nominal h a b
  | .Categorical _ a => .Categorical h a
  | .FixedString _ a b => .FixedString h a b
  | .FixedBytes _ a b => .FixedBytes h a b
  | .Bytes _ a => .Bytes h a
  | .Char _ a => .Char h a
  | .Typevar _ a => .Typevar h a
  | .Scalar tag _ => .Scalar tag h

def ndt_t.access (t : ndt_t) : ndt_access := t.hdr.access

def ndt_t.flags (t : ndt_t) : ndt_flags := t.hdr.flags

def ndt_t.ndim (t : ndt_t) : Int := t.hdr.ndim

def ndt_t.datasize (t : ndt_t) : Int := t.hdr.datasize

def ndt_t.align (t : ndt_t) : Nat := t.hdr.align

/-- The header written by `ndt_new` and `ndt_new_extra`: abstract, the given
flags, `ndim = 0`, `datasize = 0`, `align = UINT16_MAX`. -/
def ndt_new_hdr (flags : ndt_flags) : ndt_hdr :=
  { access := .Abstract, flags := flags, ndim := 0, datasize := 0, align := UINT16_MAX }

/-- The flag word with only `NDT_POINTER` set. -/
def NDT_POINTER : ndt_flags :=
  { POINTER := true }

/-- The flag word with only `NDT_REF` set. -/
def NDT_REF : ndt_flags :=
  { REF := true }

/-- The flag word with only `NDT_CHAR` set. -/
def NDT_CHAR : ndt_flags :=
  { CHAR := true }

/-- The flag word with only `NDT_ELLIPSIS` set. -/
def NDT_ELLIPSIS : ndt_flags :=
  { ELLIPSIS := true }

/-! ## Flags and predicates -/

/-- Determine general subtree flags (`ndt_subtree_flags`). -/
def ndt_subtree_flags (type : ndt_t) : ndt_flags :=
  { SUBTREE_OPTION := type.flags.OPTION || type.flags.SUBTREE_OPTION
    POINTER := type.flags.POINTER
    REF := type.flags.REF
    CHAR := type.flags.CHAR }

/-- Determine general subtree and ellipsis flags (`ndt_dim_flags`). -/
def ndt_dim_flags (type : ndt_t) : ndt_flags :=
  (ndt_subtree_flags type).or { ELLIPSIS := type.flags.ELLIPSIS }

def ndt_is_abstract (t : ndt_t) : Bool :=
  t.access == .Abstract

def ndt_is_concrete (t : ndt_t) : Bool :=
  t.access == .Concrete

def ndt_is_optional (t : ndt_t) : Bool :=
  t.flags.OPTION

def ndt_is_ref_free (t : ndt_t) : Bool :=
  !t.flags.REF

/-- Itemsize of a concrete type (`ndt_itemsize`). -/
def ndt_itemsize : ndt_t → Int
  | .FixedDim _ _ _ _ itemsize _ => itemsize
  | .VarDim _ _ itemsize _ _ => itemsize
  | .VarDimElem _ _ _ itemsize _ _ => itemsize
  | t => t.datasize

/-! ## Alignment and packing -/

/-- Check that `align` is a power of two (`align_ispower2`); failure is a
`ValueError`. -/
def align_ispower2 (align : Nat) : Bool :=
  ispower2 align

/-- The static `min_field_align`; `UINT16_MAX` with an error in C is an error
here. -/
def min_field_align (t : ndt_t) (align pack : Option Nat) : Except ndt_error Nat :=
  let checked (min_align : Nat) : Except ndt_error Nat :=
    if !align_ispower2 min_align then .error .ValueError else .ok min_align
  match align, pack with
  | some _, some _ => .error .InvalidArgumentError
  | some a, none =>
    if t.access = .Abstract then .error .InvalidArgumentError
    else checked (max_u16 a t.align)
  | none, some p =>
    if t.access = .Abstract then .error .InvalidArgumentError
    else checked p
  | none, none =>
    checked (if t.access = .Concrete then t.align else 1)

/-- Extract and validate the alignment value (`get_align`). In C the value
`UINT16_MAX` signals the error to the caller, so a default of `UINT16_MAX`
would read as an error too; every caller passes the default 1. -/
def get_align (align : Option Nat) (default_align : Nat) : Except ndt_error Nat :=
  match align with
  | some a => if !align_ispower2 a then .error .ValueError else .ok a
  | none => .ok default_align

/-! ## Fields -/

/-- A field of a tuple, record or union (`ndt_field_t`). The members of
`Concrete` are written only for a concrete field; `name` is `none` for a tuple
field. -/
structure ndt_field_t where
  name : Option String
  type : ndt_t
  access : ndt_access
  align : Nat
  explicit_align : Bool
  pad : Nat
  explicit_pad : Bool
deriving Repr

/-- The constructor `ndt_field`. For an abstract field the members of
`Concrete` stay unwritten; they are given the values of an unset attribute. -/
def ndt_field (name : Option String) (type : ndt_t) (align pack pad : Option Nat) :
    Except ndt_error ndt_field_t :=
  match min_field_align type align pack with
  | .error e => .error e
  | .ok min_align =>
    if type.access = .Concrete then
      .ok { name := name, type := type, access := type.access
            align := min_align
            explicit_align := align.isSome || pack.isSome
            pad := match pad with
              | some p => p
              | none => UINT16_MAX
            explicit_pad := pad.isSome }
    else
      .ok { name := name, type := type, access := type.access
            align := 1, explicit_align := false, pad := UINT16_MAX, explicit_pad := false }

/-! ## Type invariants -/

/-- Invariants for all types except for dimensions. -/
def check_type_invariants (type : ndt_t) : Except ndt_error Unit :=
  if type.tag = .Module then .error .TypeError
  else if type.ndim ≥ NDT_MAX_DIM then .error .TypeError
  else .ok ()

/-- Invariants for fixed dimensions. -/
def check_fixed_invariants (type : ndt_t) : Except ndt_error Unit :=
  if type.tag = .Module then .error .TypeError
  else if type.tag = .VarDim ∨ type.tag = .VarDimElem ∨ type.tag = .Array then
    .error .TypeError
  else if type.ndim ≥ NDT_MAX_DIM then .error .TypeError
  else .ok ()

/-- Invariants for abstract var dimensions. -/
def check_abstract_var_invariants (type : ndt_t) : Except ndt_error Unit :=
  if type.tag = .Module then .error .TypeError
  else if type.tag = .FixedDim ∨ type.tag = .SymbolicDim ∨ type.tag = .Array then
    .error .TypeError
  else if (type.tag = .VarDim ∧ ndt_is_concrete type) ∨ type.tag = .VarDimElem then
    .error .TypeError
  else if type.ndim ≥ NDT_MAX_DIM then .error .TypeError
  else .ok ()

/-- Invariants for concrete var dimensions. -/
def check_var_invariants (type : ndt_t) : Except ndt_error Unit :=
  if type.tag = .Module then .error .TypeError
  else if type.tag = .FixedDim ∨ type.tag = .SymbolicDim ∨ type.tag = .Array then
    .error .TypeError
  else if (type.tag = .VarDim ∨ type.tag = .VarDimElem) ∧ ndt_is_abstract type then
    .error .TypeError
  else if type.ndim ≥ NDT_MAX_DIM then .error .TypeError
  else .ok ()

/-- Invariants for array dimensions. -/
def check_array_invariants (type : ndt_t) : Except ndt_error Unit :=
  if type.tag = .Module then .error .TypeError
  else if type.tag = .FixedDim ∨ type.tag = .SymbolicDim ∨
      type.tag = .VarDim ∨ type.tag = .VarDimElem then
    .error .TypeError
  else if !ndt_is_ref_free type then .error .TypeError
  else .ok ()

/-- Invariants for ellipsis dimensions. -/
def check_ellipsis_invariants (type : ndt_t) : Except ndt_error Unit :=
  if type.tag = .Module then .error .TypeError
  else if type.ndim ≥ NDT_MAX_DIM then .error .TypeError
  else .ok ()

/-! ## Container types -/

/-- The loop variables of `init_concrete_fields` together with the arrays
`offsets`, `align` and `pad` as filled so far. -/
structure fields_layout where
  offsets : List Int
  align : List Nat
  pad : List Nat
  offset : Int
  maxalign : Nat
  overflow : Bool
deriving DecidableEq, Repr

/-- The alignment of a field in the first loop of `init_concrete_fields`: the
`pack` of the tuple, which excludes an explicit alignment of the field, or the
alignment of the field. -/
def field_align (pack : Option Nat) (f : ndt_field_t) : Except ndt_error Nat :=
  match pack with
  | some p => if f.explicit_align then .error .InvalidArgumentError else .ok p
  | none => .ok f.align

/-- One round of the first loop of `init_concrete_fields` for field `i` with
alignment `a`: `maxalign`, for `i > 0` the rounded offset and the pad of the
field before, then the offset of the field and the running end. -/
def init_concrete_fields_step (i : Nat) (s : fields_layout) (a : Nat) (f : ndt_field_t) :
    fields_layout :=
  let r := if i > 0 then round_up s.offset a s.overflow else (s.offset, s.overflow)
  let pad := if i > 0 then s.pad ++ [wrap_u16 (r.1 - s.offset)] else s.pad
  let e := ADDi64 r.1 f.type.datasize r.2
  { offsets := s.offsets ++ [r.1], align := s.align ++ [a], pad := pad
    offset := e.1, maxalign := max_u16 a s.maxalign, overflow := e.2 }

/-- The first loop of `init_concrete_fields`, from field `i` (the head of the
list) on. -/
def init_concrete_fields_loop (pack : Option Nat) :
    List ndt_field_t → Nat → fields_layout → Except ndt_error fields_layout
  | [], _, s => .ok s
  | f :: fs, i, s =>
    match field_align pack f with
    | .error e => .error e
    | .ok a => init_concrete_fields_loop pack fs (i + 1) (init_concrete_fields_step i s a f)

/-- The last loop of `init_concrete_fields`: an explicit pad has to be the
computed one. -/
def check_explicit_pads : List ndt_field_t → List Nat → Except ndt_error Unit
  | f :: fs, p :: ps =>
    if f.explicit_pad ∧ f.pad ≠ p then .error .ValueError
    else check_explicit_pads fs ps
  | _, _ => .ok ()

/-- The layout that `init_concrete_fields` stores: the three arrays and the
`align` and `datasize` of the node. -/
structure concrete_fields where
  offsets : List Int
  align : List Nat
  pad : List Nat
  maxalign : Nat
  size : Int
deriving DecidableEq, Repr

/-- Pad of the last field: `(size - offsets[shape-1]) - fields[shape-1].type->datasize`
as `uint16_t`; nothing is stored for `shape == 0`. -/
def last_pad (fields : List ndt_field_t) (offsets : List Int) (size : Int) : List Nat :=
  match fields.getLast?, offsets.getLast? with
  | some f, some o => [wrap_u16 ((size - o) - f.type.datasize)]
  | _, _ => []

/-- The loop variables of `init_concrete_fields` in front of the first loop:
`offset = 0`, no overflow, `maxalign` from the `align` attribute. -/
def init_layout (maxalign : Nat) : fields_layout :=
  { offsets := [], align := [], pad := [], offset := 0, maxalign := maxalign
    overflow := false }

/-- Initialize the access information of a concrete tuple or record
(`init_concrete_fields`). -/
def init_concrete_fields (fields : List ndt_field_t) (align_attr pack : Option Nat) :
    Except ndt_error concrete_fields :=
  match get_align align_attr 1 with
  | .error e => .error e
  | .ok maxalign =>
    match get_align pack 1 with
    | .error e => .error e
    | .ok _ =>
      match init_concrete_fields_loop pack fields 0 (init_layout maxalign) with
      | .error e => .error e
      | .ok s =>
        let size := round_up s.offset s.maxalign s.overflow
        let pad := s.pad ++ last_pad fields s.offsets size.1
        match check_explicit_pads fields pad with
        | .error e => .error e
        | .ok _ =>
          if size.2 then .error .ValueError
          else .ok { offsets := s.offsets, align := s.align, pad := pad
                     maxalign := s.maxalign, size := size.1 }

/-- Initialize the access information of a concrete union
(`init_concrete_tags`): the running maximum of the member sizes, or the error
of the first member that contains a reference. -/
def init_concrete_tags_loop : List ndt_field_t → Int → Except ndt_error Int
  | [], maxsize => .ok maxsize
  | f :: fs, maxsize =>
    if f.type.flags.REF then .error .ValueError
    else init_concrete_tags_loop fs (max_i64 f.type.datasize maxsize)

/-- The check of `check_type_invariants` on every field type, in order. -/
def check_fields_invariants : List ndt_field_t → Except ndt_error Unit
  | [] => .ok ()
  | f :: fs =>
    match check_type_invariants f.type with
    | .error e => .error e
    | .ok _ => check_fields_invariants fs

/-- The flags of the fields or-ed into the flags of the node:
`t->flags |= ndt_subtree_flags(fields[i].type)` for every field. -/
def fields_flags (flags : ndt_flags) (fields : List ndt_field_t) : ndt_flags :=
  fields.foldl (fun fl f => fl.or (ndt_subtree_flags f.type)) flags

/-- The access of a tuple, record or union before the layout: abstract as soon
as one field is abstract. -/
def fields_access (start : ndt_access) (fields : List ndt_field_t) : ndt_access :=
  if fields.any (fun f => f.access == .Abstract) then .Abstract else start

/-- The check of the abstract branch: no concrete field may carry an explicit
`align` or `pack`. -/
def has_explicit_align (fields : List ndt_field_t) : Bool :=
  fields.any (fun f => f.access == .Concrete && f.explicit_align)

/-- Names of record fields or union members: `ndt_strdup(fields[i].name)`.
A field without a name (a tuple field) makes `ndt_strdup` read through `NULL`. -/
def fields_names : List ndt_field_t → Except ndt_error (List String)
  | [] => .ok []
  | f :: fs =>
    match f.name with
    | none => .error .Undefined
    | some s =>
      match fields_names fs with
      | .error e => .error e
      | .ok ss => .ok (s :: ss)

/-- The constructor `ndt_tuple`. The byte-size guard of `ndt_tuple_new` in front
of the allocation is not modelled, see the conventions. -/
def ndt_tuple (flag : ndt_variadic) (fields : List ndt_field_t)
    (align pack : Option Nat) (opt : Bool) : Except ndt_error ndt_t :=
  match check_fields_invariants fields with
  | .error e => .error e
  | .ok _ =>
    let h := ndt_new_hdr (flags_of_opt opt)
    let access := fields_access (if flag = .Variadic then .Abstract else .Concrete) fields
    if access = .Abstract then
      if has_explicit_align fields then .error .InvalidArgumentError
      else
        .ok (.Tuple { h with access := .Abstract, flags := fields_flags h.flags fields }
          flag (fields.map (fun f => f.type))
          (fields.map (fun _ => 0)) (fields.map (fun _ => 1)) (fields.map (fun _ => 0)))
    else
      match init_concrete_fields fields align pack with
      | .error e => .error e
      | .ok c =>
        .ok (.Tuple { h with access := .Concrete, flags := fields_flags h.flags fields
                             align := c.maxalign, datasize := c.size }
          flag (fields.map (fun f => f.type)) c.offsets c.align c.pad)

/-- The constructor `ndt_record`. -/
def ndt_record (flag : ndt_variadic) (fields : List ndt_field_t)
    (align pack : Option Nat) (opt : Bool) : Except ndt_error ndt_t :=
  match check_fields_invariants fields with
  | .error e => .error e
  | .ok _ =>
    let h := ndt_new_hdr (flags_of_opt opt)
    let access := fields_access (if flag = .Variadic then .Abstract else .Concrete) fields
    if access = .Abstract then
      if has_explicit_align fields then .error .InvalidArgumentError
      else
        match fields_names fields with
        | .error e => .error e
        | .ok names =>
          .ok (.Record { h with access := .Abstract, flags := fields_flags h.flags fields }
            flag names (fields.map (fun f => f.type))
            (fields.map (fun _ => 0)) (fields.map (fun _ => 1)) (fields.map (fun _ => 0)))
    else
      match init_concrete_fields fields align pack with
      | .error e => .error e
      | .ok c =>
        match fields_names fields with
        | .error e => .error e
        | .ok names =>
          .ok (.Record { h with access := .Concrete, flags := fields_flags h.flags fields
                                align := c.maxalign, datasize := c.size }
            flag names (fields.map (fun f => f.type)) c.offsets c.align c.pad)

/-- The size of a pointer (`sizeof(char *)`), on the 64-bit targets of the
library. -/
def sizeof_ptr : Int := 8

/-- The body of `ndt_union` behind the tests of its arguments. `fields` holds
the entries `fields[0]`, ..., `fields[ntags-1]` that the loops read (none for a
negative `ntags`). `ndt_union_new` computes the size of the two arrays with
`MULi64`, fails with `ValueError` on overflow and stores `ntags` in the node.
The size `1+maxsize` is a plain `int64_t` addition. -/
def union_node (fields : List ndt_field_t) (ntags : Int) (opt : Bool) :
    Except ndt_error ndt_t :=
  match check_fields_invariants fields with
  | .error e => .error e
  | .ok _ =>
    let types_offset := MULi64 ntags sizeof_ptr false
    let extra := MULi64 2 types_offset.1 types_offset.2
    if extra.2 then .error .ValueError
    else
      let h := ndt_new_hdr (flags_of_opt opt)
      let access := fields_access .Concrete fields
      if access = .Abstract then
        if has_explicit_align fields then .error .InvalidArgumentError
        else
          match fields_names fields with
          | .error e => .error e
          | .ok names =>
            .ok (.Union { h with access := .Abstract, flags := fields_flags h.flags fields }
              ntags names (fields.map (fun f => f.type)))
      else
        match init_concrete_tags_loop fields 0 with
        | .error e => .error e
        | .ok maxsize =>
          match fields_names fields with
          | .error e => .error e
          | .ok names =>
            .ok (.Union { h with access := .Concrete, flags := fields_flags h.flags fields
                                 align := 1, datasize := wrap_i64 (1 + maxsize) }
              ntags names (fields.map (fun f => f.type)))

/-- The constructor `ndt_union(fields, ntags, opt)`. `fields` is the array
behind the pointer (`none` for `NULL`) and `ntags` the count that the caller
passes. The two tests reject `ntags == 0`, `fields == NULL` and `ntags > 255`;
every loop runs `for (i = 0; i < ntags; i++)` and reads `fields[i]`, so that a
count beyond the array leaves the array, and no loop runs for a negative
count. -/
def ndt_union (fields : Option (List ndt_field_t)) (ntags : Int) (opt : Bool) :
    Except ndt_error ndt_t :=
  match fields with
  | none => .error .ValueError
  | some arr =>
    if ntags = 0 then .error .ValueError
    else if ntags > 255 then .error .ValueError
    else if (arr.length : Int) < ntags then .error .Undefined
    else union_node (arr.take ntags.toNat) ntags opt

/-- The value of `ndt_union` for an array of exactly `ntags` fields
(assumption 4 of `init_concrete_tags`, `len(fields) == ntags`), see
`ndt_union_eq_list`. -/
def ndt_union_list (fields : List ndt_field_t) (opt : Bool) : Except ndt_error ndt_t :=
  if fields.length = 0 then .error .ValueError
  else if fields.length > 255 then .error .ValueError
  else
    match check_fields_invariants fields with
    | .error e => .error e
    | .ok _ =>
      let h := ndt_new_hdr (flags_of_opt opt)
      let access := fields_access .Concrete fields
      if access = .Abstract then
        if has_explicit_align fields then .error .InvalidArgumentError
        else
          match fields_names fields with
          | .error e => .error e
          | .ok names =>
            .ok (.Union { h with access := .Abstract, flags := fields_flags h.flags fields }
              (fields.length : Int) names (fields.map (fun f => f.type)))
      else
        match init_concrete_tags_loop fields 0 with
        | .error e => .error e
        | .ok maxsize =>
          match fields_names fields with
          | .error e => .error e
          | .ok names =>
            .ok (.Union { h with access := .Concrete, flags := fields_flags h.flags fields
                                 align := 1, datasize := wrap_i64 (1 + maxsize) }
              (fields.length : Int) names (fields.map (fun f => f.type)))

/-! ## Modules and function signatures -/

/-- The constructor `ndt_module`. -/
def ndt_module (name : String) (type : ndt_t) : Except ndt_error ndt_t :=
  let h := ndt_new_hdr {}
  .ok (.Module { h with flags := h.flags.or (ndt_subtree_flags type) } name type)

/-- The name of an ellipsis dimension, `t->EllipsisDim.name` (`none` for any
other node, where the member does not exist). -/
def ellipsis_name : ndt_t → Option String
  | .EllipsisDim _ _ name _ => name
  | _ => none

/-- The static `strcmp_null`. -/
def strcmp_null (s t : Option String) : Bool :=
  match s, t with
  | none, none => true
  | none, some _ => false
  | some _, none => false
  | some a, some b => a == b

/-- The static `check_function_invariants`; `nargs` is the length of `types`. -/
def check_function_invariants (types : List ndt_t) (nin : Int) : Except ndt_error Unit :=
  match types with
  | [] => .ok ()
  | t0 :: rest =>
    if nin = 0 ∧ types.any ndt_is_abstract then .error .ValueError
    else
      let count := (types.filter (fun t => t.tag == .EllipsisDim)).length
      if count = 0 then .ok ()
      else if count ≠ types.length then .error .ValueError
      else if rest.all (fun t => strcmp_null (ellipsis_name t0) (ellipsis_name t)) then .ok ()
      else .error .ValueError

/-- The static `is_elemwise`. -/
def is_elemwise (types : List ndt_t) : Bool :=
  types.all (fun t => (t.ndim == 1 && t.tag == .EllipsisDim) || t.ndim == 0)

/-- The constructor `ndt_function`, called with `nargs == nin + nout`. -/
def ndt_function (types : List ndt_t) (nin nout : Int) : Except ndt_error ndt_t :=
  match check_function_invariants types nin with
  | .error e => .error e
  | .ok _ =>
    let h := ndt_new_hdr {}
    .ok (.Function { h with flags := types.foldl (fun fl t => fl.or (ndt_dim_flags t)) h.flags }
      nin nout (some (is_elemwise types)) types)

/-! ## Dimension types -/

/-- The members `FixedDim.shape`, `Concrete.FixedDim.itemsize` and
`Concrete.FixedDim.step` of a node with tag `FixedDim`. -/
def fixed_shape : ndt_t → Int
  | .FixedDim _ _ shape _ _ _ => shape
  | _ => 0

/-- Return the step in the fixed dimension that contains `type`
(`fixed_step`). -/
def fixed_step (type : ndt_t) (step : Int) (overflow : Bool) : Int × Bool :=
  if step ≠ INT64_MAX then (step, overflow)
  else
    match type with
    | .FixedDim h _ shape _ itemsize inner_step =>
      if itemsize = 0 then MULi64 shape inner_step overflow
      else DIVi64 h.datasize itemsize overflow
    | _ => (1, overflow)

/-- The static `fixed_datasize`. -/
def fixed_datasize (type : ndt_t) (shape step itemsize : Int) (overflow : Bool) :
    Int × Bool :=
  if shape = 0 ∨ type.datasize = 0 then (0, overflow)
  else
    let abs_step := ABSi64 step overflow
    let index_range := MULi64 (shape - 1) abs_step.1 abs_step.2
    let datasize := MULi64 index_range.1 itemsize index_range.2
    ADDi64 datasize.1 type.datasize datasize.2

/-- The constructor `ndt_fixed_dim`. -/
def ndt_fixed_dim (type : ndt_t) (shape step : Int) : Except ndt_error ndt_t :=
  match check_fixed_invariants type with
  | .error e => .error e
  | .ok _ =>
    if shape < 0 then .error .ValueError
    else
      let h := ndt_new_hdr {}
      let h := { h with ndim := type.ndim + 1, flags := h.flags.or (ndt_dim_flags type)
                        access := type.access }
      if type.access = .Concrete then
        let itemsize := ndt_itemsize type
        let st := fixed_step type step false
        let ds := fixed_datasize type shape st.1 itemsize st.2
        if ds.2 then .error .ValueError
        else
          .ok (.FixedDim { h with datasize := ds.1, align := type.align }
            .RequireNA shape type itemsize st.1)
      else
        .ok (.FixedDim h .RequireNA shape type 0 INT64_MAX)

/-- The constructor `ndt_fixed_dim_tag`: the node of `ndt_fixed_dim` with the
contiguity tag, abstract unless the tag is `RequireNA`. -/
def ndt_fixed_dim_tag (type : ndt_t) (tag : ndt_contig) (shape step : Int) :
    Except ndt_error ndt_t :=
  match ndt_fixed_dim type shape step with
  | .ok (.FixedDim h _ shape type itemsize step) =>
    .ok (.FixedDim (if tag ≠ .RequireNA then { h with access := .Abstract } else h)
      tag shape type itemsize step)
  | r => r

/-- The constructor `ndt_abstract_var_dim`. -/
def ndt_abstract_var_dim (type : ndt_t) (opt : Bool) : Except ndt_error ndt_t :=
  match check_abstract_var_invariants type with
  | .error e => .error e
  | .ok _ =>
    let h := ndt_new_hdr (flags_of_opt opt)
    .ok (.VarDim { h with ndim := type.ndim + 1, flags := h.flags.or (ndt_dim_flags type)
                          access := .Abstract }
      type 0 none [])

/-- The members `Concrete.VarDim.offsets`, `Concrete.VarDim.itemsize` and
`Concrete.VarDim.slices` of a node with tag `VarDim` or `VarDimElem`. -/
def var_offsets : ndt_t → Option (List Int)
  | .VarDim _ _ _ offsets _ => offsets
  | .VarDimElem _ _ _ _ offsets _ => offsets
  | _ => none

def var_itemsize : ndt_t → Int
  | .VarDim _ _ itemsize _ _ => itemsize
  | .VarDimElem _ _ _ itemsize _ _ => itemsize
  | _ => 0

def var_slices : ndt_t → List ndt_slice_t
  | .VarDim _ _ _ _ slices => slices
  | .VarDimElem _ _ _ _ _ slices => slices
  | _ => []

/-- The member `VarDim.type` of a var dimension, which `VarDimElem` shares. -/
def var_type : ndt_t → Option ndt_t
  | .VarDim _ type _ _ _ => some type
  | .VarDimElem _ type _ _ _ _ => some type
  | _ => none

/-- Last entry of an offset table, `offsets->v[offsets->n-1]`. -/
def last_offset (offsets : List Int) : Int :=
  offsets.getLast?.getD 0

/-- The constructor `ndt_var_dim`; `offsets` is not `NULL` and `slices` is the
slice stack of length `nslices`. A concrete inner var dimension without offset
table cannot be read (`Undefined`). -/
def ndt_var_dim (type : ndt_t) (offsets : List Int) (slices : List ndt_slice_t)
    (opt : Bool) : Except ndt_error ndt_t :=
  match check_var_invariants type with
  | .error e => .error e
  | .ok _ =>
    if (offsets.length : Int) < 2 then .error .InvalidArgumentError
    else if !ndt_is_concrete type then .error .InvalidArgumentError
    else
      let sizes : Except ndt_error ((Int × Int) × Bool) :=
        if type.tag = .VarDim ∨ type.tag = .VarDimElem then
          match var_offsets type with
          | none => .error .Undefined
          | some inner =>
            if last_offset offsets ≠ (inner.length : Int) - 1 then .error .ValueError
            else .ok ((type.datasize, var_itemsize type), false)
        else
          let d := MULi64 (last_offset offsets) type.datasize false
          .ok ((d.1, type.datasize), d.2)
      match sizes with
      | .error e => .error e
      | .ok ((datasize, itemsize), overflow) =>
        if overflow then .error .ValueError
        else
          let h := ndt_new_hdr (flags_of_opt opt)
          .ok (.VarDim { h with ndim := type.ndim + 1
                                flags := h.flags.or (ndt_dim_flags type)
                                access := .Concrete, datasize := datasize
                                align := type.align }
            type itemsize (some offsets) slices)

/-- The constructor `ndt_symbolic_dim`. -/
def ndt_symbolic_dim (name : String) (type : ndt_t) : Except ndt_error ndt_t :=
  match check_fixed_invariants type with
  | .error e => .error e
  | .ok _ =>
    let h := ndt_new_hdr {}
    .ok (.SymbolicDim { h with ndim := type.ndim + 1
                               flags := h.flags.or (ndt_dim_flags type) }
      .RequireNA name type)

def ndt_symbolic_dim_tag (name : String) (type : ndt_t) (tag : ndt_contig) :
    Except ndt_error ndt_t :=
  match ndt_symbolic_dim name type with
  | .ok (.SymbolicDim h _ name type) => .ok (.SymbolicDim h tag name type)
  | r => r

/-- The constructor `ndt_ellipsis_dim`. -/
def ndt_ellipsis_dim (name : Option String) (type : ndt_t) : Except ndt_error ndt_t :=
  match check_ellipsis_invariants type with
  | .error e => .error e
  | .ok _ =>
    let flags := ndt_dim_flags type
    if flags.ELLIPSIS then .error .ValueError
    else
      let h := ndt_new_hdr {}
      .ok (.EllipsisDim { h with flags := h.flags.or (flags.or NDT_ELLIPSIS)
                                 ndim := type.ndim + 1 }
        .RequireNA name type)

def ndt_ellipsis_dim_tag (name : Option String) (type : ndt_t) (tag : ndt_contig) :
    Except ndt_error ndt_t :=
  match ndt_ellipsis_dim name type with
  | .ok (.EllipsisDim h _ name type) => .ok (.EllipsisDim h tag name type)
  | r => r

/-- Size and alignment of `ndt_array_t` (a shape and a data pointer),
`void *`, `ndt_categorical_t` and `ndt_bytes_t` on an LP64 platform. -/
def sizeof_ndt_array_t : Int := 16

def alignof_ndt_array_t : Nat := 8

def alignof_ptr : Nat := 8

def sizeof_ndt_categorical_t : Int := 8

def alignof_ndt_categorical_t : Nat := 8

def sizeof_ndt_bytes_t : Int := 16

def alignof_ndt_bytes_t : Nat := 8

/-- The constructor `ndt_array` (flexible array). -/
def ndt_array (type : ndt_t) (opt : Bool) : Except ndt_error ndt_t :=
  match check_array_invariants type with
  | .error e => .error e
  | .ok _ =>
    let h := ndt_new_hdr ((flags_of_opt opt).or NDT_POINTER)
    .ok (.Array { h with flags := h.flags.or (ndt_subtree_flags type)
                         ndim := type.ndim + 1, access := type.access
                         datasize := sizeof_ndt_array_t, align := alignof_ndt_array_t }
      type.datasize type)

/-- The constructor `ndt_ref`. -/
def ndt_ref (type : ndt_t) (opt : Bool) : Except ndt_error ndt_t :=
  match check_type_invariants type with
  | .error e => .error e
  | .ok _ =>
    let h := ndt_new_hdr (((flags_of_opt opt).or NDT_POINTER).or NDT_REF)
    .ok (.Ref { h with flags := h.flags.or (ndt_subtree_flags type)
                       access := type.access
                       datasize := sizeof_ptr, align := alignof_ptr }
      type)

/-- The constructor `ndt_constr`. -/
def ndt_constr (name : String) (type : ndt_t) (opt : Bool) : Except ndt_error ndt_t :=
  match check_type_invariants type with
  | .error e => .error e
  | .ok _ =>
    let h := ndt_new_hdr (flags_of_opt opt)
    let h := { h with flags := h.flags.or (ndt_subtree_flags type), access := type.access }
    .ok (.Constr (if type.access = .Concrete then
        { h with datasize := type.datasize, align := type.align } else h)
      name type)

/-- The typedef registry and the matcher that `ndt_nominal` consults
(`ndt_typedef_find`, `ndt_match`). Neither is part of the sources at hand, so
both are parameters; `ndt_match` answers match, no match, or an error. -/
structure ndt_registry where
  ndt_typedef_find : String → Except ndt_error ndt_t
  ndt_match : ndt_t → ndt_t → Except ndt_error Bool

/-- The constructor `ndt_nominal`; `type` is `none` for `NULL`. The method
table of the typedef is not modelled. -/
def ndt_nominal (reg : ndt_registry) (name : String) (type : Option ndt_t) (opt : Bool) :
    Except ndt_error ndt_t :=
  match reg.ndt_typedef_find name with
  | .error e => .error e
  | .ok d =>
    let checked : Except ndt_error ndt_t :=
      match type with
      | some ty =>
        match reg.ndt_match d ty with
        | .error e => .error e
        | .ok false => .error .ValueError
        | .ok true => .ok ty
      | none => .ok d
    match checked with
    | .error e => .error e
    | .ok ty =>
      let h := ndt_new_hdr (flags_of_opt opt)
      .ok (.Nominal { h with flags := h.flags.or (ndt_subtree_flags ty)
                             access := ty.access, datasize := ty.datasize
                             align := ty.align }
        name ty)

/-! ## Scalar types -/

/-- Modelled from the spec: the position of a value tag in `enum ndt_value`,
which `ndt_value_compare` orders values of different tags by. -/
def ndt_value_t.tag_index : ndt_value_t → Nat
  | .ValNA => 0
  | .ValBool _ => 1
  | .ValInt64 _ => 2
  | .ValFloat64 _ => 3
  | .ValString _ => 4

/-- Modelled from the spec: `ndt_value_compare` as the order `x ≤ y` (values
of different tags by tag, values of one tag by value; floats, kept as bit
patterns, by pattern). The sources call it through `cmp` only. -/
def ndt_value_le (x y : ndt_value_t) : Bool :=
  match x, y with
  | .ValBool a, .ValBool b => !a || b
  | .ValInt64 a, .ValInt64 b => decide (a ≤ b)
  | .ValFloat64 a, .ValFloat64 b => decide (a ≤ b)
  | .ValString a, .ValString b => decide (a ≤ b)
  | a, b => decide (a.tag_index ≤ b.tag_index)

/-- Modelled from the spec: `ndt_value_mem_equal`, equality of two values. -/
def ndt_value_mem_equal (x y : ndt_value_t) : Bool :=
  decide (x = y)

/-- The scan of `ndt_categorical` over the sorted copy: two neighbours that are
equal. -/
def has_adjacent_equal : List ndt_value_t → Bool
  | x :: y :: rest => ndt_value_mem_equal x y || has_adjacent_equal (y :: rest)
  | _ => false

/-- The constructor `ndt_categorical`: the values are checked for duplicates on
a sorted copy (`qsort` with `cmp`) and stored as given. -/
def ndt_categorical (types : List ndt_value_t) (opt : Bool) : Except ndt_error ndt_t :=
  let tmp := types.insertionSort (fun x y => ndt_value_le x y = true)
  if has_adjacent_equal tmp then .error .ValueError
  else
    let h := ndt_new_hdr (flags_of_opt opt)
    .ok (.Categorical { h with access := .Concrete, datasize := sizeof_ndt_categorical_t
                               align := alignof_ndt_categorical_t }
      types)

/-- Modelled from the spec: `ndt_sizeof_encoding`, the size of a code unit. -/
def ndt_sizeof_encoding : ndt_encoding → Int
  | .Ascii => 1
  | .Utf8 => 1
  | .Utf16 => 2
  | .Utf32 => 4
  | .Ucs2 => 2

/-- Modelled from the spec: `ndt_alignof_encoding`, the alignment of a code
unit. -/
def ndt_alignof_encoding : ndt_encoding → Nat
  | .Ascii => 1
  | .Utf8 => 1
  | .Utf16 => 2
  | .Utf32 => 4
  | .Ucs2 => 2

/-- The constructor `ndt_fixed_string`. -/
def ndt_fixed_string (size : Int) (encoding : ndt_encoding) (opt : Bool) :
    Except ndt_error ndt_t :=
  let d := MULi64 (ndt_sizeof_encoding encoding) size false
  if d.2 then .error .ValueError
  else
    let h := ndt_new_hdr (flags_of_opt opt)
    .ok (.FixedString { h with access := .Concrete, datasize := d.1
                               align := ndt_alignof_encoding encoding }
      size encoding)

/-- The constructor `ndt_fixed_bytes`; `size % align` is the C remainder. -/
def ndt_fixed_bytes (size : Int) (align_attr : Option Nat) (opt : Bool) :
    Except ndt_error ndt_t :=
  match get_align align_attr 1 with
  | .error e => .error e
  | .ok align =>
    if Int.tmod size (align : Int) ≠ 0 then .error .ValueError
    else
      let h := ndt_new_hdr (flags_of_opt opt)
      .ok (.FixedBytes { h with access := .Concrete, datasize := size, align := align }
        size align)

/-- The constructor `ndt_bytes`. -/
def ndt_bytes (target_align : Option Nat) (opt : Bool) : Except ndt_error ndt_t :=
  match get_align target_align 1 with
  | .error e => .error e
  | .ok align =>
    let h := ndt_new_hdr ((flags_of_opt opt).or NDT_POINTER)
    .ok (.Bytes { h with access := .Concrete, datasize := sizeof_ndt_bytes_t
                         align := alignof_ndt_bytes_t }
      align)

/-- The constructor `ndt_char`. -/
def ndt_char (encoding : ndt_encoding) (opt : Bool) : Except ndt_error ndt_t :=
  let h := ndt_new_hdr ((flags_of_opt opt).or NDT_CHAR)
  .ok (.Char { h with access := .Concrete, datasize := ndt_sizeof_encoding encoding
                      align := ndt_alignof_encoding encoding }
    encoding)

/-- The constructor `ndt_typevar`. -/
def ndt_typevar (name : String) : Except ndt_error ndt_t :=
  .ok (.Typevar (ndt_new_hdr {}) name)

/-- The constructors `ndt_any_kind` and `ndt_scalar_kind`. -/
def ndt_any_kind (opt : Bool) : Except ndt_error ndt_t :=
  .ok (.Scalar .AnyKind (ndt_new_hdr (flags_of_opt opt)))

def ndt_scalar_kind (opt : Bool) : Except ndt_error ndt_t :=
  .ok (.Scalar .ScalarKind (ndt_new_hdr (flags_of_opt opt)))

/-- Modelled from the spec: size and alignment of the primitive scalars, which
`ndt_primitive` (not part of the sources) returns as concrete static nodes:
the size of the C type, aligned to itself (complex numbers to their
component). -/
def primitive_size : ndt → Option (Int × Nat)
  | .Bool => some (1, 1)
  | .Int8 => some (1, 1)
  | .Int16 => some (2, 2)
  | .Int32 => some (4, 4)
  | .Int64 => some (8, 8)
  | .Uint8 => some (1, 1)
  | .Uint16 => some (2, 2)
  | .Uint32 => some (4, 4)
  | .Uint64 => some (8, 8)
  | .BFloat16 => some (2, 2)
  | .Float16 => some (2, 2)
  | .Float32 => some (4, 4)
  | .Float64 => some (8, 8)
  | .BComplex32 => some (4, 2)
  | .Complex32 => some (4, 2)
  | .Complex64 => some (8, 4)
  | .Complex128 => some (16, 8)
  | _ => none

/-- Modelled from the spec: `ndt_primitive`, the concrete node of a primitive
scalar with the given flags; any other tag is a `ValueError`. -/
def ndt_primitive (tag : ndt) (flags : ndt_flags) : Except ndt_error ndt_t :=
  match primitive_size tag with
  | some (size, align) =>
    .ok (.Scalar tag { access := .Concrete, flags := flags, ndim := 0
                       datasize := size, align := align })
  | none => .error .ValueError

/-! ## Shallow copy (`copy.c`) -/

/-- The static `ndt_copy_var_dim`, which reads the members of `VarDim` whatever
the tag of its argument. -/
def ndt_copy_var_dim (t : ndt_t) (opt : Bool) : Except ndt_error ndt_t :=
  match var_type t with
  | none => .error .Undefined
  | some type =>
    if ndt_is_abstract t then ndt_abstract_var_dim type opt
    else
      match var_offsets t with
      | none => .error .Undefined
      | some offsets => ndt_var_dim type offsets (var_slices t) opt

/-- The function `ndt_convert_to_var_elem`: the node of `ndt_var_dim`, retagged
`VarDimElem` with the index. -/
def ndt_convert_to_var_elem (t : ndt_t) (type : ndt_t) (index : Int) :
    Except ndt_error ndt_t :=
  if t.tag ≠ .VarDim ∧ t.tag ≠ .VarDimElem then .error .ValueError
  else if ndt_is_abstract t then .error .ValueError
  else if ndt_is_optional t then .error .ValueError
  else
    match var_offsets t with
    | none => .error .Undefined
    | some offsets =>
      match ndt_var_dim type offsets (var_slices t) false with
      | .ok (.VarDim h ty itemsize offs slices) =>
        .ok (.VarDimElem h ty index itemsize offs slices)
      | r => r

/-- The static `ndt_copy_categorical`. -/
def ndt_copy_categorical (types : List ndt_value_t) (opt : Bool) : Except ndt_error ndt_t :=
  ndt_categorical types opt

/-- The member `SymbolicDim.name` of a node. Only a node with tag
`SymbolicDim` holds it; a node with another tag holds the members of its own
tag, and what a read of `SymbolicDim.name` yields there is left to the layout
of the union in `ndt_t`, which is no part of these sources: `none` stands for
a read without a defined value. -/
def symbolic_dim_name : ndt_t → Option String
  | .SymbolicDim _ _ name _ => some name
  | _ => none

/-- The tail `copy_common_fields` of `ndt_copy`: `NULL` is passed on, otherwise
`copy_common` overwrites access, flags, ndim, datasize and align. -/
def copy_common_fields (u : Except ndt_error ndt_t) (t : ndt_t) : Except ndt_error ndt_t :=
  match u with
  | .error e => .error e
  | .ok u => .ok (u.with_hdr t.hdr)

/-- Shallow copy (`ndt_copy`).

* `VarDimElem` goes through `ndt_copy_var_dim`, which builds a node with tag
  `VarDim`; the index is then stored into it (into `NULL` if the construction
  failed), and the tag stays `VarDim`.
* `Union` goes through `ndt_copy_union`, which allocates with
  `ndt_new(t->Union.ntags, opt, ctx)`: the member count is passed as the tag and
  the arrays `tags` and `types` are never allocated; the loop then stores
  through the uninitialised `u->Union.tags`.
* `Function` goes through `ndt_copy_function`, which writes `nin`, `nout` and
  the types, and never `elemwise`.
* `EllipsisDim` duplicates `t->SymbolicDim.name` if `t->EllipsisDim.name` is not
  `NULL`: the name is read through the member of another tag, see
  `symbolic_dim_name`.
* Tuples and records copy all arrays element by element. -/
def ndt_copy (reg : ndt_registry) (t : ndt_t) : Except ndt_error ndt_t :=
  let opt := ndt_is_optional t
  match t with
  | .FixedDim _ tag shape type _ step =>
    copy_common_fields (ndt_fixed_dim_tag type tag shape step) t
  | .VarDim _ _ _ _ _ =>
    copy_common_fields (ndt_copy_var_dim t opt) t
  | .VarDimElem _ _ _ _ _ _ =>
    match ndt_copy_var_dim t opt with
    | .error _ => .error .Undefined
    | .ok u => copy_common_fields (.ok u) t
  | .SymbolicDim _ tag name type =>
    copy_common_fields (ndt_symbolic_dim_tag name type tag) t
  | .EllipsisDim _ tag name type =>
    if name.isSome then
      match symbolic_dim_name t with
      | none => .error .Undefined
      | some s => copy_common_fields (ndt_ellipsis_dim_tag (some s) type tag) t
    else copy_common_fields (ndt_ellipsis_dim_tag none type tag) t
  | .Array _ _ type =>
    copy_common_fields (ndt_array type opt) t
  | .Tuple h flag types offset align pad =>
    .ok (.Tuple h flag types offset align pad)
  | .Record h flag names types offset align pad =>
    .ok (.Record h flag names types offset align pad)
  | .Union _ _ _ _ => .error .Undefined
  | .Ref _ type =>
    copy_common_fields (ndt_ref type opt) t
  | .Constr _ name type =>
    copy_common_fields (ndt_constr name type opt) t
  | .Nominal _ name type =>
    copy_common_fields (ndt_nominal reg name (some type) opt) t
  | .Categorical _ types =>
    copy_common_fields (ndt_copy_categorical types opt) t
  | .Typevar _ name =>
    copy_common_fields (ndt_typevar name) t
  | .Function h nin nout _ types =>
    .ok (.Function h nin nout none types)
  | .Module _ name type =>
    copy_common_fields (ndt_module name type) t
  | .FixedString _ _ _ => .ok t
  | .FixedBytes _ _ _ => .ok t
  | .Bytes _ _ => .ok t
  | .Char _ _ => .ok t
  | .Scalar _ _ => .ok t

/-! ## Var-dim indexing -/

/-- Two's complement reduction to the range of `int32_t`. -/
def wrap_i32 (x : Int) : Int :=
  (x + 2147483648) % 4294967296 - 2147483648

/-- Modelled from the spec: `ndt_slice_adjust_indices` of `slice.h`, the clamp
of standard Python slicing: the adjusted `start` and `stop` and the length of
the slice of a sequence of `length` entries (`step` is not 0). The result is
`(shape, start, stop)`. -/
def ndt_slice_adjust_indices (length start stop step : Int) : Int × Int × Int :=
  let clamp (x : Int) : Int :=
    if x < 0 then
      (if x + length < 0 then (if step < 0 then -1 else 0) else x + length)
    else if x ≥ length then (if step < 0 then length - 1 else length)
    else x
  let start := clamp start
  let stop := clamp stop
  if step < 0 then
    if stop < start then (Int.tdiv (start - stop - 1) (-step) + 1, start, stop)
    else (0, start, stop)
  else
    if start < stop then (Int.tdiv (stop - start - 1) step + 1, start, stop)
    else (0, start, stop)

/-- The loop of `ndt_var_indices` over the slice stack; the state is
`(res_start, res_step, res_shape)`, the arithmetic is unchecked `int64_t`. -/
def var_indices_loop : List ndt_slice_t → Int × Int × Int → Int × Int × Int
  | [], r => r
  | sl :: rest, (res_start, res_step, res_shape) =>
    let a := ndt_slice_adjust_indices res_shape sl.start sl.stop sl.step
    var_indices_loop rest
      (wrap_i64 (res_start + wrap_i64 (a.2.1 * res_step)), wrap_i64 (res_step * sl.step), a.1)

/-- Compute the current start index, step and shape of a var dimension
(`ndt_var_indices`); the result is `(start, step, shape)`. The node has tag
`VarDim` or `VarDimElem` and is concrete; anything else has no offset table to
read. -/
def ndt_var_indices (t : ndt_t) (index : Int) : Except ndt_error (Int × Int × Int) :=
  match var_offsets t with
  | none => .error .Undefined
  | some offsets =>
    if index < 0 ∨ wrap_i64 (index + 1) ≥ (offsets.length : Int) then .error .IndexError
    else
      match offsets.get? index.toNat, offsets.get? (index.toNat + 1) with
      | some list_start, some list_stop =>
        let r := var_indices_loop (var_slices t) (0, 1, list_stop - list_start)
        .ok (wrap_i64 (r.1 + list_start), r.2.1, r.2.2)
      | _, _ => .error .Undefined

/-- Same as `ndt_var_indices`, but skips empty slices in the stack. -/
def var_indices_non_empty_loop : List ndt_slice_t → Int × Int × Int → Int × Int × Int
  | [], r => r
  | sl :: rest, (res_start, res_step, res_shape) =>
    let a := ndt_slice_adjust_indices res_shape sl.start sl.stop sl.step
    if a.1 > 0 then
      var_indices_non_empty_loop rest
        (wrap_i64 (res_start + wrap_i64 (a.2.1 * res_step)), wrap_i64 (res_step * sl.step), a.1)
    else var_indices_non_empty_loop rest (res_start, res_step, res_shape)

def ndt_var_indices_non_empty (t : ndt_t) (index : Int) :
    Except ndt_error (Int × Int × Int) :=
  match var_offsets t with
  | none => .error .Undefined
  | some offsets =>
    if index < 0 ∨ wrap_i64 (index + 1) ≥ (offsets.length : Int) then .error .IndexError
    else
      match offsets.get? index.toNat, offsets.get? (index.toNat + 1) with
      | some list_start, some list_stop =>
        let r := var_indices_non_empty_loop (var_slices t) (0, 1, list_stop - list_start)
        .ok (wrap_i64 (r.1 + list_start), r.2.1, r.2.2)
      | _, _ => .error .Undefined

/-- The function `ndt_var_add_slice`: the slice stack of `t` with one more
slice on top. -/
def ndt_var_add_slice (t : ndt_t) (start stop step : Int) :
    Except ndt_error (List ndt_slice_t) :=
  if t.tag ≠ .VarDim ∨ ndt_is_abstract t then .error .RuntimeError
  else if ((var_slices t).length : Int) = INT_MAX then .error .RuntimeError
  else .ok (var_slices t ++ [{ start := start, stop := stop, step := step }])

/-! ## Contiguous copies (`copy.c`) -/

/-- Modelled from the spec: `ndt_dtype`, the element type below all dimension
constructors. -/
def ndt_dtype : ndt_t → ndt_t
  | .FixedDim _ _ _ type _ _ => ndt_dtype type
  | .VarDim _ type _ _ _ => ndt_dtype type
  | .VarDimElem _ type _ _ _ _ => ndt_dtype type
  | .SymbolicDim _ _ _ type => ndt_dtype type
  | .EllipsisDim _ _ _ type => ndt_dtype type
  | .Array _ _ type => ndt_dtype type
  | t => t

/-- The static `fixed_copy_contiguous`: below the dimensions (`ndim == 0`) the
new dtype, around it the fixed dimensions of `t` with the default step. A node
with `ndim > 0` has tag `FixedDim` here. -/
def fixed_copy_contiguous : ndt_t → ndt_t → Except ndt_error ndt_t
  | .FixedDim h tag shape inner _ _, type =>
    if h.ndim = 0 then .ok type
    else
      match fixed_copy_contiguous inner type with
      | .error e => .error e
      | .ok u => ndt_fixed_dim_tag u tag shape INT64_MAX
  | t, type => if t.ndim = 0 then .ok type else .error .Undefined

/-- The bookkeeping `offsets_t` of the var copy: per depth (the `ndim` of the
node, at most `NDT_MAX_DIM`) whether the dimension is kept, the number of
lists seen, and the new offset array (`none` for `NULL`). -/
structure offsets_t where
  maxdim : Int
  active : List Bool
  index : List Int
  offsets : List (Option (List Int))
deriving DecidableEq, Repr

/-- The initial value `{.maxdim=0, .index={0}, .offsets={NULL}}`: every member
is zero. -/
def offsets_t.init : offsets_t :=
  { maxdim := 0
    active := List.replicate 17 false
    index := List.replicate 17 0
    offsets := List.replicate 17 none }

/-- The static `get_index`. -/
def get_index (shape index : Int) : Except ndt_error Int :=
  let r := if index < 0 then ADDi64 index shape false else (index, false)
  if r.2 ∨ r.1 < 0 ∨ r.1 ≥ shape then .error .IndexError else .ok r.1

/-- The bookkeeping of one visited list in `var_copy_shapes`:
`write_index = m->index[ndim]++` and, when writing,
`offsets[ndim][write_index+1] = offsets[ndim][write_index] + (int32_t)shape`. -/
def record_shape (write : Bool) (m : offsets_t) (d : Nat) (active : Bool) (shape : Int) :
    Except ndt_error offsets_t :=
  let write_index := m.index.getD d 0
  let m := { m with active := m.active.set d active
                    index := m.index.set d (wrap_i32 (write_index + 1)) }
  if write then
    match m.offsets.getD d none with
    | none => .error .Undefined
    | some arr =>
      match arr.get? write_index.toNat with
      | none => .error .Undefined
      | some sum =>
        if write_index.toNat + 1 < arr.length then
          let arr := arr.set (write_index.toNat + 1) (wrap_i32 (sum + wrap_i32 shape))
          .ok { m with offsets := m.offsets.set d (some arr) }
        else .error .Undefined
  else .ok m

/-- The static `var_copy_shapes`: visit the lists of a concrete var-dim chain
below `linear_index`, counting them per depth (`write = false`) or filling the
offset arrays (`write = true`). A negative shape without error from
`ndt_var_indices` makes the function return `-1` with no error code set. -/
def var_copy_shapes (write : Bool) : ndt_t → offsets_t → Int → Except ndt_error offsets_t
  | t@(.VarDim h type _ _ _), m, linear_index =>
    if h.ndim = 0 then .ok m
    else
      match ndt_var_indices t linear_index with
      | .error e => .error e
      | .ok (start, step, shape) =>
        if shape < 0 then .error .Undefined
        else
          match record_shape write m h.ndim.toNat true shape with
          | .error e => .error e
          | .ok m =>
            (List.range shape.toNat).foldlM
              (fun m (i : Nat) => var_copy_shapes write type m
                (wrap_i64 (start + wrap_i64 ((i : Int) * step)))) m
  | t@(.VarDimElem h type index _ _ _), m, linear_index =>
    if h.ndim = 0 then .ok m
    else
      match ndt_var_indices t linear_index with
      | .error e => .error e
      | .ok (start, step, shape) =>
        if shape < 0 then .error .Undefined
        else
          match get_index shape index with
          | .error e => .error e
          | .ok k =>
            match record_shape write m h.ndim.toNat false 1 with
            | .error e => .error e
            | .ok m =>
              var_copy_shapes write type m (wrap_i64 (start + wrap_i64 (k * step)))
  | t, m, _ => if t.ndim = 0 then .ok m else .error .Undefined

/-- The static `var_init_offsets`: a zeroed array of `index[i]+1` entries for
every depth `1 ≤ i ≤ maxdim`. -/
def var_init_offsets (m : offsets_t) : offsets_t :=
  { m with offsets := (List.range 17).map (fun (i : Nat) =>
      if 1 ≤ i ∧ (i : Int) ≤ m.maxdim then
        some (List.replicate (m.index.getD i 0 + 1).toNat 0)
      else m.offsets.getD i none) }

/-- The loop of `var_from_offsets_and_dtype` from depth `i` on, `n` depths to
go: every active depth wraps the type in a var dimension over its offset
array. -/
def var_from_offsets_loop (m : offsets_t) : Nat → Nat → ndt_t → Except ndt_error ndt_t
  | 0, _, t => .ok t
  | n + 1, i, t =>
    if !m.active.getD i false then var_from_offsets_loop m n (i + 1) t
    else
      match m.offsets.getD i none with
      | none => .error .Undefined
      | some arr =>
        match ndt_var_dim t arr [] false with
        | .error e => .error e
        | .ok u => var_from_offsets_loop m n (i + 1) u

/-- The function `var_from_offsets_and_dtype`. -/
def var_from_offsets_and_dtype (m : offsets_t) (t : ndt_t) : Except ndt_error ndt_t :=
  var_from_offsets_loop m m.maxdim.toNat 1 t

/-- The static `var_copy_contiguous`: count, allocate, fill, rebuild. -/
def var_copy_contiguous (t dtype : ndt_t) (linear_index : Int) : Except ndt_error ndt_t :=
  let m := { offsets_t.init with maxdim := t.ndim }
  match var_copy_shapes false t m linear_index with
  | .error e => .error e
  | .ok m =>
    let m := var_init_offsets m
    let m := { m with index := List.replicate 17 0 }
    match var_copy_shapes true t m linear_index with
    | .error e => .error e
    | .ok m => var_from_offsets_and_dtype m dtype

/-- The function `ndt_copy_contiguous_dtype`. -/
def ndt_copy_contiguous_dtype (t dtype : ndt_t) (linear_index : Int) :
    Except ndt_error ndt_t :=
  if ndt_is_abstract t ∨ ndt_is_abstract dtype then .error .ValueError
  else
    match t.tag with
    | .FixedDim => fixed_copy_contiguous t dtype
    | .VarDim => var_copy_contiguous t dtype linear_index
    | .VarDimElem => var_copy_contiguous t dtype linear_index
    | _ => .ok dtype

def ndt_copy_contiguous (t : ndt_t) (linear_index : Int) : Except ndt_error ndt_t :=
  ndt_copy_contiguous_dtype t (ndt_dtype t) linear_index

/-- The function `ndt_copy_abstract_var_dtype`. -/
def ndt_copy_abstract_var_dtype : ndt_t → ndt_t → Except ndt_error ndt_t
  | .VarDim h type _ _ _, dtype =>
    if h.ndim = 0 then .ok dtype
    else if h.access ≠ .Abstract then .error .ValueError
    else
      match ndt_copy_abstract_var_dtype type dtype with
      | .error e => .error e
      | .ok u => ndt_abstract_var_dim u h.flags.OPTION
  | t, dtype => if t.ndim = 0 then .ok dtype else .error .ValueError

/-! ## Symbol table and substitution (`substitute.c`) -/

/-- Modelled from the spec: an entry of the symbol table (`symtable.h`): a
shape bound to a symbolic dimension, a type bound to a type variable, or one of
the three captures of a named ellipsis. `substitute.c` reads the members
`FixedSeq.dims`, `VarSeq.dims`, `VarSeq.linear_index` and `ArraySeq.dims`; the
length of `dims` is the member `size`. -/
inductive symtable_entry_t where
  | Unbound
  | Shape (shape : Int)
  | TypeEntry (type : ndt_t)
  | FixedSeq (dims : List ndt_t)
  | VarSeq (dims : List ndt_t) (linear_index : Int)
  | ArraySeq (dims : List ndt_t)

/-- Modelled from the spec: the symbol table, bindings keyed by name. -/
abbrev symtable_t := List (String × symtable_entry_t)

/-- Modelled from the spec: `symtable_find`, the entry bound to a name, or
`Unbound`. -/
def symtable_find : symtable_t → String → symtable_entry_t
  | [], _ => .Unbound
  | (k, v) :: rest, key => if k = key then v else symtable_find rest key

/-- Modelled from the spec: `symtable_find_shape`, the shape bound to a name,
or `-1` (with an error in the context) if the name is not bound to a shape. -/
def symtable_find_shape (tbl : symtable_t) (key : String) : Int :=
  match symtable_find tbl key with
  | .Shape shape => shape
  | _ => -1

/-- Modelled from the spec: `symtable_find_typevar`, the type bound to a name,
or `NULL` (with an error in the context) if the name is not bound to a type. -/
def symtable_find_typevar (tbl : symtable_t) (key : String) : Option ndt_t :=
  match symtable_find tbl key with
  | .TypeEntry type => some type
  | _ => none

/-- The loop of the `FixedSeq` case of `substitute_named_ellipsis`: `i` runs
from `size-1` down to 0, so the last dimension of the sequence is wrapped
first. -/
def wrap_fixed_seq : List ndt_t → ndt_t → Except ndt_error ndt_t
  | [], u => .ok u
  | w :: ws, u =>
    match wrap_fixed_seq ws u with
    | .error e => .error e
    | .ok v => ndt_fixed_dim v (fixed_shape w) INT64_MAX

/-- The loop of the `ArraySeq` case of `substitute_named_ellipsis`. -/
def wrap_array_seq : List ndt_t → ndt_t → Except ndt_error ndt_t
  | [], u => .ok u
  | _ :: ws, u =>
    match wrap_array_seq ws u with
    | .error e => .error e
    | .ok v => ndt_array v false

/-- The static `substitute_named_ellipsis` after its call of `ndt_substitute`
on the inner type, whose result is `u`. -/
def substitute_named_ellipsis (tbl : symtable_t) (name : String) (u : ndt_t) :
    Except ndt_error ndt_t :=
  match symtable_find tbl name with
  | .FixedSeq dims => wrap_fixed_seq dims u
  | .VarSeq dims linear_index =>
    match dims with
    | [] => .ok u
    | w :: _ => ndt_copy_contiguous_dtype w u linear_index
  | .ArraySeq dims => wrap_array_seq dims u
  | _ => .error .ValueError

/-- The tags that `ndt_substitute` returns unchanged when the node is not
concrete. -/
def substitute_keeps (tag : ndt) : Bool :=
  match tag with
  | .Bool | .Int8 | .Int16 | .Int32 | .Int64
  | .Uint8 | .Uint16 | .Uint32 | .Uint64
  | .BFloat16 | .Float16 | .Float32 | .Float64
  | .BComplex32 | .Complex32 | .Complex64 | .Complex128
  | .FixedString | .FixedBytes | .String | .Bytes | .Char => true
  | _ => false

/-- The function `ndt_substitute`. The recursion of the C function follows
the term and, at a bound type variable, the binding in the table, so it is not
structural: `fuel` bounds the depth of the calls, and `none` is the answer of a
call that needs more. -/
def ndt_substitute (reg : ndt_registry) (tbl : symtable_t) :
    Nat → ndt_t → Bool → Option (Except ndt_error ndt_t)
  | 0, _, _ => none
  | fuel + 1, t, req_concrete =>
    let opt := ndt_is_optional t
    if ndt_is_concrete t then some (.ok t)
    else
      match t with
      | .FixedDim _ _ shape type _ step =>
        match ndt_substitute reg tbl fuel type req_concrete with
        | none => none
        | some (.error e) => some (.error e)
        | some (.ok u) => some (ndt_fixed_dim u shape step)
      | .VarDim _ _ _ _ _ =>
        match ndt_substitute reg tbl fuel (ndt_dtype t) req_concrete with
        | none => none
        | some (.error e) => some (.error e)
        | some (.ok u) => some (ndt_copy_abstract_var_dtype t u)
      | .SymbolicDim _ _ name type =>
        match ndt_substitute reg tbl fuel type req_concrete with
        | none => none
        | some (.error e) => some (.error e)
        | some (.ok u) =>
          let shape := symtable_find_shape tbl name
          if shape < 0 then
            if req_concrete then some (.error .ValueError)
            else some (ndt_symbolic_dim name u)
          else some (ndt_fixed_dim u shape INT64_MAX)
      | .EllipsisDim _ _ none type =>
        ndt_substitute reg tbl fuel type true
      | .EllipsisDim _ _ (some name) type =>
        match ndt_substitute reg tbl fuel type true with
        | none => none
        | some (.error e) => some (.error e)
        | some (.ok u) => some (substitute_named_ellipsis tbl name u)
      | .Typevar _ name =>
        match symtable_find_typevar tbl name with
        | none =>
          if req_concrete then some (.error .ValueError)
          else some (ndt_typevar name)
        | some v => ndt_substitute reg tbl fuel v req_concrete
      | .Constr _ name type =>
        match ndt_substitute reg tbl fuel type req_concrete with
        | none => none
        | some (.error e) => some (.error e)
        | some (.ok u) => some (ndt_constr name u opt)
      | .Nominal _ name type =>
        match ndt_copy reg type with
        | .error e => some (.error e)
        | .ok u => some (ndt_nominal reg name (some u) opt)
      | .Ref _ type =>
        match ndt_substitute reg tbl fuel type req_concrete with
        | none => none
        | some (.error e) => some (.error e)
        | some (.ok u) => some (ndt_ref u opt)
      | t =>
        if substitute_keeps t.tag then some (.ok t)
        else some (.error .NotImplementedError)

/-! ## Contiguity predicates and Fortran order -/

/-- The member `Concrete.FixedDim.step` of a node with tag `FixedDim`. -/
def fixed_dim_step : ndt_t → Int
  | .FixedDim _ _ _ _ _ step => step
  | _ => 0

/-- Array predicate `ndt_is_ndarray`: a fixed dimension, or no dimension. -/
def ndt_is_ndarray (t : ndt_t) : Bool :=
  match t.tag with
  | .FixedDim => true
  | _ => t.ndim == 0

/-- Modelled from the spec: `ndt_dims_dtype`, the dimension nodes of a type,
outermost first, and the dtype below them; the loop runs while `ndim > 0`. -/
def ndt_dims_dtype : ndt_t → List ndt_t × ndt_t
  | t@(.FixedDim h _ _ type _ _) =>
    if h.ndim > 0 then ((t :: (ndt_dims_dtype type).1), (ndt_dims_dtype type).2) else ([], t)
  | t@(.VarDim h type _ _ _) =>
    if h.ndim > 0 then ((t :: (ndt_dims_dtype type).1), (ndt_dims_dtype type).2) else ([], t)
  | t@(.VarDimElem h type _ _ _ _) =>
    if h.ndim > 0 then ((t :: (ndt_dims_dtype type).1), (ndt_dims_dtype type).2) else ([], t)
  | t@(.SymbolicDim h _ _ type) =>
    if h.ndim > 0 then ((t :: (ndt_dims_dtype type).1), (ndt_dims_dtype type).2) else ([], t)
  | t@(.EllipsisDim h _ _ type) =>
    if h.ndim > 0 then ((t :: (ndt_dims_dtype type).1), (ndt_dims_dtype type).2) else ([], t)
  | t@(.Array h _ type) =>
    if h.ndim > 0 then ((t :: (ndt_dims_dtype type).1), (ndt_dims_dtype type).2) else ([], t)
  | t => ([], t)

/-- The loop of `ndt_is_c_contiguous` and `ndt_is_f_contiguous` over the
dimensions in the order of the list: a dimension with `shape > 1` must have the
running step, which is then multiplied by the shape (unchecked `int64_t`). -/
def contiguous_loop : List ndt_t → Int → Bool
  | [], _ => true
  | d :: ds, step =>
    if fixed_shape d > 1 ∧ fixed_dim_step d ≠ step then false
    else contiguous_loop ds (wrap_i64 (step * fixed_shape d))

/-- The predicate `ndt_is_c_contiguous`: the loop runs from the innermost
dimension outwards. -/
def ndt_is_c_contiguous (t : ndt_t) : Bool :=
  if ndt_is_abstract t then false
  else if !ndt_is_ndarray t then false
  else if t.ndim = 0 then true
  else contiguous_loop (ndt_dims_dtype t).1.reverse 1

/-- The predicate `ndt_is_f_contiguous`: the loop runs from the outermost
dimension inwards. -/
def ndt_is_f_contiguous (t : ndt_t) : Bool :=
  if ndt_is_abstract t then false
  else if !ndt_is_ndarray t then false
  else if t.ndim = 0 then true
  else contiguous_loop (ndt_dims_dtype t).1 1

/-- The static `_is_var_contiguous`; a concrete `VarDim` without offset table
cannot be read. The offsets are `int32_t`. -/
def _is_var_contiguous : ndt_t → Int → Bool
  | .VarDim h type _ offsets slices, nitems =>
    if h.ndim = 0 then true
    else
      match offsets with
      | none => false
      | some offs =>
        if (offs.length : Int) ≠ wrap_i32 (nitems + 1) then false
        else if slices.length ≠ 0 then false
        else _is_var_contiguous type (last_offset offs)
  | t, _ => if t.ndim = 0 then true else false

/-- The predicate `ndt_is_var_contiguous`. -/
def ndt_is_var_contiguous (t : ndt_t) : Bool :=
  if ndt_is_abstract t then false else _is_var_contiguous t 1

/-- The predicate `ndt_really_fortran`. -/
def ndt_really_fortran (t : ndt_t) : Bool :=
  ndt_is_f_contiguous t && !ndt_is_c_contiguous t

/-- The static `_ndt_to_fortran`; below the dimensions (`ndim == 0`) the type
is returned. A node with `ndim > 0` has tag `FixedDim` here. -/
def _ndt_to_fortran : ndt_t → Int → Except ndt_error ndt_t
  | t@(.FixedDim h _ shape type _ _), step =>
    if h.ndim = 0 then .ok t
    else
      let next_step := MULi64 step shape false
      if next_step.2 then .error .ValueError
      else
        match _ndt_to_fortran type next_step.1 with
        | .error e => .error e
        | .ok dt => ndt_fixed_dim dt shape step
  | t, _ => if t.ndim = 0 then .ok t else .error .Undefined

/-- Return a copy of a C-contiguous array in Fortran order (`ndt_to_fortran`). -/
def ndt_to_fortran (t : ndt_t) : Except ndt_error ndt_t :=
  if ndt_is_abstract t then .error .TypeError
  else if !ndt_is_c_contiguous t then .error .TypeError
  else _ndt_to_fortran t 1

/-! ## Specification-level layout -/

/-- The least multiple of `align` that is not below `offset`, for a positive
`align`: the round-up of the layout rules. -/
def round_up_spec (offset : Int) (align : Nat) : Int :=
  (offset + (align : Int) - 1) / (align : Int) * (align : Int)

/-- The alignment that `init_concrete_fields` stores for a field: the `pack`
of the tuple if there is one, else the alignment of the field. -/
def effective_align (pack : Option Nat) (f : ndt_field_t) : Nat :=
  match pack with
  | some p => p
  | none => f.align

/-- Offsets of the fields laid out one after the other from the running end
`cur`. -/
def offsets_from (pack : Option Nat) : Int → List ndt_field_t → List Int
  | _, [] => []
  | cur, f :: fs =>
    round_up_spec cur (effective_align pack f) ::
      offsets_from pack (round_up_spec cur (effective_align pack f) + f.type.datasize) fs

/-- Gap in front of each field when laid out from the running end `cur`. -/
def gaps_from (pack : Option Nat) : Int → List ndt_field_t → List Nat
  | _, [] => []
  | cur, f :: fs =>
    (round_up_spec cur (effective_align pack f) - cur).toNat ::
      gaps_from pack (round_up_spec cur (effective_align pack f) + f.type.datasize) fs

/-- End of the last field when laid out from the running end `cur`. -/
def end_from (pack : Option Nat) : Int → List ndt_field_t → Int
  | cur, [] => cur
  | cur, f :: fs =>
    end_from pack (round_up_spec cur (effective_align pack f) + f.type.datasize) fs

/-- A concrete field as `ndt_field` builds it from a concrete type: the size
is not negative and the alignment is a positive `uint16_t`. -/
def concrete_field (f : ndt_field_t) : Prop :=
  f.access = .Concrete ∧ 0 ≤ f.type.datasize ∧ 0 < f.align ∧ f.align ≤ UINT16_MAX

/-- An optional attribute in the range of `uint16_t`. -/
def attr_u16 (a : Option Nat) : Prop :=
  ∀ x, a = some x → x ≤ UINT16_MAX

/-- What the layout needs of a field: a size that is not negative and an
effective alignment that is a positive `uint16_t`. -/
def loop_ok (pack : Option Nat) (f : ndt_field_t) : Prop :=
  0 ≤ f.type.datasize ∧ 0 < effective_align pack f ∧ effective_align pack f ≤ UINT16_MAX

/-- The pads of the layout rules: for every field but the last the gap in
front of the next field, for the last field the gap between its end and the
size, which is the end rounded up to the alignment of the node. -/
def natural_pads (fields : List ndt_field_t) (align_attr pack : Option Nat) : List Nat :=
  (gaps_from pack 0 fields).tail ++
    (if fields.length = 0 then []
     else [(round_up_spec (end_from pack 0 fields)
              ((fields.map (effective_align pack)).foldl max (align_attr.getD 1)) -
            end_from pack 0 fields).toNat])

/-- The members `Concrete.Tuple.offset`, `Concrete.Tuple.align` and
`Concrete.Tuple.pad` of a tuple, or those of a record. -/
def tuple_offset : ndt_t → List Int
  | .Tuple _ _ _ offset _ _ => offset
  | .Record _ _ _ _ offset _ _ => offset
  | _ => []

def tuple_align : ndt_t → List Nat
  | .Tuple _ _ _ _ align _ => align
  | .Record _ _ _ _ _ align _ => align
  | _ => []

def tuple_pad : ndt_t → List Nat
  | .Tuple _ _ _ _ _ pad => pad
  | .Record _ _ _ _ _ _ pad => pad
  | _ => []

/-- Size `d_i` of field `i`. -/
def field_size (fields : List ndt_field_t) (i : Nat) : Int :=
  (fields.map (fun f => f.type.datasize)).getD i 0

/-- Effective alignment `a_i` of field `i`. -/
def field_eff_align (pack : Option Nat) (fields : List ndt_field_t) (i : Nat) : Nat :=
  (fields.map (effective_align pack)).getD i 0

/-- The layout rules of a concrete tuple or record, read on the node `t` built
from `fields`: the three arrays have one entry per field, `align[i]` is the
effective alignment, the first offset is 0, each further offset is the end of
the field before rounded up to the alignment of the field, each pad is the gap
to the next offset, the alignment of the node is the maximum of the attribute
(default 1) and all field alignments, and the size is the end of the last field
rounded up to it, the last pad filling the gap. -/
def tuple_layout (fields : List ndt_field_t) (align_attr pack : Option Nat) (t : ndt_t) :
    Prop :=
  (tuple_offset t).length = fields.length ∧
  (tuple_align t).length = fields.length ∧
  (tuple_pad t).length = fields.length ∧
  (∀ i, i < fields.length → (tuple_align t).getD i 0 = field_eff_align pack fields i) ∧
  (0 < fields.length → (tuple_offset t).getD 0 0 = 0) ∧
  (∀ i, i + 1 < fields.length →
    (tuple_offset t).getD (i + 1) 0 =
      round_up_spec ((tuple_offset t).getD i 0 + field_size fields i)
        (field_eff_align pack fields (i + 1)) ∧
    ((tuple_pad t).getD i 0 : Int) =
      (tuple_offset t).getD (i + 1) 0 - ((tuple_offset t).getD i 0 + field_size fields i)) ∧
  t.align = (fields.map (effective_align pack)).foldl max (align_attr.getD 1) ∧
  (fields.length = 0 → t.datasize = 0) ∧
  (0 < fields.length →
    t.datasize =
      round_up_spec ((tuple_offset t).getD (fields.length - 1) 0 +
        field_size fields (fields.length - 1)) t.align ∧
    ((tuple_pad t).getD (fields.length - 1) 0 : Int) =
      t.datasize - ((tuple_offset t).getD (fields.length - 1) 0 +
        field_size fields (fields.length - 1)))

/-- The invariants of a concrete tuple or record, read on the node `t` built
from `fields`: every offset is a multiple of the alignment stored for the
field, a field starts at or after the end of the field before it, every pad is
smaller than the alignment it rounds to (the alignment of the next field, for
the last pad that of the node) and fits `uint16_t`, and the size of the node is
a multiple of its alignment and not below the end of the last field. -/
def tuple_invariants (fields : List ndt_field_t) (t : ndt_t) : Prop :=
  (∀ i, i < fields.length →
    (tuple_offset t).getD i 0 % ((tuple_align t).getD i 0 : Int) = 0) ∧
  (∀ i, i + 1 < fields.length →
    (tuple_offset t).getD i 0 + field_size fields i ≤ (tuple_offset t).getD (i + 1) 0) ∧
  (∀ i, i + 1 < fields.length →
    (tuple_pad t).getD i 0 < (tuple_align t).getD (i + 1) 0 ∧
    (tuple_pad t).getD i 0 ≤ UINT16_MAX) ∧
  (0 < fields.length →
    (tuple_pad t).getD (fields.length - 1) 0 < t.align ∧
    (tuple_pad t).getD (fields.length - 1) 0 ≤ UINT16_MAX) ∧
  t.datasize % (t.align : Int) = 0 ∧
  (0 < fields.length →
    (tuple_offset t).getD (fields.length - 1) 0 + field_size fields (fields.length - 1) ≤
      t.datasize)

/-! ## Terms of the examples -/

/-- The static node of a primitive scalar without flags, as `ndt_primitive`
returns it. -/
def prim (tag : ndt) (size : Int) (align : Nat) : ndt_t :=
  .Scalar tag { access := .Concrete, flags := {}, ndim := 0, datasize := size, align := align }

def ex_int32 : ndt_t := prim .Int32 4 4

def ex_int64 : ndt_t := prim .Int64 8 8

def ex_float32 : ndt_t := prim .Float32 4 4

def ex_float64 : ndt_t := prim .Float64 8 8

/-- The field that `ndt_field` builds from a name, a concrete type and an
optional `pad`, without `align` and `pack`. -/
def plain_field (name : Option String) (type : ndt_t) (pad : Option Nat) : ndt_field_t :=
  { name := name, type := type, access := .Concrete, align := type.align
    explicit_align := false, pad := pad.getD UINT16_MAX, explicit_pad := pad.isSome }

/-- The record `{a: int32, b: float64}`. -/
def ex_record_fields : List ndt_field_t :=
  [plain_field (some "a") ex_int32 none, plain_field (some "b") ex_float64 none]

/-- The fields of the tuple `(int32, float64)`. -/
def ex_tuple_fields : List ndt_field_t :=
  [plain_field none ex_int32 none, plain_field none ex_float64 none]

/-- The overflow flag of `init_concrete_fields` once the size has been rounded
up (`false` if the function has returned before). -/
def layout_overflows (fields : List ndt_field_t) (align_attr pack : Option Nat) : Bool :=
  match get_align align_attr 1 with
  | .error _ => false
  | .ok maxalign =>
    match init_concrete_fields_loop pack fields 0 (init_layout maxalign) with
    | .error _ => false
    | .ok s => (round_up s.offset s.maxalign s.overflow).2

/-- Some field declares an explicit pad that differs from the pad of the
layout rules for that field. -/
def pad_mismatch (fields : List ndt_field_t) (align_attr pack : Option Nat) : Prop :=
  ∃ i f, fields.get? i = some f ∧ f.explicit_pad = true ∧
    f.pad ≠ (natural_pads fields align_attr pack).getD i 0

/-- The attributes of a tuple or record raise no error of their own: `align`
and `pack` are powers of two, and no field has an explicit alignment next to
a `pack` of the tuple. -/
def attrs_valid (fields : List ndt_field_t) (align_attr pack : Option Nat) : Prop :=
  (∀ a, align_attr = some a → ispower2 a = true) ∧
  (∀ p, pack = some p → ispower2 p = true ∧ ∀ f ∈ fields, f.explicit_align = false)

/-- The fields of the tuple `(int32, float64)` with an explicit `pad` on the
first field. -/
def ex_padded_fields (pad : Nat) : List ndt_field_t :=
  [plain_field none ex_int32 (some pad), plain_field none ex_float64 none]

/-- A dtype wrapped in `n` fixed dimensions of shape 1 with `ndt_fixed_dim`. -/
def fixed_chain : Nat → ndt_t → Except ndt_error ndt_t
  | 0, t => .ok t
  | n + 1, t =>
    match fixed_chain n t with
    | .ok u => ndt_fixed_dim u 1 INT64_MAX
    | .error e => .error e

/-- The array `1 * ... * 1 * int64` with 16 dimensions. -/
def ex_dims16 : ndt_t :=
  match fixed_chain 16 ex_int64 with
  | .ok t => t
  | .error _ => ex_int64

/-- The node `fixed_bytes(size=9223372036854775807)` as `ndt_fixed_bytes`
builds it. -/
def ex_bytes_max : ndt_t :=
  .FixedBytes { access := .Concrete, flags := {}, ndim := 0, datasize := INT64_MAX, align := 1 }
    INT64_MAX 1

/-- The step that is derived when none is supplied: 1 over a dtype, and over
a fixed dimension `shape * step` of that dimension if its itemsize is 0, else
its `datasize / itemsize` (C division). -/
def derived_step : ndt_t → Int
  | .FixedDim h _ shape _ itemsize step =>
    if itemsize = 0 then shape * step else Int.tdiv h.datasize itemsize
  | _ => 1

/-- The array `0 * int64` as `ndt_fixed_dim` builds it. -/
def ex_empty_row : ndt_t :=
  .FixedDim { access := .Concrete, flags := {}, ndim := 1, datasize := 0, align := 8 }
    .RequireNA 0 ex_int64 8 1

/-- The array built from a dtype and a list of shapes, outermost first, with
`ndt_fixed_dim` and the default step, innermost dimension first. -/
def fixed_array : List Int → ndt_t → Except ndt_error ndt_t
  | [], d => .ok d
  | s :: rest, d =>
    match fixed_array rest d with
    | .ok u => ndt_fixed_dim u s INT64_MAX
    | .error e => .error e

/-- A dtype: no dimensions, and none of the tags whose itemsize and step are
members of the node (`FixedDim`, `VarDim`, `VarDimElem`). -/
def is_dtype (d : ndt_t) : Prop :=
  d.ndim = 0 ∧ d.tag ≠ .FixedDim ∧ d.tag ≠ .VarDim ∧ d.tag ≠ .VarDimElem

/-- The concrete var dimension `var * int64` over the offsets `[0, 2]`, as
`ndt_var_dim` builds it. -/
def ex_var : ndt_t :=
  .VarDim { access := .Concrete, flags := {}, ndim := 1, datasize := 16, align := 8 }
    ex_int64 8 (some [0, 2]) []

/-- The var dimension `ex_var` fixed to the index 0, as
`ndt_convert_to_var_elem` builds it. -/
def ex_var_elem : ndt_t :=
  .VarDimElem { access := .Concrete, flags := {}, ndim := 1, datasize := 16, align := 8 }
    ex_int64 0 8 (some [0, 2]) []

/-- The union of `a: int32` and `b: float64`, as `ndt_union` builds it. -/
def ex_union : ndt_t :=
  .Union { access := .Concrete, flags := {}, ndim := 0, datasize := 9, align := 1 }
    2 ["a", "b"] [ex_int32, ex_float64]

/-- The signature `int64 -> int64`, as `ndt_function` builds it. -/
def ex_function : ndt_t :=
  .Function { access := .Abstract, flags := {}, ndim := 0, datasize := 0, align := UINT16_MAX }
    1 1 (some true) [ex_int64, ex_int64]

/-- The node of a successful construction, for the terms of the examples (the
dtype `d` stands in for a failure, which the examples do not meet). -/
def built (d : ndt_t) (r : Except ndt_error ndt_t) : ndt_t :=
  match r with
  | .ok t => t
  | .error _ => d

/-- The registry without typedefs. -/
def empty_registry : ndt_registry :=
  { ndt_typedef_find := fun _ => .error .ValueError
    ndt_match := fun _ _ => .ok false }

/-- The pattern `M * float64`. -/
def ex_M_float64 : ndt_t :=
  built ex_float64 (ndt_symbolic_dim "M" ex_float64)

/-- The pattern `N * M * float64`. -/
def ex_N_M_float64 : ndt_t :=
  built ex_float64 (ndt_symbolic_dim "N" ex_M_float64)

/-- The bindings `{N: 3, M: 4}`. -/
def ex_tbl_NM : symtable_t :=
  [("N", .Shape 3), ("M", .Shape 4)]

/-- The pattern `D * float64`. -/
def ex_D_float64 : ndt_t :=
  built ex_float64 (ndt_symbolic_dim "D" ex_float64)

/-- The pattern `A... * D * float64`. -/
def ex_A_D_float64 : ndt_t :=
  built ex_float64 (ndt_ellipsis_dim (some "A") ex_D_float64)

/-- The bindings of `A... * D * float64` matched against `2 * 3 * 5 * float64`:
`D = 5` and `A = FixedSeq[2, 3]`, the two outer dimensions of the candidate. -/
def ex_tbl_AD : symtable_t :=
  [("D", .Shape 5),
   ("A", .FixedSeq [built ex_float64 (fixed_array [2, 3, 5] ex_float64),
                    built ex_float64 (fixed_array [3, 5] ex_float64)])]

/-- Shapes, outermost first, and element type of the `k` outer fixed
dimensions of a type. -/
def peel_fixed : Nat → ndt_t → Option (List Int × ndt_t)
  | 0, t => some ([], t)
  | k + 1, .FixedDim _ _ shape type _ _ =>
    match peel_fixed k type with
    | some (shapes, d) => some (shape :: shapes, d)
    | none => none
  | _ + 1, _ => none

/-- The returned type is, or wraps in fixed dimensions, flexible arrays,
constructors or references, a node that `ndt_substitute` leaves abstract: an
abstract var dimension, an abstract nominal type, or an abstract node with a
scalar tag (which no constructor builds). -/
def residual_abstract : ndt_t → Bool
  | .VarDim h _ _ _ _ => h.access == .Abstract
  | .Nominal h _ _ => h.access == .Abstract
  | .FixedDim _ _ _ type _ _ => residual_abstract type
  | .Array _ _ type => residual_abstract type
  | .Constr _ _ type => residual_abstract type
  | .Ref _ type => residual_abstract type
  | .FixedString h _ _ => h.access == .Abstract
  | .FixedBytes h _ _ => h.access == .Abstract
  | .Bytes h _ => h.access == .Abstract
  | .Char h _ => h.access == .Abstract
  | .Scalar tag h => h.access == .Abstract && substitute_keeps tag
  | _ => false

/-- Every `VarSeq` capture of the table starts with a var dimension. -/
def var_seqs_start_with_var (tbl : symtable_t) : Prop :=
  ∀ name w rest linear_index, symtable_find tbl name = .VarSeq (w :: rest) linear_index →
    w.tag = .VarDim ∨ w.tag = .VarDimElem

/-- The abstract var dimension `var * int64`, as `ndt_abstract_var_dim` builds
it. -/
def ex_abstract_var : ndt_t :=
  .VarDim { access := .Abstract, flags := {}, ndim := 1, datasize := 0, align := UINT16_MAX }
    ex_int64 0 none []

/-- The array `3 * 4 * float64`, as `ndt_fixed_dim` builds it. -/
def ex_3_4_float64 : ndt_t :=
  .FixedDim { access := .Concrete, flags := {}, ndim := 2, datasize := 96, align := 8 }
    .RequireNA 3
    (.FixedDim { access := .Concrete, flags := {}, ndim := 1, datasize := 32, align := 8 }
      .RequireNA 4 ex_float64 8 1) 8 4

/-- The type variable `T`, as `ndt_typevar` builds it. -/
def ex_typevar_T : ndt_t :=
  .Typevar (ndt_new_hdr {}) "T"

/-- The field that `ndt_field` builds from an abstract type. -/
def abstract_field (name : Option String) (type : ndt_t) : ndt_field_t :=
  { name := name, type := type, access := .Abstract, align := 1
    explicit_align := false, pad := UINT16_MAX, explicit_pad := false }

/-- The abstract tuple `(T)`. -/
def ex_tuple_T : ndt_t :=
  built ex_int64 (ndt_tuple .Nonvariadic [abstract_field none ex_typevar_T] none none false)

/-- The abstract record `{a: T}`. -/
def ex_record_T : ndt_t :=
  built ex_int64 (ndt_record .Nonvariadic [abstract_field (some "a") ex_typevar_T] none none false)

/-- The abstract union `[a: T]`. -/
def ex_union_T : ndt_t :=
  built ex_int64 (ndt_union (some [abstract_field (some "a") ex_typevar_T]) 1 false)

/-- The binding `{T: int64}`. -/
def ex_tbl_T : symtable_t :=
  [("T", .TypeEntry ex_int64)]

/-- The array `9223372036854775807 * 0 * int64`, built with `ndt_fixed_dim` and
the default step. -/
def ex_max_0_int64 : ndt_t :=
  built ex_int64 (fixed_array [INT64_MAX, 0] ex_int64)

/-- A type wrapped in `n` flexible array dimensions with `ndt_array`. -/
def array_chain : Nat → ndt_t → Except ndt_error ndt_t
  | 0, t => .ok t
  | n + 1, t =>
    match array_chain n t with
    | .ok u => ndt_array u false
    | .error e => .error e

def INT32_MAX : Int := 2147483647

/-- The chains of C14: a type without dimensions, wrapped in var dimensions by
`ndt_var_dim` without slices. The number of entries of an offset table is an
`int32_t`. -/
inductive var_chain : ndt_t → Prop
  | dtype (d : ndt_t) : d.ndim = 0 → var_chain d
  | var (type t : ndt_t) (offsets : List Int) (opt : Bool) :
      var_chain type → (offsets.length : Int) ≤ INT32_MAX →
      ndt_var_dim type offsets [] opt = .ok t → var_chain t

/-- The type `var * float32` over the offsets `[0, 3, 5]`. -/
def ex_var_float32 : ndt_t :=
  built ex_float32 (ndt_var_dim ex_float32 [0, 3, 5] [] false)

/-- The type `var * var * float32` over the offsets `[0, 2]` and `[0, 3, 5]`. -/
def ex_var_var_float32 : ndt_t :=
  built ex_float32 (ndt_var_dim ex_var_float32 [0, 2] [] false)

/-- The terms built by the constructors of the type algebra: every argument
type is itself built, every field comes from `ndt_field`, and the type of a
typedef in the registry is built. -/
inductive constructed (reg : ndt_registry) : ndt_t → Prop
  | primitive (tag : ndt) (flags : ndt_flags) (t : ndt_t) :
      ndt_primitive tag flags = .ok t → constructed reg t
  | any_kind (opt : Bool) (t : ndt_t) : ndt_any_kind opt = .ok t → constructed reg t
  | scalar_kind (opt : Bool) (t : ndt_t) : ndt_scalar_kind opt = .ok t → constructed reg t
  | typevar (name : String) (t : ndt_t) : ndt_typevar name = .ok t → constructed reg t
  | fixed_string (size : Int) (encoding : ndt_encoding) (opt : Bool) (t : ndt_t) :
      ndt_fixed_string size encoding opt = .ok t → constructed reg t
  | fixed_bytes (size : Int) (align : Option Nat) (opt : Bool) (t : ndt_t) :
      ndt_fixed_bytes size align opt = .ok t → constructed reg t
  | bytes (target_align : Option Nat) (opt : Bool) (t : ndt_t) :
      ndt_bytes target_align opt = .ok t → constructed reg t
  | char (encoding : ndt_encoding) (opt : Bool) (t : ndt_t) :
      ndt_char encoding opt = .ok t → constructed reg t
  | categorical (types : List ndt_value_t) (opt : Bool) (t : ndt_t) :
      ndt_categorical types opt = .ok t → constructed reg t
  | fixed_dim (type : ndt_t) (shape step : Int) (t : ndt_t) :
      constructed reg type → ndt_fixed_dim type shape step = .ok t → constructed reg t
  | fixed_dim_tag (type : ndt_t) (tag : ndt_contig) (shape step : Int) (t : ndt_t) :
      constructed reg type → ndt_fixed_dim_tag type tag shape step = .ok t →
      constructed reg t
  | abstract_var_dim (type : ndt_t) (opt : Bool) (t : ndt_t) :
      constructed reg type → ndt_abstract_var_dim type opt = .ok t → constructed reg t
  | var_dim (type : ndt_t) (offsets : List Int) (slices : List ndt_slice_t) (opt : Bool)
      (t : ndt_t) :
      constructed reg type → ndt_var_dim type offsets slices opt = .ok t → constructed reg t
  | var_elem (u type : ndt_t) (index : Int) (t : ndt_t) :
      constructed reg type → ndt_convert_to_var_elem u type index = .ok t →
      constructed reg t
  | symbolic_dim (name : String) (type : ndt_t) (t : ndt_t) :
      constructed reg type → ndt_symbolic_dim name type = .ok t → constructed reg t
  | symbolic_dim_tag (name : String) (type : ndt_t) (tag : ndt_contig) (t : ndt_t) :
      constructed reg type → ndt_symbolic_dim_tag name type tag = .ok t → constructed reg t
  | ellipsis_dim (name : Option String) (type : ndt_t) (t : ndt_t) :
      constructed reg type → ndt_ellipsis_dim name type = .ok t → constructed reg t
  | ellipsis_dim_tag (name : Option String) (type : ndt_t) (tag : ndt_contig) (t : ndt_t) :
      constructed reg type → ndt_ellipsis_dim_tag name type tag = .ok t → constructed reg t
  | array (type : ndt_t) (opt : Bool) (t : ndt_t) :
      constructed reg type → ndt_array type opt = .ok t → constructed reg t
  | ref (type : ndt_t) (opt : Bool) (t : ndt_t) :
      constructed reg type → ndt_ref type opt = .ok t → constructed reg t
  | constr (name : String) (type : ndt_t) (opt : Bool) (t : ndt_t) :
      constructed reg type → ndt_constr name type opt = .ok t → constructed reg t
  | nominal (name : String) (type : ndt_t) (opt : Bool) (t : ndt_t) :
      constructed reg type → ndt_nominal reg name (some type) opt = .ok t →
      constructed reg t
  | nominal_typedef (name : String) (d : ndt_t) (opt : Bool) (t : ndt_t) :
      reg.ndt_typedef_find name = .ok d → constructed reg d →
      ndt_nominal reg name none opt = .ok t → constructed reg t
  | tuple (flag : ndt_variadic) (fields : List ndt_field_t) (align pack : Option Nat)
      (opt : Bool) (t : ndt_t) :
      (∀ f ∈ fields, constructed reg f.type) →
      (∀ f ∈ fields, ∃ name a pk pd, ndt_field name f.type a pk pd = .ok f) →
      ndt_tuple flag fields align pack opt = .ok t → constructed reg t
  | record (flag : ndt_variadic) (fields : List ndt_field_t) (align pack : Option Nat)
      (opt : Bool) (t : ndt_t) :
      (∀ f ∈ fields, constructed reg f.type) →
      (∀ f ∈ fields, ∃ name a pk pd, ndt_field name f.type a pk pd = .ok f) →
      ndt_record flag fields align pack opt = .ok t → constructed reg t
  | union (fields : List ndt_field_t) (opt : Bool) (t : ndt_t) :
      (∀ f ∈ fields, constructed reg f.type) →
      (∀ f ∈ fields, ∃ name a pk pd, ndt_field name f.type a pk pd = .ok f) →
      ndt_union (some fields) fields.length opt = .ok t → constructed reg t
  | function (types : List ndt_t) (nin nout : Int) (t : ndt_t) :
      (∀ u ∈ types, constructed reg u) → ndt_function types nin nout = .ok t →
      constructed reg t
  | module (name : String) (type : ndt_t) (t : ndt_t) :
      constructed reg type → ndt_module name type = .ok t → constructed reg t

/-- The tuple `(int32, float64)`, as `ndt_tuple` builds it. -/
def ex_tuple_int32_float64 : ndt_t :=
  built ex_int64 (ndt_tuple .Nonvariadic ex_tuple_fields none none false)

/-- Standard Python slicing, the bound of a slice: a negative bound counts from
the end of the sequence; then, for a positive step, a bound below 0 becomes 0
and a bound above `len` becomes `len`, and for a negative step a bound below 0
becomes -1 and a bound above `len - 1` becomes `len - 1`. -/
def py_bound (len step i : Int) : Int :=
  let i := if i < 0 then i + len else i
  if step < 0 then (if i < 0 then -1 else if i > len - 1 then len - 1 else i)
  else (if i < 0 then 0 else if i > len then len else i)

/-- Standard Python slicing `l[start:stop:step]` of a list (`step` is not 0):
the items with index `x = i + n*step`, `n = 0, 1, ...`, for as long as `x` has
not reached the bound `j` (`x < j` for a positive, `x > j` for a negative
step), where `i` and `j` are the bounds of the slice. -/
def py_slice (l : List Int) (sl : ndt_slice_t) : List Int :=
  let i := py_bound l.length sl.step sl.start
  let j := py_bound l.length sl.step sl.stop
  (List.range l.length).filterMap (fun (n : Nat) =>
    let x := i + (n : Int) * sl.step
    if (0 < sl.step ∧ x < j) ∨ (sl.step < 0 ∧ j < x) then l.get? x.toNat else none)

/-- The indices `a, a + 1, ..., b - 1`. -/
def int_range (a b : Int) : List Int :=
  (List.range (b - a).toNat).map (fun (j : Nat) => a + (j : Int))

/-- The indices `start + j * step` for `0 ≤ j < shape`. -/
def index_sequence (start step shape : Int) : List Int :=
  (List.range shape.toNat).map (fun (j : Nat) => start + (j : Int) * step)

/-- The state `(res_start, res_step, res_shape)` of the loop of
`ndt_var_indices` describes the list `l` of selected indices of the range
`[list_start, list_stop)`. -/
def describes (list_start list_stop : Int) (l : List Int) (r : Int × Int × Int) : Prop :=
  0 ≤ r.2.2 ∧ l = index_sequence (list_start + r.1) r.2.1 r.2.2 ∧
  ∀ x ∈ l, list_start ≤ x ∧ x < list_stop

/-- The var dimension `var * int64` over the offsets `[0, 3, 10]` with the
slices `[1::2]` and `[::-1]` on its stack, as `ndt_var_dim` builds it. -/
def ex_sliced_var : ndt_t :=
  built ex_int64 (ndt_var_dim ex_int64 [0, 3, 10]
    [{ start := 1, stop := INT64_MAX, step := 2 }, { start := -1, stop := INT64_MIN, step := -1 }]
    false)

/-- The arrays of C15: a type without dimensions, wrapped in fixed dimensions by
`ndt_fixed_dim`. -/
inductive fixed_dims : ndt_t → Prop
  | dtype (d : ndt_t) : d.ndim = 0 → fixed_dims d
  | dim (type t : ndt_t) (shape step : Int) :
      fixed_dims type → ndt_fixed_dim type shape step = .ok t → fixed_dims t

/-- The shapes of the dimensions of a type, outermost first. -/
def dim_shapes (t : ndt_t) : List Int :=
  (ndt_dims_dtype t).1.map fixed_shape

/-- The steps of the dimensions of an array, outermost first. -/
def dim_steps (t : ndt_t) : List Int :=
  (ndt_dims_dtype t).1.map fixed_dim_step

/-- The array `2 * 3 * int64` with the default steps. -/
def ex_2_3_int64 : ndt_t :=
  built ex_int64 (fixed_array [2, 3] ex_int64)

/-- The array `1 * 1 * int64` with the default steps. -/
def ex_1_1_int64 : ndt_t :=
  built ex_int64 (fixed_array [1, 1] ex_int64)

/-- The running step of `contiguous_loop` behind the dimensions of `l`. -/
def running_step (l : List ndt_t) (step : Int) : Int :=
  l.foldl (fun r d => wrap_i64 (r * fixed_shape d)) step

/-- The chains of var dimensions of C17 and C18: a type without dimensions,
wrapped by `ndt_var_dim` (with or without slices) and by
`ndt_convert_to_var_elem`. -/
inductive var_dims : ndt_t → Prop
  | dtype (d : ndt_t) : d.ndim = 0 → var_dims d
  | var (type t : ndt_t) (offsets : List Int) (slices : List ndt_slice_t) (opt : Bool) :
      var_dims type → ndt_var_dim type offsets slices opt = .ok t → var_dims t
  | elem (u type : ndt_t) (index : Int) (t : ndt_t) :
      var_dims type → ndt_convert_to_var_elem u type index = .ok t → var_dims t

/-- One visited list of a var dimension: the depth (`ndim` of the node),
whether the node is a `VarDim` (kept in the copy) and the logical shape that
`ndt_var_indices` reports (1 for the single item of a `VarDimElem`). -/
structure var_visit where
  depth : Nat
  active : Bool
  shape : Int
deriving DecidableEq, Repr

/-- Append the visits below item `i` to the visits so far. -/
def visits_step (f : Nat → Except ndt_error (List var_visit)) (acc : List var_visit)
    (i : Nat) : Except ndt_error (List var_visit) :=
  match f i with
  | .error e => .error e
  | .ok evs => .ok (acc ++ evs)

/-- The lists that the copy visits below `linear_index`, in visiting order:
the list itself, then, item by item, the lists below its items (for a
`VarDimElem` below the one item of its index). -/
def var_visits : ndt_t → Int → Except ndt_error (List var_visit)
  | t@(.VarDim h type _ _ _), linear_index =>
    if h.ndim = 0 then .ok []
    else
      match ndt_var_indices t linear_index with
      | .error e => .error e
      | .ok (start, step, shape) =>
        if shape < 0 then .error .Undefined
        else
          (List.range shape.toNat).foldlM
            (visits_step (fun (i : Nat) =>
              var_visits type (wrap_i64 (start + wrap_i64 ((i : Int) * step)))))
            [{ depth := h.ndim.toNat, active := true, shape := shape }]
  | t@(.VarDimElem h type index _ _ _), linear_index =>
    if h.ndim = 0 then .ok []
    else
      match ndt_var_indices t linear_index with
      | .error e => .error e
      | .ok (start, step, shape) =>
        if shape < 0 then .error .Undefined
        else
          match get_index shape index with
          | .error e => .error e
          | .ok k =>
            match var_visits type (wrap_i64 (start + wrap_i64 (k * step))) with
            | .error e => .error e
            | .ok evs => .ok ({ depth := h.ndim.toNat, active := false, shape := 1 } :: evs)
  | t, _ => if t.ndim = 0 then .ok [] else .error .Undefined

/-- The bookkeeping of `var_copy_shapes` for a sequence of visited lists. -/
def replay_visits (write : Bool) (evs : List var_visit) (m : offsets_t) :
    Except ndt_error offsets_t :=
  evs.foldlM (fun m e => record_shape write m e.depth e.active e.shape) m

/-- The visits of depth `d`, in visiting order. -/
def visits_at (evs : List var_visit) (d : Nat) : List var_visit :=
  evs.filter (fun e => e.depth == d)

/-- The shapes of the lists visited at depth `d`, in visiting order. -/
def shapes_at (evs : List var_visit) (d : Nat) : List Int :=
  (visits_at evs d).map (fun e => e.shape)

/-- The flag `active[d]` behind the visits: the depth has been visited, and
the node met last is a `VarDim`. -/
def depth_active (evs : List var_visit) (d : Nat) : Bool :=
  ((visits_at evs d).getLast?.map (fun e => e.active)).getD false

/-- The offset tables of the var dimensions of a type, outermost first. -/
def var_tables : ndt_t → List (List Int)
  | .VarDim _ type _ offsets _ => offsets.getD [] :: var_tables type
  | _ => []

/-- The running sum of a list of shapes, starting at 0. -/
def running_sum (shapes : List Int) : List Int :=
  shapes.scanl (fun acc s => acc + s) 0

/-- The running sum in the arithmetic of the copy: `sum + (int32_t)shape`,
stored as `int32_t`. -/
def running_sum32 (shapes : List Int) : List Int :=
  shapes.scanl (fun acc s => wrap_i32 (acc + wrap_i32 s)) 0

/-- The depths `i + k - 1, ..., i + 1, i` that the copy keeps, outermost
first. -/
def kept_depths (evs : List var_visit) : Nat → Nat → List Nat
  | 0, _ => []
  | k + 1, i => kept_depths evs k (i + 1) ++ (if depth_active evs i then [i] else [])

/-- The offset arrays that `var_from_offsets_loop` wraps around the dtype from
depth `i` on, `k` depths to go, outermost first. -/
def loop_tables (m : offsets_t) : Nat → Nat → List (List Int)
  | 0, _ => []
  | k + 1, i =>
    loop_tables m k (i + 1) ++
      (if m.active.getD i false then [(m.offsets.getD i none).getD []] else [])

/-- The three arrays of the bookkeeping have `NDT_MAX_DIM + 1` entries. -/
def offsets_t.sized (m : offsets_t) : Prop :=
  m.active.length = 17 ∧ m.index.length = 17 ∧ m.offsets.length = 17

/-- The array of one depth after the stores of the second pass: from the
write index `c` on, every shape stores `arr[c] + (int32_t)shape` at `c + 1`. -/
def write_sums : List Int → Nat → List Int → List Int
  | arr, _, [] => arr
  | arr, c, s :: ss =>
    write_sums (arr.set (c + 1) (wrap_i32 (arr.getD c 0 + wrap_i32 s))) (c + 1) ss

/-- The type `var * var * float32` over the offsets `[0, 2]` and `[0, 3, 5]`
with the slice `[::2]` on the stack of the inner dimension. -/
def ex_var_sliced_float32 : ndt_t :=
  built ex_float32 (ndt_var_dim
    (built ex_float32 (ndt_var_dim ex_float32 [0, 3, 5]
      [{ start := 0, stop := INT64_MAX, step := 2 }] false))
    [0, 2] [] false)

/-- The contiguous copy of `ex_var_sliced_float32` over `int64`. -/
def ex_var_sliced_copy : ndt_t :=
  built ex_int64 (ndt_copy_contiguous_dtype ex_var_sliced_float32 ex_int64 0)

/-- The contiguous copy of `2 * 3 * int64` over `float64`. -/
def ex_2_3_copy : ndt_t :=
  built ex_float64 (ndt_copy_contiguous_dtype ex_2_3_int64 ex_float64 0)

/-! ## Examples of nested dimensions, modules and signatures -/

/-- The type `... * var * int64`: an unnamed ellipsis around the concrete
`ex_var`, as `ndt_ellipsis_dim` builds it. -/
def ex_ellipsis_var : ndt_t :=
  built ex_int64 (ndt_ellipsis_dim none ex_var)

/-- The type `... * int64`, as `ndt_ellipsis_dim` builds it. -/
def ex_ellipsis_int64 : ndt_t :=
  built ex_int64 (ndt_ellipsis_dim none ex_int64)

/-- The flexible array `array * ... * int64`, as `ndt_array` builds it. -/
def ex_array_ellipsis : ndt_t :=
  built ex_int64 (ndt_array ex_ellipsis_int64 false)

/-- The module `n` over `int64`, as `ndt_module` builds it. -/
def ex_module : ndt_t :=
  built ex_int64 (ndt_module "n" ex_int64)

/-! ## Examples of unions, signatures, large shapes and categories -/

/-- The reference `ref(int64)`, as `ndt_ref` builds it. -/
def ex_ref_int64 : ndt_t :=
  built ex_int64 (ndt_ref ex_int64 false)

/-- The members `a: ref(int64)` and `b: T` of an abstract union. -/
def ex_ref_T_fields : List ndt_field_t :=
  [plain_field (some "a") ex_ref_int64 none, abstract_field (some "b") ex_typevar_T]

/-- The members `a: ref(int64)` and `b: int64` of a concrete union. -/
def ex_ref_int64_fields : List ndt_field_t :=
  [plain_field (some "a") ex_ref_int64 none, plain_field (some "b") ex_int64 none]

/-- The type `2 * ... * int64` with a named ellipsis inside the fixed
dimension, as `ndt_ellipsis_dim` and `ndt_fixed_dim` build it. -/
def ex_fixed_ellipsis (name : String) : ndt_t :=
  built ex_int64 (ndt_fixed_dim (built ex_int64 (ndt_ellipsis_dim (some name) ex_int64)) 2 INT64_MAX)

/-- The type `...name * int64`, as `ndt_ellipsis_dim` builds it. -/
def ex_named_ellipsis (name : String) : ndt_t :=
  built ex_int64 (ndt_ellipsis_dim (some name) ex_int64)

def ex_int8 : ndt_t := prim .Int8 1 1

/-- The order of `cmp` as a relation. -/
def ndt_value_sorted (l : List ndt_value_t) : Prop :=
  l.Sorted (fun x y => ndt_value_le x y = true)

/-! ## References inside a term (specification level) -/

mutual
/-- The term contains a node with tag `Ref` at some depth, itself included. -/
def contains_ref : ndt_t → Bool
  | .Module _ _ type => contains_ref type
  | .Function _ _ _ _ types => contains_ref_list types
  | .FixedDim _ _ _ type _ _ => contains_ref type
  | .VarDim _ type _ _ _ => contains_ref type
  | .VarDimElem _ type _ _ _ _ => contains_ref type
  | .SymbolicDim _ _ _ type => contains_ref type
  | .EllipsisDim _ _ _ type => contains_ref type
  | .Array _ _ type => contains_ref type
  | .Tuple _ _ types _ _ _ => contains_ref_list types
  | .Record _ _ _ types _ _ _ => contains_ref_list types
  | .Union _ _ _ types => contains_ref_list types
  | .Ref _ _ => true
  | .Constr _ _ type => contains_ref type
  | .Nominal _ _ type => contains_ref type
  | .Categorical _ _ => false
  | .FixedString _ _ _ => false
  | .FixedBytes _ _ _ => false
  | .Bytes _ _ => false
  | .Char _ _ => false
  | .Typevar _ _ => false
  | .Scalar _ _ => false
/-- One of the terms contains a node with tag `Ref`. -/
def contains_ref_list : List ndt_t → Bool
  | [] => false
  | t :: ts => contains_ref t || contains_ref_list ts
end

mutual
/-- No flexible array inside the term (the term included) has a node with tag
`Ref` inside its element type. -/
def arrays_ref_free : ndt_t → Bool
  | .Module _ _ type => arrays_ref_free type
  | .Function _ _ _ _ types => arrays_ref_free_list types
  | .FixedDim _ _ _ type _ _ => arrays_ref_free type
  | .VarDim _ type _ _ _ => arrays_ref_free type
  | .VarDimElem _ type _ _ _ _ => arrays_ref_free type
  | .SymbolicDim _ _ _ type => arrays_ref_free type
  | .EllipsisDim _ _ _ type => arrays_ref_free type
  | .Array _ _ type => !contains_ref type && arrays_ref_free type
  | .Tuple _ _ types _ _ _ => arrays_ref_free_list types
  | .Record _ _ _ types _ _ _ => arrays_ref_free_list types
  | .Union _ _ _ types => arrays_ref_free_list types
  | .Ref _ type => arrays_ref_free type
  | .Constr _ _ type => arrays_ref_free type
  | .Nominal _ _ type => arrays_ref_free type
  | .Categorical _ _ => true
  | .FixedString _ _ _ => true
  | .FixedBytes _ _ _ => true
  | .Bytes _ _ => true
  | .Char _ _ => true
  | .Typevar _ _ => true
  | .Scalar _ _ => true
def arrays_ref_free_list : List ndt_t → Bool
  | [] => true
  | t :: ts => arrays_ref_free t && arrays_ref_free_list ts
end

mutual
/-- No scalar node inside the term carries the flag `NDT_REF`: `ndt_primitive`
stores the flags of its caller, and no caller in the sources passes that
flag. -/
def scalars_ref_free : ndt_t → Bool
  | .Module _ _ type => scalars_ref_free type
  | .Function _ _ _ _ types => scalars_ref_free_list types
  | .FixedDim _ _ _ type _ _ => scalars_ref_free type
  | .VarDim _ type _ _ _ => scalars_ref_free type
  | .VarDimElem _ type _ _ _ _ => scalars_ref_free type
  | .SymbolicDim _ _ _ type => scalars_ref_free type
  | .EllipsisDim _ _ _ type => scalars_ref_free type
  | .Array _ _ type => scalars_ref_free type
  | .Tuple _ _ types _ _ _ => scalars_ref_free_list types
  | .Record _ _ _ types _ _ _ => scalars_ref_free_list types
  | .Union _ _ _ types => scalars_ref_free_list types
  | .Ref _ type => scalars_ref_free type
  | .Constr _ _ type => scalars_ref_free type
  | .Nominal _ _ type => scalars_ref_free type
  | .Categorical _ _ => true
  | .FixedString _ _ _ => true
  | .FixedBytes _ _ _ => true
  | .Bytes _ _ => true
  | .Char _ _ => true
  | .Typevar _ _ => true
  | .Scalar _ h => !h.flags.REF
def scalars_ref_free_list : List ndt_t → Bool
  | [] => true
  | t :: ts => scalars_ref_free t && scalars_ref_free_list ts
end

/-- The flexible array of references `array * ref(int64)` as a term; no
constructor builds it. -/
def ex_array_ref : ndt_t :=
  .Array { access := .Concrete, flags := { POINTER := true, REF := true }, ndim := 1
           datasize := 16, align := 8 } 8 ex_ref_int64

/-- The node `t` passes on what its inner type `type` holds of references: the
flag `NDT_REF` and the three predicates above agree. -/
def same_refs (t type : ndt_t) : Prop :=
  t.flags.REF = type.flags.REF ∧ contains_ref t = contains_ref type ∧
  scalars_ref_free t = scalars_ref_free type ∧ arrays_ref_free t = arrays_ref_free type

/-- No slice of the stack yields an empty result when the slices are applied
in order to a list of `shape` items: every length that
`ndt_slice_adjust_indices` returns in the loop of `ndt_var_indices` is
positive. -/
def slices_non_empty : List ndt_slice_t → Int → Bool
  | [], _ => true
  | sl :: rest, shape =>
    decide (0 < (ndt_slice_adjust_indices shape sl.start sl.stop sl.step).1) &&
      slices_non_empty rest (ndt_slice_adjust_indices shape sl.start sl.stop sl.step).1

/-- The number of items of list `index` of a var dimension,
`offsets[index+1] - offsets[index]`. -/
def var_list_shape (t : ndt_t) (index : Int) : Int :=
  ((var_offsets t).getD []).getD (index.toNat + 1) 0 -
    ((var_offsets t).getD []).getD index.toNat 0

/-- The var dimension `var * int64` over the offsets `[1, 0]`, which are out of
order, as `ndt_var_dim` builds it. -/
def ex_var_unordered : ndt_t :=
  built ex_int64 (ndt_var_dim ex_int64 [1, 0] [] false)

/-! ## Nodes by constructor -/

/-- The node is a `VarDimElem`: the tag with its payload. -/
def is_var_dim_elem : ndt_t → Bool
  | .VarDimElem _ _ _ _ _ _ => true
  | _ => false

/-- The node is a `Union`: the tag with its payload. -/
def is_union : ndt_t → Bool
  | .Union _ _ _ _ => true
  | _ => false

/-- The node is one of the six dimension nodes (`FixedDim`, `VarDim`,
`VarDimElem`, `SymbolicDim`, `EllipsisDim`, `Array`). -/
def is_dim_node : ndt_t → Bool
  | .FixedDim _ _ _ _ _ _ => true
  | .VarDim _ _ _ _ _ => true
  | .VarDimElem _ _ _ _ _ _ => true
  | .SymbolicDim _ _ _ _ => true
  | .EllipsisDim _ _ _ _ => true
  | .Array _ _ _ => true
  | _ => false

/-- The inner type of a dimension node, its direct child. -/
def dim_inner : ndt_t → Option ndt_t
  | .FixedDim _ _ _ type _ _ => some type
  | .VarDim _ type _ _ _ => some type
  | .VarDimElem _ type _ _ _ _ => some type
  | .SymbolicDim _ _ _ type => some type
  | .EllipsisDim _ _ _ type => some type
  | .Array _ _ type => some type
  | _ => none

/-! ## Steps of contiguous arrays (specification level) -/

/-- The steps of a C-contiguous array, dimensions outermost first: every
dimension with `shape > 1` has the product of the shapes of the dimensions
inside it as its step (1 for the innermost dimension). -/
def c_steps : List ndt_t → Bool
  | [] => true
  | d :: ds =>
    (decide (fixed_shape d ≤ 1) || decide (fixed_dim_step d = (ds.map fixed_shape).prod)) &&
      c_steps ds

/-- The same with the product reduced to the range of `int64_t`, as the
unchecked multiplication of the loop leaves it. -/
def c_steps_wrapped : List ndt_t → Bool
  | [] => true
  | d :: ds =>
    (decide (fixed_shape d ≤ 1) ||
      decide (fixed_dim_step d = wrap_i64 ((ds.map fixed_shape).prod))) &&
      c_steps_wrapped ds

/-- For every dimension, the product of the shapes of the dimensions inside it
is an `int64_t`. -/
def products_fit : List ndt_t → Bool
  | [] => true
  | _ :: ds => fits_i64 ((ds.map fixed_shape).prod) && products_fit ds

/-- The empty tuple `()`, as `ndt_tuple` builds it: concrete, of size 0. -/
def ex_empty_tuple : ndt_t :=
  built ex_int64 (ndt_tuple .Nonvariadic [] none none false)

/-- The array `2 * 4294967296 * 4294967296 * ()` with the steps 0, 4294967296
and 1, as `ndt_fixed_dim` builds it with explicit steps. -/
def ex_wrapping_steps : ndt_t :=
  built ex_int64 (ndt_fixed_dim
    (built ex_int64 (ndt_fixed_dim
      (built ex_int64 (ndt_fixed_dim ex_empty_tuple 4294967296 1)) 4294967296 4294967296))
    2 0)

/-- The shape and the step of every dimension of a type, outermost first. -/
def dim_pairs (t : ndt_t) : List (Int × Int) :=
  (ndt_dims_dtype t).1.map (fun d => (fixed_shape d, fixed_dim_step d))

/-- The array over the dtype `d` with the given dimensions (shape and step),
outermost first: the nodes that `ndt_fixed_dim` builds over a concrete type
when it is given these steps and the data size does not overflow. -/
def fixed_nodes : List (Int × Int) → ndt_t → ndt_t
  | [], d => d
  | p :: rest, d =>
    .FixedDim
      { access := .Concrete
        flags := ({} : ndt_flags).or (ndt_dim_flags (fixed_nodes rest d))
        ndim := (fixed_nodes rest d).ndim + 1
        datasize := (fixed_datasize (fixed_nodes rest d) p.1 p.2
          (ndt_itemsize (fixed_nodes rest d)) false).1
        align := (fixed_nodes rest d).align }
      .RequireNA p.1 (fixed_nodes rest d) (ndt_itemsize (fixed_nodes rest d)) p.2

/-- The array with the dtype of `t` whose dimensions are those of `t` in
reverse order. -/
def reversed_array (t : ndt_t) : ndt_t :=
  fixed_nodes (dim_pairs t).reverse (ndt_dims_dtype t).2

/-- The Fortran-order copy of `2 * 3 * int64`. -/
def ex_2_3_fortran : ndt_t :=
  built ex_int64 (ndt_to_fortran ex_2_3_int64)

/-! ## Depth of a term and tables of concrete bindings -/

/-- The number of nodes with one inner type on the path from a term down its
inner types. -/
def ndt_depth : ndt_t → Nat
  | .Module _ _ type => ndt_depth type + 1
  | .FixedDim _ _ _ type _ _ => ndt_depth type + 1
  | .VarDim _ type _ _ _ => ndt_depth type + 1
  | .VarDimElem _ type _ _ _ _ => ndt_depth type + 1
  | .SymbolicDim _ _ _ type => ndt_depth type + 1
  | .EllipsisDim _ _ _ type => ndt_depth type + 1
  | .Array _ _ type => ndt_depth type + 1
  | .Ref _ type => ndt_depth type + 1
  | .Constr _ _ type => ndt_depth type + 1
  | .Nominal _ _ type => ndt_depth type + 1
  | _ => 0

/-- Every type that the table binds to a type variable is concrete. -/
def concrete_typevars (tbl : symtable_t) : Prop :=
  ∀ name v, symtable_find_typevar tbl name = some v → ndt_is_concrete v = true

/-- The binding `{T: T}` of the type variable `T` to itself. -/
def ex_tbl_self : symtable_t :=
  [("T", .TypeEntry ex_typevar_T)]

/-- The nodes for which `ndt_substitute` has a case of its own. -/
def substitute_case : ndt_t → Bool
  | .FixedDim _ _ _ _ _ _ => true
  | .VarDim _ _ _ _ _ => true
  | .SymbolicDim _ _ _ _ => true
  | .EllipsisDim _ _ _ _ => true
  | .Typevar _ _ => true
  | .Constr _ _ _ => true
  | .Nominal _ _ _ => true
  | .Ref _ _ => true
  | _ => false

/-- The number of `VarDim` nodes of a chain above its dtype (the node of
`ndim` 0, where `var_copy_shapes` returns); a `VarDimElem` node is not
counted. -/
def var_levels : ndt_t → Nat
  | .VarDim h type _ _ _ => if h.ndim = 0 then 0 else var_levels type + 1
  | .VarDimElem h type _ _ _ _ => if h.ndim = 0 then 0 else var_levels type
  | _ => 0

/-- Whether the node of depth `d` of a chain is a `VarDim`. -/
def level_active : ndt_t → Nat → Bool
  | .VarDim h type _ _ _, d =>
    if h.ndim = 0 then false
    else if h.ndim.toNat = d then true else level_active type d
  | .VarDimElem h type _ _ _ _, d =>
    if h.ndim = 0 then false
    else if h.ndim.toNat = d then false else level_active type d
  | _, _ => false

/-- The number of the depths `i, ..., i + k - 1` that satisfy `f`. -/
def count_depths (f : Nat → Bool) : Nat → Nat → Nat
  | 0, _ => 0
  | k + 1, i => count_depths f k (i + 1) + (if f i then 1 else 0)

/-- The type `var * var * float32` over the offsets `[0, 2]` and `[0, 3, 5]`
with the inner dimension fixed to the index 1 by `ndt_convert_to_var_elem`. -/
def ex_var_elem_float32 : ndt_t :=
  built ex_float32 (ndt_var_dim
    (built ex_float32 (ndt_convert_to_var_elem ex_var_float32 ex_float32 1))
    [0, 2] [] false)

/-- The type `var * var * float32` over the offsets `[0, 2]` and `[0, 3, 5]`
with the empty slice `[0:0]` on the stack of the outer dimension. -/
def ex_var_empty_outer : ndt_t :=
  built ex_float32 (ndt_var_dim ex_var_float32 [0, 2]
    [{ start := 0, stop := 0, step := 1 }] false)

/-- The contiguous copy of `ex_var_elem_float32` over `int64`. -/
def ex_var_elem_copy : ndt_t :=
  built ex_int64 (ndt_copy_contiguous_dtype ex_var_elem_float32 ex_int64 0)

/-- The node `fixed_bytes(size=-12, align=4)` as `ndt_fixed_bytes` builds it. -/
def ex_bytes_neg : ndt_t :=
  .FixedBytes { access := .Concrete, flags := {}, ndim := 0, datasize := -12, align := 4 }
    (-12) 4

/-- The pads that `init_concrete_fields` computes and stores before it compares
the explicit pads with them: the array `pad` behind the first loop, with the
pad of the last field (no pad if an attribute has raised an error before). -/
def computed_pads (fields : List ndt_field_t) (align_attr pack : Option Nat) : List Nat :=
  match get_align align_attr 1 with
  | .error _ => []
  | .ok maxalign =>
    match init_concrete_fields_loop pack fields 0 (init_layout maxalign) with
    | .error _ => []
    | .ok s =>
      s.pad ++ last_pad fields s.offsets (round_up s.offset s.maxalign s.overflow).1

/-- Some field declares an explicit pad that differs from the pad computed for
that field. -/
def computed_pad_mismatch (fields : List ndt_field_t) (align_attr pack : Option Nat) : Prop :=
  ∃ i f, fields.get? i = some f ∧ f.explicit_pad = true ∧
    f.pad ≠ (computed_pads fields align_attr pack).getD i 0

/-- The fields of the tuple `(fixed_bytes(size=-12, align=4), int32)`, with an
optional explicit pad on the first field. -/
def ex_neg_fields (pad : Option Nat) : List ndt_field_t :=
  [plain_field none ex_bytes_neg pad, plain_field none ex_int32 none]

/-- The fixed dimensions that the library builds: a node with tag `FixedDim`
comes from `ndt_fixed_dim`, directly or through `ndt_fixed_dim_tag`, over a
type that is no fixed dimension or is a fixed dimension built in this way. -/
inductive fixed_built : ndt_t → Prop
  | base (d : ndt_t) : d.tag ≠ .FixedDim → fixed_built d
  | dim (type t : ndt_t) (shape step : Int) :
      fixed_built type → ndt_fixed_dim type shape step = .ok t → fixed_built t
  | dim_tag (type t : ndt_t) (tag : ndt_contig) (shape step : Int) :
      fixed_built type → ndt_fixed_dim_tag type tag shape step = .ok t → fixed_built t

/-- The data size of an array against its itemsize: the array is empty, or its
size is at least one item, on the side of the sign of the itemsize. -/
def size_inv (t : ndt_t) : Prop :=
  t.datasize = 0 ∨ (0 < ndt_itemsize t ∧ ndt_itemsize t ≤ t.datasize) ∨
    (ndt_itemsize t < 0 ∧ t.datasize ≤ ndt_itemsize t)

/-- The array `2 * 3 * int64`, built with `ndt_fixed_dim` and the default
step. -/
def ex_2_3_array : ndt_t :=
  built ex_int64 (fixed_array [2, 3] ex_int64)

/-- The array `4294967296 * ()` over the empty tuple with the step
4294967296. -/
def ex_wide_empty : ndt_t :=
  built ex_empty_tuple (ndt_fixed_dim ex_empty_tuple 4294967296 4294967296)

/-- The type variable at the end of the path of inner types that
`ndt_substitute` follows from a term (through dimensions, `Constr` and `Ref`),
if the path ends in one. -/
def inner_typevar : ndt_t → Option String
  | .FixedDim _ _ _ type _ _ => inner_typevar type
  | .VarDim _ type _ _ _ => inner_typevar type
  | .VarDimElem _ type _ _ _ _ => inner_typevar type
  | .SymbolicDim _ _ _ type => inner_typevar type
  | .EllipsisDim _ _ _ type => inner_typevar type
  | .Array _ _ type => inner_typevar type
  | .Constr _ _ type => inner_typevar type
  | .Ref _ type => inner_typevar type
  | .Typevar _ name => some name
  | _ => none

/-- The bindings of the type variables have no cycle: `rank` falls along them.
A binding is a concrete type, or the type variable that its path of inner types
ends in, if any, has a smaller rank than the variable that is bound. -/
def acyclic_typevars (tbl : symtable_t) (rank : String → Nat) : Prop :=
  ∀ name v, symtable_find_typevar tbl name = some v →
    ndt_is_concrete v = true ∨ ∀ m, inner_typevar v = some m → rank m < rank name

/-- The type variable `S`, as `ndt_typevar` builds it. -/
def ex_typevar_S : ndt_t :=
  .Typevar (ndt_new_hdr {}) "S"

/-- The bindings `{T: 2 * S, S: int64}`: the binding of `T` is an abstract
type that mentions the type variable `S`. -/
def ex_tbl_T_S : symtable_t :=
  [("T", .TypeEntry (built ex_typevar_S (ndt_fixed_dim ex_typevar_S 2 INT64_MAX))),
   ("S", .TypeEntry ex_int64)]

/-- A rank for `ex_tbl_T_S`: 1 for `T`, 0 for every other name. -/
def ex_rank_T_S (name : String) : Nat :=
  if name = "T" then 1 else 0

/-- Offsets that the first loop of `init_concrete_fields` computes from the
running end `cur` when no overflow is flagged: each offset is the helper
`round_up` of the running end. -/
def offsets_computed (pack : Option Nat) : Int → List ndt_field_t → List Int
  | _, [] => []
  | cur, f :: fs =>
    (round_up cur (effective_align pack f) false).1 ::
      offsets_computed pack
        ((round_up cur (effective_align pack f) false).1 + f.type.datasize) fs

/-- Pads that the first loop of `init_concrete_fields` computes from the
running end `cur`: the gap in front of each field as `uint16_t`. -/
def gaps_computed (pack : Option Nat) : Int → List ndt_field_t → List Nat
  | _, [] => []
  | cur, f :: fs =>
    wrap_u16 ((round_up cur (effective_align pack f) false).1 - cur) ::
      gaps_computed pack
        ((round_up cur (effective_align pack f) false).1 + f.type.datasize) fs

/-- Running end behind the last field in the first loop of
`init_concrete_fields`, from the running end `cur`. -/
def end_computed (pack : Option Nat) : Int → List ndt_field_t → Int
  | cur, [] => cur
  | cur, f :: fs =>
    end_computed pack
      ((round_up cur (effective_align pack f) false).1 + f.type.datasize) fs

/-- A concrete field whose alignment is a positive `uint16_t`, as `ndt_field`
builds it; nothing is asked of the size. -/
def aligned_field (f : ndt_field_t) : Prop :=
  f.access = .Concrete ∧ 0 < f.align ∧ f.align ≤ UINT16_MAX

/-- The layout of a concrete tuple or record in terms of the helper `round_up`
of the library (`((x + align - 1) / align) * align` with the truncating
division of C), read on the node `t` built from `fields`: the three arrays have
one entry per field, `align[i]` is the effective alignment, the first offset is
0, each further offset is `round_up` of the end of the field before and the
alignment of the field, each pad is the gap to the next offset as `uint16_t`,
the alignment of the node is the maximum of the attribute (default 1) and all
field alignments, and the size is `round_up` of the end of the last field and
that alignment, the last pad being the gap to the size as `uint16_t`. -/
def tuple_layout_computed (fields : List ndt_field_t) (align_attr pack : Option Nat)
    (t : ndt_t) : Prop :=
  (tuple_offset t).length = fields.length ∧
  (tuple_align t).length = fields.length ∧
  (tuple_pad t).length = fields.length ∧
  (∀ i, i < fields.length → (tuple_align t).getD i 0 = field_eff_align pack fields i) ∧
  (0 < fields.length → (tuple_offset t).getD 0 0 = 0) ∧
  (∀ i, i + 1 < fields.length →
    (tuple_offset t).getD (i + 1) 0 =
      (round_up ((tuple_offset t).getD i 0 + field_size fields i)
        (field_eff_align pack fields (i + 1)) false).1 ∧
    (tuple_pad t).getD i 0 =
      wrap_u16 ((tuple_offset t).getD (i + 1) 0 -
        ((tuple_offset t).getD i 0 + field_size fields i))) ∧
  t.align = (fields.map (effective_align pack)).foldl max (align_attr.getD 1) ∧
  (fields.length = 0 → t.datasize = 0) ∧
  (0 < fields.length →
    t.datasize =
      (round_up ((tuple_offset t).getD (fields.length - 1) 0 +
        field_size fields (fields.length - 1)) t.align false).1 ∧
    (tuple_pad t).getD (fields.length - 1) 0 =
      wrap_u16 (t.datasize - ((tuple_offset t).getD (fields.length - 1) 0 +
        field_size fields (fields.length - 1))))

/-! # Theorems -/

/-! ## Arithmetic of the layout -/

theorem wrap_i64_of_fits {x : Int} (h : fits_i64 x = true) : wrap_i64 x = x := by
  simp only [fits_i64, INT64_MIN, INT64_MAX, Bool.and_eq_true, decide_eq_true_eq] at h
  unfold wrap_i64
  omega

/-- The size computation of `ndt_union_new` does not overflow for a count of
moderate size, negative counts included. -/
theorem union_size_fits (n : Int) (h0 : -576460752303423488 ≤ n)
    (h1 : n ≤ 576460752303423487) :
    (MULi64 2 (MULi64 n sizeof_ptr false).1 (MULi64 n sizeof_ptr false).2).2 = false := by
  have f1 : fits_i64 (n * 8) = true := by
    simp only [fits_i64, INT64_MIN, INT64_MAX, Bool.and_eq_true, decide_eq_true_eq]
    omega
  have f2 : fits_i64 (2 * (n * 8)) = true := by
    simp only [fits_i64, INT64_MIN, INT64_MAX, Bool.and_eq_true, decide_eq_true_eq]
    omega
  simp only [MULi64, sizeof_ptr, wrap_i64_of_fits f1, f1, f2, Bool.not_true, Bool.or_self]

/-- For an array of exactly `ntags` fields, `ndt_union` is `ndt_union_list`. -/
theorem ndt_union_eq_list (fields : List ndt_field_t) (opt : Bool) :
    ndt_union (some fields) fields.length opt = ndt_union_list fields opt := by
  unfold ndt_union ndt_union_list
  simp only []
  by_cases h0 : fields.length = 0
  · have h0i : (fields.length : Int) = 0 := by omega
    rw [if_pos h0, if_pos h0i]
  · have h0i : ¬ (fields.length : Int) = 0 := by omega
    rw [if_neg h0, if_neg h0i]
    by_cases h1 : fields.length > 255
    · have h1i : (fields.length : Int) > 255 := by omega
      rw [if_pos h1, if_pos h1i]
    · have h1i : ¬ (fields.length : Int) > 255 := by omega
      rw [if_neg h1, if_neg h1i, if_neg (lt_irrefl _), Int.toNat_ofNat, List.take_length]
      unfold union_node
      cases check_fields_invariants fields with
      | error e => rfl
      | ok v =>
        simp only []
        rw [union_size_fits _ (by omega) (by omega)]
        rfl

theorem round_up_spec_bounds (x : Int) (a : Nat) (ha : 0 < a) :
    x ≤ round_up_spec x a ∧ round_up_spec x a < x + a ∧ round_up_spec x a % (a : Int) = 0 := by
  unfold round_up_spec
  have ha' : (0 : Int) < (a : Int) := by exact_mod_cast ha
  have h1 := Int.ediv_add_emod (x + (a : Int) - 1) (a : Int)
  have h2 := Int.emod_nonneg (x + (a : Int) - 1) (ne_of_gt ha')
  have h3 := Int.emod_lt_of_pos (x + (a : Int) - 1) ha'
  have h4 : (x + (a : Int) - 1) / (a : Int) * (a : Int) = (a : Int) * ((x + (a : Int) - 1) / (a : Int)) := by ring
  refine ⟨by omega, by omega, ?_⟩
  exact Int.mul_emod_left _ _

theorem round_up_exact {x : Int} {a : Nat} {ov : Bool} (hx : 0 ≤ x) (ha : 0 < a)
    (h : (round_up x a ov).2 = false) :
    ov = false ∧ (round_up x a ov).1 = round_up_spec x a := by
  simp only [round_up, ADDi64, Bool.or_eq_false_iff, Bool.not_eq_false'] at h
  obtain ⟨h1, h2⟩ := h
  refine ⟨h1, ?_⟩
  simp only [round_up, ADDi64]
  rw [wrap_i64_of_fits h2]
  unfold round_up_spec
  have ha' : (0 : Int) < (a : Int) := by exact_mod_cast ha
  rw [Int.tdiv_eq_ediv (by omega) (by omega)]
  congr 2
  omega

theorem ADDi64_exact {a b : Int} {ov : Bool} (h : (ADDi64 a b ov).2 = false) :
    ov = false ∧ (ADDi64 a b ov).1 = a + b := by
  simp only [ADDi64, Bool.or_eq_false_iff, Bool.not_eq_false'] at h
  exact ⟨h.1, wrap_i64_of_fits h.2⟩

theorem wrap_u16_of_lt {x : Int} (h0 : 0 ≤ x) (h1 : x < 65536) : wrap_u16 x = x.toNat := by
  unfold wrap_u16
  rw [Int.emod_eq_of_lt h0 h1]

theorem step_overflow_mono {i : Nat} {s : fields_layout} {a : Nat} {f : ndt_field_t}
    (h : (init_concrete_fields_step i s a f).overflow = false) : s.overflow = false := by
  simp only [init_concrete_fields_step] at h
  have h1 := (ADDi64_exact h).1
  by_cases hi : i > 0
  · simp only [hi, if_true] at h1
    simp only [round_up, ADDi64, Bool.or_eq_false_iff] at h1
    exact h1.1
  · simpa only [hi, if_false] using h1

theorem loop_overflow_mono (pack : Option Nat) :
    ∀ (fs : List ndt_field_t) (i : Nat) (s s' : fields_layout),
      init_concrete_fields_loop pack fs i s = .ok s' → s'.overflow = false →
      s.overflow = false := by
  intro fs
  induction fs with
  | nil =>
    intro i s s' h hov
    simp only [init_concrete_fields_loop, Except.ok.injEq] at h
    rw [h]; exact hov
  | cons f fs ih =>
    intro i s s' h hov
    simp only [init_concrete_fields_loop] at h
    split at h
    · cases h
    · exact step_overflow_mono (ih _ _ _ h hov)

theorem field_align_ok {pack : Option Nat} {f : ndt_field_t} {a : Nat}
    (h : field_align pack f = .ok a) : a = effective_align pack f := by
  unfold field_align at h
  unfold effective_align
  split at h
  · split at h
    · cases h
    · cases h; rfl
  · cases h; rfl

theorem step_pos_exact {i : Nat} {s : fields_layout} {a : Nat} {f : ndt_field_t}
    (hi : 0 < i) (h0 : 0 ≤ s.offset) (ha : 0 < a) (hale : a ≤ UINT16_MAX)
    (h : (init_concrete_fields_step i s a f).overflow = false) :
    init_concrete_fields_step i s a f =
      { offsets := s.offsets ++ [round_up_spec s.offset a]
        align := s.align ++ [a]
        pad := s.pad ++ [(round_up_spec s.offset a - s.offset).toNat]
        offset := round_up_spec s.offset a + f.type.datasize
        maxalign := max_u16 a s.maxalign
        overflow := false } := by
  simp only [init_concrete_fields_step, hi, if_true, gt_iff_lt] at h ⊢
  obtain ⟨e2, e3⟩ := ADDi64_exact h
  obtain ⟨_, e5⟩ := round_up_exact h0 ha e2
  have hb := round_up_spec_bounds s.offset a ha
  rw [h, e3, e5, wrap_u16_of_lt (by omega) (by simp only [UINT16_MAX] at hale; omega)]

theorem init_loop_pos (pack : Option Nat) :
    ∀ (fs : List ndt_field_t) (i : Nat) (s s' : fields_layout),
      0 < i → 0 ≤ s.offset → (∀ f ∈ fs, loop_ok pack f) →
      init_concrete_fields_loop pack fs i s = .ok s' → s'.overflow = false →
      s'.offsets = s.offsets ++ offsets_from pack s.offset fs ∧
      s'.align = s.align ++ fs.map (effective_align pack) ∧
      s'.pad = s.pad ++ gaps_from pack s.offset fs ∧
      s'.offset = end_from pack s.offset fs ∧
      s'.maxalign = (fs.map (effective_align pack)).foldl (fun m a => max_u16 a m) s.maxalign ∧
      0 ≤ s'.offset := by
  intro fs
  induction fs with
  | nil =>
    intro i s s' _ h0 _ h hov
    simp only [init_concrete_fields_loop, Except.ok.injEq] at h
    subst h
    simp [offsets_from, gaps_from, end_from, h0]
  | cons f fs ih =>
    intro i s s' hi h0 hok h hov
    obtain ⟨hd, hapos, hale⟩ := hok f (List.mem_cons_self _ _)
    have hfs : ∀ g ∈ fs, loop_ok pack g := fun g hg => hok g (List.mem_cons_of_mem _ hg)
    simp only [init_concrete_fields_loop] at h
    split at h
    · cases h
    · rename_i a ha
      have ha' := field_align_ok ha
      subst ha'
      have hs1 := step_pos_exact (f := f) hi h0 hapos hale (loop_overflow_mono pack _ _ _ _ h hov)
      rw [hs1] at h
      have hb := round_up_spec_bounds s.offset _ hapos
      obtain ⟨r2, r3, r4, r5, r6, r7⟩ := ih (i + 1) _ s' (Nat.succ_pos _) (by simp only; omega) hfs h hov
      simp only at r2 r3 r4 r5 r6
      refine ⟨?_, ?_, ?_, ?_, ?_, r7⟩
      · rw [r2]; simp [offsets_from]
      · rw [r3]; simp
      · rw [r4]; simp [gaps_from]
      · rw [r5]; simp [end_from]
      · rw [r6]; simp

theorem round_up_spec_zero {a : Nat} (ha : 0 < a) : round_up_spec 0 a = 0 := by
  have h := round_up_spec_bounds 0 a ha
  have h1 : (0 : Int) < (a : Int) := by exact_mod_cast ha
  obtain ⟨h2, h3, h4⟩ := h
  have h5 := Int.emod_emod_of_dvd (round_up_spec 0 a) (dvd_refl (a : Int))
  rcases Int.emod_two_eq (0 : Int) with _ | _ <;>
  · have h6 := Int.emod_eq_of_lt h2 (by omega : round_up_spec 0 a < (a : Int))
    omega

theorem offsets_from_length (pack : Option Nat) :
    ∀ (fs : List ndt_field_t) (cur : Int), (offsets_from pack cur fs).length = fs.length := by
  intro fs
  induction fs with
  | nil => intro cur; rfl
  | cons f fs ih => intro cur; simp [offsets_from, ih]

theorem gaps_from_length (pack : Option Nat) :
    ∀ (fs : List ndt_field_t) (cur : Int), (gaps_from pack cur fs).length = fs.length := by
  intro fs
  induction fs with
  | nil => intro cur; rfl
  | cons f fs ih => intro cur; simp [gaps_from, ih]

theorem offsets_from_succ (pack : Option Nat) :
    ∀ (fs : List ndt_field_t) (cur : Int) (i : Nat), i + 1 < fs.length →
      (offsets_from pack cur fs).getD (i + 1) 0 =
        round_up_spec ((offsets_from pack cur fs).getD i 0 + field_size fs i)
          (field_eff_align pack fs (i + 1)) := by
  intro fs
  induction fs with
  | nil => intro cur i h; simp at h
  | cons f fs ih =>
    intro cur i h
    cases fs with
    | nil => simp at h
    | cons g rest =>
      cases i with
      | zero =>
        simp [offsets_from, field_size, field_eff_align]
      | succ j =>
        have := ih (round_up_spec cur (effective_align pack f) + f.type.datasize) j
          (by simpa using h)
        simpa [offsets_from, field_size, field_eff_align] using this

theorem gaps_from_succ (pack : Option Nat) :
    ∀ (fs : List ndt_field_t) (cur : Int) (i : Nat), (∀ f ∈ fs, loop_ok pack f) →
      i + 1 < fs.length →
      ((gaps_from pack cur fs).getD (i + 1) 0 : Int) =
        (offsets_from pack cur fs).getD (i + 1) 0 -
          ((offsets_from pack cur fs).getD i 0 + field_size fs i) := by
  intro fs
  induction fs with
  | nil => intro cur i _ h; simp at h
  | cons f fs ih =>
    intro cur i hok h
    cases fs with
    | nil => simp at h
    | cons g rest =>
      cases i with
      | zero =>
        have hg := hok g (by simp)
        have hb := round_up_spec_bounds (round_up_spec cur (effective_align pack f) + f.type.datasize)
          (effective_align pack g) hg.2.1
        simp only [gaps_from, offsets_from, field_size, List.getD_cons_succ, List.getD_cons_zero,
          List.map_cons, zero_add]
        omega
      | succ j =>
        have := ih (round_up_spec cur (effective_align pack f) + f.type.datasize) j
          (fun x hx => hok x (List.mem_cons_of_mem _ hx)) (by simpa using h)
        simpa [offsets_from, gaps_from, field_size] using this

theorem offsets_from_last (pack : Option Nat) :
    ∀ (fs : List ndt_field_t) (cur : Int), 0 < fs.length →
      (offsets_from pack cur fs).getD (fs.length - 1) 0 + field_size fs (fs.length - 1) =
        end_from pack cur fs := by
  intro fs
  induction fs with
  | nil => intro cur h; simp at h
  | cons f fs ih =>
    intro cur _
    cases fs with
    | nil => simp [offsets_from, end_from, field_size]
    | cons g rest =>
      have := ih (round_up_spec cur (effective_align pack f) + f.type.datasize) (by simp)
      simpa [offsets_from, end_from, field_size] using this

theorem offsets_from_getLast (pack : Option Nat) :
    ∀ (fs : List ndt_field_t) (cur : Int),
      (offsets_from pack cur fs).getLast? =
        if fs.length = 0 then none else some ((offsets_from pack cur fs).getD (fs.length - 1) 0) := by
  intro fs cur
  have hl := offsets_from_length pack fs cur
  rw [List.getLast?_eq_getElem?, hl]
  split
  · rename_i h; simp [List.length_eq_zero.mp h, offsets_from]
  · rename_i h
    rw [List.getD_eq_getElem?_getD, List.getElem?_eq_getElem (by omega)]
    simp

theorem fields_getLast (fs : List ndt_field_t) (f : ndt_field_t) (h : fs.getLast? = some f) :
    0 < fs.length ∧ f.type.datasize = field_size fs (fs.length - 1) := by
  rw [List.getLast?_eq_getElem?] at h
  have hlen : 0 < fs.length := by
    rcases fs with _ | ⟨a, l⟩
    · simp at h
    · simp
  refine ⟨hlen, ?_⟩
  simp [field_size, List.getD_eq_getElem?_getD, List.getElem?_map, h]

theorem ispower2_pos {n : Nat} (h : ispower2 n = true) : 0 < n := by
  unfold ispower2 at h
  simp only [Bool.and_eq_true, bne_iff_ne, ne_eq] at h
  omega

theorem get_align_ok {a : Option Nat} {m : Nat} (h : get_align a 1 = .ok m) :
    m = a.getD 1 ∧ 0 < m := by
  unfold get_align at h
  split at h
  · rename_i x
    split at h
    · cases h
    · rename_i hp
      cases h
      exact ⟨rfl, ispower2_pos (by simpa [align_ispower2] using hp)⟩
  · cases h; exact ⟨rfl, Nat.one_pos⟩

theorem foldl_max_u16 (l : List Nat) (m : Nat) :
    l.foldl (fun m a => max_u16 a m) m = l.foldl max m := by
  induction l generalizing m with
  | nil => rfl
  | cons a l ih =>
    simp only [List.foldl_cons]
    rw [ih]
    congr 1

theorem foldl_max_bounds (l : List Nat) (m b : Nat) (hm : m ≤ b) (hl : ∀ a ∈ l, a ≤ b) :
    m ≤ l.foldl max m ∧ l.foldl max m ≤ b := by
  induction l generalizing m with
  | nil => exact ⟨le_refl _, hm⟩
  | cons a l ih =>
    simp only [List.foldl_cons]
    have h1 := ih (max m a) (by have := hl a (List.mem_cons_self _ _); omega)
      (fun x hx => hl x (List.mem_cons_of_mem _ hx))
    exact ⟨by omega, h1.2⟩

theorem loop_ok_of_concrete {pack : Option Nat} {fields : List ndt_field_t}
    (hwf : ∀ f ∈ fields, concrete_field f) (hp : attr_u16 pack)
    (hpack : ∀ p, pack = some p → 0 < p) : ∀ f ∈ fields, loop_ok pack f := by
  intro f hf
  obtain ⟨_, hd, h1, h2⟩ := hwf f hf
  refine ⟨hd, ?_, ?_⟩
  · unfold effective_align
    split
    · exact hpack _ rfl
    · exact h1
  · unfold effective_align
    split
    · exact hp _ rfl
    · exact h2

/-- The closed form of the layout stage of `init_concrete_fields`: the state
after the first loop and the rounded size, when no overflow is flagged. -/
theorem layout_stage_closed {fields : List ndt_field_t} {align pack : Option Nat}
    {m0 : Nat} {s : fields_layout} (hok : ∀ f ∈ fields, loop_ok pack f)
    (hm0e : m0 = align.getD 1) (hm0pos : 0 < m0) (hm0le : m0 ≤ UINT16_MAX)
    (hs : init_concrete_fields_loop pack fields 0 (init_layout m0) = .ok s)
    (hsz : (round_up s.offset s.maxalign s.overflow).2 = false) :
    s.offsets = offsets_from pack 0 fields ∧
    s.align = fields.map (effective_align pack) ∧
    s.pad ++ last_pad fields s.offsets (round_up s.offset s.maxalign s.overflow).1 =
      natural_pads fields align pack ∧
    s.maxalign = (fields.map (effective_align pack)).foldl max (align.getD 1) ∧
    (round_up s.offset s.maxalign s.overflow).1 =
      round_up_spec (end_from pack 0 fields) s.maxalign ∧
    0 < s.maxalign ∧ s.maxalign ≤ UINT16_MAX ∧ 0 ≤ end_from pack 0 fields := by
  have hmax : ∀ (l : List ndt_field_t), (∀ f ∈ l, loop_ok pack f) → ∀ m, 0 < m → m ≤ UINT16_MAX →
      0 < (l.map (effective_align pack)).foldl max m ∧
      (l.map (effective_align pack)).foldl max m ≤ UINT16_MAX := by
    intro l hl m hm1 hm2
    have := foldl_max_bounds (l.map (effective_align pack)) m UINT16_MAX hm2
      (by intro a ha'; simp only [List.mem_map] at ha'; obtain ⟨f, hf, rfl⟩ := ha'; exact (hl f hf).2.2)
    omega
  unfold init_layout at hs
  cases fields with
  | nil =>
    simp only [init_concrete_fields_loop, Except.ok.injEq] at hs
    subst hs
    simp only at hsz ⊢
    obtain ⟨_, e⟩ := round_up_exact (le_refl 0) hm0pos hsz
    refine ⟨rfl, rfl, rfl, hm0e, ?_, hm0pos, hm0le, le_refl 0⟩
    rw [e]
    rfl
  | cons f fs =>
    simp only [init_concrete_fields_loop] at hs
    split at hs
    · cases hs
    rename_i a hfa
    have hae := field_align_ok hfa
    obtain ⟨hd, hapos, hale⟩ := hok f (List.mem_cons_self _ _)
    have hfs : ∀ g ∈ fs, loop_ok pack g := fun g hg => hok g (List.mem_cons_of_mem _ hg)
    have hsov : s.overflow = false := by
      simp only [round_up, ADDi64, Bool.or_eq_false_iff] at hsz
      exact hsz.1
    have h1ov := loop_overflow_mono pack _ _ _ _ hs hsov
    have hstep : init_concrete_fields_step 0
        { offsets := [], align := [], pad := [], offset := 0, maxalign := m0, overflow := false } a f =
        { offsets := [0], align := [a], pad := [], offset := f.type.datasize
          maxalign := max_u16 a m0, overflow := false } := by
      simp only [init_concrete_fields_step, gt_iff_lt, lt_self_iff_false, if_false] at h1ov ⊢
      obtain ⟨_, e⟩ := ADDi64_exact h1ov
      rw [h1ov, e]
      simp
    rw [hstep] at hs
    obtain ⟨r2, r3, r4, r5, r6, r7⟩ := init_loop_pos pack fs 1 _ s Nat.one_pos hd hfs hs hsov
    simp only at r2 r3 r4 r5 r6
    have hz := round_up_spec_zero hapos
    have hmaxeq : s.maxalign = ((f :: fs).map (effective_align pack)).foldl max (align.getD 1) := by
      rw [r6, foldl_max_u16, List.map_cons, List.foldl_cons, ← hae, ← hm0e]
      congr 1
    have hmb := hmax (f :: fs) hok (align.getD 1) (hm0e ▸ hm0pos) (hm0e ▸ hm0le)
    rw [← hmaxeq] at hmb
    have hend : end_from pack 0 (f :: fs) = s.offset := by
      rw [r5]; simp only [end_from, hz, zero_add]
    obtain ⟨_, e⟩ := round_up_exact r7 hmb.1 hsz
    refine ⟨?_, ?_, ?_, hmaxeq, ?_, hmb.1, hmb.2, hend ▸ r7⟩
    · rw [r2]; simp only [offsets_from, hz, zero_add, List.singleton_append]
    · rw [r3, hae]; simp
    · unfold natural_pads
      rw [r4, hend, e, ← hmaxeq]
      simp only [gaps_from, hz, zero_add, List.tail_cons, List.nil_append, List.length_cons,
        Nat.add_one_ne_zero, if_false]
      congr 1
      -- the pad of the last field
      have hb := round_up_spec_bounds s.offset s.maxalign hmb.1
      have hl : (f :: fs).getLast? = some ((f :: fs).getLast (by simp)) := List.getLast?_eq_getLast _ _
      have ho := offsets_from_getLast pack (f :: fs) 0
      have hlast := offsets_from_last pack (f :: fs) 0 (by simp)
      obtain ⟨_, hfl⟩ := fields_getLast _ _ hl
      have ho2 : (s.offsets).getLast? = some ((offsets_from pack 0 (f :: fs)).getD ((f :: fs).length - 1) 0) := by
        rw [r2]
        have : [0] ++ offsets_from pack f.type.datasize fs = offsets_from pack 0 (f :: fs) := by
          simp only [offsets_from, hz, zero_add, List.singleton_append]
        rw [this, ho]; simp
      unfold last_pad
      rw [hl, ho2]
      simp only
      rw [hfl, wrap_u16_of_lt (by omega) (by simp only [UINT16_MAX] at hmb; omega)]
      congr 2
      omega
    · rw [e, hend]

/-- What a successful `get_align` of both attributes says about them. -/
theorem attrs_ok {fields : List ndt_field_t} {align pack : Option Nat} {m0 p0 : Nat}
    (hwf : ∀ f ∈ fields, concrete_field f) (ha : attr_u16 align) (hp : attr_u16 pack)
    (hm0 : get_align align 1 = .ok m0) (hp0 : get_align pack 1 = .ok p0) :
    (∀ f ∈ fields, loop_ok pack f) ∧ m0 = align.getD 1 ∧ 0 < m0 ∧ m0 ≤ UINT16_MAX := by
  obtain ⟨hm0e, hm0pos⟩ := get_align_ok hm0
  have hpackpos : ∀ p, pack = some p → 0 < p := by
    intro p hpp
    subst hpp
    have := get_align_ok hp0
    simp only [Option.getD_some] at this
    exact this.1 ▸ this.2
  have hm0le : align.getD 1 ≤ UINT16_MAX := by
    cases align with
    | none => simp [UINT16_MAX]
    | some x => exact ha x rfl
  exact ⟨loop_ok_of_concrete hwf hp hpackpos, hm0e, hm0pos, hm0e ▸ hm0le⟩

/-- The closed form of a successful `init_concrete_fields`. -/
theorem init_concrete_fields_closed {fields : List ndt_field_t} {align pack : Option Nat}
    {c : concrete_fields} (hwf : ∀ f ∈ fields, concrete_field f)
    (ha : attr_u16 align) (hp : attr_u16 pack)
    (h : init_concrete_fields fields align pack = .ok c) :
    (∀ f ∈ fields, loop_ok pack f) ∧
    c.offsets = offsets_from pack 0 fields ∧
    c.align = fields.map (effective_align pack) ∧
    c.pad = natural_pads fields align pack ∧
    c.maxalign = (fields.map (effective_align pack)).foldl max (align.getD 1) ∧
    c.size = round_up_spec (end_from pack 0 fields) c.maxalign ∧
    0 < c.maxalign ∧ c.maxalign ≤ UINT16_MAX ∧ 0 ≤ end_from pack 0 fields := by
  unfold init_concrete_fields at h
  split at h
  · cases h
  rename_i m0 hm0
  split at h
  · cases h
  rename_i p0 hp0
  obtain ⟨hok, hm0e, hm0pos, hm0le⟩ := attrs_ok hwf ha hp hm0 hp0
  split at h
  · cases h
  rename_i s hs
  simp only at h
  split at h
  · cases h
  split at h
  · cases h
  rename_i hsz
  simp only [Bool.not_eq_true] at hsz
  cases h
  obtain ⟨r1, r2, r3, r4, r5, r6, r7, r8⟩ := layout_stage_closed hok hm0e hm0pos hm0le hs hsz
  exact ⟨hok, r1, r2, r3, r4, r5, r6, r7, r8⟩

/-! ## Tuples and records -/

theorem getD_tail_append {α : Type} (l x : List α) (d : α) (i : Nat) (h : i + 1 < l.length) :
    (l.tail ++ x).getD i d = l.getD (i + 1) d := by
  cases l with
  | nil => simp at h
  | cons a l =>
    simp only [List.tail_cons, List.getD_cons_succ]
    simp only [List.length_cons, Nat.add_lt_add_iff_right] at h
    rw [List.getD_append _ _ _ _ h]

theorem getD_tail_append_last {α : Type} (l : List α) (x d : α) (h : 0 < l.length) :
    (l.tail ++ [x]).getD (l.length - 1) d = x := by
  cases l with
  | nil => simp at h
  | cons a l =>
    simp only [List.tail_cons, List.length_cons, Nat.add_sub_cancel]
    rw [List.getD_append_right _ _ _ _ (le_refl _)]
    simp

/-- The layout stored by a successful `init_concrete_fields` obeys the layout
rules. -/
theorem tuple_layout_of_closed {fields : List ndt_field_t} {align pack : Option Nat}
    {c : concrete_fields} {t : ndt_t} (hwf : ∀ f ∈ fields, concrete_field f)
    (ha : attr_u16 align) (hp : attr_u16 pack)
    (h : init_concrete_fields fields align pack = .ok c)
    (h1 : tuple_offset t = c.offsets) (h2 : tuple_align t = c.align)
    (h3 : tuple_pad t = c.pad) (h4 : t.align = c.maxalign) (h5 : t.datasize = c.size) :
    tuple_layout fields align pack t := by
  obtain ⟨hok, c1, c2, c3, c4, c5, c6, c7, c8⟩ := init_concrete_fields_closed hwf ha hp h
  have hb := round_up_spec_bounds (end_from pack 0 fields) c.maxalign c6
  unfold tuple_layout
  have c3' : c.pad = (gaps_from pack 0 fields).tail ++
      (if fields.length = 0 then []
       else [(round_up_spec (end_from pack 0 fields) c.maxalign -
                end_from pack 0 fields).toNat]) := by
    rw [c3, c4]; rfl
  rw [h1, h2, h3, h4, h5, c1, c2, c3']
  have hgl := gaps_from_length pack fields 0
  refine ⟨offsets_from_length _ _ _, by simp, ?_, ?_, ?_, ?_, c4, ?_, ?_⟩
  · simp only [List.length_append, List.length_tail, hgl]
    split
    · rename_i hz; simp [hz]
    · rename_i hz; simp only [List.length_singleton]; omega
  · intro i _; rfl
  · intro hpos
    cases fields with
    | nil => simp at hpos
    | cons f fs =>
      simp only [offsets_from, List.getD_cons_zero]
      exact round_up_spec_zero (hok f (List.mem_cons_self _ _)).2.1
  · intro i hi
    refine ⟨offsets_from_succ pack fields 0 i hi, ?_⟩
    rw [getD_tail_append _ _ _ _ (by rw [hgl]; exact hi)]
    exact gaps_from_succ pack fields 0 i hok hi
  · intro hz
    rw [c5, List.length_eq_zero.mp hz]
    simp only [end_from]
    have := round_up_spec_bounds 0 c.maxalign c6
    have h6 := Int.emod_eq_of_lt this.1 (by omega : round_up_spec 0 c.maxalign < (c.maxalign : Int))
    omega
  · intro hpos
    have hlast := offsets_from_last pack fields 0 hpos
    rw [hlast]
    refine ⟨c5, ?_⟩
    have hne : ¬ fields.length = 0 := by omega
    simp only [hne, if_false]
    have := getD_tail_append_last (gaps_from pack 0 fields)
      ((round_up_spec (end_from pack 0 fields) c.maxalign - end_from pack 0 fields).toNat) 0
      (by rw [hgl]; exact hpos)
    rw [hgl] at this
    rw [this, c5]
    omega

theorem fields_access_concrete {fields : List ndt_field_t}
    (hwf : ∀ f ∈ fields, concrete_field f) :
    fields_access .Concrete fields = .Concrete := by
  unfold fields_access
  split
  · rename_i h
    simp only [List.any_eq_true, beq_iff_eq] at h
    obtain ⟨f, hf, hfa⟩ := h
    have := (hwf f hf).1
    rw [this] at hfa
    cases hfa
  · rfl

/-- A concrete node returned by `ndt_tuple` carries the result of
`init_concrete_fields`. -/
theorem ndt_tuple_concrete {flag : ndt_variadic} {fields : List ndt_field_t}
    {align pack : Option Nat} {opt : Bool} {t : ndt_t}
    (h : ndt_tuple flag fields align pack opt = .ok t) (hc : t.access = .Concrete) :
    ∃ c, init_concrete_fields fields align pack = .ok c ∧
      tuple_offset t = c.offsets ∧ tuple_align t = c.align ∧ tuple_pad t = c.pad ∧
      t.align = c.maxalign ∧ t.datasize = c.size := by
  unfold ndt_tuple at h
  split at h
  · cases h
  simp only at h
  generalize fields_access _ fields = acc at h
  split at h
  · split at h
    · cases h
    · cases h; cases hc
  · split at h
    · cases h
    · rename_i c hcf
      cases h
      exact ⟨c, hcf, rfl, rfl, rfl, rfl, rfl⟩

/-- A concrete node returned by `ndt_record` carries the result of
`init_concrete_fields`. -/
theorem ndt_record_concrete {flag : ndt_variadic} {fields : List ndt_field_t}
    {align pack : Option Nat} {opt : Bool} {t : ndt_t}
    (h : ndt_record flag fields align pack opt = .ok t) (hc : t.access = .Concrete) :
    ∃ c, init_concrete_fields fields align pack = .ok c ∧
      tuple_offset t = c.offsets ∧ tuple_align t = c.align ∧ tuple_pad t = c.pad ∧
      t.align = c.maxalign ∧ t.datasize = c.size := by
  unfold ndt_record at h
  split at h
  · cases h
  simp only at h
  generalize fields_access _ fields = acc at h
  split at h
  · split at h
    · cases h
    · split at h
      · cases h
      · cases h; cases hc
  · split at h
    · cases h
    · rename_i c hcf
      split at h
      · cases h
      · cases h
        exact ⟨c, hcf, rfl, rfl, rfl, rfl, rfl⟩

/-- A tuple that is not variadic and has concrete fields only is concrete. -/
theorem ndt_tuple_access {fields : List ndt_field_t} {align pack : Option Nat} {opt : Bool}
    {t : ndt_t} (hwf : ∀ f ∈ fields, concrete_field f)
    (h : ndt_tuple .Nonvariadic fields align pack opt = .ok t) : t.access = .Concrete := by
  unfold ndt_tuple at h
  split at h
  · cases h
  simp only [fields_access_concrete hwf, if_false, reduceCtorEq] at h
  split at h
  · cases h
  · cases h; rfl

theorem ndt_record_access {fields : List ndt_field_t} {align pack : Option Nat} {opt : Bool}
    {t : ndt_t} (hwf : ∀ f ∈ fields, concrete_field f)
    (h : ndt_record .Nonvariadic fields align pack opt = .ok t) : t.access = .Concrete := by
  unfold ndt_record at h
  split at h
  · cases h
  simp only [fields_access_concrete hwf, if_false, reduceCtorEq] at h
  split at h
  · cases h
  · split at h
    · cases h
    · cases h; rfl

/-- The invariants follow from the layout rules. -/
theorem tuple_invariants_of_closed {fields : List ndt_field_t} {align pack : Option Nat}
    {c : concrete_fields} {t : ndt_t} (hwf : ∀ f ∈ fields, concrete_field f)
    (ha : attr_u16 align) (hp : attr_u16 pack)
    (h : init_concrete_fields fields align pack = .ok c)
    (h1 : tuple_offset t = c.offsets) (h2 : tuple_align t = c.align)
    (h3 : tuple_pad t = c.pad) (h4 : t.align = c.maxalign) (h5 : t.datasize = c.size) :
    tuple_invariants fields t := by
  obtain ⟨hok, _, _, _, _, _, c6, c7, _⟩ := init_concrete_fields_closed hwf ha hp h
  obtain ⟨_, _, _, l4, l5, l6, _, l8, l9⟩ := tuple_layout_of_closed hwf ha hp h h1 h2 h3 h4 h5
  have heff : ∀ i, i < fields.length →
      0 < field_eff_align pack fields i ∧ field_eff_align pack fields i ≤ UINT16_MAX := by
    intro i hi
    have hm : field_eff_align pack fields i = effective_align pack (fields.get ⟨i, hi⟩) := by
      simp [field_eff_align, List.getD_eq_getElem?_getD, List.getElem?_map,
        List.getElem?_eq_getElem hi]
    rw [hm]
    exact (hok _ (List.get_mem _ _ _)).2
  have hal : 0 < t.align ∧ t.align ≤ UINT16_MAX := by rw [h4]; exact ⟨c6, c7⟩
  simp only [UINT16_MAX] at heff hal
  refine ⟨?_, ?_, ?_, ?_, ?_, ?_⟩
  · intro i hi
    rw [l4 i hi]
    cases i with
    | zero => rw [l5 hi]; simp
    | succ j =>
      rw [(l6 j hi).1]
      exact (round_up_spec_bounds _ _ (heff (j + 1) hi).1).2.2
  · intro i hi
    rw [(l6 i hi).1]
    exact (round_up_spec_bounds _ _ (heff (i + 1) hi).1).1
  · intro i hi
    have hb := round_up_spec_bounds ((tuple_offset t).getD i 0 + field_size fields i) _
      (heff (i + 1) hi).1
    have hp := (l6 i hi).2
    rw [(l6 i hi).1] at hp
    rw [l4 (i + 1) hi]
    have := (heff (i + 1) hi).2
    simp only [UINT16_MAX]
    omega
  · intro hpos
    obtain ⟨e1, e2⟩ := l9 hpos
    have hb := round_up_spec_bounds ((tuple_offset t).getD (fields.length - 1) 0 +
      field_size fields (fields.length - 1)) _ hal.1
    rw [← e1] at hb
    simp only [UINT16_MAX]
    omega
  · by_cases hz : fields.length = 0
    · rw [l8 hz]; simp
    · obtain ⟨e1, _⟩ := l9 (by omega)
      rw [e1]
      exact (round_up_spec_bounds _ _ hal.1).2.2
  · intro hpos
    obtain ⟨e1, _⟩ := l9 hpos
    have hb := round_up_spec_bounds ((tuple_offset t).getD (fields.length - 1) 0 +
      field_size fields (fields.length - 1)) _ hal.1
    rw [← e1] at hb
    exact hb.1

theorem attr_u16_none : attr_u16 none := by
  intro x hx
  cases hx

theorem ex_tuple_fields_concrete : ∀ f ∈ ex_tuple_fields, concrete_field f := by
  intro f hf
  simp only [ex_tuple_fields, List.mem_cons, List.mem_singleton, List.not_mem_nil, or_false] at hf
  rcases hf with rfl | rfl <;> exact ⟨rfl, by decide, by decide, by decide⟩

/-- C2, counterexample: (1) the variadic tuple `(int32, float64, ...)` is built
with success from two concrete fields without explicit pad, and its node is
abstract with `offset=[0,0]`, `align=[1,1]`, `pad=[0,0]`, `datasize=0`: the
layout rules ask for `offset[1] = 8`. (2) The tuple
`(fixed_bytes(size=-12, align=4), int32)` is built with success from two
concrete fields without explicit pad, the first of negative size, with
`offset=[0,-8]` and `datasize=0`: the end -12 of the first field is a multiple
of 4, so that the rules ask for `offset[1] = -12`, and they ask for the size
-4, the end of the second field. The helper `round_up` divides with
truncation towards zero. -/
theorem ndt_tuple_variadic_no_layout :
    ((∀ f ∈ ex_tuple_fields, concrete_field f ∧ f.explicit_pad = false) ∧
      ndt_tuple .Variadic ex_tuple_fields none none false =
        .ok (.Tuple { access := .Abstract, flags := {}, ndim := 0, datasize := 0
                      align := UINT16_MAX }
          .Variadic [ex_int32, ex_float64] [0, 0] [1, 1] [0, 0]) ∧
      ¬ tuple_layout ex_tuple_fields none none
        (.Tuple { access := .Abstract, flags := {}, ndim := 0, datasize := 0
                  align := UINT16_MAX }
          .Variadic [ex_int32, ex_float64] [0, 0] [1, 1] [0, 0])) ∧
    (ndt_fixed_bytes (-12) (some 4) false = .ok ex_bytes_neg ∧
      ndt_field none ex_bytes_neg none none none = .ok (plain_field none ex_bytes_neg none) ∧
      ndt_field none ex_int32 none none none = .ok (plain_field none ex_int32 none) ∧
      (∀ f ∈ ex_neg_fields none, f.access = .Concrete ∧ f.explicit_pad = false) ∧
      ndt_tuple .Nonvariadic (ex_neg_fields none) none none false =
        .ok (.Tuple { access := .Concrete, flags := {}, ndim := 0, datasize := 0, align := 4 }
          .Nonvariadic [ex_bytes_neg, ex_int32] [0, -8] [4, 4] [4, 4]) ∧
      round_up_spec (0 + ex_bytes_neg.datasize) 4 = -12 ∧
      round_up_spec (-8 + ex_int32.datasize) 4 = -4 ∧
      ¬ tuple_layout (ex_neg_fields none) none none
        (.Tuple { access := .Concrete, flags := {}, ndim := 0, datasize := 0, align := 4 }
          .Nonvariadic [ex_bytes_neg, ex_int32] [0, -8] [4, 4] [4, 4])) := by
  refine ⟨⟨?_, rfl, ?_⟩, rfl, rfl, rfl, by decide, rfl, by decide, by decide, ?_⟩
  · intro f hf
    refine ⟨ex_tuple_fields_concrete f hf, ?_⟩
    simp only [ex_tuple_fields, List.mem_cons, List.mem_singleton, List.not_mem_nil,
      or_false] at hf
    rcases hf with rfl | rfl <;> rfl
  · intro h
    have h1 := (h.2.2.2.2.2.1 0 (by decide)).1
    revert h1
    decide
  · intro h
    have h1 := (h.2.2.2.2.2.1 0 (by decide)).1
    revert h1
    decide

/-- C5: every concrete tuple or record successfully built from fields with
non-negative sizes has every field offset a multiple of the alignment stored
for that field, no two consecutive fields overlapping, every stored pad smaller
than the alignment it rounds to and within `uint16_t`, and a size that is a
multiple of the alignment of the node and at least the end of the last
field. -/
theorem ndt_tuple_record_invariants (flag : ndt_variadic) (fields : List ndt_field_t)
    (align pack : Option Nat) (opt : Bool) (t : ndt_t)
    (hwf : ∀ f ∈ fields, concrete_field f) (ha : attr_u16 align) (hp : attr_u16 pack)
    (h : ndt_tuple flag fields align pack opt = .ok t ∨
      ndt_record flag fields align pack opt = .ok t)
    (hc : t.access = .Concrete) :
    tuple_invariants fields t := by
  rcases h with h | h
  · obtain ⟨c, hcf, h1, h2, h3, h4, h5⟩ := ndt_tuple_concrete h hc
    exact tuple_invariants_of_closed hwf ha hp hcf h1 h2 h3 h4 h5
  · obtain ⟨c, hcf, h1, h2, h3, h4, h5⟩ := ndt_record_concrete h hc
    exact tuple_invariants_of_closed hwf ha hp hcf h1 h2 h3 h4 h5

/-- The tuple `(int32, float64)` packed to 2: `offset=[0,4]`, `align=[2,2]`,
`pad=[0,0]`, `datasize=12`, `align=2`. -/
theorem ndt_tuple_record_invariants_witness :
    ndt_tuple .Nonvariadic ex_tuple_fields none (some 2) false =
      .ok (.Tuple { access := .Concrete, flags := {}, ndim := 0, datasize := 12, align := 2 }
        .Nonvariadic [ex_int32, ex_float64] [0, 4] [2, 2] [0, 0]) ∧
    tuple_invariants ex_tuple_fields
      (.Tuple { access := .Concrete, flags := {}, ndim := 0, datasize := 12, align := 2 }
        .Nonvariadic [ex_int32, ex_float64] [0, 4] [2, 2] [0, 0]) :=
  ⟨rfl,
    ndt_tuple_record_invariants .Nonvariadic ex_tuple_fields none (some 2) false _
      ex_tuple_fields_concrete attr_u16_none
      (by intro x hx; cases hx; decide) (Or.inl rfl) rfl⟩

/-! ## Explicit pads -/

theorem check_explicit_pads_iff :
    ∀ (fs : List ndt_field_t) (ps : List Nat), fs.length = ps.length →
      (check_explicit_pads fs ps = .error .ValueError ∨ check_explicit_pads fs ps = .ok ()) ∧
      (check_explicit_pads fs ps = .error .ValueError ↔
        ∃ i f, fs.get? i = some f ∧ f.explicit_pad = true ∧ f.pad ≠ ps.getD i 0) := by
  intro fs
  induction fs with
  | nil =>
    intro ps _
    simp [check_explicit_pads]
  | cons f fs ih =>
    intro ps hl
    cases ps with
    | nil => simp at hl
    | cons p ps =>
      simp only [List.length_cons, Nat.add_right_cancel_iff] at hl
      obtain ⟨ih1, ih2⟩ := ih ps hl
      simp only [check_explicit_pads]
      by_cases hc : f.explicit_pad = true ∧ f.pad ≠ p
      · simp only [hc, ne_eq, not_false_eq_true, and_self, if_true, true_or, true_and, true_iff]
        exact ⟨0, f, by simp, hc.1, by simpa using hc.2⟩
      · simp only [hc, if_false]
        refine ⟨ih1, ?_⟩
        rw [ih2]
        constructor
        · rintro ⟨i, g, h1, h2, h3⟩
          exact ⟨i + 1, g, by simpa using h1, h2, by simpa using h3⟩
        · rintro ⟨i, g, h1, h2, h3⟩
          cases i with
          | zero =>
            simp only [List.get?_cons_zero, Option.some.injEq] at h1
            subst h1
            exact absurd ⟨h2, by simpa using h3⟩ hc
          | succ j => exact ⟨j, g, by simpa using h1, h2, by simpa using h3⟩

theorem loop_succeeds (pack : Option Nat) :
    ∀ (fs : List ndt_field_t) (i : Nat) (s : fields_layout),
      (∀ p, pack = some p → ∀ f ∈ fs, f.explicit_align = false) →
      ∃ s', init_concrete_fields_loop pack fs i s = .ok s' := by
  intro fs
  induction fs with
  | nil => intro i s _; exact ⟨s, rfl⟩
  | cons f fs ih =>
    intro i s h
    have hfa : field_align pack f = .ok (effective_align pack f) := by
      unfold field_align effective_align
      cases pack with
      | none => rfl
      | some p => simp [h p rfl f (List.mem_cons_self _ _)]
    simp only [init_concrete_fields_loop, hfa]
    exact ih _ _ (fun p hp g hg => h p hp g (List.mem_cons_of_mem _ hg))

theorem get_align_of_power {a : Option Nat} (h : ∀ x, a = some x → ispower2 x = true) :
    get_align a 1 = .ok (a.getD 1) := by
  unfold get_align
  cases a with
  | none => rfl
  | some x => simp [align_ispower2, h x rfl]

theorem natural_pads_length (fields : List ndt_field_t) (align pack : Option Nat) :
    (natural_pads fields align pack).length = fields.length := by
  unfold natural_pads
  simp only [List.length_append, List.length_tail, gaps_from_length]
  split
  · rename_i hz; simp [hz]
  · rename_i hz; simp only [List.length_singleton]; omega

/-- Without overflow and attribute error, `init_concrete_fields` fails with a
`ValueError` exactly on a pad mismatch, and succeeds otherwise. -/
theorem init_concrete_fields_pads {fields : List ndt_field_t} {align pack : Option Nat}
    (hwf : ∀ f ∈ fields, concrete_field f) (ha : attr_u16 align) (hp : attr_u16 pack)
    (hattr : attrs_valid fields align pack)
    (hov : layout_overflows fields align pack = false) :
    (init_concrete_fields fields align pack = .error .ValueError ↔
      pad_mismatch fields align pack) ∧
    (init_concrete_fields fields align pack = .error .ValueError ∨
      ∃ c, init_concrete_fields fields align pack = .ok c) := by
  have hga := get_align_of_power hattr.1
  have hgp := get_align_of_power (fun x hx => (hattr.2 x hx).1)
  obtain ⟨s, hs⟩ := loop_succeeds pack fields 0 (init_layout (align.getD 1))
    (fun p hp' => (hattr.2 p hp').2)
  have hsz : (round_up s.offset s.maxalign s.overflow).2 = false := by
    unfold layout_overflows at hov
    simpa only [hga, hs] using hov
  obtain ⟨hok, hm0e, hm0pos, hm0le⟩ := attrs_ok hwf ha hp hga hgp
  obtain ⟨_, _, r3, _⟩ := layout_stage_closed hok hm0e hm0pos hm0le hs hsz
  obtain ⟨c1, c2⟩ := check_explicit_pads_iff fields (natural_pads fields align pack)
    (natural_pads_length fields align pack).symm
  unfold init_concrete_fields
  simp only [hga, hgp, hs, r3, hsz]
  unfold pad_mismatch
  rw [← c2]
  rcases c1 with c1 | c1
  · simp [c1]
  · simp [c1]

theorem fields_names_some :
    ∀ (fields : List ndt_field_t), (∀ f ∈ fields, f.name.isSome = true) →
      ∃ names, fields_names fields = .ok names := by
  intro fields
  induction fields with
  | nil => intro _; exact ⟨[], rfl⟩
  | cons f fs ih =>
    intro h
    obtain ⟨ns, hns⟩ := ih (fun g hg => h g (List.mem_cons_of_mem _ hg))
    have hf := h f (List.mem_cons_self _ _)
    cases hn : f.name with
    | none => simp [hn] at hf
    | some n => exact ⟨n :: ns, by simp [fields_names, hn, hns]⟩

theorem ex_padded_fields_concrete (pad : Nat) : ∀ f ∈ ex_padded_fields pad, concrete_field f := by
  intro f hf
  simp only [ex_padded_fields, List.mem_cons, List.mem_singleton, List.not_mem_nil, or_false] at hf
  rcases hf with rfl | rfl <;> refine ⟨rfl, ?_, ?_, ?_⟩ <;>
    simp [plain_field, ex_int32, ex_float64, prim, ndt_t.datasize, ndt_t.align, ndt_t.hdr,
      UINT16_MAX]

theorem attrs_valid_none (fields : List ndt_field_t) : attrs_valid fields none none := by
  unfold attrs_valid
  constructor <;> (intro _ h; cases h)

/-! ## Unions -/

theorem init_concrete_tags_loop_ok :
    ∀ (fields : List ndt_field_t) (m0 : Int),
      (∀ f ∈ fields, f.type.flags.REF = false) →
      init_concrete_tags_loop fields m0 =
        .ok ((fields.map (fun f => f.type.datasize)).foldl max m0) := by
  intro fields
  induction fields with
  | nil => intro m0 _; rfl
  | cons f fs ih =>
    intro m0 h
    simp only [init_concrete_tags_loop, h f (List.mem_cons_self _ _), Bool.false_eq_true,
      if_false, List.map_cons, List.foldl_cons]
    rw [ih _ (fun g hg => h g (List.mem_cons_of_mem _ hg))]
    congr 2

theorem foldl_max_int (l : List Int) (m : Int) :
    m ≤ l.foldl max m ∧ (∀ x ∈ l, x ≤ l.foldl max m) ∧ (l.foldl max m = m ∨ l.foldl max m ∈ l) := by
  induction l generalizing m with
  | nil => simp
  | cons a l ih =>
    simp only [List.foldl_cons, List.mem_cons]
    obtain ⟨h1, h2, h3⟩ := ih (max m a)
    refine ⟨by omega, ?_, ?_⟩
    · intro x hx
      rcases hx with rfl | hx
      · omega
      · exact h2 x hx
    · rcases h3 with h3 | h3
      · rcases max_cases m a with ⟨h4, _⟩ | ⟨h4, _⟩
        · left; rw [h3, h4]
        · right; left; rw [h3, h4]
      · right; right; exact h3

/-- C7 (as amended): for every non-empty list of at most 255 named, concrete,
reference-free member fields whose types pass the type invariants and whose
sizes are below `INT64_MAX`, `ndt_union` returns a concrete `Union` over the
member types with `align = 1` and `datasize = 1 + m`, where `m` is the maximum
of 0 and the sizes of the members (the running maximum of `init_concrete_tags`
starts at 0): `m` is the maximum of the sizes of the members as soon as one
member has a size that is not negative. -/
theorem ndt_union_layout (fields : List ndt_field_t) (opt : Bool)
    (hne : fields ≠ []) (hlen : fields.length ≤ 255)
    (hwf : ∀ f ∈ fields, f.access = .Concrete ∧ f.type.datasize < INT64_MAX)
    (href : ∀ f ∈ fields, f.type.flags.REF = false)
    (hnames : ∀ f ∈ fields, f.name.isSome = true)
    (hinv : check_fields_invariants fields = .ok ()) :
    ∃ h names m, ndt_union (some fields) fields.length opt =
        .ok (.Union h fields.length names (fields.map (fun f => f.type))) ∧
      h.access = .Concrete ∧ h.align = 1 ∧ h.datasize = 1 + m ∧
      0 ≤ m ∧ (∀ f ∈ fields, f.type.datasize ≤ m) ∧
      (m = 0 ∨ ∃ f ∈ fields, f.type.datasize = m) ∧
      ((∃ f ∈ fields, 0 ≤ f.type.datasize) → ∃ f ∈ fields, f.type.datasize = m) := by
  obtain ⟨names, hn⟩ := fields_names_some fields hnames
  have hacc : fields_access .Concrete fields = .Concrete := by
    unfold fields_access
    split
    · rename_i h
      simp only [List.any_eq_true, beq_iff_eq] at h
      obtain ⟨f, hf, hfa⟩ := h
      rw [(hwf f hf).1] at hfa
      cases hfa
    · rfl
  have hl0 : ¬ fields.length = 0 := by
    intro h; exact hne (List.length_eq_zero.mp h)
  have hl1 : ¬ fields.length > 255 := by omega
  obtain ⟨m1, m2, m3⟩ := foldl_max_int (fields.map (fun f => f.type.datasize)) 0
  have hle : ∀ f ∈ fields, f.type.datasize ≤ (fields.map (fun f => f.type.datasize)).foldl max 0 :=
    fun f hf => m2 _ (List.mem_map_of_mem _ hf)
  have hmem : (fields.map (fun f => f.type.datasize)).foldl max 0 = 0 ∨
      ∃ f ∈ fields, f.type.datasize = (fields.map (fun f => f.type.datasize)).foldl max 0 := by
    rcases m3 with m3 | m3
    · exact Or.inl m3
    · simp only [List.mem_map] at m3
      obtain ⟨f, hf, hfe⟩ := m3
      exact Or.inr ⟨f, hf, hfe⟩
  have hfit : fits_i64 (1 + (fields.map (fun f => f.type.datasize)).foldl max 0) = true := by
    have hlt : (fields.map (fun f => f.type.datasize)).foldl max 0 < INT64_MAX := by
      rcases hmem with h0 | ⟨f, hf, hfe⟩
      · rw [h0]; decide
      · rw [← hfe]; exact (hwf f hf).2
    simp only [fits_i64, INT64_MIN, INT64_MAX, Bool.and_eq_true, decide_eq_true_eq] at hlt ⊢
    omega
  refine ⟨{ access := .Concrete
            flags := fields_flags (ndt_new_hdr (flags_of_opt opt)).flags fields
            ndim := (ndt_new_hdr (flags_of_opt opt)).ndim
            datasize := wrap_i64 (1 + (fields.map (fun f => f.type.datasize)).foldl max 0)
            align := 1 }, names, (fields.map (fun f => f.type.datasize)).foldl max 0,
    ?_, ?_, ?_, ?_, m1, hle, hmem, ?_⟩
  · rw [ndt_union_eq_list]
    unfold ndt_union_list
    simp only [hl0, hl1, if_false, hinv, hacc, reduceCtorEq,
      init_concrete_tags_loop_ok fields 0 href, hn]
  · rfl
  · rfl
  · exact wrap_i64_of_fits hfit
  · rintro ⟨g, hg, hg0⟩
    rcases hmem with h0 | h
    · have := hle g hg
      exact ⟨g, hg, by omega⟩
    · exact h

/-- The union of `a: int32` and `b: float64` has `align = 1` and
`datasize = 9`. -/
theorem ndt_union_layout_witness :
    ∃ h names m, ndt_union (some ex_record_fields) ex_record_fields.length false =
        .ok (.Union h ex_record_fields.length names
          (ex_record_fields.map (fun f => f.type))) ∧
      h.access = .Concrete ∧ h.align = 1 ∧ h.datasize = 1 + m ∧
      0 ≤ m ∧ (∀ f ∈ ex_record_fields, f.type.datasize ≤ m) ∧
      (m = 0 ∨ ∃ f ∈ ex_record_fields, f.type.datasize = m) ∧
      ((∃ f ∈ ex_record_fields, 0 ≤ f.type.datasize) →
        ∃ f ∈ ex_record_fields, f.type.datasize = m) :=
  ndt_union_layout ex_record_fields false (by intro h; cases h) (by decide)
    (by
      intro f hf
      simp only [ex_record_fields, List.mem_cons, List.mem_singleton, List.not_mem_nil,
        or_false] at hf
      rcases hf with rfl | rfl <;> exact ⟨rfl, by decide⟩)
    (by
      intro f hf
      simp only [ex_record_fields, List.mem_cons, List.mem_singleton, List.not_mem_nil,
        or_false] at hf
      rcases hf with rfl | rfl <;> rfl)
    (by
      intro f hf
      simp only [ex_record_fields, List.mem_cons, List.mem_singleton, List.not_mem_nil,
        or_false] at hf
      rcases hf with rfl | rfl <;> rfl)
    rfl

/-- C7, counterexample: (1) the union with the single member
`x: 1 * ... * 1 * int64` of 16 dimensions, a concrete and reference-free field
built by `ndt_field`, is rejected with `TypeError`. (2) The union with the
single member `x: fixed_bytes(size=INT64_MAX)` is built with `datasize`
`INT64_MIN`, the wrapped sum `1 + INT64_MAX`. (3) The union with the single
member `x: fixed_bytes(size=-12, align=4)` is built with `datasize` 1, not
`1 + (-12)`: the running maximum starts at 0. -/
theorem ndt_union_rejects_and_wraps :
    (fixed_chain 16 ex_int64 = .ok ex_dims16 ∧
      ndt_field (some "x") ex_dims16 none none none =
        .ok (plain_field (some "x") ex_dims16 none) ∧
      ex_dims16.access = .Concrete ∧ ex_dims16.flags.REF = false ∧
      ndt_union (some [plain_field (some "x") ex_dims16 none]) 1 false = .error .TypeError) ∧
    (ndt_fixed_bytes INT64_MAX none false = .ok ex_bytes_max ∧
      ndt_field (some "x") ex_bytes_max none none none =
        .ok (plain_field (some "x") ex_bytes_max none) ∧
      ndt_union (some [plain_field (some "x") ex_bytes_max none]) 1 false =
        .ok (.Union { access := .Concrete, flags := {}, ndim := 0, datasize := INT64_MIN
                      align := 1 } 1 ["x"] [ex_bytes_max]) ∧
      INT64_MIN ≠ 1 + ex_bytes_max.datasize) ∧
    (ndt_fixed_bytes (-12) (some 4) false = .ok ex_bytes_neg ∧
      ndt_field (some "x") ex_bytes_neg none none none =
        .ok (plain_field (some "x") ex_bytes_neg none) ∧
      ex_bytes_neg.access = .Concrete ∧ ex_bytes_neg.flags.REF = false ∧
      ndt_union (some [plain_field (some "x") ex_bytes_neg none]) 1 false =
        .ok (.Union { access := .Concrete, flags := {}, ndim := 0, datasize := 1
                      align := 1 } 1 ["x"] [ex_bytes_neg]) ∧
      (1 : Int) ≠ 1 + ex_bytes_neg.datasize) :=
  ⟨⟨rfl, rfl, rfl, rfl, rfl⟩, ⟨rfl, rfl, rfl, by decide⟩,
    ⟨rfl, rfl, rfl, rfl, rfl, by decide⟩⟩

/-! ## Fixed dimensions -/

theorem MULi64_exact {a b : Int} {ov : Bool} (h : (MULi64 a b ov).2 = false) :
    ov = false ∧ (MULi64 a b ov).1 = a * b := by
  simp only [MULi64, Bool.or_eq_false_iff, Bool.not_eq_false'] at h
  exact ⟨h.1, wrap_i64_of_fits h.2⟩

theorem ABSi64_exact {a : Int} {ov : Bool} (h : (ABSi64 a ov).2 = false) :
    ov = false ∧ (ABSi64 a ov).1 = |a| := by
  by_cases ha : a = INT64_MIN
  · simp [ABSi64, ha] at h
  · simp only [ABSi64, ha, if_false] at h ⊢
    refine ⟨h, ?_⟩
    by_cases h0 : 0 ≤ a
    · simp only [h0, if_true]; exact (abs_of_nonneg h0).symm
    · simp only [h0, if_false]; exact (abs_of_neg (by omega)).symm

theorem DIVi64_exact {a b : Int} {ov : Bool} (h : (DIVi64 a b ov).2 = false) :
    ov = false ∧ (DIVi64 a b ov).1 = Int.tdiv a b := by
  unfold DIVi64 at h ⊢
  by_cases hc : b = 0 ∨ (a = INT64_MIN ∧ b = -1)
  · rw [if_pos hc] at h; cases h
  · rw [if_neg hc] at h ⊢
    exact ⟨h, rfl⟩

theorem fixed_step_exact {type : ndt_t} {step : Int} {ov : Bool}
    (h : (fixed_step type step ov).2 = false) :
    ov = false ∧ (step ≠ INT64_MAX → (fixed_step type step ov).1 = step) ∧
      (step = INT64_MAX → (fixed_step type step ov).1 = derived_step type) := by
  unfold fixed_step at h ⊢
  by_cases hs : step ≠ INT64_MAX
  · rw [if_pos hs] at h ⊢
    exact ⟨h, fun _ => rfl, fun h' => absurd h' hs⟩
  · have hs' : step = INT64_MAX := not_not.mp hs
    rw [if_neg hs] at h ⊢
    refine ⟨?_, fun h' => absurd hs' h', fun _ => ?_⟩
    · cases type with
      | FixedDim hd tg sh ty isz st =>
        simp only at h
        by_cases hi : isz = 0
        · rw [if_pos hi] at h; exact (MULi64_exact h).1
        · rw [if_neg hi] at h; exact (DIVi64_exact h).1
      | _ => exact h
    · cases type with
      | FixedDim hd tg sh ty isz st =>
        simp only [derived_step] at h ⊢
        by_cases hi : isz = 0
        · rw [if_pos hi] at h; rw [if_pos hi, if_pos hi]; exact (MULi64_exact h).2
        · rw [if_neg hi] at h; rw [if_neg hi, if_neg hi]; exact (DIVi64_exact h).2
      | _ => rfl

theorem fixed_datasize_exact {type : ndt_t} {shape step itemsize : Int} {ov : Bool}
    (h : (fixed_datasize type shape step itemsize ov).2 = false) :
    ov = false ∧
      ((shape = 0 ∨ type.datasize = 0) → (fixed_datasize type shape step itemsize ov).1 = 0) ∧
      (shape ≠ 0 → type.datasize ≠ 0 →
        (fixed_datasize type shape step itemsize ov).1 =
          (shape - 1) * |step| * itemsize + type.datasize) := by
  unfold fixed_datasize at h ⊢
  by_cases hz : shape = 0 ∨ type.datasize = 0
  · rw [if_pos hz] at h ⊢
    exact ⟨h, fun _ => rfl, fun h1 h2 => by rcases hz with hz | hz <;> contradiction⟩
  · rw [if_neg hz] at h ⊢
    simp only at h ⊢
    obtain ⟨e1, e2⟩ := ADDi64_exact h
    obtain ⟨e3, e4⟩ := MULi64_exact e1
    obtain ⟨e5, e6⟩ := MULi64_exact e3
    obtain ⟨e7, e8⟩ := ABSi64_exact e5
    refine ⟨e7, fun h' => absurd h' hz, fun _ _ => ?_⟩
    rw [e2, e4, e6, e8]

/-- What a successful `ndt_fixed_dim` over a concrete type returns. -/
theorem ndt_fixed_dim_concrete {type t : ndt_t} {shape step : Int}
    (hc : type.access = .Concrete) (h : ndt_fixed_dim type shape step = .ok t) :
    0 ≤ shape ∧ type.ndim < NDT_MAX_DIM ∧
    (fixed_datasize type shape (fixed_step type step false).1 (ndt_itemsize type)
      (fixed_step type step false).2).2 = false ∧
    t = .FixedDim { access := .Concrete, flags := ({} : ndt_flags).or (ndt_dim_flags type)
                    ndim := type.ndim + 1
                    datasize := (fixed_datasize type shape (fixed_step type step false).1
                      (ndt_itemsize type) (fixed_step type step false).2).1
                    align := type.align }
      .RequireNA shape type (ndt_itemsize type) (fixed_step type step false).1 := by
  unfold ndt_fixed_dim at h
  split at h
  · cases h
  rename_i hinv
  have hnd : type.ndim < NDT_MAX_DIM := by
    unfold check_fixed_invariants at hinv
    split at hinv
    · cases hinv
    · split at hinv
      · cases hinv
      · split at hinv
        · cases hinv
        · rename_i hn; omega
  split at h
  · cases h
  rename_i hs
  simp only [hc, if_true] at h
  split at h
  · cases h
  rename_i hov
  cases h
  exact ⟨by omega, hnd, by simpa using hov, rfl⟩

/-- C3 (as amended): for every concrete inner type, every shape and every step
argument, a successful `ndt_fixed_dim(inner, shape, step)` is a `FixedDim` of
that shape over the inner type whose itemsize is `ndt_itemsize(inner)`, whose
step is the supplied step when one is supplied (`step ≠ INT64_MAX`) and the
derived step otherwise, and whose datasize is
`(shape-1)*|step|*itemsize + inner.datasize` when neither the shape nor the
datasize of the inner type is 0, and 0 when one of them is 0. -/
theorem ndt_fixed_dim_step_datasize (type t : ndt_t) (shape step : Int)
    (hc : type.access = .Concrete) (h : ndt_fixed_dim type shape step = .ok t) :
    ∃ hd st, t = .FixedDim hd .RequireNA shape type (ndt_itemsize type) st ∧
      0 ≤ shape ∧
      (step ≠ INT64_MAX → st = step) ∧
      (step = INT64_MAX → st = derived_step type) ∧
      (shape ≠ 0 → type.datasize ≠ 0 →
        hd.datasize = (shape - 1) * |st| * ndt_itemsize type + type.datasize) ∧
      ((shape = 0 ∨ type.datasize = 0) → hd.datasize = 0) := by
  obtain ⟨h0, _, hov, ht⟩ := ndt_fixed_dim_concrete hc h
  obtain ⟨e1, e2, e3⟩ := fixed_datasize_exact hov
  obtain ⟨_, e4, e5⟩ := fixed_step_exact e1
  exact ⟨_, _, ht, h0, e4, e5, e3, e2⟩

/-- The array `10 * 2 * int64`: the outer dimension over `2 * int64` has the
derived step 2 and `datasize = 9 * 2 * 8 + 16 = 160`. -/
theorem ndt_fixed_dim_step_datasize_witness :
    ∃ hd st, (.FixedDim { access := .Concrete, flags := {}, ndim := 2, datasize := 160
                          align := 8 } .RequireNA 10
          (.FixedDim { access := .Concrete, flags := {}, ndim := 1, datasize := 16, align := 8 }
            .RequireNA 2 ex_int64 8 1) 8 2 : ndt_t) =
        .FixedDim hd .RequireNA 10
          (.FixedDim { access := .Concrete, flags := {}, ndim := 1, datasize := 16, align := 8 }
            .RequireNA 2 ex_int64 8 1)
          (ndt_itemsize (.FixedDim { access := .Concrete, flags := {}, ndim := 1, datasize := 16
                                     align := 8 } .RequireNA 2 ex_int64 8 1)) st ∧
      (0 : Int) ≤ 10 ∧
      (INT64_MAX ≠ INT64_MAX → st = INT64_MAX) ∧
      (INT64_MAX = INT64_MAX → st = derived_step
        (.FixedDim { access := .Concrete, flags := {}, ndim := 1, datasize := 16, align := 8 }
          .RequireNA 2 ex_int64 8 1)) ∧
      ((10 : Int) ≠ 0 →
        (ndt_t.FixedDim { access := .Concrete, flags := {}, ndim := 1, datasize := 16
                          align := 8 } .RequireNA 2 ex_int64 8 1).datasize ≠ 0 →
        hd.datasize = (10 - 1) * |st| *
          ndt_itemsize (.FixedDim { access := .Concrete, flags := {}, ndim := 1, datasize := 16
                                    align := 8 } .RequireNA 2 ex_int64 8 1) +
          (ndt_t.FixedDim { access := .Concrete, flags := {}, ndim := 1, datasize := 16
                            align := 8 } .RequireNA 2 ex_int64 8 1).datasize) ∧
      (((10 : Int) = 0 ∨
        (ndt_t.FixedDim { access := .Concrete, flags := {}, ndim := 1, datasize := 16
                          align := 8 } .RequireNA 2 ex_int64 8 1).datasize = 0) →
        hd.datasize = 0) :=
  ndt_fixed_dim_step_datasize _ _ 10 INT64_MAX rfl rfl

/-- C3, counterexample: over the empty row `0 * int64` (datasize 0, itemsize 8)
the call `ndt_fixed_dim(inner, 3, 1)` with the supplied step 1 succeeds with
`datasize = 0`, while `(shape-1)*|step|*itemsize + inner.datasize` is 16. -/
theorem ndt_fixed_dim_empty_inner :
    ndt_fixed_dim ex_int64 0 INT64_MAX = .ok ex_empty_row ∧
    ndt_fixed_dim ex_empty_row 3 1 =
      .ok (.FixedDim { access := .Concrete, flags := {}, ndim := 2, datasize := 0, align := 8 }
        .RequireNA 3 ex_empty_row 8 1) ∧
    (3 - 1) * |(1 : Int)| * ndt_itemsize ex_empty_row + ex_empty_row.datasize = 16 :=
  ⟨rfl, rfl, by decide⟩

theorem dtype_itemsize_step {d : ndt_t} (hd : is_dtype d) :
    ndt_itemsize d = d.datasize ∧ derived_step d = 1 := by
  obtain ⟨_, h1, h2, h3⟩ := hd
  cases d <;> first
    | exact ⟨rfl, rfl⟩
    | exact absurd rfl h1
    | exact absurd rfl h2
    | exact absurd rfl h3

/-- The invariant of an array built by `fixed_array` over the dtype `d`. -/
theorem fixed_array_inv (d : ndt_t) (hc : d.access = .Concrete) (hd : is_dtype d) :
    ∀ (shapes : List Int) (t : ndt_t), fixed_array shapes d = .ok t →
      t.access = .Concrete ∧ t.ndim = shapes.length ∧ t.align = d.align ∧
      t.datasize = shapes.prod * d.datasize ∧ ndt_itemsize t = d.datasize ∧
      0 ≤ shapes.prod ∧ (d.datasize ≠ 0 → derived_step t = shapes.prod) := by
  intro shapes
  induction shapes with
  | nil =>
    intro t h
    simp only [fixed_array, Except.ok.injEq] at h
    subst h
    obtain ⟨e1, e2⟩ := dtype_itemsize_step hd
    exact ⟨hc, by simpa using hd.1, rfl, by simp, e1, by simp, fun _ => by simpa using e2⟩
  | cons s rest ih =>
    intro t h
    simp only [fixed_array] at h
    split at h
    · rename_i u hu
      obtain ⟨i1, i2, i3, i4, i5, i6, i7⟩ := ih u hu
      obtain ⟨h0, _, hov, ht⟩ := ndt_fixed_dim_concrete i1 h
      obtain ⟨e1, e2, e3⟩ := fixed_datasize_exact hov
      obtain ⟨_, _, e5⟩ := fixed_step_exact e1
      have hst := e5 rfl
      have hds : (fixed_datasize u s (fixed_step u INT64_MAX false).1 (ndt_itemsize u)
          (fixed_step u INT64_MAX false).2).1 = (s :: rest).prod * d.datasize := by
        by_cases hz : s = 0 ∨ u.datasize = 0
        · rw [e2 hz]
          rcases hz with hz | hz
          · simp [hz]
          · rw [i4] at hz
            simp only [List.prod_cons]
            rw [mul_assoc, hz, mul_zero]
        · have hs0 : s ≠ 0 := fun h' => hz (Or.inl h')
          have hu0 : u.datasize ≠ 0 := fun h' => hz (Or.inr h')
          have hD : d.datasize ≠ 0 := by
            intro h'; apply hu0; rw [i4, h', mul_zero]
          rw [e3 hs0 hu0, hst, i7 hD, i5, i4, abs_of_nonneg i6]
          simp only [List.prod_cons]
          ring
      subst ht
      refine ⟨rfl, ?_, i3, hds, i5, ?_, ?_⟩
      · show u.ndim + 1 = _
        rw [i2]; simp
      · simp only [List.prod_cons]; exact mul_nonneg h0 i6
      · intro hD
        show (if ndt_itemsize u = 0 then _ else _) = _
        rw [i5, if_neg hD]
        have hds' := hds
        rw [i5] at hds'
        show Int.tdiv (fixed_datasize u s (fixed_step u INT64_MAX false).1 d.datasize
          (fixed_step u INT64_MAX false).2).1 d.datasize = _
        rw [hds']
        exact Int.mul_tdiv_cancel _ hD
    · cases h

/-- C4: for every concrete dtype `d` and every list of shapes, an array built
innermost-first with `ndt_fixed_dim` and the default step is, whenever every
construction step succeeds, a concrete type with `ndim` the number of shapes,
the alignment of `d` and `datasize` the product of the shapes times the size of
`d`. -/
theorem fixed_array_datasize (d : ndt_t) (shapes : List Int) (t : ndt_t)
    (hc : d.access = .Concrete) (hd : is_dtype d)
    (h : fixed_array shapes d = .ok t) :
    t.access = .Concrete ∧ t.ndim = shapes.length ∧ t.align = d.align ∧
      t.datasize = shapes.prod * d.datasize := by
  obtain ⟨h1, h2, h3, h4, _⟩ := fixed_array_inv d hc hd shapes t h
  exact ⟨h1, h2, h3, h4⟩

/-- The array `10 * 2 * int64` has `datasize = 160` and `align = 8`. -/
theorem fixed_array_datasize_witness :
    fixed_array [10, 2] ex_int64 =
      .ok (.FixedDim { access := .Concrete, flags := {}, ndim := 2, datasize := 160
                       align := 8 } .RequireNA 10
        (.FixedDim { access := .Concrete, flags := {}, ndim := 1, datasize := 16, align := 8 }
          .RequireNA 2 ex_int64 8 1) 8 2) ∧
    (ndt_t.FixedDim { access := .Concrete, flags := {}, ndim := 2, datasize := 160
                      align := 8 } .RequireNA 10
        (.FixedDim { access := .Concrete, flags := {}, ndim := 1, datasize := 16, align := 8 }
          .RequireNA 2 ex_int64 8 1) 8 2).access = .Concrete ∧
    (ndt_t.FixedDim { access := .Concrete, flags := {}, ndim := 2, datasize := 160
                      align := 8 } .RequireNA 10
        (.FixedDim { access := .Concrete, flags := {}, ndim := 1, datasize := 16, align := 8 }
          .RequireNA 2 ex_int64 8 1) 8 2).ndim = ([10, 2] : List Int).length ∧
    (ndt_t.FixedDim { access := .Concrete, flags := {}, ndim := 2, datasize := 160
                      align := 8 } .RequireNA 10
        (.FixedDim { access := .Concrete, flags := {}, ndim := 1, datasize := 16, align := 8 }
          .RequireNA 2 ex_int64 8 1) 8 2).align = ex_int64.align ∧
    (ndt_t.FixedDim { access := .Concrete, flags := {}, ndim := 2, datasize := 160
                      align := 8 } .RequireNA 10
        (.FixedDim { access := .Concrete, flags := {}, ndim := 1, datasize := 16, align := 8 }
          .RequireNA 2 ex_int64 8 1) 8 2).datasize = ([10, 2] : List Int).prod * ex_int64.datasize :=
  ⟨rfl, fixed_array_datasize ex_int64 [10, 2] _ rfl
    ⟨rfl, by decide, by decide, by decide⟩ rfl⟩

/-! ## Shallow copy -/

/-- C1, evaluated on the failing inputs: (1) the `VarDimElem` built by
`ndt_convert_to_var_elem` from `var * int64` is copied to a node with tag
`VarDim`; (2) the copy of the union of `a: int32` and `b: float64` stores through
an uninitialised pointer; (3) the copy of the signature `int64 -> int64` has no
`elemwise` written. None of the three copies is the term that was copied. -/
theorem ndt_copy_not_equal (reg : ndt_registry) :
    (ndt_var_dim ex_int64 [0, 2] [] false = .ok ex_var ∧
      ndt_convert_to_var_elem ex_var ex_int64 0 = .ok ex_var_elem ∧
      ndt_copy reg ex_var_elem = .ok ex_var ∧
      ex_var_elem.tag = .VarDimElem ∧ ex_var.tag = .VarDim) ∧
    (ndt_union (some ex_record_fields) 2 false = .ok ex_union ∧
      ndt_copy reg ex_union = .error .Undefined) ∧
    (ndt_function [ex_int64, ex_int64] 1 1 = .ok ex_function ∧
      ndt_copy reg ex_function =
        .ok (.Function { access := .Abstract, flags := {}, ndim := 0, datasize := 0
                         align := UINT16_MAX } 1 1 none [ex_int64, ex_int64])) :=
  ⟨⟨rfl, rfl, rfl, rfl, rfl⟩, ⟨rfl, rfl⟩, ⟨rfl, rfl⟩⟩

/-! ## Substitution -/

/-- The node of a successful `ndt_fixed_dim`. -/
theorem ndt_fixed_dim_node {type t : ndt_t} {shape step : Int}
    (h : ndt_fixed_dim type shape step = .ok t) :
    t.access = type.access ∧
    ∃ hd isz st, t = .FixedDim hd .RequireNA shape type isz st := by
  unfold ndt_fixed_dim at h
  split at h
  · cases h
  split at h
  · cases h
  simp only at h
  split at h
  · split at h
    · cases h
    · cases h
      exact ⟨rfl, _, _, _, rfl⟩
  · cases h
    exact ⟨rfl, _, _, _, rfl⟩

/-- The node of a successful `ndt_symbolic_dim`. -/
theorem ndt_symbolic_dim_node {type t : ndt_t} {name : String}
    (h : ndt_symbolic_dim name type = .ok t) :
    ∃ hd, t = .SymbolicDim hd .RequireNA name type ∧ hd.access = .Abstract := by
  unfold ndt_symbolic_dim at h
  split at h
  · cases h
  · cases h
    exact ⟨_, rfl, rfl⟩

/-- C8: for a `SymbolicDim` pattern `name * inner` that is not concrete and
whose inner type substitutes to `u`, `ndt_substitute` returns
`ndt_fixed_dim(u, shape, INT64_MAX)`, a `FixedDim` of the bound shape with the
default step over `u`, when the name is bound to a shape; fails when the name is
not bound to a shape and `req_concrete` is true; and returns
`ndt_symbolic_dim(name, u)`, a `SymbolicDim` of the same name over `u`, when
the name is not bound to a shape and `req_concrete` is false. -/
theorem ndt_substitute_symbolic_dim (reg : ndt_registry) (tbl : symtable_t) (fuel : Nat)
    (h : ndt_hdr) (tag : ndt_contig) (name : String) (inner u : ndt_t) (rc : Bool)
    (habs : h.access = .Abstract)
    (hu : ndt_substitute reg tbl fuel inner rc = some (.ok u)) :
    (∀ s, symtable_find tbl name = .Shape s → 0 ≤ s →
      ndt_substitute reg tbl (fuel + 1) (.SymbolicDim h tag name inner) rc =
        some (ndt_fixed_dim u s INT64_MAX) ∧
      ∀ w, ndt_fixed_dim u s INT64_MAX = .ok w →
        ∃ hd isz st, w = .FixedDim hd .RequireNA s u isz st) ∧
    ((∀ s, symtable_find tbl name = .Shape s → s < 0) → rc = true →
      ndt_substitute reg tbl (fuel + 1) (.SymbolicDim h tag name inner) rc =
        some (.error .ValueError)) ∧
    ((∀ s, symtable_find tbl name = .Shape s → s < 0) → rc = false →
      ndt_substitute reg tbl (fuel + 1) (.SymbolicDim h tag name inner) rc =
        some (ndt_symbolic_dim name u) ∧
      ∀ w, ndt_symbolic_dim name u = .ok w →
        ∃ hd, w = .SymbolicDim hd .RequireNA name u ∧ hd.access = .Abstract) := by
  have hnc : ndt_is_concrete (.SymbolicDim h tag name inner) = false := by
    simp [ndt_is_concrete, ndt_t.access, ndt_t.hdr, habs]
  have hneg : (∀ s, symtable_find tbl name = .Shape s → s < 0) →
      symtable_find_shape tbl name < 0 := by
    intro hs
    unfold symtable_find_shape
    split
    · rename_i s hsf; exact hs s hsf
    · decide
  refine ⟨?_, ?_, ?_⟩
  · intro s hs h0
    refine ⟨?_, fun w hw => (ndt_fixed_dim_node hw).2⟩
    have hsh : symtable_find_shape tbl name = s := by
      unfold symtable_find_shape; rw [hs]
    simp only [ndt_substitute, hnc, Bool.false_eq_true, if_false, hu, hsh]
    rw [if_neg (by omega)]
  · intro hs hrc
    subst hrc
    simp only [ndt_substitute, hnc, Bool.false_eq_true, if_false, hu, hneg hs, if_true]
  · intro hs hrc
    subst hrc
    refine ⟨?_, fun w hw => ndt_symbolic_dim_node hw⟩
    simp only [ndt_substitute, hnc, Bool.false_eq_true, if_false, hu, hneg hs, if_true]

/-- The pattern `N * M * float64` with `{N: 3, M: 4}` yields `3 * 4 * float64`. -/
theorem ndt_substitute_symbolic_dim_witness :
    ndt_symbolic_dim "M" ex_float64 = .ok ex_M_float64 ∧
    ndt_symbolic_dim "N" ex_M_float64 = .ok ex_N_M_float64 ∧
    ndt_substitute empty_registry ex_tbl_NM 3 ex_N_M_float64 true =
      some (fixed_array [3, 4] ex_float64) ∧
    fixed_array [3, 4] ex_float64 =
      .ok (.FixedDim { access := .Concrete, flags := {}, ndim := 2, datasize := 96
                       align := 8 } .RequireNA 3
        (.FixedDim { access := .Concrete, flags := {}, ndim := 1, datasize := 32, align := 8 }
          .RequireNA 4 ex_float64 8 1) 8 4) :=
  ⟨rfl, rfl,
    ((ndt_substitute_symbolic_dim empty_registry ex_tbl_NM 2
      { access := .Abstract, flags := {}, ndim := 2, datasize := 0, align := UINT16_MAX }
      .RequireNA "N" ex_M_float64
      (.FixedDim { access := .Concrete, flags := {}, ndim := 1, datasize := 32, align := 8 }
        .RequireNA 4 ex_float64 8 1) true rfl rfl).1 3 rfl (by decide)).1,
    rfl⟩

theorem wrap_fixed_seq_eq (dims : List ndt_t) (u : ndt_t) :
    wrap_fixed_seq dims u = fixed_array (dims.map fixed_shape) u := by
  induction dims with
  | nil => rfl
  | cons w ws ih =>
    simp only [wrap_fixed_seq, List.map_cons, fixed_array, ih]
    cases fixed_array (ws.map fixed_shape) u <;> rfl

theorem peel_fixed_array :
    ∀ (shapes : List Int) (u w : ndt_t), fixed_array shapes u = .ok w →
      peel_fixed shapes.length w = some (shapes, u) := by
  intro shapes
  induction shapes with
  | nil =>
    intro u w h
    simp only [fixed_array, Except.ok.injEq] at h
    subst h
    rfl
  | cons s rest ih =>
    intro u w h
    simp only [fixed_array] at h
    split at h
    · rename_i v hv
      obtain ⟨_, hd, isz, st, hw⟩ := ndt_fixed_dim_node h
      subst hw
      simp only [List.length_cons, peel_fixed, ih u v hv]
    · cases h

/-- C9: for an `EllipsisDim` named `A` whose symbol-table entry is a `FixedSeq`
of dimensions with the shapes `s_1 .. s_k` (outermost first) and whose inner
type substitutes, with `req_concrete` forced to true, to `u`, `ndt_substitute`
returns `u` wrapped by `ndt_fixed_dim` with the default step once per captured
shape, the last shape first; a successful result has `k` outer fixed
dimensions with the shapes `s_1 .. s_k`, outermost first, over `u`. -/
theorem ndt_substitute_named_ellipsis_fixed (reg : ndt_registry) (tbl : symtable_t)
    (fuel : Nat) (h : ndt_hdr) (tag : ndt_contig) (name : String) (inner u : ndt_t)
    (rc : Bool) (dims : List ndt_t) (habs : h.access = .Abstract)
    (hfind : symtable_find tbl name = .FixedSeq dims)
    (hu : ndt_substitute reg tbl fuel inner true = some (.ok u)) :
    ndt_substitute reg tbl (fuel + 1) (.EllipsisDim h tag (some name) inner) rc =
      some (fixed_array (dims.map fixed_shape) u) ∧
    ∀ w, fixed_array (dims.map fixed_shape) u = .ok w →
      peel_fixed dims.length w = some (dims.map fixed_shape, u) := by
  have hnc : ndt_is_concrete (.EllipsisDim h tag (some name) inner) = false := by
    simp [ndt_is_concrete, ndt_t.access, ndt_t.hdr, habs]
  constructor
  · simp only [ndt_substitute, hnc, Bool.false_eq_true, if_false, hu,
      substitute_named_ellipsis, hfind, wrap_fixed_seq_eq]
  · intro w hw
    have := peel_fixed_array _ u w hw
    simpa using this

/-- The pattern `A... * D * float64` with `A = FixedSeq[2, 3]` and `D = 5` yields
`2 * 3 * 5 * float64`. -/
theorem ndt_substitute_named_ellipsis_fixed_witness :
    ndt_symbolic_dim "D" ex_float64 = .ok ex_D_float64 ∧
    ndt_ellipsis_dim (some "A") ex_D_float64 = .ok ex_A_D_float64 ∧
    ndt_substitute empty_registry ex_tbl_AD 3 ex_A_D_float64 false =
      some (fixed_array [2, 3, 5] ex_float64) ∧
    (fixed_array [2, 3, 5] ex_float64).toOption.map (peel_fixed 3) =
      some (some ([2, 3, 5], ex_float64)) ∧
    (fixed_array [2, 3, 5] ex_float64).toOption.map ndt_t.datasize = some 240 :=
  ⟨rfl, rfl,
    (ndt_substitute_named_ellipsis_fixed empty_registry ex_tbl_AD 2
      { access := .Abstract, flags := NDT_ELLIPSIS, ndim := 2, datasize := 0
        align := UINT16_MAX }
      .RequireNA "A" ex_D_float64 (built ex_float64 (fixed_array [5] ex_float64)) false
      [built ex_float64 (fixed_array [2, 3, 5] ex_float64),
       built ex_float64 (fixed_array [3, 5] ex_float64)] rfl rfl rfl).1,
    rfl, rfl⟩

theorem access_cases (a : ndt_access) : a = .Concrete ∨ a = .Abstract := by
  cases a
  · exact Or.inr rfl
  · exact Or.inl rfl

/-- The node of a successful `ndt_var_dim` is concrete. -/
theorem ndt_var_dim_access {type t : ndt_t} {offsets : List Int} {slices : List ndt_slice_t}
    {opt : Bool} (h : ndt_var_dim type offsets slices opt = .ok t) : t.access = .Concrete := by
  unfold ndt_var_dim at h
  split at h
  · cases h
  split at h
  · cases h
  split at h
  · cases h
  simp only at h
  split at h
  · cases h
  split at h
  · cases h
  · cases h; rfl

theorem var_from_offsets_loop_access (m : offsets_t) :
    ∀ (n i : Nat) (t w : ndt_t), t.access = .Concrete →
      var_from_offsets_loop m n i t = .ok w → w.access = .Concrete := by
  intro n
  induction n with
  | zero =>
    intro i t w ht h
    simp only [var_from_offsets_loop, Except.ok.injEq] at h
    subst h
    exact ht
  | succ n ih =>
    intro i t w ht h
    simp only [var_from_offsets_loop] at h
    split at h
    · exact ih _ _ _ ht h
    · split at h
      · cases h
      · split at h
        · cases h
        · rename_i u hu
          exact ih _ _ _ (ndt_var_dim_access hu) h

/-- A contiguous copy of a var dimension over a concrete dtype is concrete. -/
theorem ndt_copy_contiguous_var_access {t dtype w : ndt_t} {linear_index : Int}
    (htag : t.tag = .VarDim ∨ t.tag = .VarDimElem)
    (h : ndt_copy_contiguous_dtype t dtype linear_index = .ok w) : w.access = .Concrete := by
  unfold ndt_copy_contiguous_dtype at h
  split at h
  · cases h
  rename_i hab
  have hd : dtype.access = .Concrete := by
    rcases access_cases dtype.access with hc | hc
    · exact hc
    · exact absurd (Or.inr (by simp [ndt_is_abstract, hc])) hab
  have hv : var_copy_contiguous t dtype linear_index = .ok w := by
    rcases htag with ht | ht <;> simpa only [ht] using h
  unfold var_copy_contiguous at hv
  simp only at hv
  split at hv
  · cases hv
  split at hv
  · cases hv
  exact var_from_offsets_loop_access _ _ _ _ _ hd hv

theorem wrap_fixed_seq_residual :
    ∀ (dims : List ndt_t) (u w : ndt_t),
      (u.access = .Concrete ∨ residual_abstract u = true) →
      wrap_fixed_seq dims u = .ok w →
      w.access = .Concrete ∨ residual_abstract w = true := by
  intro dims
  induction dims with
  | nil =>
    intro u w hu h
    simp only [wrap_fixed_seq, Except.ok.injEq] at h
    subst h
    exact hu
  | cons d ds ih =>
    intro u w hu h
    simp only [wrap_fixed_seq] at h
    split at h
    · cases h
    · rename_i v hv
      obtain ⟨ha, hd, isz, st, hw⟩ := ndt_fixed_dim_node h
      rcases ih u v hu hv with hc | hr
      · left; rw [ha, hc]
      · right; subst hw; simpa [residual_abstract] using hr

/-- The node of a successful `ndt_array`. -/
theorem ndt_array_node {type t : ndt_t} {opt : Bool} (h : ndt_array type opt = .ok t) :
    t.access = type.access ∧ ∃ hd isz, t = .Array hd isz type := by
  unfold ndt_array at h
  split at h
  · cases h
  · cases h
    exact ⟨rfl, _, _, rfl⟩

theorem wrap_array_seq_residual :
    ∀ (dims : List ndt_t) (u w : ndt_t),
      (u.access = .Concrete ∨ residual_abstract u = true) →
      wrap_array_seq dims u = .ok w →
      w.access = .Concrete ∨ residual_abstract w = true := by
  intro dims
  induction dims with
  | nil =>
    intro u w hu h
    simp only [wrap_array_seq, Except.ok.injEq] at h
    subst h
    exact hu
  | cons d ds ih =>
    intro u w hu h
    simp only [wrap_array_seq] at h
    split at h
    · cases h
    · rename_i v hv
      obtain ⟨ha, hd, isz, hw⟩ := ndt_array_node h
      rcases ih u v hu hv with hc | hr
      · left; rw [ha, hc]
      · right; subst hw; simpa [residual_abstract] using hr

/-- The node of a successful `ndt_abstract_var_dim` is an abstract `VarDim`. -/
theorem ndt_abstract_var_dim_residual {type t : ndt_t} {opt : Bool}
    (h : ndt_abstract_var_dim type opt = .ok t) : residual_abstract t = true := by
  unfold ndt_abstract_var_dim at h
  split at h
  · cases h
  · cases h
    rfl

theorem ndt_constr_node {type t : ndt_t} {name : String} {opt : Bool}
    (h : ndt_constr name type opt = .ok t) :
    t.access = type.access ∧ ∃ hd, t = .Constr hd name type := by
  unfold ndt_constr at h
  split at h
  · cases h
  · cases h
    refine ⟨?_, _, rfl⟩
    simp only [ndt_t.access, ndt_t.hdr]
    split <;> rfl

theorem ndt_ref_node {type t : ndt_t} {opt : Bool} (h : ndt_ref type opt = .ok t) :
    t.access = type.access ∧ ∃ hd, t = .Ref hd type := by
  unfold ndt_ref at h
  split at h
  · cases h
  · cases h
    exact ⟨rfl, _, rfl⟩

theorem ndt_nominal_node {reg : ndt_registry} {type t : ndt_t} {name : String} {opt : Bool}
    (h : ndt_nominal reg name (some type) opt = .ok t) :
    ∃ hd, t = .Nominal hd name type ∧ hd.access = type.access := by
  unfold ndt_nominal at h
  split at h
  · cases h
  simp only at h
  split at h
  · cases h
  · rename_i ty hty
    split at hty
    · cases hty
    · cases hty
    · cases hty
      cases h
      exact ⟨_, rfl, rfl⟩

theorem ndt_copy_abstract_var_dtype_residual {t u w : ndt_t}
    (hu : u.access = .Concrete ∨ residual_abstract u = true)
    (h : ndt_copy_abstract_var_dtype t u = .ok w) :
    w.access = .Concrete ∨ residual_abstract w = true := by
  cases t with
  | VarDim hd type isz offs sl =>
    simp only [ndt_copy_abstract_var_dtype] at h
    split at h
    · cases h; exact hu
    · split at h
      · cases h
      · split at h
        · cases h
        · exact Or.inr (ndt_abstract_var_dim_residual h)
  | _ =>
    simp only [ndt_copy_abstract_var_dtype] at h
    split at h
    · cases h; exact hu
    · cases h

theorem substitute_named_ellipsis_residual {tbl : symtable_t} {name : String} {u w : ndt_t}
    (htbl : var_seqs_start_with_var tbl)
    (hu : u.access = .Concrete ∨ residual_abstract u = true)
    (h : substitute_named_ellipsis tbl name u = .ok w) :
    w.access = .Concrete ∨ residual_abstract w = true := by
  unfold substitute_named_ellipsis at h
  split at h
  · exact wrap_fixed_seq_residual _ _ _ hu h
  · rename_i dims idx hfind
    split at h
    · cases h; exact hu
    · rename_i d ds
      exact Or.inl (ndt_copy_contiguous_var_access (htbl name d ds idx hfind) h)
  · exact wrap_array_seq_residual _ _ _ hu h
  · cases h

theorem kept_abstract_residual (t : ndt_t) (hk : substitute_keeps t.tag = true)
    (ha : t.access = .Abstract) : residual_abstract t = true := by
  cases t with
  | FixedString h _ _ =>
    have h1 : h.access = .Abstract := ha
    show (h.access == ndt_access.Abstract) = true
    rw [h1]; rfl
  | FixedBytes h _ _ =>
    have h1 : h.access = .Abstract := ha
    show (h.access == ndt_access.Abstract) = true
    rw [h1]; rfl
  | Bytes h _ =>
    have h1 : h.access = .Abstract := ha
    show (h.access == ndt_access.Abstract) = true
    rw [h1]; rfl
  | Char h _ =>
    have h1 : h.access = .Abstract := ha
    show (h.access == ndt_access.Abstract) = true
    rw [h1]; rfl
  | Scalar tag h =>
    have h1 : h.access = .Abstract := ha
    have h2 : substitute_keeps tag = true := hk
    show (h.access == ndt_access.Abstract && substitute_keeps tag) = true
    rw [h1, h2]; rfl
  | _ => exact Bool.noConfusion hk

/-- C10 (as amended): for every term `t` and every symbol table whose `VarSeq`
captures start with a var dimension, if `ndt_substitute(t, tbl, true)` succeeds
then the returned type is concrete, unless it is or wraps a node that
substitution leaves abstract: an abstract var dimension or an abstract nominal
type (or an abstract node with a scalar tag). -/
theorem ndt_substitute_concrete (reg : ndt_registry) (tbl : symtable_t)
    (htbl : var_seqs_start_with_var tbl) :
    ∀ (fuel : Nat) (t w : ndt_t), ndt_substitute reg tbl fuel t true = some (.ok w) →
      w.access = .Concrete ∨ residual_abstract w = true := by
  intro fuel
  induction fuel with
  | zero =>
    intro t w h
    simp [ndt_substitute] at h
  | succ fuel ih =>
    intro t w h
    unfold ndt_substitute at h
    simp only at h
    split at h
    · rename_i hc
      simp only [Option.some.injEq, Except.ok.injEq] at h
      subst h
      left
      simpa [ndt_is_concrete] using hc
    rename_i hc
    have habs : t.access = .Abstract := by
      rcases access_cases t.access with h1 | h1
      · exact absurd (by simp [ndt_is_concrete, h1]) hc
      · exact h1
    split at h
    · -- FixedDim
      split at h
      · cases h
      · cases h
      · rename_i u hu
        simp only [Option.some.injEq] at h
        obtain ⟨ha, hd, isz, st, hw⟩ := ndt_fixed_dim_node h
        rcases ih _ _ hu with h1 | h1
        · left; rw [ha, h1]
        · right; subst hw; simpa [residual_abstract] using h1
    · -- VarDim
      split at h
      · cases h
      · cases h
      · rename_i u hu
        simp only [Option.some.injEq] at h
        exact ndt_copy_abstract_var_dtype_residual (ih _ _ hu) h
    · -- SymbolicDim
      split at h
      · cases h
      · cases h
      · rename_i u hu
        split at h
        · simp at h
        · simp only [Option.some.injEq] at h
          obtain ⟨ha, hd, isz, st, hw⟩ := ndt_fixed_dim_node h
          rcases ih _ _ hu with h1 | h1
          · left; rw [ha, h1]
          · right; subst hw; simpa [residual_abstract] using h1
    · -- unnamed ellipsis
      exact ih _ _ h
    · -- named ellipsis
      split at h
      · cases h
      · cases h
      · rename_i u hu
        simp only [Option.some.injEq] at h
        exact substitute_named_ellipsis_residual htbl (ih _ _ hu) h
    · -- Typevar
      split at h
      · simp at h
      · exact ih _ _ h
    · -- Constr
      split at h
      · cases h
      · cases h
      · rename_i u hu
        simp only [Option.some.injEq] at h
        obtain ⟨ha, hd, hw⟩ := ndt_constr_node h
        rcases ih _ _ hu with h1 | h1
        · left; rw [ha, h1]
        · right; subst hw; simpa [residual_abstract] using h1
    · -- Nominal
      split at h
      · cases h
      · rename_i u hu
        simp only [Option.some.injEq] at h
        obtain ⟨hd, hw, ha⟩ := ndt_nominal_node h
        subst hw
        rcases access_cases u.access with h1 | h1
        · left
          show hd.access = _
          rw [ha, h1]
        · right
          show (hd.access == ndt_access.Abstract) = true
          rw [ha, h1]
          rfl
    · -- Ref
      split at h
      · cases h
      · cases h
      · rename_i u hu
        simp only [Option.some.injEq] at h
        obtain ⟨ha, hd, hw⟩ := ndt_ref_node h
        rcases ih _ _ hu with h1 | h1
        · left; rw [ha, h1]
        · right; subst hw; simpa [residual_abstract] using h1
    · -- every other tag
      split at h
      · rename_i hk
        simp only [Option.some.injEq, Except.ok.injEq] at h
        subst h
        exact Or.inr (kept_abstract_residual _ hk habs)
      · simp at h

theorem ex_tbl_NM_var_seqs : var_seqs_start_with_var ex_tbl_NM := by
  intro name w rest idx h
  simp only [ex_tbl_NM, symtable_find] at h
  split at h
  · cases h
  · split at h
    · cases h
    · cases h

/-- The substitution of `{N: 3, M: 4}` into `N * M * float64` with
`req_concrete` returns the concrete `3 * 4 * float64`. -/
theorem ndt_substitute_concrete_witness :
    ndt_substitute empty_registry ex_tbl_NM 3 ex_N_M_float64 true =
      some (.ok ex_3_4_float64) ∧
    (ex_3_4_float64.access = .Concrete ∨ residual_abstract ex_3_4_float64 = true) :=
  ⟨rfl, ndt_substitute_concrete empty_registry ex_tbl_NM ex_tbl_NM_var_seqs 3
    ex_N_M_float64 ex_3_4_float64 rfl⟩

/-- C10, counterexample: the abstract var dimension `var * int64`, built by
`ndt_abstract_var_dim`, is substituted with `req_concrete = true` and the empty
table with success, and the returned type is abstract. -/
theorem ndt_substitute_abstract_var :
    ndt_abstract_var_dim ex_int64 false = .ok ex_abstract_var ∧
    ndt_substitute empty_registry [] 2 ex_abstract_var true = some (.ok ex_abstract_var) ∧
    ex_abstract_var.access = .Abstract ∧ ndt_is_concrete ex_abstract_var = false :=
  ⟨rfl, rfl, rfl, rfl⟩

/-! ## Substitution below tuples, records and unions -/

theorem ex_tuple_T_field :
    ndt_field none ex_typevar_T none none none = .ok (abstract_field none ex_typevar_T) := by
  rfl

/-- C11, as stated, fails: the abstract tuple `(T)`, record `{a: T}` and union
`[a: T]` are built by the constructors, their only variable `T` is bound to
`int64`, and `ndt_substitute` answers `NotImplementedError` for each. -/
theorem ndt_substitute_tuple_not_implemented :
    ex_tuple_T.tag = .Tuple ∧ ex_record_T.tag = .Record ∧ ex_union_T.tag = .Union ∧
    ndt_is_abstract ex_tuple_T = true ∧ ndt_is_abstract ex_record_T = true ∧
    ndt_is_abstract ex_union_T = true ∧
    symtable_find_typevar ex_tbl_T "T" = some ex_int64 ∧
    ndt_substitute empty_registry ex_tbl_T 5 ex_typevar_T true = some (.ok ex_int64) ∧
    ndt_substitute empty_registry ex_tbl_T 5 ex_tuple_T true =
      some (.error .NotImplementedError) ∧
    ndt_substitute empty_registry ex_tbl_T 5 ex_record_T false =
      some (.error .NotImplementedError) ∧
    ndt_substitute empty_registry ex_tbl_T 5 ex_union_T true =
      some (.error .NotImplementedError) := by
  refine ⟨rfl, rfl, rfl, rfl, rfl, rfl, rfl, rfl, rfl, rfl, rfl⟩

/-- C11 (amended): `ndt_substitute` does not descend into tuples, records and
unions. For every abstract Tuple, Record or Union, every table and both values
of `req_concrete` it fails with `NotImplementedError` (the call needs no more
than one unit of fuel); a concrete one is returned as it is. -/
theorem ndt_substitute_tuple_record_union (reg : ndt_registry) (tbl : symtable_t)
    (fuel : Nat) (t : ndt_t) (rc : Bool)
    (ht : t.tag = .Tuple ∨ t.tag = .Record ∨ t.tag = .Union) :
    (ndt_is_abstract t = true →
      ndt_substitute reg tbl (fuel + 1) t rc = some (.error .NotImplementedError)) ∧
    (ndt_is_concrete t = true →
      ndt_substitute reg tbl (fuel + 1) t rc = some (.ok t)) := by
  have key : ∀ u : ndt_t, ndt_is_abstract u = true → ndt_is_concrete u = false := by
    intro u hu
    unfold ndt_is_abstract at hu
    unfold ndt_is_concrete
    cases hacc : u.access <;> simp_all
  constructor
  · intro ha
    have hc := key t ha
    cases t with
    | Tuple h flag types offset align pad =>
      simp only [ndt_substitute, hc]
      simp [substitute_keeps, ndt_t.tag]
    | Record h flag names types offset align pad =>
      simp only [ndt_substitute, hc]
      simp [substitute_keeps, ndt_t.tag]
    | Union h ntags tags types =>
      simp only [ndt_substitute, hc]
      simp [substitute_keeps, ndt_t.tag]
    | Scalar tag h =>
      simp only [ndt_t.tag] at ht
      simp only [ndt_substitute, hc]
      rcases ht with ht | ht | ht <;> subst ht <;> simp [substitute_keeps, ndt_t.tag]
    | _ => simp [ndt_t.tag] at ht
  · intro hc
    cases t <;> simp only [ndt_substitute, hc] <;> rfl

theorem ndt_substitute_tuple_record_union_witness :
    ex_tuple_T.tag = .Tuple ∧ ndt_is_abstract ex_tuple_T = true ∧
    ndt_substitute empty_registry ex_tbl_T 1 ex_tuple_T true =
      some (.error .NotImplementedError) :=
  ⟨rfl, rfl,
    (ndt_substitute_tuple_record_union empty_registry ex_tbl_T 0 ex_tuple_T true
      (Or.inl rfl)).1 rfl⟩

/-! ## Bounds check of `ndt_var_indices` -/

/-- Below `INT64_MAX`, where `index + 1` is an `int64_t`, `ndt_var_indices`
reports `IndexError` exactly for `index < 0` and for `index + 1 ≥ n`. -/
theorem ndt_var_indices_index_error_iff (t : ndt_t) (offsets : List Int) (index : Int)
    (ho : var_offsets t = some offsets) (hmin : INT64_MIN ≤ index) (hmax : index < INT64_MAX) :
    ndt_var_indices t index = .error .IndexError ↔
      (index < 0 ∨ index + 1 ≥ (offsets.length : Int)) := by
  have hw : wrap_i64 (index + 1) = index + 1 := by
    apply wrap_i64_of_fits
    unfold fits_i64
    unfold INT64_MIN at hmin
    unfold INT64_MAX at hmax
    simp only [INT64_MIN, INT64_MAX, Bool.and_eq_true, decide_eq_true_eq]
    omega
  unfold ndt_var_indices
  rw [ho]
  simp only [hw]
  by_cases hc : index < 0 ∨ index + 1 ≥ (offsets.length : Int)
  · rw [if_pos hc]
    simp [hc]
  · rw [if_neg hc]
    have h0 : 0 ≤ index := by omega
    have h1 : index.toNat + 1 < offsets.length := by omega
    have h2 : index.toNat < offsets.length := by omega
    rw [List.get?_eq_get h2, List.get?_eq_get h1]
    simp [hc]

/-- C13: at `index = INT64_MAX` the sum `index + 1` of the bounds check leaves
`int64_t`. With two's complement wrap-around it is `INT64_MIN`, the check
`index+1 >= n` does not fire, no `IndexError` is reported, and the offsets are
read out of bounds, although `index + 1 ≥ n` holds for the two offsets of
`var * int64`. -/
theorem ndt_var_indices_index_overflow :
    var_offsets ex_var = some [0, 2] ∧
    INT64_MAX + 1 ≥ (([0, 2] : List Int).length : Int) ∧
    wrap_i64 (INT64_MAX + 1) = INT64_MIN ∧
    ndt_var_indices ex_var INT64_MAX = .error .Undefined ∧
    ndt_var_indices ex_var INT64_MAX ≠ .error .IndexError := by
  refine ⟨rfl, by decide, by decide, by decide, by decide⟩

/-! ## The sentinel step in `ndt_to_fortran` -/

/-- C16: for the C-contiguous array `9223372036854775807 * 0 * int64` the
running step of the inner dimension in `_ndt_to_fortran` is `INT64_MAX`, the
product of the shapes outside it. `ndt_fixed_dim` reads this value as "no step
given" and derives the step 1: the step of the inner dimension of the result
is not the product of the outer shapes. -/
theorem ndt_to_fortran_sentinel_step :
    ndt_is_concrete ex_max_0_int64 = true ∧
    ndt_is_c_contiguous ex_max_0_int64 = true ∧
    (ndt_dims_dtype ex_max_0_int64).1.map fixed_shape = [INT64_MAX, 0] ∧
    ∃ u, ndt_to_fortran ex_max_0_int64 = .ok u ∧
      (ndt_dims_dtype u).1.map fixed_shape = [INT64_MAX, 0] ∧
      (ndt_dims_dtype u).1.map fixed_dim_step = [1, 1] ∧
      (1 : Int) ≠ INT64_MAX := by
  refine ⟨rfl, by decide, by decide, _, rfl, by decide, by decide, by decide⟩

/-! ## Dimensions of flexible arrays -/

/-- C19: `check_array_invariants` has no test of `ndim`, unlike the checks of
the other dimension constructors: 17 nested calls of `ndt_array` over `int64`
succeed, and the result has `ndim = 17 > NDT_MAX_DIM`. -/
theorem ndt_array_ndim_unchecked :
    ∃ t, array_chain 17 ex_int64 = .ok t ∧ t.tag = .Array ∧ t.ndim = 17 ∧
      ¬ (t.ndim ≤ NDT_MAX_DIM) := by
  refine ⟨_, rfl, by decide, by decide, by decide⟩

/-! ## Var-contiguity of the chains of `ndt_var_dim` -/

/-- The node of a successful `ndt_var_dim`. -/
theorem ndt_var_dim_node {type t : ndt_t} {offsets : List Int} {slices : List ndt_slice_t}
    {opt : Bool} (h : ndt_var_dim type offsets slices opt = .ok t) :
    (∃ hd isz, t = .VarDim hd type isz (some offsets) slices ∧
      hd.ndim = type.ndim + 1 ∧ hd.access = .Concrete ∧ hd.align = type.align) ∧
    type.ndim < NDT_MAX_DIM ∧ 2 ≤ (offsets.length : Int) ∧ ndt_is_concrete type = true ∧
    (type.tag = .VarDim ∨ type.tag = .VarDimElem →
      ∃ inner, var_offsets type = some inner ∧
        last_offset offsets = (inner.length : Int) - 1) := by
  unfold ndt_var_dim at h
  split at h
  · cases h
  · rename_i hinv
    have hnd : type.ndim < NDT_MAX_DIM := by
      unfold check_var_invariants at hinv
      split at hinv
      · cases hinv
      · split at hinv
        · cases hinv
        · split at hinv
          · cases hinv
          · split at hinv
            · cases hinv
            · omega
    by_cases h2 : (offsets.length : Int) < 2
    · rw [if_pos h2] at h; cases h
    · rw [if_neg h2] at h
      by_cases hc : ndt_is_concrete type = true
      · simp only [hc, Bool.not_true, Bool.false_eq_true, if_false] at h
        by_cases hv : type.tag = .VarDim ∨ type.tag = .VarDimElem
        · rw [if_pos hv] at h
          cases hio : var_offsets type with
          | none => rw [hio] at h; cases h
          | some inner =>
            rw [hio] at h
            simp only at h
            by_cases hl : last_offset offsets ≠ (inner.length : Int) - 1
            · rw [if_pos hl] at h; cases h
            · rw [if_neg hl] at h
              simp only [Bool.false_eq_true, if_false, Except.ok.injEq] at h
              refine ⟨⟨_, _, h.symm, rfl, rfl, rfl⟩, hnd, by omega, hc, ?_⟩
              intro _
              exact ⟨inner, rfl, by simpa using hl⟩
        · rw [if_neg hv] at h
          simp only at h
          split at h
          · cases h
          · simp only [Except.ok.injEq] at h
            refine ⟨⟨_, _, h.symm, rfl, rfl, rfl⟩, hnd, by omega, hc, ?_⟩
            intro hv2
            exact absurd hv2 hv
      · have hc2 : ndt_is_concrete type = false := by simpa using hc
        simp only [hc2, Bool.not_false, if_true] at h
        cases h

theorem var_chain_shape {t : ndt_t} (h : var_chain t) :
    0 ≤ t.ndim ∧
    (t.ndim = 0 ∨ (t.tag = .VarDim ∧ 0 < t.ndim ∧
      ∃ offs, var_offsets t = some offs ∧ (offs.length : Int) ≤ INT32_MAX)) := by
  induction h with
  | dtype d hd => exact ⟨by omega, Or.inl hd⟩
  | var type t offsets opt _ hlen hb ih =>
    obtain ⟨⟨hd, isz, ht, hnd, _, _⟩, _, _, _, _⟩ := ndt_var_dim_node hb
    subst ht
    have h0 := ih.1
    refine ⟨?_, Or.inr ⟨rfl, ?_, offsets, rfl, hlen⟩⟩
    · show 0 ≤ hd.ndim
      omega
    · show 0 < hd.ndim
      omega

theorem is_var_contiguous_ndim0 (t : ndt_t) (nitems : Int) (h : t.ndim = 0) :
    _is_var_contiguous t nitems = true := by
  cases t <;> simp_all [_is_var_contiguous, ndt_t.ndim, ndt_t.hdr]

theorem wrap_i32_of_fits {x : Int} (h0 : -2147483648 ≤ x) (h1 : x ≤ 2147483647) :
    wrap_i32 x = x := by
  unfold wrap_i32
  omega

theorem var_chain_contiguous {t : ndt_t} (h : var_chain t) :
    ∀ nitems : Int,
      (t.ndim = 0 ∨ ∃ offs, var_offsets t = some offs ∧ (offs.length : Int) = nitems + 1) →
      _is_var_contiguous t nitems = true := by
  induction h with
  | dtype d hd => intro nitems _; exact is_var_contiguous_ndim0 d nitems hd
  | var type t offsets opt hc hlen hb ih =>
    intro nitems hn
    obtain ⟨⟨hd, isz, ht, hnd, _, _⟩, _, h2, _, hin⟩ := ndt_var_dim_node hb
    subst ht
    have hs := var_chain_shape hc
    have hne : hd.ndim ≠ 0 := by omega
    rcases hn with hn | ⟨offs, ho, hl⟩
    · exact absurd hn hne
    · simp only [var_offsets, Option.some.injEq] at ho
      subst ho
      unfold _is_var_contiguous
      rw [if_neg hne]
      simp only
      have hw : wrap_i32 (nitems + 1) = nitems + 1 := by
        apply wrap_i32_of_fits
        · omega
        · unfold INT32_MAX at hlen; omega
      rw [hw, if_neg (by simpa using hl)]
      simp only [List.length_nil, ne_eq, not_true_eq_false, if_false]
      apply ih
      rcases hs.2 with h0 | ⟨htag, _, _⟩
      · exact Or.inl h0
      · obtain ⟨inner, hi, hlast⟩ := hin (Or.inl htag)
        exact Or.inr ⟨inner, hi, by omega⟩

/-- C14: a chain of var dimensions built by `ndt_var_dim` without slices over
a type without dimensions, whose outermost offset table has exactly two
entries, is var-contiguous. -/
theorem ndt_var_dim_chain_var_contiguous (type t : ndt_t) (offsets : List Int) (opt : Bool)
    (hc : var_chain type) (hb : ndt_var_dim type offsets [] opt = .ok t)
    (h2 : offsets.length = 2) :
    ndt_is_concrete t = true ∧ ndt_is_var_contiguous t = true := by
  have hlen : (offsets.length : Int) ≤ INT32_MAX := by
    rw [h2]; decide
  have hv : var_chain t := var_chain.var type t offsets opt hc hlen hb
  obtain ⟨⟨hd, isz, ht, _, hacc, _⟩, _, _, _, _⟩ := ndt_var_dim_node hb
  have hconc : ndt_is_concrete t = true := by
    subst ht
    simp [ndt_is_concrete, ndt_t.access, ndt_t.hdr, hacc]
  have habs : ndt_is_abstract t = false := by
    subst ht
    simp [ndt_is_abstract, ndt_t.access, ndt_t.hdr, hacc]
  refine ⟨hconc, ?_⟩
  unfold ndt_is_var_contiguous
  rw [habs]
  simp only [Bool.false_eq_true, if_false]
  apply var_chain_contiguous hv
  right
  subst ht
  exact ⟨offsets, rfl, by rw [h2]; rfl⟩

theorem ex_var_float32_chain : var_chain ex_var_float32 :=
  var_chain.var ex_float32 ex_var_float32 [0, 3, 5] false
    (var_chain.dtype ex_float32 rfl) (by decide) rfl

theorem ndt_var_dim_chain_var_contiguous_witness :
    ndt_var_dim ex_var_float32 [0, 2] [] false = .ok ex_var_var_float32 ∧
    ndt_is_concrete ex_var_var_float32 = true ∧
    ndt_is_var_contiguous ex_var_var_float32 = true :=
  ⟨rfl, ndt_var_dim_chain_var_contiguous ex_var_float32 ex_var_var_float32 [0, 2] false
    ex_var_float32_chain rfl rfl⟩

/-! ## Alignment of the constructed terms -/

theorem max_u16_pow2 {a m : Nat} (ha : ispower2 a = true) (hm : ispower2 m = true) :
    ispower2 (max_u16 a m) = true := by
  unfold max_u16
  split
  · exact ha
  · exact hm

theorem get_align_pow2 {a : Option Nat} {m : Nat} (h : get_align a 1 = .ok m) :
    ispower2 m = true ∧ ∀ p, a = some p → ispower2 p = true := by
  cases a with
  | none =>
    simp only [get_align, Except.ok.injEq] at h
    subst h
    refine ⟨by decide, ?_⟩
    intro p hp
    cases hp
  | some x =>
    simp only [get_align] at h
    split at h
    · cases h
    · rename_i hp
      simp only [Except.ok.injEq] at h
      subst h
      have hx : ispower2 x = true := by simpa [align_ispower2] using hp
      refine ⟨hx, ?_⟩
      intro p hp2
      cases hp2
      exact hx

theorem init_loop_maxalign_pow2 (pack : Option Nat)
    (hp : ∀ p, pack = some p → ispower2 p = true) :
    ∀ (fields : List ndt_field_t) (i : Nat) (s s1 : fields_layout),
      (∀ f ∈ fields, ispower2 f.align = true) → ispower2 s.maxalign = true →
      init_concrete_fields_loop pack fields i s = .ok s1 → ispower2 s1.maxalign = true := by
  intro fields
  induction fields with
  | nil =>
    intro i s s1 _ hs h
    simp only [init_concrete_fields_loop, Except.ok.injEq] at h
    subst h
    exact hs
  | cons f fs ih =>
    intro i s s1 hf hs h
    simp only [init_concrete_fields_loop] at h
    split at h
    · cases h
    · rename_i a ha
      have hpa : ispower2 a = true := by
        unfold field_align at ha
        split at ha
        · rename_i p
          split at ha
          · cases ha
          · cases ha
            exact hp _ rfl
        · cases ha
          exact hf f (List.mem_cons_self _ _)
      apply ih (i + 1) _ s1 (fun g hg => hf g (List.mem_cons_of_mem _ hg)) _ h
      simp only [init_concrete_fields_step]
      exact max_u16_pow2 hpa hs

theorem init_concrete_fields_maxalign_pow2 {fields : List ndt_field_t}
    {align pack : Option Nat} {c : concrete_fields}
    (hf : ∀ f ∈ fields, ispower2 f.align = true)
    (h : init_concrete_fields fields align pack = .ok c) : ispower2 c.maxalign = true := by
  unfold init_concrete_fields at h
  split at h
  · cases h
  rename_i m0 hm0
  split at h
  · cases h
  rename_i p0 hp0
  split at h
  · cases h
  rename_i s hs
  simp only at h
  split at h
  · cases h
  split at h
  · cases h
  cases h
  exact init_loop_maxalign_pow2 pack (get_align_pow2 hp0).2 fields 0 _ s hf
    (get_align_pow2 hm0).1 hs

theorem min_field_align_pow2 {type : ndt_t} {a pk : Option Nat} {m : Nat}
    (h : min_field_align type a pk = .ok m) : ispower2 m = true := by
  have key : ∀ x : Nat,
      (if (!align_ispower2 x) = true then (Except.error ndt_error.ValueError : Except ndt_error Nat)
        else .ok x) = .ok m → ispower2 m = true := by
    intro x hx
    by_cases hp : (!align_ispower2 x) = true
    · rw [if_pos hp] at hx; cases hx
    · rw [if_neg hp] at hx
      cases hx
      simpa [align_ispower2] using hp
  cases a with
  | none =>
    cases pk with
    | none =>
      simp only [min_field_align] at h
      exact key _ h
    | some p =>
      simp only [min_field_align] at h
      split at h
      · cases h
      · exact key _ h
  | some x =>
    cases pk with
    | none =>
      simp only [min_field_align] at h
      split at h
      · cases h
      · exact key _ h
    | some p =>
      simp only [min_field_align] at h
      cases h

theorem ndt_field_align_pow2 {name : Option String} {type : ndt_t} {a pk pd : Option Nat}
    {f : ndt_field_t} (h : ndt_field name type a pk pd = .ok f) :
    ispower2 f.align = true := by
  unfold ndt_field at h
  split at h
  · cases h
  rename_i m hm
  split at h
  · cases h
    exact min_field_align_pow2 hm
  · cases h
    show ispower2 1 = true
    decide

theorem ispower2_ne_max {n : Nat} (h : ispower2 n = true) : n ≠ UINT16_MAX := by
  intro hn
  subst hn
  revert h
  decide

theorem fields_align_pow2 {fields : List ndt_field_t}
    (hf : ∀ f ∈ fields, ∃ name a pk pd, ndt_field name f.type a pk pd = .ok f) :
    ∀ f ∈ fields, ispower2 f.align = true := by
  intro f hfm
  obtain ⟨name, a, pk, pd, h⟩ := hf f hfm
  exact ndt_field_align_pow2 h

/-- The alignment of a built term is a power of two as soon as the term is
concrete. -/
theorem constructed_align_pow2 (reg : ndt_registry) (t : ndt_t) (h : constructed reg t) :
    t.access = .Concrete → ispower2 t.align = true := by
  induction h with
  | primitive tag flags t h =>
    intro _
    unfold ndt_primitive at h
    cases tag <;> simp only [primitive_size] at h <;> cases h <;>
      simp only [ndt_t.align, ndt_t.hdr] <;> decide
  | any_kind opt t h => intro hc; cases h; cases hc
  | scalar_kind opt t h => intro hc; cases h; cases hc
  | typevar name t h => intro hc; cases h; cases hc
  | fixed_string size encoding opt t h =>
    intro _
    unfold ndt_fixed_string at h
    simp only at h
    split at h
    · cases h
    · cases h
      cases encoding <;> simp only [ndt_t.align, ndt_t.hdr, ndt_alignof_encoding] <;> decide
  | fixed_bytes size align opt t h =>
    intro _
    unfold ndt_fixed_bytes at h
    split at h
    · cases h
    · rename_i m hm
      split at h
      · cases h
      · cases h
        exact (get_align_pow2 hm).1
  | bytes target_align opt t h =>
    intro _
    unfold ndt_bytes at h
    split at h
    · cases h
    · cases h
      simp only [ndt_t.align, ndt_t.hdr]
      decide
  | char encoding opt t h =>
    intro _
    cases h
    cases encoding <;> simp only [ndt_t.align, ndt_t.hdr, ndt_alignof_encoding] <;> decide
  | categorical types opt t h =>
    intro _
    unfold ndt_categorical at h
    simp only at h
    split at h
    · cases h
    · cases h
      simp only [ndt_t.align, ndt_t.hdr]
      decide
  | fixed_dim type shape step t _ h ih =>
    intro hc
    obtain ⟨hacc, _⟩ := ndt_fixed_dim_node h
    have htc : type.access = .Concrete := by rw [← hacc]; exact hc
    obtain ⟨_, _, _, ht⟩ := ndt_fixed_dim_concrete htc h
    subst ht
    exact ih htc
  | fixed_dim_tag type tag shape step t _ h ih =>
    intro hc
    unfold ndt_fixed_dim_tag at h
    split at h
    · rename_i hd c sh ty isz st hfd
      obtain ⟨hacc, _⟩ := ndt_fixed_dim_node hfd
      simp only [Except.ok.injEq] at h
      subst h
      by_cases htag : tag ≠ .RequireNA
      · simp only [ndt_t.access, ndt_t.hdr, if_pos htag] at hc
        cases hc
      · simp only [ndt_t.access, ndt_t.hdr, if_neg htag] at hc
        have htc : type.access = .Concrete := by
          rw [← hacc]; exact hc
        obtain ⟨_, _, _, ht⟩ := ndt_fixed_dim_concrete htc hfd
        simp only [ndt_t.align, ndt_t.hdr, if_neg htag]
        cases ht
        exact ih htc
    · rename_i hne
      exact absurd h (by
        intro h2
        obtain ⟨_, hd, isz, st, ht⟩ := ndt_fixed_dim_node h2
        subst ht
        exact hne _ _ _ _ _ _ h2)
  | abstract_var_dim type opt t _ h ih =>
    intro hc
    unfold ndt_abstract_var_dim at h
    split at h
    · cases h
    · cases h
      cases hc
  | var_dim type offsets slices opt t _ h ih =>
    intro _
    obtain ⟨⟨hd, isz, ht, _, _, hal⟩, _, _, hconc, _⟩ := ndt_var_dim_node h
    subst ht
    show ispower2 hd.align = true
    rw [hal]
    exact ih (by simpa [ndt_is_concrete] using hconc)
  | var_elem u type index t _ h ih =>
    intro _
    unfold ndt_convert_to_var_elem at h
    split at h
    · cases h
    split at h
    · cases h
    split at h
    · cases h
    split at h
    · cases h
    · rename_i offs _
      split at h
      · rename_i hd ty isz o sl hvd
        obtain ⟨⟨hd2, isz2, ht, _, _, hal⟩, _, _, hconc, _⟩ := ndt_var_dim_node hvd
        cases ht
        cases h
        show ispower2 hd.align = true
        rw [hal]
        exact ih (by simpa [ndt_is_concrete] using hconc)
      · rename_i hne
        obtain ⟨⟨hd2, isz2, ht, _, _, _⟩, _, _, _, _⟩ := ndt_var_dim_node h
        subst ht
        exact absurd h (hne _ _ _ _ _)
  | symbolic_dim name type t _ h ih =>
    intro hc
    obtain ⟨hd, ht, ha⟩ := ndt_symbolic_dim_node h
    subst ht
    simp only [ndt_t.access, ndt_t.hdr] at hc
    rw [ha] at hc
    cases hc
  | symbolic_dim_tag name type tag t _ h ih =>
    intro hc
    unfold ndt_symbolic_dim_tag at h
    split at h
    · rename_i hd c nm ty hsd
      obtain ⟨hd2, ht, ha⟩ := ndt_symbolic_dim_node hsd
      cases ht
      cases h
      simp only [ndt_t.access, ndt_t.hdr] at hc
      rw [ha] at hc
      cases hc
    · obtain ⟨hd2, ht, ha⟩ := ndt_symbolic_dim_node h
      subst ht
      simp only [ndt_t.access, ndt_t.hdr] at hc
      rw [ha] at hc
      cases hc
  | ellipsis_dim name type t _ h ih =>
    intro hc
    unfold ndt_ellipsis_dim at h
    split at h
    · cases h
    · simp only at h
      split at h
      · cases h
      · cases h
        cases hc
  | ellipsis_dim_tag name type tag t _ h ih =>
    intro hc
    have key : ∀ u, ndt_ellipsis_dim name type = .ok u → u.access = .Abstract := by
      intro u hu
      unfold ndt_ellipsis_dim at hu
      split at hu
      · cases hu
      · simp only at hu
        split at hu
        · cases hu
        · cases hu
          rfl
    unfold ndt_ellipsis_dim_tag at h
    split at h
    · rename_i hd c nm ty hed
      have := key _ hed
      cases h
      simp only [ndt_t.access, ndt_t.hdr] at hc this
      rw [this] at hc
      cases hc
    · have := key _ h
      rw [this] at hc
      cases hc
  | array type opt t _ h ih =>
    intro _
    unfold ndt_array at h
    split at h
    · cases h
    · cases h
      simp only [ndt_t.align, ndt_t.hdr]
      decide
  | ref type opt t _ h ih =>
    intro _
    unfold ndt_ref at h
    split at h
    · cases h
    · cases h
      simp only [ndt_t.align, ndt_t.hdr]
      decide
  | constr name type opt t _ h ih =>
    intro hc
    obtain ⟨hacc, _⟩ := ndt_constr_node h
    have htc : type.access = .Concrete := by rw [← hacc]; exact hc
    unfold ndt_constr at h
    split at h
    · cases h
    · cases h
      simp only [ndt_t.align, ndt_t.hdr, if_pos htc]
      exact ih htc
  | nominal name type opt t _ h ih =>
    intro hc
    unfold ndt_nominal at h
    split at h
    · cases h
    simp only at h
    split at h
    · cases h
    · rename_i ty hty
      split at hty
      · cases hty
      · cases hty
      · cases hty
        cases h
        exact ih hc
  | nominal_typedef name d opt t hd _ h ih =>
    intro hc
    unfold ndt_nominal at h
    rw [hd] at h
    simp only at h
    cases h
    exact ih hc
  | tuple flag fields align pack opt t _ hf h ih =>
    intro hc
    obtain ⟨c, hcf, _, _, _, hal, _⟩ := ndt_tuple_concrete h hc
    rw [hal]
    exact init_concrete_fields_maxalign_pow2 (fields_align_pow2 hf) hcf
  | record flag fields align pack opt t _ hf h ih =>
    intro hc
    obtain ⟨c, hcf, _, _, _, hal, _⟩ := ndt_record_concrete h hc
    rw [hal]
    exact init_concrete_fields_maxalign_pow2 (fields_align_pow2 hf) hcf
  | union fields opt t _ hf h ih =>
    intro hc
    rw [ndt_union_eq_list] at h
    unfold ndt_union_list at h
    split at h
    · cases h
    split at h
    · cases h
    split at h
    · cases h
    simp only at h
    generalize fields_access _ fields = acc at h
    split at h
    · split at h
      · cases h
      · split at h
        · cases h
        · cases h; cases hc
    · split at h
      · cases h
      · split at h
        · cases h
        · cases h
          simp only [ndt_t.align, ndt_t.hdr]
          decide
  | function types nin nout t _ h ih =>
    intro hc
    unfold ndt_function at h
    split at h
    · cases h
    · cases h
      cases hc
  | module name type t _ h ih =>
    intro hc
    cases h
    cases hc

/-- C20: a term built by the constructors that is concrete has a defined
alignment (not the sentinel `UINT16_MAX` that `ndt_new` writes) that is a power
of two; its `datasize` is the value that the constructor has stored. -/
theorem constructed_concrete_align (reg : ndt_registry) (t : ndt_t)
    (h : constructed reg t) (hc : ndt_is_concrete t = true) :
    t.align ≠ UINT16_MAX ∧ ispower2 t.align = true := by
  have hacc : t.access = .Concrete := by simpa [ndt_is_concrete] using hc
  have hp := constructed_align_pow2 reg t h hacc
  exact ⟨ispower2_ne_max hp, hp⟩

theorem ex_tuple_int32_float64_constructed :
    constructed empty_registry ex_tuple_int32_float64 := by
  apply constructed.tuple .Nonvariadic ex_tuple_fields none none false
  · intro f hf
    simp only [ex_tuple_fields, List.mem_cons, List.mem_singleton, List.not_mem_nil,
      or_false] at hf
    rcases hf with hf | hf
    · subst hf
      exact constructed.primitive .Int32 {} _ rfl
    · subst hf
      exact constructed.primitive .Float64 {} _ rfl
  · intro f hf
    simp only [ex_tuple_fields, List.mem_cons, List.mem_singleton, List.not_mem_nil,
      or_false] at hf
    rcases hf with hf | hf
    · subst hf
      exact ⟨none, none, none, none, rfl⟩
    · subst hf
      exact ⟨none, none, none, none, rfl⟩
  · rfl

theorem constructed_concrete_align_witness :
    ndt_is_concrete ex_tuple_int32_float64 = true ∧
    ex_tuple_int32_float64.align = 8 ∧
    ex_tuple_int32_float64.align ≠ UINT16_MAX ∧
    ispower2 ex_tuple_int32_float64.align = true :=
  ⟨rfl, rfl,
    constructed_concrete_align empty_registry ex_tuple_int32_float64
      ex_tuple_int32_float64_constructed rfl⟩

/-! ## Slices of a var dimension -/

theorem filterMap_range_eq_map {α : Type} (f : Nat → Option α) (g : Nat → α) :
    ∀ (n m : Nat), m ≤ n → (∀ i, i < m → f i = some (g i)) →
      (∀ i, m ≤ i → i < n → f i = none) →
      (List.range n).filterMap f = (List.range m).map g := by
  intro n
  induction n with
  | zero =>
    intro m hm _ _
    have : m = 0 := by omega
    subst this
    rfl
  | succ n ih =>
    intro m hm h1 h2
    rw [List.range_succ, List.filterMap_append]
    by_cases hmn : m ≤ n
    · rw [ih m hmn h1 (fun i hi hin => h2 i hi (by omega))]
      have : f n = none := h2 n hmn (by omega)
      simp [List.filterMap, this]
    · have hm2 : m = n + 1 := by omega
      subst hm2
      rw [ih n (le_refl n) (fun i hi => h1 i (by omega)) (fun i hi hin => by omega)]
      have : f n = some (g n) := h1 n (by omega)
      rw [List.range_succ, List.map_append]
      simp [List.filterMap, this]

theorem adjust_eq (len start stop step : Int) :
    ndt_slice_adjust_indices len start stop step =
      if step < 0 then
        (if py_bound len step stop < py_bound len step start then
          (Int.tdiv (py_bound len step start - py_bound len step stop - 1) (-step) + 1,
            py_bound len step start, py_bound len step stop)
         else (0, py_bound len step start, py_bound len step stop))
      else
        (if py_bound len step start < py_bound len step stop then
          (Int.tdiv (py_bound len step stop - py_bound len step start - 1) step + 1,
            py_bound len step start, py_bound len step stop)
         else (0, py_bound len step start, py_bound len step stop)) := by
  have hc : ∀ x : Int,
      (if x < 0 then
        (if x + len < 0 then (if step < 0 then -1 else 0) else x + len)
      else if x ≥ len then (if step < 0 then len - 1 else len)
      else x) = py_bound len step x := by
    intro x
    unfold py_bound
    dsimp only
    split_ifs <;> omega
  unfold ndt_slice_adjust_indices
  simp only [hc]

theorem py_bound_range (len step i : Int) (hlen : 0 ≤ len) :
    (step < 0 → -1 ≤ py_bound len step i ∧ py_bound len step i ≤ len - 1) ∧
    (¬ step < 0 → 0 ≤ py_bound len step i ∧ py_bound len step i ≤ len) := by
  unfold py_bound
  dsimp only
  constructor <;> intro h <;> split_ifs <;> omega

theorem tdiv_select_pos (N k : Int) (n : Nat) (hN : 0 ≤ N) (hk : 0 < k) :
    ((n : Int) < Int.tdiv N k + 1 ↔ (n : Int) * k ≤ N) ∧ Int.tdiv N k + 1 ≤ N + 1 ∧
      0 ≤ Int.tdiv N k := by
  rw [Int.tdiv_eq_ediv hN (le_of_lt hk)]
  refine ⟨?_, ?_, ?_⟩
  · rw [Int.lt_add_one_iff, Int.le_ediv_iff_mul_le hk]
  · have := Int.ediv_le_self k hN
    omega
  · exact Int.ediv_nonneg hN (le_of_lt hk)

theorem adjust_select (len start stop step : Int) (hlen : 0 ≤ len) (hk : step ≠ 0) :
    0 ≤ (ndt_slice_adjust_indices len start stop step).1 ∧
    (ndt_slice_adjust_indices len start stop step).1 ≤ len ∧
    (ndt_slice_adjust_indices len start stop step).2.1 = py_bound len step start ∧
    ∀ n : Nat,
      (((n : Int) < (ndt_slice_adjust_indices len start stop step).1) ↔
        ((0 < step ∧ py_bound len step start + (n : Int) * step < py_bound len step stop) ∨
         (step < 0 ∧ py_bound len step stop < py_bound len step start + (n : Int) * step))) ∧
      ((n : Int) < (ndt_slice_adjust_indices len start stop step).1 →
        0 ≤ py_bound len step start + (n : Int) * step ∧
        py_bound len step start + (n : Int) * step < len) := by
  rw [adjust_eq]
  have rs := py_bound_range len step start hlen
  have re := py_bound_range len step stop hlen
  generalize py_bound len step start = s at rs ⊢
  generalize py_bound len step stop = e at re ⊢
  by_cases hneg : step < 0
  · obtain ⟨rs1, rs2⟩ := rs.1 hneg
    obtain ⟨re1, re2⟩ := re.1 hneg
    rw [if_pos hneg]
    by_cases hlt : e < s
    · rw [if_pos hlt]
      dsimp only
      have hN : 0 ≤ s - e - 1 := by omega
      have hk2 : 0 < -step := by omega
      have T0 := tdiv_select_pos (s - e - 1) (-step) 0 hN hk2
      refine ⟨by omega, by omega, rfl, ?_⟩
      intro n
      have T := tdiv_select_pos (s - e - 1) (-step) n hN hk2
      have hmul : (n : Int) * (-step) = -((n : Int) * step) := by ring
      rw [hmul] at T
      have hnp : (n : Int) * step ≤ 0 := by
        have : 0 ≤ (n : Int) := Int.ofNat_nonneg n
        nlinarith
      constructor
      · rw [T.1]
        constructor
        · intro h; right; exact ⟨hneg, by omega⟩
        · intro h
          rcases h with ⟨h1, _⟩ | ⟨_, h2⟩
          · omega
          · omega
      · intro h
        have := T.1.mp h
        omega
    · rw [if_neg hlt]
      dsimp only
      refine ⟨le_refl 0, hlen, rfl, ?_⟩
      intro n
      have hnp : (n : Int) * step ≤ 0 := by
        have : 0 ≤ (n : Int) := Int.ofNat_nonneg n
        nlinarith
      have hn0 : 0 ≤ (n : Int) := Int.ofNat_nonneg n
      constructor
      · constructor
        · intro h; omega
        · intro h
          rcases h with ⟨h1, _⟩ | ⟨_, h2⟩
          · omega
          · omega
      · intro h; omega
  · have hpos : 0 < step := by omega
    obtain ⟨rs1, rs2⟩ := rs.2 hneg
    obtain ⟨re1, re2⟩ := re.2 hneg
    rw [if_neg hneg]
    by_cases hlt : s < e
    · rw [if_pos hlt]
      dsimp only
      have hN : 0 ≤ e - s - 1 := by omega
      have T0 := tdiv_select_pos (e - s - 1) step 0 hN hpos
      refine ⟨by omega, by omega, rfl, ?_⟩
      intro n
      have T := tdiv_select_pos (e - s - 1) step n hN hpos
      have hnp : 0 ≤ (n : Int) * step := by
        have : 0 ≤ (n : Int) := Int.ofNat_nonneg n
        nlinarith
      constructor
      · rw [T.1]
        constructor
        · intro h; left; exact ⟨hpos, by omega⟩
        · intro h
          rcases h with ⟨_, h1⟩ | ⟨h2, _⟩
          · omega
          · omega
      · intro h
        have := T.1.mp h
        omega
    · rw [if_neg hlt]
      dsimp only
      refine ⟨le_refl 0, hlen, rfl, ?_⟩
      intro n
      have hnp : 0 ≤ (n : Int) * step := by
        have : 0 ≤ (n : Int) := Int.ofNat_nonneg n
        nlinarith
      have hn0 : 0 ≤ (n : Int) := Int.ofNat_nonneg n
      constructor
      · constructor
        · intro h; omega
        · intro h
          rcases h with ⟨_, h1⟩ | ⟨h2, _⟩
          · omega
          · omega
      · intro h; omega

/-- Python slicing of a list in closed form: the adjusted start and the
length that `ndt_slice_adjust_indices` computes select the same items. -/
theorem py_slice_eq (l : List Int) (sl : ndt_slice_t) (hk : sl.step ≠ 0) :
    py_slice l sl =
      (List.range (ndt_slice_adjust_indices l.length sl.start sl.stop sl.step).1.toNat).map
        (fun (n : Nat) =>
          l.getD ((ndt_slice_adjust_indices l.length sl.start sl.stop sl.step).2.1 +
            (n : Int) * sl.step).toNat 0) := by
  obtain ⟨h0, hle, hs, hsel⟩ :=
    adjust_select (l.length : Int) sl.start sl.stop sl.step (Int.ofNat_nonneg _) hk
  unfold py_slice
  dsimp only
  rw [hs]
  apply filterMap_range_eq_map
  · omega
  · intro i hi
    have hi2 : (i : Int) < (ndt_slice_adjust_indices (l.length : Int) sl.start sl.stop sl.step).1 := by
      omega
    obtain ⟨hiff, hb⟩ := hsel i
    rw [if_pos (hiff.mp hi2)]
    have hb2 := hb hi2
    have hlt : (py_bound (l.length : Int) sl.step sl.start + (i : Int) * sl.step).toNat < l.length := by
      omega
    rw [List.get?_eq_get hlt, List.getD_eq_getElem _ _ hlt]
    rfl
  · intro i hi _
    have hi2 : ¬ (i : Int) < (ndt_slice_adjust_indices (l.length : Int) sl.start sl.stop sl.step).1 := by
      omega
    obtain ⟨hiff, _⟩ := hsel i
    rw [if_neg (fun h => hi2 (hiff.mpr h))]

theorem wrap_i64_add_wrap (a b : Int) : wrap_i64 (a + wrap_i64 b) = wrap_i64 (a + b) := by
  unfold wrap_i64
  omega

theorem wrap_i64_small {x : Int} (h0 : -9223372036854775808 ≤ x) (h1 : x ≤ 9223372036854775807) :
    wrap_i64 x = x := by
  unfold wrap_i64
  omega

theorem index_sequence_length (start step shape : Int) :
    (index_sequence start step shape).length = shape.toNat := by
  unfold index_sequence
  simp

theorem index_sequence_getD (start step shape : Int) (i : Nat) (hi : i < shape.toNat) :
    (index_sequence start step shape).getD i 0 = start + (i : Int) * step ∧
    (index_sequence start step shape).getD i 0 ∈ index_sequence start step shape := by
  have hlen : i < (index_sequence start step shape).length := by
    rw [index_sequence_length]; exact hi
  rw [List.getD_eq_getElem _ _ hlen]
  refine ⟨?_, List.getElem_mem _⟩
  unfold index_sequence
  simp

theorem describes_step (ls le : Int) (hle : le - ls ≤ 4294967296) (l : List Int)
    (rs rstep rshape : Int) (sl : ndt_slice_t) (hk : sl.step ≠ 0)
    (h : describes ls le l (rs, rstep, rshape)) :
    describes ls le (py_slice l sl)
      (wrap_i64 (rs + wrap_i64
          ((ndt_slice_adjust_indices rshape sl.start sl.stop sl.step).2.1 * rstep)),
        wrap_i64 (rstep * sl.step),
        (ndt_slice_adjust_indices rshape sl.start sl.stop sl.step).1) := by
  obtain ⟨h0, hl, hb⟩ := h
  dsimp only at h0 hl hb
  have hlen : (l.length : Int) = rshape := by
    rw [hl, index_sequence_length]
    omega
  have hsl := py_slice_eq l sl hk
  rw [hlen] at hsl
  obtain ⟨a0, ale, as, asel⟩ := adjust_select rshape sl.start sl.stop sl.step h0 hk
  generalize hsh : (ndt_slice_adjust_indices rshape sl.start sl.stop sl.step).1 = shape at *
  generalize hst : (ndt_slice_adjust_indices rshape sl.start sl.stop sl.step).2.1 = s at *
  -- the items of the slice
  have hitem : ∀ n : Nat, (n : Int) < shape →
      l.getD (s + (n : Int) * sl.step).toNat 0 = ls + (rs + s * rstep) + (n : Int) * (rstep * sl.step) ∧
      l.getD (s + (n : Int) * sl.step).toNat 0 ∈ l := by
    intro n hn
    have hr := (asel n).2 hn
    rw [← as] at hr
    have hidx : (s + (n : Int) * sl.step).toNat < rshape.toNat := by omega
    have hg := index_sequence_getD (ls + rs) rstep rshape _ hidx
    rw [← hl] at hg
    refine ⟨?_, hg.2⟩
    rw [hg.1]
    have : (((s + (n : Int) * sl.step).toNat : Nat) : Int) = s + (n : Int) * sl.step := by omega
    rw [this]
    ring
  have hA : 0 < shape → wrap_i64 (rs + wrap_i64 (s * rstep)) = rs + s * rstep := by
    intro hpos
    have h1 := hitem 0 (by simpa using hpos)
    have h2 := hb _ h1.2
    rw [h1.1] at h2
    rw [wrap_i64_add_wrap]
    apply wrap_i64_small <;> simp only [Nat.cast_zero, zero_mul, add_zero] at h2 <;> omega
  have hB : 1 < shape → wrap_i64 (rstep * sl.step) = rstep * sl.step := by
    intro hpos
    have h0' := hitem 0 (by omega)
    have h1 := hitem 1 (by simpa using hpos)
    have b0 := hb _ h0'.2
    have b1 := hb _ h1.2
    rw [h0'.1] at b0
    rw [h1.1] at b1
    simp only [Nat.cast_zero, zero_mul, add_zero, Nat.cast_one, one_mul] at b0 b1
    apply wrap_i64_small <;> omega
  refine ⟨a0, ?_, ?_⟩
  · dsimp only
    rw [hsl]
    unfold index_sequence
    apply List.map_congr_left
    intro n hn
    have hn2 : (n : Int) < shape := by
      have := List.mem_range.mp hn
      omega
    rw [(hitem n hn2).1, hA (by omega)]
    by_cases hz : n = 0
    · subst hz
      simp
    · have : 1 < shape := by omega
      rw [hB this]
  · intro x hx
    rw [hsl] at hx
    obtain ⟨n, hn, hxn⟩ := List.mem_map.mp hx
    have hn2 : (n : Int) < shape := by
      have := List.mem_range.mp hn
      omega
    rw [← hxn]
    exact hb _ (hitem n hn2).2

theorem describes_loop (ls le : Int) (hle : le - ls ≤ 4294967296) :
    ∀ (slices : List ndt_slice_t) (l : List Int) (r : Int × Int × Int),
      (∀ sl ∈ slices, sl.step ≠ 0) → describes ls le l r →
      describes ls le (slices.foldl py_slice l) (var_indices_loop slices r) := by
  intro slices
  induction slices with
  | nil => intro l r _ h; exact h
  | cons sl rest ih =>
    intro l r hk h
    obtain ⟨rs, rstep, rshape⟩ := r
    simp only [List.foldl_cons, var_indices_loop]
    apply ih
    · intro s hs; exact hk s (List.mem_cons_of_mem _ hs)
    · exact describes_step ls le hle l rs rstep rshape sl (hk sl (List.mem_cons_self _ _)) h

theorem describes_init (ls le : Int) (h : ls ≤ le) :
    describes ls le (int_range ls le) (0, 1, le - ls) := by
  refine ⟨by dsimp only; omega, ?_, ?_⟩
  · unfold int_range index_sequence
    dsimp only
    apply List.map_congr_left
    intro n _
    ring
  · intro x hx
    unfold int_range at hx
    obtain ⟨n, hn, hxn⟩ := List.mem_map.mp hx
    have := List.mem_range.mp hn
    omega

/-- C12: for a concrete var dimension whose offsets `offsets[i] ≤ offsets[i+1]`
are `int32_t` values, an index `i` in bounds and a slice stack with steps other
than 0, `ndt_var_indices` returns `(start, step, shape)` with `shape ≥ 0` such
that the indices `start + j*step`, `0 ≤ j < shape`, are the result of applying
the slices of the stack, in the order in which they were added, with standard
Python slice semantics to the range `[offsets[i], offsets[i+1])`; with an empty
stack the result is `(offsets[i], 1, offsets[i+1] - offsets[i])`. -/
theorem ndt_var_indices_python_slices (t : ndt_t) (offsets : List Int) (index : Int)
    (list_start list_stop : Int)
    (ho : var_offsets t = some offsets) (hn : (offsets.length : Int) ≤ INT32_MAX)
    (hi0 : 0 ≤ index) (hi1 : index + 1 < (offsets.length : Int))
    (hs : offsets.get? index.toNat = some list_start)
    (he : offsets.get? (index.toNat + 1) = some list_stop)
    (hmono : list_start ≤ list_stop)
    (h32 : -2147483648 ≤ list_start ∧ list_stop ≤ 2147483647)
    (hk : ∀ sl ∈ var_slices t, sl.step ≠ 0) :
    ∃ start step shape, ndt_var_indices t index = .ok (start, step, shape) ∧ 0 ≤ shape ∧
      index_sequence start step shape =
        (var_slices t).foldl py_slice (int_range list_start list_stop) ∧
      (var_slices t = [] → start = list_start ∧ step = 1 ∧ shape = list_stop - list_start) := by
  have hw : wrap_i64 (index + 1) = index + 1 := by
    unfold INT32_MAX at hn
    apply wrap_i64_small <;> omega
  have hd := describes_loop list_start list_stop (by omega) (var_slices t)
    (int_range list_start list_stop) (0, 1, list_stop - list_start) hk
    (describes_init list_start list_stop hmono)
  generalize hr : var_indices_loop (var_slices t) (0, 1, list_stop - list_start) = r at hd
  obtain ⟨d0, dl, db⟩ := hd
  refine ⟨wrap_i64 (r.1 + list_start), r.2.1, r.2.2, ?_, d0, ?_, ?_⟩
  · unfold ndt_var_indices
    rw [ho]
    dsimp only
    rw [hw, if_neg (by omega), hs, he]
    dsimp only
    rw [hr]
  · rw [dl]
    by_cases hz : r.2.2 = 0
    · unfold index_sequence
      rw [hz]
      rfl
    · have hpos : 0 < r.2.2.toNat := by omega
      have h1 := index_sequence_getD (list_start + r.1) r.2.1 r.2.2 0 hpos
      rw [← dl] at h1
      have hb := db _ h1.2
      rw [h1.1] at hb
      simp only [Nat.cast_zero, zero_mul, add_zero] at hb
      have : wrap_i64 (r.1 + list_start) = list_start + r.1 := by
        rw [add_comm]
        apply wrap_i64_small <;> omega
      rw [this]
  · intro hnil
    rw [hnil] at hr
    simp only [var_indices_loop] at hr
    subst hr
    dsimp only
    refine ⟨?_, rfl, rfl⟩
    rw [zero_add]
    apply wrap_i64_small <;> omega

theorem ndt_var_indices_python_slices_witness :
    ∃ start step shape, ndt_var_indices ex_sliced_var 1 = .ok (start, step, shape) ∧
      0 ≤ shape ∧
      index_sequence start step shape =
        (var_slices ex_sliced_var).foldl py_slice (int_range 3 10) ∧
      (var_slices ex_sliced_var = [] → start = 3 ∧ step = 1 ∧ shape = 10 - 3) :=
  ndt_var_indices_python_slices ex_sliced_var [0, 3, 10] 1 3 10 rfl (by decide) (by decide)
    (by decide) rfl rfl (by decide) (by decide) (by decide)

theorem ex_sliced_var_indices :
    ndt_var_indices ex_sliced_var 1 = .ok (8, -2, 3) ∧
    (var_slices ex_sliced_var).foldl py_slice (int_range 3 10) = [8, 6, 4] := by
  constructor <;> decide

/-! ## Fortran order -/

theorem ndt_dims_dtype_ndim0 (t : ndt_t) (h : t.ndim = 0) : ndt_dims_dtype t = ([], t) := by
  cases t <;> simp_all [ndt_dims_dtype, ndt_t.ndim, ndt_t.hdr]

theorem ndt_dims_dtype_fixed (hd : ndt_hdr) (c : ndt_contig) (shape : Int) (type : ndt_t)
    (isz st : Int) (h : 0 < hd.ndim) :
    ndt_dims_dtype (.FixedDim hd c shape type isz st) =
      (.FixedDim hd c shape type isz st :: (ndt_dims_dtype type).1, (ndt_dims_dtype type).2) := by
  simp only [ndt_dims_dtype]
  rw [if_pos h]

theorem to_fortran_ndim0 (t : ndt_t) (step : Int) (h : t.ndim = 0) :
    _ndt_to_fortran t step = .ok t := by
  cases t <;> simp_all [_ndt_to_fortran, ndt_t.ndim, ndt_t.hdr]

theorem fixed_dims_ndim {t : ndt_t} (h : fixed_dims t) : 0 ≤ t.ndim := by
  induction h with
  | dtype d hd => omega
  | dim type t shape step _ hb ih =>
    obtain ⟨_, hd, isz, st, ht⟩ := ndt_fixed_dim_node hb
    unfold ndt_fixed_dim at hb
    split at hb
    · cases hb
    split at hb
    · cases hb
    simp only at hb
    split at hb
    · split at hb
      · cases hb
      · cases hb
        show 0 ≤ type.ndim + 1
        omega
    · cases hb
      show 0 ≤ type.ndim + 1
      omega

theorem MULi64_fits {a b : Int} (h : (MULi64 a b false).2 = false) :
    (MULi64 a b false).1 = a * b ∧ INT64_MIN ≤ a * b ∧ a * b ≤ INT64_MAX := by
  refine ⟨(MULi64_exact h).2, ?_⟩
  simp only [MULi64, Bool.or_eq_false_iff, Bool.not_eq_false'] at h
  have := h.2
  unfold fits_i64 at this
  simpa using this

/-- What `_ndt_to_fortran` returns for a concrete array of fixed dimensions. -/
theorem to_fortran_inv {t : ndt_t} (h : fixed_dims t) :
    t.access = .Concrete → ∀ (step : Int) (u : ndt_t), 0 ≤ step → step ≤ INT64_MAX →
      _ndt_to_fortran t step = .ok u →
      fixed_dims u ∧ u.access = .Concrete ∧ u.ndim = t.ndim ∧
      dim_shapes u = dim_shapes t ∧ (ndt_dims_dtype u).2 = (ndt_dims_dtype t).2 ∧
      contiguous_loop (ndt_dims_dtype u).1 step = true ∧
      step * (dim_shapes t).prod ≤ INT64_MAX ∧ (∀ s ∈ dim_shapes t, 0 ≤ s) ∧
      (t.ndim ≠ 0 → u.tag = .FixedDim) := by
  induction h with
  | dtype d hd =>
    intro hc step u h0 h1 hu
    rw [to_fortran_ndim0 d step hd] at hu
    cases hu
    refine ⟨fixed_dims.dtype _ hd, hc, rfl, rfl, rfl, ?_, ?_, ?_, ?_⟩
    · rw [ndt_dims_dtype_ndim0 _ hd]; rfl
    · simp only [dim_shapes, ndt_dims_dtype_ndim0 _ hd, List.map_nil, List.prod_nil, mul_one]
      exact h1
    · intro s hs
      simp [dim_shapes, ndt_dims_dtype_ndim0 _ hd] at hs
    · intro hne; exact absurd hd hne
  | dim type t shape st0 hty hb ih =>
    intro hc step u h0 h1 hu
    have hnd := fixed_dims_ndim hty
    obtain ⟨hacc, _⟩ := ndt_fixed_dim_node hb
    have htc : type.access = .Concrete := by rw [← hacc]; exact hc
    obtain ⟨hs0, _, _, ht⟩ := ndt_fixed_dim_concrete htc hb
    subst ht
    simp only [_ndt_to_fortran] at hu
    rw [if_neg (by omega)] at hu
    by_cases hmul : (MULi64 step shape false).2 = true
    · rw [if_pos hmul] at hu; cases hu
    · rw [if_neg hmul] at hu
      have hmul2 : (MULi64 step shape false).2 = false := by simpa using hmul
      obtain ⟨hn1, hn2, hn3⟩ := MULi64_fits hmul2
      have hn0 : 0 ≤ step * shape := mul_nonneg h0 hs0
      cases hdt : _ndt_to_fortran type (MULi64 step shape false).1 with
      | error e => rw [hdt] at hu; cases hu
      | ok dt =>
        rw [hdt] at hu
        dsimp only at hu
        obtain ⟨i1, i2, i3, i4, i5, i6, i7, i8, _⟩ :=
          ih htc (MULi64 step shape false).1 dt (by rw [hn1]; exact hn0)
            (by rw [hn1]; exact hn3) hdt
        obtain ⟨_, _, hov, hu2⟩ := ndt_fixed_dim_concrete i2 hu
        obtain ⟨e1, _, _⟩ := fixed_datasize_exact hov
        obtain ⟨_, e2, _⟩ := fixed_step_exact e1
        have hdu : 0 < dt.ndim + 1 := by omega
        have hdt0 : 0 < type.ndim + 1 := by omega
        subst hu2
        refine ⟨fixed_dims.dim dt _ shape step i1 hu, rfl, ?_, ?_, ?_, ?_, ?_, ?_, ?_⟩
        · show dt.ndim + 1 = type.ndim + 1
          omega
        · simp only [dim_shapes, ndt_dims_dtype, hdu, hdt0, ↓reduceIte, gt_iff_lt,
            List.map_cons, fixed_shape]
          have := i4
          simp only [dim_shapes] at this
          rw [this]
        · simp only [ndt_dims_dtype, hdu, hdt0, ↓reduceIte, gt_iff_lt]
          exact i5
        · simp only [ndt_dims_dtype, hdu, ↓reduceIte, gt_iff_lt, contiguous_loop, fixed_shape,
            fixed_dim_step]
          have hcond : ¬ (shape > 1 ∧ (fixed_step dt step false).1 ≠ step) := by
            intro ⟨hs1, hne⟩
            by_cases hmax : step = INT64_MAX
            · subst hmax
              unfold INT64_MAX at hn3
              omega
            · exact hne (e2 hmax)
          rw [if_neg hcond]
          exact i6
        · simp only [dim_shapes, ndt_dims_dtype, hdt0, ↓reduceIte, gt_iff_lt, List.map_cons,
            fixed_shape, List.prod_cons]
          rw [hn1] at i7
          simp only [dim_shapes] at i7
          rw [← mul_assoc]
          exact i7
        · intro s hs
          simp only [dim_shapes, ndt_dims_dtype, hdt0, ↓reduceIte, gt_iff_lt, List.map_cons,
            fixed_shape, List.mem_cons] at hs
          rcases hs with hs | hs
          · rw [hs]; exact hs0
          · exact i8 s hs
        · intro _; rfl

theorem wrap_i64_shift (y c : Int) : wrap_i64 (y + 18446744073709551616 * c) = wrap_i64 y := by
  unfold wrap_i64
  omega

theorem wrap_i64_mul_wrap (a b : Int) : wrap_i64 (wrap_i64 a * b) = wrap_i64 (a * b) := by
  have h : wrap_i64 a = a + 18446744073709551616 * (-((a + 9223372036854775808) / 18446744073709551616)) := by
    unfold wrap_i64
    omega
  rw [h]
  have : (a + 18446744073709551616 * (-((a + 9223372036854775808) / 18446744073709551616))) * b =
      a * b + 18446744073709551616 * (-((a + 9223372036854775808) / 18446744073709551616) * b) := by
    ring
  rw [this, wrap_i64_shift]

theorem running_step_prod (l : List ndt_t) :
    ∀ r : Int, running_step l (wrap_i64 r) = wrap_i64 (r * (l.map fixed_shape).prod) := by
  induction l with
  | nil => intro r; simp [running_step]
  | cons d l ih =>
    intro r
    simp only [running_step, List.foldl_cons, List.map_cons, List.prod_cons]
    rw [wrap_i64_mul_wrap]
    have := ih (r * fixed_shape d)
    simp only [running_step] at this
    rw [this, mul_assoc]

theorem contiguous_loop_split (l1 : List ndt_t) (d : ndt_t) (l2 : List ndt_t) :
    ∀ run : Int, contiguous_loop (l1 ++ d :: l2) run = true →
      1 < fixed_shape d → fixed_dim_step d = running_step l1 run := by
  induction l1 with
  | nil =>
    intro run h hs
    simp only [List.nil_append, contiguous_loop] at h
    by_cases hc : fixed_shape d > 1 ∧ fixed_dim_step d ≠ run
    · rw [if_pos hc] at h; cases h
    · simp only [running_step, List.foldl_nil]
      by_contra hne
      exact hc ⟨hs, hne⟩
  | cons x l1 ih =>
    intro run h hs
    simp only [List.cons_append, contiguous_loop] at h
    by_cases hc : fixed_shape x > 1 ∧ fixed_dim_step x ≠ run
    · rw [if_pos hc] at h; cases h
    · rw [if_neg hc] at h
      simp only [running_step, List.foldl_cons]
      exact ih _ h hs

theorem first_large_shape (l : List ndt_t) :
    (∀ x ∈ l, 1 ≤ fixed_shape x) →
    2 ≤ (l.filter (fun x => decide (1 < fixed_shape x))).length →
    ∃ l1 d l2, l = l1 ++ d :: l2 ∧ (l1.map fixed_shape).prod = 1 ∧ 1 < fixed_shape d ∧
      2 ≤ (l2.map fixed_shape).prod := by
  induction l with
  | nil => intro _ h; simp at h
  | cons x l ih =>
    intro hpos hcount
    have hx := hpos x (List.mem_cons_self _ _)
    have hl : ∀ y ∈ l, 1 ≤ fixed_shape y := fun y hy => hpos y (List.mem_cons_of_mem _ hy)
    by_cases hx1 : 1 < fixed_shape x
    · refine ⟨[], x, l, rfl, by simp, hx1, ?_⟩
      simp only [List.filter_cons, hx1, decide_True, ↓reduceIte, List.length_cons] at hcount
      have hc1 : 1 ≤ (l.filter (fun x => decide (1 < fixed_shape x))).length := by omega
      clear ih hcount hpos
      induction l with
      | nil => simp at hc1
      | cons y l ih2 =>
        have hy := hl y (List.mem_cons_self _ _)
        have hl2 : ∀ z ∈ l, 1 ≤ fixed_shape z := fun z hz => hl z (List.mem_cons_of_mem _ hz)
        have hp : 1 ≤ (l.map fixed_shape).prod := by
          clear ih2 hc1 hl
          induction l with
          | nil => simp
          | cons z l ih3 =>
            simp only [List.map_cons, List.prod_cons]
            have hz := hl2 z (List.mem_cons_self _ _)
            have := ih3 (fun w hw => hl2 w (List.mem_cons_of_mem _ hw))
            nlinarith
        simp only [List.map_cons, List.prod_cons]
        by_cases hy1 : 1 < fixed_shape y
        · nlinarith
        · simp only [List.filter_cons, hy1, decide_False, Bool.false_eq_true, ↓reduceIte] at hc1
          have := ih2 hl2 hc1
          have hy2 : fixed_shape y = 1 := by omega
          rw [hy2, one_mul]
          exact this
    · have hx2 : fixed_shape x = 1 := by omega
      simp only [List.filter_cons, hx1, decide_False, Bool.false_eq_true, ↓reduceIte] at hcount
      obtain ⟨l1, d, l2, e, p1, hd, p2⟩ := ih hl hcount
      refine ⟨x :: l1, d, l2, by rw [e]; rfl, ?_, hd, p2⟩
      simp only [List.map_cons, List.prod_cons, hx2, one_mul]
      exact p1

theorem ndt_to_fortran_ok {t u : ndt_t} (h : ndt_to_fortran t = .ok u) :
    t.access = .Concrete ∧ ndt_is_c_contiguous t = true ∧ _ndt_to_fortran t 1 = .ok u := by
  unfold ndt_to_fortran at h
  by_cases ha : ndt_is_abstract t = true
  · rw [if_pos ha] at h; cases h
  · rw [if_neg ha] at h
    by_cases hc : (!ndt_is_c_contiguous t) = true
    · rw [if_pos hc] at h; cases h
    · rw [if_neg hc] at h
      refine ⟨?_, by simpa using hc, h⟩
      rcases access_cases t.access with h1 | h1
      · exact h1
      · exact absurd (by simp [ndt_is_abstract, h1]) ha

theorem fixed_result_ndarray (t u : ndt_t) (hn : u.ndim = t.ndim)
    (htag : t.ndim ≠ 0 → u.tag = .FixedDim) : ndt_is_ndarray u = true := by
  unfold ndt_is_ndarray
  by_cases h0 : t.ndim = 0
  · have : u.ndim = 0 := by omega
    split
    · rfl
    · simp [this]
  · rw [htag h0]

/-- C15 (amended): for a concrete, C-contiguous array of fixed dimensions on
which `ndt_to_fortran` succeeds, the result is F-contiguous; it is not
C-contiguous when no shape is 0 and at least two dimensions have a shape
greater than 1. -/
theorem ndt_to_fortran_contiguity (t u : ndt_t) (ht : fixed_dims t)
    (hu : ndt_to_fortran t = .ok u) :
    ndt_is_concrete t = true ∧ ndt_is_c_contiguous t = true ∧
    ndt_is_f_contiguous u = true ∧
    ((∀ s ∈ dim_shapes t, s ≠ 0) →
      2 ≤ ((dim_shapes t).filter (fun s => decide (1 < s))).length →
      ndt_is_c_contiguous u = false) := by
  obtain ⟨hacc, hcc, hf⟩ := ndt_to_fortran_ok hu
  obtain ⟨_, i2, i3, i4, _, i6, i7, i8, i9⟩ :=
    to_fortran_inv ht hacc 1 u (by decide) (by decide) hf
  have hna : ndt_is_abstract u = false := by simp [ndt_is_abstract, i2]
  have hnd := fixed_result_ndarray t u i3 i9
  refine ⟨by simp [ndt_is_concrete, hacc], hcc, ?_, ?_⟩
  · unfold ndt_is_f_contiguous
    rw [hna, hnd]
    simp only [Bool.false_eq_true, ↓reduceIte, Bool.not_true]
    split
    · rfl
    · exact i6
  · intro hnz hcount
    by_contra hcon
    have hC : ndt_is_c_contiguous u = true := by simpa using hcon
    unfold ndt_is_c_contiguous at hC
    rw [hna, hnd] at hC
    simp only [Bool.false_eq_true, ↓reduceIte, Bool.not_true] at hC
    rw [← i4] at hcount hnz i7 i8
    by_cases hz : u.ndim = 0
    · simp [dim_shapes, ndt_dims_dtype_ndim0 u hz] at hcount
    · rw [if_neg hz] at hC
      simp only [dim_shapes] at hcount hnz i7 i8
      generalize (ndt_dims_dtype u).1 = D at hC hcount hnz i6 i7 i8
      have hpos : ∀ x ∈ D, 1 ≤ fixed_shape x := by
        intro x hx
        have h1 := hnz _ (List.mem_map_of_mem fixed_shape hx)
        have h2 := i8 _ (List.mem_map_of_mem fixed_shape hx)
        omega
      have hcount2 : 2 ≤ (D.filter (fun x => decide (1 < fixed_shape x))).length := by
        rw [List.filter_map, List.length_map] at hcount
        exact hcount
      obtain ⟨l1, d, l2, e, p1, hd, p2⟩ := first_large_shape D hpos hcount2
      subst e
      have hF := contiguous_loop_split l1 d l2 1 i6 hd
      have hrev : (l1 ++ d :: l2).reverse = l2.reverse ++ d :: l1.reverse := by
        simp
      rw [hrev] at hC
      have hCs := contiguous_loop_split l2.reverse d l1.reverse 1 hC hd
      have w1 : wrap_i64 1 = 1 := by decide
      have e1 := running_step_prod l1 1
      have e2 := running_step_prod l2.reverse 1
      rw [w1] at e1 e2
      rw [one_mul, p1, w1] at e1
      rw [one_mul, List.map_reverse, List.prod_reverse] at e2
      simp only [List.map_append, List.map_cons, List.prod_append, List.prod_cons, p1,
        one_mul] at i7
      have hb : (l2.map fixed_shape).prod ≤ INT64_MAX := by
        have : (l2.map fixed_shape).prod ≤ fixed_shape d * (l2.map fixed_shape).prod := by
          nlinarith
        omega
      have e3 : wrap_i64 (l2.map fixed_shape).prod = (l2.map fixed_shape).prod := by
        unfold INT64_MAX at hb
        apply wrap_i64_small <;> omega
      rw [hF, e1, e2, e3] at hCs
      omega

theorem ex_2_3_int64_dims : fixed_dims ex_2_3_int64 :=
  fixed_dims.dim _ _ 2 INT64_MAX
    (fixed_dims.dim _ _ 3 INT64_MAX (fixed_dims.dtype ex_int64 rfl) rfl) rfl

theorem ndt_to_fortran_contiguity_witness :
    ∃ u, ndt_to_fortran ex_2_3_int64 = .ok u ∧ dim_shapes ex_2_3_int64 = [2, 3] ∧
      dim_steps ex_2_3_int64 = [3, 1] ∧ dim_steps u = [1, 2] ∧
      ndt_is_f_contiguous u = true ∧ ndt_is_c_contiguous u = false :=
  ⟨_, rfl, by decide, by decide, by decide,
    (ndt_to_fortran_contiguity ex_2_3_int64 _ ex_2_3_int64_dims rfl).2.2.1,
    (ndt_to_fortran_contiguity ex_2_3_int64 _ ex_2_3_int64_dims rfl).2.2.2
      (by decide) (by decide)⟩

/-- C15, as stated, fails: `1 * 1 * int64` is a concrete C-contiguous array of
two fixed dimensions, and its Fortran-order copy is F-contiguous and
C-contiguous (a dimension of shape 1 is not looked at by either predicate). -/
theorem ndt_to_fortran_one_by_one :
    fixed_array [1, 1] ex_int64 = .ok ex_1_1_int64 ∧
    ndt_is_concrete ex_1_1_int64 = true ∧ ex_1_1_int64.ndim = 2 ∧
    ndt_is_c_contiguous ex_1_1_int64 = true ∧
    ∃ u, ndt_to_fortran ex_1_1_int64 = .ok u ∧
      ndt_is_f_contiguous u = true ∧ ndt_is_c_contiguous u = true := by
  refine ⟨rfl, rfl, rfl, by decide, _, rfl, by decide, by decide⟩

/-! ## Contiguous copies of fixed dimensions -/

theorem wrap_i64_range (x : Int) : INT64_MIN ≤ wrap_i64 x ∧ wrap_i64 x ≤ INT64_MAX := by
  unfold wrap_i64 INT64_MIN INT64_MAX
  omega

theorem ndt_fixed_dim_tag_na (u : ndt_t) (shape step : Int) :
    ndt_fixed_dim_tag u .RequireNA shape step = ndt_fixed_dim u shape step := by
  unfold ndt_fixed_dim_tag
  cases h : ndt_fixed_dim u shape step with
  | error e => rfl
  | ok v =>
    obtain ⟨_, hd, isz, st, hv⟩ := ndt_fixed_dim_node h
    subst hv
    simp

theorem fixed_copy_ndim0 (t d : ndt_t) (h : t.ndim = 0) :
    fixed_copy_contiguous t d = .ok d := by
  cases t <;> simp_all [fixed_copy_contiguous, ndt_t.ndim, ndt_t.hdr]

/-- On an array of fixed dimensions `fixed_copy_contiguous` rebuilds the
shapes over the new dtype with the default steps. -/
theorem fixed_copy_eq_fixed_array {t : ndt_t} (h : fixed_dims t) (d : ndt_t) :
    t.access = .Concrete → fixed_copy_contiguous t d = fixed_array (dim_shapes t) d := by
  induction h with
  | dtype t hd =>
    intro _
    rw [fixed_copy_ndim0 t d hd]
    simp [dim_shapes, ndt_dims_dtype_ndim0 t hd, fixed_array]
  | dim type t shape st0 hty hb ih =>
    intro hc
    have hnd := fixed_dims_ndim hty
    obtain ⟨hacc, _⟩ := ndt_fixed_dim_node hb
    have htc : type.access = .Concrete := by rw [← hacc]; exact hc
    obtain ⟨_, _, _, ht⟩ := ndt_fixed_dim_concrete htc hb
    subst ht
    have hdt0 : 0 < type.ndim + 1 := by omega
    simp only [fixed_copy_contiguous, dim_shapes, ndt_dims_dtype, hdt0, ↓reduceIte, gt_iff_lt,
      List.map_cons, fixed_shape, fixed_array]
    rw [if_neg (by omega), ih htc]
    simp only [dim_shapes, ndt_fixed_dim_tag_na]
    cases fixed_array (List.map fixed_shape (ndt_dims_dtype type).1) d <;> rfl

theorem contiguous_loop_append_single (l : List ndt_t) (x : ndt_t) :
    ∀ run : Int, contiguous_loop l run = true →
      (1 < fixed_shape x → fixed_dim_step x = running_step l run) →
      contiguous_loop (l ++ [x]) run = true := by
  induction l with
  | nil =>
    intro run _ hx
    simp only [List.nil_append, contiguous_loop]
    simp only [running_step, List.foldl_nil] at hx
    rw [if_neg]
    intro ⟨h1, h2⟩
    exact h2 (hx h1)
  | cons y l ih =>
    intro run h hx
    simp only [contiguous_loop] at h
    simp only [List.cons_append, contiguous_loop]
    by_cases hc : fixed_shape y > 1 ∧ fixed_dim_step y ≠ run
    · rw [if_pos hc] at h; cases h
    · rw [if_neg hc] at h ⊢
      apply ih _ h
      simpa only [running_step, List.foldl_cons] using hx

theorem fixed_datasize_range (type : ndt_t) (shape step isz : Int) (ov : Bool) :
    INT64_MIN ≤ (fixed_datasize type shape step isz ov).1 ∧
    (fixed_datasize type shape step isz ov).1 ≤ INT64_MAX := by
  unfold fixed_datasize
  split
  · dsimp only
    constructor <;> decide
  · exact wrap_i64_range _

theorem quotient_range {P D ds : Int} (hP : 0 ≤ P) (hD : D ≠ 0) (hPD : P * D = ds)
    (h0 : INT64_MIN ≤ ds) (h1 : ds ≤ INT64_MAX) (hx : ¬ (ds = INT64_MIN ∧ D = -1)) :
    INT64_MIN ≤ P ∧ P ≤ INT64_MAX := by
  unfold INT64_MIN INT64_MAX at *
  refine ⟨by omega, ?_⟩
  rcases lt_trichotomy D 0 with hneg | hz | hpos
  · by_cases hm : D = -1
    · subst hm
      have : ds ≠ -9223372036854775808 := fun h => hx ⟨h, rfl⟩
      omega
    · have h2 : D ≤ -2 := by omega
      nlinarith
  · exact absurd hz hD
  · nlinarith

theorem DIVi64_flag {a b : Int} (h : (DIVi64 a b false).2 = false) :
    b ≠ 0 ∧ ¬ (a = INT64_MIN ∧ b = -1) := by
  unfold DIVi64 at h
  by_cases hc : b = 0 ∨ (a = INT64_MIN ∧ b = -1)
  · rw [if_pos hc] at h; cases h
  · exact ⟨fun h0 => hc (Or.inl h0), fun h1 => hc (Or.inr h1)⟩

theorem fixed_step_fixed (hd : ndt_hdr) (c : ndt_contig) (shape : Int) (type : ndt_t)
    (isz st : Int) (ov : Bool) :
    fixed_step (.FixedDim hd c shape type isz st) INT64_MAX ov =
      if isz = 0 then MULi64 shape st ov else DIVi64 hd.datasize isz ov := by
  unfold fixed_step
  rw [if_neg (by simp)]

theorem derived_step_fixed (hd : ndt_hdr) (c : ndt_contig) (shape : Int) (type : ndt_t)
    (isz st : Int) :
    derived_step (.FixedDim hd c shape type isz st) =
      if isz = 0 then shape * st else Int.tdiv hd.datasize isz := rfl

theorem fixed_step_dtype {d : ndt_t} (hd : is_dtype d) (ov : Bool) :
    fixed_step d INT64_MAX ov = (1, ov) := by
  obtain ⟨_, h1, _, _⟩ := hd
  unfold fixed_step
  rw [if_neg (by simp)]
  cases d <;> first
    | rfl
    | exact absurd rfl h1

/-- The invariant of `fixed_array` behind the C-contiguity of the result. -/
theorem fixed_array_contig (d : ndt_t) (hc : d.access = .Concrete) (hd : is_dtype d) :
    ∀ (shapes : List Int) (u : ndt_t), fixed_array shapes d = .ok u →
      contiguous_loop (ndt_dims_dtype u).1.reverse 1 = true ∧
      dim_shapes u = shapes ∧ (ndt_dims_dtype u).2 = d ∧
      derived_step u = shapes.prod ∧
      ((fixed_step u INT64_MAX false).2 = false →
        INT64_MIN ≤ (fixed_step u INT64_MAX false).1 ∧
        (fixed_step u INT64_MAX false).1 ≤ INT64_MAX) ∧
      (shapes ≠ [] → u.tag = .FixedDim) := by
  intro shapes
  induction shapes with
  | nil =>
    intro u h
    simp only [fixed_array, Except.ok.injEq] at h
    subst h
    have hn := hd.1
    refine ⟨?_, ?_, ?_, ?_, ?_, ?_⟩
    · rw [ndt_dims_dtype_ndim0 _ hn]; rfl
    · simp [dim_shapes, ndt_dims_dtype_ndim0 _ hn]
    · rw [ndt_dims_dtype_ndim0 _ hn]
    · simpa using (dtype_itemsize_step hd).2
    · intro _
      rw [fixed_step_dtype hd]
      constructor <;> decide
    · intro h; exact absurd rfl h
  | cons s rest ih =>
    intro u h
    obtain ⟨j1, j2, j3, j4, j5, j6, j7⟩ := fixed_array_inv d hc hd (s :: rest) u h
    simp only [fixed_array] at h
    split at h
    · rename_i v hv
      obtain ⟨k1, k2, k3, k4, k5, _⟩ := ih v hv
      obtain ⟨i1, i2, i3, i4, i5, i6, i7⟩ := fixed_array_inv d hc hd rest v hv
      obtain ⟨h0, _, hov, ht⟩ := ndt_fixed_dim_concrete i1 h
      obtain ⟨e1, _, _⟩ := fixed_datasize_exact hov
      obtain ⟨_, _, e5⟩ := fixed_step_exact e1
      have hst := e5 rfl
      have hrange := k5 e1
      have hnd : 0 < v.ndim + 1 := by rw [i2]; omega
      subst ht
      have hw : wrap_i64 rest.prod = rest.prod := by
        rw [hst, k4] at hrange
        unfold INT64_MIN INT64_MAX at hrange
        apply wrap_i64_small <;> omega
      refine ⟨?_, ?_, ?_, ?_, ?_, ?_⟩
      · simp only [ndt_dims_dtype, hnd, ↓reduceIte, gt_iff_lt, List.reverse_cons]
        apply contiguous_loop_append_single _ _ _ k1
        intro _
        simp only [fixed_dim_step]
        have w1 : wrap_i64 1 = 1 := by decide
        have e2 := running_step_prod (ndt_dims_dtype v).1.reverse 1
        rw [w1, one_mul, List.map_reverse, List.prod_reverse] at e2
        simp only [dim_shapes] at k2
        rw [e2, k2, hw, hst, k4]
      · simp only [dim_shapes, ndt_dims_dtype, hnd, ↓reduceIte, gt_iff_lt, List.map_cons,
          fixed_shape]
        simp only [dim_shapes] at k2
        rw [k2]
      · simp only [ndt_dims_dtype, hnd, ↓reduceIte, gt_iff_lt]
        exact k3
      · by_cases hD : d.datasize = 0
        · rw [derived_step_fixed, i5, if_pos hD, hst, k4, List.prod_cons]
        · exact j7 hD
      · intro hf
        rw [fixed_step_fixed, i5] at hf ⊢
        by_cases hD : d.datasize = 0
        · rw [if_pos hD]
          exact wrap_i64_range _
        · have hder := j7 hD
          rw [derived_step_fixed, i5, if_neg hD] at hder
          rw [if_neg hD] at hf ⊢
          obtain ⟨_, q2⟩ := DIVi64_exact hf
          have hflag := (DIVi64_flag hf).2
          have hr := fixed_datasize_range v s (fixed_step v INT64_MAX false).1
            (ndt_itemsize v) (fixed_step v INT64_MAX false).2
          have hds := j4
          simp only [ndt_t.datasize, ndt_t.hdr] at hds
          rw [i5] at hr hds
          rw [q2, hder]
          exact quotient_range j6 hD hds.symm hr.1 hr.2 hflag
      · intro _; rfl
    · cases h

/-- The node of a successful `ndt_convert_to_var_elem`. -/
theorem ndt_convert_to_var_elem_node {u type t : ndt_t} {index : Int}
    (h : ndt_convert_to_var_elem u type index = .ok t) :
    ∃ hd isz offs sl, t = .VarDimElem hd type index isz (some offs) sl ∧
      hd.ndim = type.ndim + 1 ∧ hd.access = .Concrete ∧ type.ndim < NDT_MAX_DIM := by
  unfold ndt_convert_to_var_elem at h
  split at h
  · cases h
  split at h
  · cases h
  split at h
  · cases h
  split at h
  · cases h
  · split at h
    · rename_i hd ty isz o sl hvd
      obtain ⟨⟨hd2, isz2, ht, hnd, hacc, _⟩, hlt, _, _, _⟩ := ndt_var_dim_node hvd
      cases ht
      cases h
      exact ⟨_, _, _, _, rfl, hnd, hacc, hlt⟩
    · rename_i hne
      obtain ⟨⟨hd2, isz2, ht, _, _, _⟩, _, _, _, _⟩ := ndt_var_dim_node h
      subst ht
      exact absurd h (hne _ _ _ _ _)

/-! ## The visits of the var copy -/

theorem var_dims_ndim {t : ndt_t} (h : var_dims t) : 0 ≤ t.ndim := by
  induction h with
  | dtype d hd => omega
  | var type t offsets slices opt _ hb ih =>
    obtain ⟨⟨hd, isz, ht, hnd, _, _⟩, _, _, _, _⟩ := ndt_var_dim_node hb
    subst ht
    show 0 ≤ hd.ndim
    omega
  | elem u type index t _ hb ih =>
    obtain ⟨hd, isz, offs, sl, ht, hnd, _⟩ := ndt_convert_to_var_elem_node hb
    subst ht
    show 0 ≤ hd.ndim
    omega

theorem replay_visits_append (w : Bool) (a b : List var_visit) (m : offsets_t) :
    replay_visits w (a ++ b) m =
      match replay_visits w a m with
      | .error e => .error e
      | .ok m1 => replay_visits w b m1 := by
  unfold replay_visits
  rw [List.foldlM_append]
  cases List.foldlM (fun m e => record_shape w m e.depth e.active e.shape) m a <;> rfl

theorem replay_visits_cons (w : Bool) (e : var_visit) (b : List var_visit) (m : offsets_t) :
    replay_visits w (e :: b) m =
      match record_shape w m e.depth e.active e.shape with
      | .error e => .error e
      | .ok m1 => replay_visits w b m1 := by
  unfold replay_visits
  rw [List.foldlM_cons]
  cases record_shape w m e.depth e.active e.shape <;> rfl

theorem visits_fold_replay (w : Bool) (f : Nat → Except ndt_error (List var_visit))
    (g : offsets_t → Nat → Except ndt_error offsets_t) :
    ∀ (is : List Nat), (∀ i ∈ is, ∀ e, f i = .ok e → ∀ m, g m i = replay_visits w e m) →
      ∀ (acc evs : List var_visit),
        is.foldlM (visits_step f) acc = .ok evs →
        ∃ rest, evs = acc ++ rest ∧ ∀ m, is.foldlM g m = replay_visits w rest m := by
  intro is
  induction is with
  | nil =>
    intro _ acc evs h
    simp only [List.foldlM_nil, pure, Except.pure, Except.ok.injEq] at h
    subst h
    exact ⟨[], by simp, fun m => rfl⟩
  | cons i is ih =>
    intro hfg acc evs h
    rw [List.foldlM_cons] at h
    cases hfi : f i with
    | error e =>
      simp only [visits_step, hfi] at h
      cases h
    | ok e1 =>
      simp only [visits_step, hfi] at h
      change List.foldlM (visits_step f) (acc ++ e1) is = .ok evs at h
      obtain ⟨rest, hr, hm⟩ := ih (fun j hj => hfg j (List.mem_cons_of_mem _ hj))
        (acc ++ e1) evs h
      refine ⟨e1 ++ rest, by rw [hr, List.append_assoc], ?_⟩
      intro m
      rw [List.foldlM_cons, hfg i (List.mem_cons_self _ _) e1 hfi m, replay_visits_append]
      cases replay_visits w e1 m with
      | error e => rfl
      | ok m1 => exact hm m1

theorem visits_fold_ok (f : Nat → Except ndt_error (List var_visit))
    (g : offsets_t → Nat → Except ndt_error offsets_t) :
    ∀ (is : List Nat), (∀ i ∈ is, ∀ m m1, g m i = .ok m1 → ∃ e, f i = .ok e) →
      ∀ (m m1 : offsets_t) (acc : List var_visit), is.foldlM g m = .ok m1 →
        ∃ evs, is.foldlM (visits_step f) acc = .ok evs := by
  intro is
  induction is with
  | nil => intro _ m m1 acc _; exact ⟨acc, rfl⟩
  | cons i is ih =>
    intro hfg m m1 acc h
    rw [List.foldlM_cons] at h
    cases hgi : g m i with
    | error e => rw [hgi] at h; cases h
    | ok m2 =>
      rw [hgi] at h
      obtain ⟨e1, he1⟩ := hfg i (List.mem_cons_self _ _) m m2 hgi
      obtain ⟨evs, hevs⟩ := ih (fun j hj => hfg j (List.mem_cons_of_mem _ hj)) m2 m1
        (acc ++ e1) h
      refine ⟨evs, ?_⟩
      rw [List.foldlM_cons]
      simp only [visits_step, he1]
      exact hevs

theorem var_visits_ndim0 (t : ndt_t) (idx : Int) (h : t.ndim = 0) :
    var_visits t idx = .ok [] := by
  cases t <;> simp_all [var_visits, ndt_t.ndim, ndt_t.hdr]

theorem var_copy_shapes_ndim0 (w : Bool) (t : ndt_t) (m : offsets_t) (idx : Int)
    (h : t.ndim = 0) : var_copy_shapes w t m idx = .ok m := by
  cases t <;> simp_all [var_copy_shapes, ndt_t.ndim, ndt_t.hdr]

/-- Both passes of `var_copy_shapes` do the bookkeeping of the visited lists,
in visiting order. -/
theorem var_copy_shapes_replay {t : ndt_t} (h : var_dims t) :
    ∀ (idx : Int) (evs : List var_visit), var_visits t idx = .ok evs →
      ∀ (w : Bool) (m : offsets_t), var_copy_shapes w t m idx = replay_visits w evs m := by
  induction h with
  | dtype d hd =>
    intro idx evs hv w m
    rw [var_visits_ndim0 d idx hd] at hv
    cases hv
    rw [var_copy_shapes_ndim0 w d m idx hd]
    rfl
  | var type t offsets slices opt hty hb ih =>
    intro idx evs hv w m
    have hn := var_dims_ndim hty
    obtain ⟨⟨hd, isz, ht, hnd, _, _⟩, _, _, _, _⟩ := ndt_var_dim_node hb
    subst ht
    have hne : hd.ndim ≠ 0 := by omega
    simp only [var_visits] at hv
    simp only [var_copy_shapes]
    rw [if_neg hne] at hv ⊢
    cases hvi : ndt_var_indices (.VarDim hd type isz (some offsets) slices) idx with
    | error e => rw [hvi] at hv; cases hv
    | ok r =>
      obtain ⟨start, step, shape⟩ := r
      rw [hvi] at hv
      simp only at hv ⊢
      by_cases hs : shape < 0
      · rw [if_pos hs] at hv; cases hv
      · rw [if_neg hs] at hv ⊢
        obtain ⟨rest, hr, hm⟩ := visits_fold_replay w
          (fun (i : Nat) => var_visits type (wrap_i64 (start + wrap_i64 ((i : Int) * step))))
          (fun m (i : Nat) =>
            var_copy_shapes w type m (wrap_i64 (start + wrap_i64 ((i : Int) * step))))
          (List.range shape.toNat)
          (fun i _ e he m => ih _ e he w m) _ evs hv
        rw [hr, List.singleton_append, replay_visits_cons]
        dsimp only
        cases record_shape w m hd.ndim.toNat true shape with
        | error e => rfl
        | ok m1 => exact hm m1
  | elem u type index t hty hb ih =>
    intro idx evs hv w m
    have hn := var_dims_ndim hty
    obtain ⟨hd, isz, offs, sl, ht, hnd, _⟩ := ndt_convert_to_var_elem_node hb
    subst ht
    have hne : hd.ndim ≠ 0 := by omega
    simp only [var_visits] at hv
    simp only [var_copy_shapes]
    rw [if_neg hne] at hv ⊢
    cases hvi : ndt_var_indices (.VarDimElem hd type index isz (some offs) sl) idx with
    | error e => rw [hvi] at hv; cases hv
    | ok r =>
      obtain ⟨start, step, shape⟩ := r
      rw [hvi] at hv
      simp only at hv ⊢
      by_cases hs : shape < 0
      · rw [if_pos hs] at hv; cases hv
      · rw [if_neg hs] at hv ⊢
        cases hk : get_index shape index with
        | error e => rw [hk] at hv; cases hv
        | ok k =>
          rw [hk] at hv
          simp only at hv ⊢
          cases hvt : var_visits type (wrap_i64 (start + wrap_i64 (k * step))) with
          | error e => rw [hvt] at hv; cases hv
          | ok e1 =>
            rw [hvt] at hv
            simp only [Except.ok.injEq] at hv
            subst hv
            rw [replay_visits_cons]
            dsimp only
            cases record_shape w m hd.ndim.toNat false 1 with
            | error e => rfl
            | ok m1 => exact ih _ e1 hvt w m1

/-- A pass of `var_copy_shapes` that succeeds has visited lists only. -/
theorem var_copy_shapes_visits {t : ndt_t} (h : var_dims t) :
    ∀ (w : Bool) (idx : Int) (m m1 : offsets_t), var_copy_shapes w t m idx = .ok m1 →
      ∃ evs, var_visits t idx = .ok evs := by
  induction h with
  | dtype d hd =>
    intro w idx m m1 _
    exact ⟨[], var_visits_ndim0 d idx hd⟩
  | var type t offsets slices opt hty hb ih =>
    intro w idx m m1 hc
    have hn := var_dims_ndim hty
    obtain ⟨⟨hd, isz, ht, hnd, _, _⟩, _, _, _, _⟩ := ndt_var_dim_node hb
    subst ht
    have hne : hd.ndim ≠ 0 := by omega
    simp only [var_copy_shapes] at hc
    simp only [var_visits]
    rw [if_neg hne] at hc ⊢
    cases hvi : ndt_var_indices (.VarDim hd type isz (some offsets) slices) idx with
    | error e => rw [hvi] at hc; cases hc
    | ok r =>
      obtain ⟨start, step, shape⟩ := r
      rw [hvi] at hc
      simp only at hc ⊢
      by_cases hs : shape < 0
      · rw [if_pos hs] at hc; cases hc
      · rw [if_neg hs] at hc ⊢
        cases hrec : record_shape w m hd.ndim.toNat true shape with
        | error e => rw [hrec] at hc; cases hc
        | ok m2 =>
          rw [hrec] at hc
          simp only at hc
          exact visits_fold_ok
            (fun (i : Nat) => var_visits type (wrap_i64 (start + wrap_i64 ((i : Int) * step))))
            (fun m (i : Nat) =>
              var_copy_shapes w type m (wrap_i64 (start + wrap_i64 ((i : Int) * step))))
            (List.range shape.toNat)
            (fun i _ m m1 hg => ih w _ m m1 hg) m2 m1 _ hc
  | elem u type index t hty hb ih =>
    intro w idx m m1 hc
    have hn := var_dims_ndim hty
    obtain ⟨hd, isz, offs, sl, ht, hnd, _⟩ := ndt_convert_to_var_elem_node hb
    subst ht
    have hne : hd.ndim ≠ 0 := by omega
    simp only [var_copy_shapes] at hc
    simp only [var_visits]
    rw [if_neg hne] at hc ⊢
    cases hvi : ndt_var_indices (.VarDimElem hd type index isz (some offs) sl) idx with
    | error e => rw [hvi] at hc; cases hc
    | ok r =>
      obtain ⟨start, step, shape⟩ := r
      rw [hvi] at hc
      simp only at hc ⊢
      by_cases hs : shape < 0
      · rw [if_pos hs] at hc; cases hc
      · rw [if_neg hs] at hc ⊢
        cases hk : get_index shape index with
        | error e => rw [hk] at hc; cases hc
        | ok k =>
          rw [hk] at hc
          simp only at hc ⊢
          cases hrec : record_shape w m hd.ndim.toNat false 1 with
          | error e => rw [hrec] at hc; cases hc
          | ok m2 =>
            rw [hrec] at hc
            simp only at hc
            obtain ⟨e1, he1⟩ := ih w _ m2 m1 hc
            rw [he1]
            exact ⟨_, rfl⟩

theorem visits_fold_rest (P : var_visit → Prop)
    (f : Nat → Except ndt_error (List var_visit)) :
    ∀ (is : List Nat), (∀ i ∈ is, ∀ es, f i = .ok es → ∀ e ∈ es, P e) →
      ∀ (acc evs : List var_visit), is.foldlM (visits_step f) acc = .ok evs →
        ∃ rest, evs = acc ++ rest ∧ ∀ e ∈ rest, P e := by
  intro is
  induction is with
  | nil =>
    intro _ acc evs h
    simp only [List.foldlM_nil, pure, Except.pure, Except.ok.injEq] at h
    subst h
    exact ⟨[], by simp, fun e he => by simp at he⟩
  | cons i is ih =>
    intro hf acc evs h
    rw [List.foldlM_cons] at h
    cases hfi : f i with
    | error e =>
      simp only [visits_step, hfi] at h
      cases h
    | ok e1 =>
      simp only [visits_step, hfi] at h
      change List.foldlM (visits_step f) (acc ++ e1) is = .ok evs at h
      obtain ⟨rest, hr, hp⟩ := ih (fun j hj => hf j (List.mem_cons_of_mem _ hj))
        (acc ++ e1) evs h
      refine ⟨e1 ++ rest, by rw [hr, List.append_assoc], ?_⟩
      intro e he
      rcases List.mem_append.mp he with h1 | h1
      · exact hf i (List.mem_cons_self _ _) e1 hfi e h1
      · exact hp e h1

theorem visits_at_nil_of_ne (evs : List var_visit) (d : Nat)
    (h : ∀ x ∈ evs, x.depth ≠ d) : visits_at evs d = [] := by
  unfold visits_at
  rw [List.filter_eq_nil_iff]
  intro x hx
  simpa using h x hx

theorem visits_at_cons_eq (e : var_visit) (rest : List var_visit) :
    visits_at (e :: rest) e.depth = e :: visits_at rest e.depth := by
  simp [visits_at, List.filter_cons]

theorem visits_at_cons_ne (e : var_visit) (rest : List var_visit) (d : Nat)
    (h : e.depth ≠ d) : visits_at (e :: rest) d = visits_at rest d := by
  simp [visits_at, List.filter_cons, h]

theorem depth_active_nil_of_ne (evs : List var_visit) (d : Nat)
    (h : ∀ x ∈ evs, x.depth ≠ d) : depth_active evs d = false := by
  unfold depth_active
  rw [visits_at_nil_of_ne evs d h]
  rfl

/-- The visits of a chain: a node is visited at its own depth, the nodes below
at smaller depths, no shape is negative, and the outermost kept depth is
visited once. -/
theorem var_visits_struct {t : ndt_t} (h : var_dims t) :
    ∀ (idx : Int) (evs : List var_visit), var_visits t idx = .ok evs →
      (∀ e ∈ evs, 1 ≤ e.depth ∧ (e.depth : Int) ≤ t.ndim ∧ 0 ≤ e.shape) ∧
      (∀ d, depth_active evs d = true → (∀ d2, d < d2 → depth_active evs d2 = false) →
        (visits_at evs d).length = 1) := by
  induction h with
  | dtype d hd =>
    intro idx evs hv
    rw [var_visits_ndim0 d idx hd] at hv
    cases hv
    refine ⟨fun e he => by simp at he, ?_⟩
    intro d hact
    simp [depth_active, visits_at] at hact
  | var type t offsets slices opt hty hb ih =>
    intro idx evs hv
    have hn := var_dims_ndim hty
    obtain ⟨⟨hd, isz, ht, hnd, _, _⟩, _, _, _, _⟩ := ndt_var_dim_node hb
    subst ht
    have hne : hd.ndim ≠ 0 := by omega
    simp only [var_visits] at hv
    rw [if_neg hne] at hv
    cases hvi : ndt_var_indices (.VarDim hd type isz (some offsets) slices) idx with
    | error e => rw [hvi] at hv; cases hv
    | ok r =>
      obtain ⟨start, step, shape⟩ := r
      rw [hvi] at hv
      simp only at hv
      by_cases hs : shape < 0
      · rw [if_pos hs] at hv; cases hv
      · rw [if_neg hs] at hv
        obtain ⟨rest, hr, hrest⟩ := visits_fold_rest
          (fun e => 1 ≤ e.depth ∧ (e.depth : Int) ≤ type.ndim ∧ 0 ≤ e.shape)
          (fun (i : Nat) => var_visits type (wrap_i64 (start + wrap_i64 ((i : Int) * step))))
          (List.range shape.toNat)
          (fun i _ es hes e he => (ih _ es hes).1 e he) _ evs hv
        rw [List.singleton_append] at hr
        subst hr
        have hlow : ∀ x ∈ rest, x.depth ≠ hd.ndim.toNat := by
          intro x hx
          have := (hrest x hx).2.1
          omega
        refine ⟨?_, ?_⟩
        · intro e he
          rcases List.mem_cons.mp he with h1 | h1
          · subst h1
            refine ⟨?_, ?_, ?_⟩
            · show 1 ≤ hd.ndim.toNat
              omega
            · show ((hd.ndim.toNat : Nat) : Int) ≤ hd.ndim
              omega
            · show 0 ≤ shape
              omega
          · obtain ⟨b1, b2, b3⟩ := hrest e h1
            refine ⟨b1, ?_, b3⟩
            show (e.depth : Int) ≤ hd.ndim
            omega
        · intro d hact hhigh
          have htop : depth_active
              ({ depth := hd.ndim.toNat, active := true, shape := shape } :: rest)
              hd.ndim.toNat = true := by
            unfold depth_active
            rw [visits_at_cons_eq ({ depth := hd.ndim.toNat, active := true, shape := shape })
              rest, visits_at_nil_of_ne rest _ hlow]
            rfl
          rcases lt_trichotomy d hd.ndim.toNat with hlt | heq | hgt
          · rw [hhigh _ hlt] at htop
            cases htop
          · subst heq
            rw [visits_at_cons_eq ({ depth := hd.ndim.toNat, active := true, shape := shape })
              rest, visits_at_nil_of_ne rest _ hlow]
            rfl
          · rw [depth_active_nil_of_ne] at hact
            · cases hact
            · intro x hx
              rcases List.mem_cons.mp hx with h1 | h1
              · subst h1
                show hd.ndim.toNat ≠ d
                omega
              · have := (hrest x h1).2.1
                omega
  | elem u type index t hty hb ih =>
    intro idx evs hv
    have hn := var_dims_ndim hty
    obtain ⟨hd, isz, offs, sl, ht, hnd, _⟩ := ndt_convert_to_var_elem_node hb
    subst ht
    have hne : hd.ndim ≠ 0 := by omega
    simp only [var_visits] at hv
    rw [if_neg hne] at hv
    cases hvi : ndt_var_indices (.VarDimElem hd type index isz (some offs) sl) idx with
    | error e => rw [hvi] at hv; cases hv
    | ok r =>
      obtain ⟨start, step, shape⟩ := r
      rw [hvi] at hv
      simp only at hv
      by_cases hs : shape < 0
      · rw [if_pos hs] at hv; cases hv
      · rw [if_neg hs] at hv
        cases hk : get_index shape index with
        | error e => rw [hk] at hv; cases hv
        | ok k =>
          rw [hk] at hv
          simp only at hv
          cases hvt : var_visits type (wrap_i64 (start + wrap_i64 (k * step))) with
          | error e => rw [hvt] at hv; cases hv
          | ok rest =>
            rw [hvt] at hv
            simp only [Except.ok.injEq] at hv
            subst hv
            obtain ⟨hrest, hta⟩ := ih _ rest hvt
            have hlow : ∀ x ∈ rest, x.depth ≠ hd.ndim.toNat := by
              intro x hx
              have := (hrest x hx).2.1
              omega
            refine ⟨?_, ?_⟩
            · intro e he
              rcases List.mem_cons.mp he with h1 | h1
              · subst h1
                refine ⟨?_, ?_, ?_⟩
                · show 1 ≤ hd.ndim.toNat
                  omega
                · show ((hd.ndim.toNat : Nat) : Int) ≤ hd.ndim
                  omega
                · show (0 : Int) ≤ 1
                  omega
              · obtain ⟨b1, b2, b3⟩ := hrest e h1
                refine ⟨b1, ?_, b3⟩
                show (e.depth : Int) ≤ hd.ndim
                omega
            · intro d hact hhigh
              have hother : ∀ d2, d2 ≠ hd.ndim.toNat →
                  visits_at ({ depth := hd.ndim.toNat, active := false, shape := 1 } :: rest) d2 =
                    visits_at rest d2 := by
                intro d2 h2
                exact visits_at_cons_ne _ rest d2 (fun h => h2 h.symm)
              by_cases hd0 : d = hd.ndim.toNat
              · subst hd0
                unfold depth_active at hact
                rw [visits_at_cons_eq
                  ({ depth := hd.ndim.toNat, active := false, shape := 1 }) rest,
                  visits_at_nil_of_ne rest _ hlow] at hact
                cases hact
              · rw [hother d hd0]
                apply hta d
                · unfold depth_active at hact ⊢
                  rw [hother d hd0] at hact
                  exact hact
                · intro d2 h2
                  by_cases h3 : d2 = hd.ndim.toNat
                  · subst h3
                    exact depth_active_nil_of_ne rest _ hlow
                  · have := hhigh d2 h2
                    unfold depth_active at this ⊢
                    rw [hother d2 h3] at this
                    exact this

/-! ## The bookkeeping of one depth -/

theorem getD_set_eq {α : Type} (l : List α) (i : Nat) (x dflt : α) (h : i < l.length) :
    (l.set i x).getD i dflt = x := by
  simp [List.getD_eq_getElem?_getD, List.getElem?_set_eq_of_lt, h]

theorem getD_set_ne {α : Type} (l : List α) (i j : Nat) (x dflt : α) (h : i ≠ j) :
    (l.set i x).getD j dflt = l.getD j dflt := by
  simp [List.getD_eq_getElem?_getD, List.getElem?_set_ne h]

/-- What a successful `record_shape` has done. -/
theorem record_shape_ok {w : Bool} {m m1 : offsets_t} {d : Nat} {a : Bool} {s : Int}
    (h : record_shape w m d a s = .ok m1) :
    m1.maxdim = m.maxdim ∧ m1.active = m.active.set d a ∧
    m1.index = m.index.set d (wrap_i32 (m.index.getD d 0 + 1)) ∧
    (w = false → m1.offsets = m.offsets) ∧
    (w = true → ∃ arr sum, m.offsets.getD d none = some arr ∧
      arr.get? (m.index.getD d 0).toNat = some sum ∧
      (m.index.getD d 0).toNat + 1 < arr.length ∧
      m1.offsets = m.offsets.set d
        (some (arr.set ((m.index.getD d 0).toNat + 1) (wrap_i32 (sum + wrap_i32 s))))) := by
  unfold record_shape at h
  simp only at h
  cases w with
  | false =>
    simp only [Bool.false_eq_true, ↓reduceIte, Except.ok.injEq] at h
    subst h
    exact ⟨rfl, rfl, rfl, fun _ => rfl, fun hw => by cases hw⟩
  | true =>
    simp only [↓reduceIte] at h
    split at h
    · cases h
    · rename_i arr harr
      split at h
      · cases h
      · rename_i sum hsum
        split at h
        · rename_i hlt
          simp only [Except.ok.injEq] at h
          subst h
          exact ⟨rfl, rfl, rfl, (fun hw => by cases hw), fun _ => ⟨arr, sum, harr, hsum, hlt, rfl⟩⟩
        · cases h

theorem record_shape_sized {w : Bool} {m m1 : offsets_t} {d : Nat} {a : Bool} {s : Int}
    (h : record_shape w m d a s = .ok m1) (hm : m.sized) : m1.sized := by
  obtain ⟨_, h2, h3, h4, h5⟩ := record_shape_ok h
  obtain ⟨s1, s2, s3⟩ := hm
  refine ⟨by rw [h2, List.length_set]; exact s1, by rw [h3, List.length_set]; exact s2, ?_⟩
  cases w with
  | false => rw [h4 rfl]; exact s3
  | true =>
    obtain ⟨arr, sum, _, _, _, ho⟩ := h5 rfl
    rw [ho, List.length_set]; exact s3

/-- The flags and the counters of one depth behind a sequence of visits. -/
theorem replay_visits_state (w : Bool) :
    ∀ (evs : List var_visit) (m m1 : offsets_t), m.sized →
      replay_visits w evs m = .ok m1 →
      m1.sized ∧ m1.maxdim = m.maxdim ∧ (w = false → m1.offsets = m.offsets) ∧
      ∀ d, d < 17 →
        m1.active.getD d false =
          (visits_at evs d).foldl (fun _ e => e.active) (m.active.getD d false) ∧
        m1.index.getD d 0 =
          (visits_at evs d).foldl (fun c _ => wrap_i32 (c + 1)) (m.index.getD d 0) := by
  intro evs
  induction evs with
  | nil =>
    intro m m1 hm h
    simp only [replay_visits, List.foldlM_nil, pure, Except.pure, Except.ok.injEq] at h
    subst h
    exact ⟨hm, rfl, fun _ => rfl, fun d _ => ⟨rfl, rfl⟩⟩
  | cons e rest ih =>
    intro m m1 hm h
    rw [replay_visits_cons] at h
    cases hrec : record_shape w m e.depth e.active e.shape with
    | error x => rw [hrec] at h; cases h
    | ok m2 =>
      rw [hrec] at h
      dsimp only at h
      have hs2 := record_shape_sized hrec hm
      obtain ⟨r1, r2, r3, r4, _⟩ := record_shape_ok hrec
      obtain ⟨i1, i2, i3, i4⟩ := ih m2 m1 hs2 h
      refine ⟨i1, by rw [i2, r1], fun hw => by rw [i3 hw, r4 hw], ?_⟩
      intro d hd
      obtain ⟨a1, a2⟩ := i4 d hd
      by_cases hed : e.depth = d
      · subst hed
        rw [visits_at_cons_eq, List.foldl_cons, List.foldl_cons, a1, a2, r2, r3,
          getD_set_eq _ _ _ _ (by rw [hm.1]; exact hd),
          getD_set_eq _ _ _ _ (by rw [hm.2.1]; exact hd)]
        exact ⟨rfl, rfl⟩
      · rw [visits_at_cons_ne e rest d hed, a1, a2, r2, r3, getD_set_ne _ _ _ _ _ hed,
          getD_set_ne _ _ _ _ _ hed]
        exact ⟨rfl, rfl⟩

theorem foldl_last_flag (l : List var_visit) (a0 : Bool) :
    l.foldl (fun _ e => e.active) a0 = (l.getLast?.map (fun e => e.active)).getD a0 := by
  induction l generalizing a0 with
  | nil => rfl
  | cons e l ih =>
    rw [List.foldl_cons, ih]
    cases l with
    | nil => rfl
    | cons x l =>
      rw [List.getLast?_cons_cons, List.getLast?_eq_getLast (x :: l) (by simp)]
      rfl

theorem wrap_i32_succ_wrap (c : Int) : wrap_i32 (wrap_i32 c + 1) = wrap_i32 (c + 1) := by
  unfold wrap_i32
  omega

theorem foldl_count32 {α : Type} (l : List α) :
    ∀ c : Int, l.foldl (fun c _ => wrap_i32 (c + 1)) (wrap_i32 c) = wrap_i32 (c + l.length) := by
  induction l with
  | nil => intro c; simp
  | cons x l ih =>
    intro c
    rw [List.foldl_cons, wrap_i32_succ_wrap, ih (c + 1)]
    congr 1
    simp only [List.length_cons, Nat.cast_add, Nat.cast_one]
    ring

/-- The array of one depth behind the second pass over a sequence of visits
that starts with the write index `c`. -/
theorem replay_visits_offsets (d : Nat) (hd : d < 17) :
    ∀ (evs : List var_visit) (m m1 : offsets_t) (arr : List Int) (c : Nat), m.sized →
      replay_visits true evs m = .ok m1 →
      m.offsets.getD d none = some arr → m.index.getD d 0 = (c : Int) →
      arr.length ≤ 2147483648 →
      m1.offsets.getD d none = some (write_sums arr c (shapes_at evs d)) ∧
      (visits_at evs d ≠ [] → c + (visits_at evs d).length < arr.length) := by
  intro evs
  induction evs with
  | nil =>
    intro m m1 arr c hm h ho hi _
    simp only [replay_visits, List.foldlM_nil, pure, Except.pure, Except.ok.injEq] at h
    subst h
    refine ⟨by simpa [shapes_at, visits_at, write_sums] using ho, fun hne => ?_⟩
    simp [visits_at] at hne
  | cons e rest ih =>
    intro m m1 arr c hm h ho hi hlen
    rw [replay_visits_cons] at h
    cases hrec : record_shape true m e.depth e.active e.shape with
    | error x => rw [hrec] at h; cases h
    | ok m2 =>
      rw [hrec] at h
      dsimp only at h
      have hs2 := record_shape_sized hrec hm
      obtain ⟨r1, r2, r3, _, r5⟩ := record_shape_ok hrec
      obtain ⟨arr0, sum, q1, q2, q3, q4⟩ := r5 rfl
      by_cases hed : e.depth = d
      · subst hed
        rw [ho] at q1
        cases q1
        rw [hi] at q2 q3 q4
        simp only [Int.toNat_ofNat] at q2 q3 q4
        have hsum : arr.getD c 0 = sum := by
          rw [List.getD_eq_getElem?_getD]
          rw [List.get?_eq_getElem?] at q2
          rw [q2]
          rfl
        have hidx : m2.index.getD e.depth 0 = ((c + 1 : Nat) : Int) := by
          rw [r3, getD_set_eq _ _ _ _ (by rw [hm.2.1]; exact hd), hi]
          unfold wrap_i32
          push_cast
          omega
        have hoff : m2.offsets.getD e.depth none =
            some (arr.set (c + 1) (wrap_i32 (sum + wrap_i32 e.shape))) := by
          rw [q4, getD_set_eq _ _ _ _ (by rw [hm.2.2]; exact hd)]
        obtain ⟨j1, j2⟩ := ih m2 m1 _ (c + 1) hs2 h hoff hidx
          (by rw [List.length_set]; exact hlen)
        rw [List.length_set] at j2
        refine ⟨?_, fun _ => ?_⟩
        · rw [j1]
          simp only [shapes_at, visits_at_cons_eq, List.map_cons, write_sums, hsum]
        · rw [visits_at_cons_eq, List.length_cons]
          by_cases hne : visits_at rest e.depth = []
          · rw [hne]
            simp only [List.length_nil]
            omega
          · have := j2 hne
            omega
      · have hoff : m2.offsets.getD d none = some arr := by
          rw [q4, getD_set_ne _ _ _ _ _ hed]
          exact ho
        have hidx : m2.index.getD d 0 = (c : Int) := by
          rw [r3, getD_set_ne _ _ _ _ _ hed]
          exact hi
        obtain ⟨j1, j2⟩ := ih m2 m1 arr c hs2 h hoff hidx hlen
        refine ⟨?_, ?_⟩
        · rw [j1]
          simp only [shapes_at, visits_at_cons_ne e rest d hed]
        · rw [visits_at_cons_ne e rest d hed]
          exact j2

/-! ## The offset arrays of the copy -/

theorem write_sums_scanl :
    ∀ (shapes pre : List Int) (x : Int) (zs : List Int), zs.length = shapes.length →
      write_sums (pre ++ x :: zs) pre.length shapes =
        pre ++ shapes.scanl (fun acc s => wrap_i32 (acc + wrap_i32 s)) x := by
  intro shapes
  induction shapes with
  | nil =>
    intro pre x zs hz
    have : zs = [] := List.length_eq_zero.mp hz
    subst this
    rfl
  | cons s ss ih =>
    intro pre x zs hz
    cases zs with
    | nil => simp at hz
    | cons z zs =>
      simp only [List.length_cons, add_left_inj] at hz
      simp only [write_sums, List.scanl_cons]
      have hget : (pre ++ x :: z :: zs).getD pre.length 0 = x := by
        rw [List.getD_eq_getElem?_getD, List.getElem?_append_right (le_refl _)]
        simp
      have hset : (pre ++ x :: z :: zs).set (pre.length + 1) (wrap_i32 (x + wrap_i32 s)) =
          (pre ++ [x]) ++ wrap_i32 (x + wrap_i32 s) :: zs := by
        rw [List.set_append_right _ _ (by omega)]
        simp
      rw [hget, hset]
      have := ih (pre ++ [x]) (wrap_i32 (x + wrap_i32 s)) zs hz
      simp only [List.length_append, List.length_singleton] at this
      rw [this]
      simp

theorem write_sums_zeros (shapes : List Int) :
    write_sums (List.replicate (shapes.length + 1) 0) 0 shapes = running_sum32 shapes := by
  have := write_sums_scanl shapes [] 0 (List.replicate shapes.length 0) (by simp)
  simpa [running_sum32, List.replicate_succ] using this

theorem running_sum32_length (shapes : List Int) :
    (running_sum32 shapes).length = shapes.length + 1 := by
  unfold running_sum32
  exact List.length_scanl _ _

/-- The tables of the type that `var_from_offsets_loop` builds. -/
theorem var_from_offsets_loop_tables (m : offsets_t) :
    ∀ (k i : Nat) (t0 u : ndt_t), var_from_offsets_loop m k i t0 = .ok u →
      var_tables u = loop_tables m k i ++ var_tables t0 ∧
      ((u = t0 ∧ loop_tables m k i = []) ∨
        (∃ hd type isz offs, u = .VarDim hd type isz (some offs) [] ∧
          hd.access = .Concrete)) ∧
      (var_chain t0 → (∀ tbl ∈ var_tables u, (tbl.length : Int) ≤ INT32_MAX) → var_chain u) := by
  intro k
  induction k with
  | zero =>
    intro i t0 u h
    simp only [var_from_offsets_loop, Except.ok.injEq] at h
    subst h
    exact ⟨by simp [loop_tables], Or.inl ⟨rfl, rfl⟩, fun hc _ => hc⟩
  | succ k ih =>
    intro i t0 u h
    simp only [var_from_offsets_loop] at h
    by_cases ha : m.active.getD i false = true
    · simp only [ha, Bool.not_true, Bool.false_eq_true, ↓reduceIte] at h
      cases ho : m.offsets.getD i none with
      | none => rw [ho] at h; cases h
      | some arr =>
        rw [ho] at h
        dsimp only at h
        cases hv : ndt_var_dim t0 arr [] false with
        | error e => rw [hv] at h; cases h
        | ok t1 =>
          rw [hv] at h
          dsimp only at h
          obtain ⟨⟨hd, isz, ht1, hnd, hacc, _⟩, hlt, _, _, _⟩ := ndt_var_dim_node hv
          obtain ⟨j1, j2, j3⟩ := ih (i + 1) t1 u h
          have ht1tab : var_tables t1 = arr :: var_tables t0 := by
            rw [ht1]; rfl
          have htab : var_tables u = loop_tables m (k + 1) i ++ var_tables t0 := by
            rw [j1, ht1tab]
            simp only [loop_tables, ha, ho, ↓reduceIte, Option.getD_some, List.append_assoc,
              List.singleton_append]
          refine ⟨htab, Or.inr ?_, ?_⟩
          · rcases j2 with ⟨e1, _⟩ | h2
            · rw [e1, ht1]
              exact ⟨hd, t0, isz, arr, rfl, hacc⟩
            · exact h2
          · intro hc hb
            apply j3 _ hb
            apply var_chain.var t0 t1 arr false hc _ hv
            apply hb
            rw [j1, ht1tab]
            simp
    · have ha2 : m.active.getD i false = false := by simpa using ha
      simp only [ha2, Bool.not_false, ↓reduceIte] at h
      obtain ⟨j1, j2, j3⟩ := ih (i + 1) t0 u h
      refine ⟨?_, ?_, j3⟩
      · rw [j1]
        simp only [loop_tables, ha2, Bool.false_eq_true, ↓reduceIte, List.append_nil]
      · rcases j2 with ⟨e1, e2⟩ | h2
        · left
          refine ⟨e1, ?_⟩
          simp only [loop_tables, ha2, Bool.false_eq_true, ↓reduceIte, List.append_nil]
          exact e2
        · right; exact h2

theorem var_dims_ndim_le {t : ndt_t} (h : var_dims t) : t.ndim ≤ 16 := by
  induction h with
  | dtype d hd => omega
  | var type t offsets slices opt _ hb _ =>
    obtain ⟨⟨hd, isz, ht, hnd, _, _⟩, hlt, _, _, _⟩ := ndt_var_dim_node hb
    subst ht
    show hd.ndim ≤ 16
    unfold NDT_MAX_DIM at hlt
    omega
  | elem u type index t _ hb _ =>
    obtain ⟨hd, isz, offs, sl, ht, hnd, _, hlt⟩ := ndt_convert_to_var_elem_node hb
    subst ht
    show hd.ndim ≤ 16
    unfold NDT_MAX_DIM at hlt
    omega

theorem getD_map_range {α : Type} (f : Nat → α) (n d : Nat) (dflt : α) (h : d < n) :
    ((List.range n).map f).getD d dflt = f d := by
  simp [List.getD_eq_getElem?_getD, List.getElem?_range h]

theorem wrap_i32_range (x : Int) : -2147483648 ≤ wrap_i32 x ∧ wrap_i32 x ≤ 2147483647 := by
  unfold wrap_i32
  omega

theorem depth_active_idem (evs : List var_visit) (d : Nat) :
    (visits_at evs d).foldl (fun _ e => e.active)
      ((visits_at evs d).foldl (fun _ e => e.active) false) = depth_active evs d := by
  rw [foldl_last_flag, foldl_last_flag]
  unfold depth_active
  cases (visits_at evs d).getLast? <;> rfl


theorem getD_replicate_self {α : Type} (n d : Nat) (a : α) :
    (List.replicate n a).getD d a = a := by
  rw [List.getD_eq_getElem?_getD, List.getElem?_replicate]
  split <;> rfl

/-- The bookkeeping between the passes: `var_init_offsets` and the reset of
the counters. -/
theorem var_init_offsets_state (m1 : offsets_t) (hs : m1.sized) (d : Nat) (hd : d < 17) :
    offsets_t.sized { var_init_offsets m1 with index := List.replicate 17 0 } ∧
    ({ var_init_offsets m1 with index := List.replicate 17 0 } : offsets_t).active =
      m1.active ∧
    ({ var_init_offsets m1 with index := List.replicate 17 0 } : offsets_t).maxdim =
      m1.maxdim ∧
    ({ var_init_offsets m1 with index := List.replicate 17 0 } : offsets_t).index.getD d 0 =
      0 ∧
    ({ var_init_offsets m1 with index := List.replicate 17 0 } : offsets_t).offsets.getD d none =
      (if 1 ≤ d ∧ (d : Int) ≤ m1.maxdim then
        some (List.replicate (m1.index.getD d 0 + 1).toNat 0)
       else m1.offsets.getD d none) := by
  refine ⟨⟨hs.1, ?_, ?_⟩, rfl, rfl, ?_, ?_⟩
  · show (List.replicate 17 (0 : Int)).length = 17
    exact List.length_replicate _ _
  · show ((List.range 17).map _).length = 17
    rw [List.length_map, List.length_range]
  · show (List.replicate 17 (0 : Int)).getD d 0 = 0
    exact getD_replicate_self 17 d 0
  · show (var_init_offsets m1).offsets.getD d none = _
    unfold var_init_offsets
    dsimp only
    rw [getD_map_range _ 17 d none hd]

theorem init_state (n : Int) (d : Nat) :
    offsets_t.sized { offsets_t.init with maxdim := n } ∧
    ({ offsets_t.init with maxdim := n } : offsets_t).maxdim = n ∧
    ({ offsets_t.init with maxdim := n } : offsets_t).active.getD d false = false ∧
    ({ offsets_t.init with maxdim := n } : offsets_t).index.getD d 0 = 0 := by
  refine ⟨⟨?_, ?_, ?_⟩, rfl, ?_, ?_⟩
  · show (List.replicate 17 false).length = 17
    exact List.length_replicate _ _
  · show (List.replicate 17 (0 : Int)).length = 17
    exact List.length_replicate _ _
  · show (List.replicate 17 (none : Option (List Int))).length = 17
    exact List.length_replicate _ _
  · show (List.replicate 17 false).getD d false = false
    exact getD_replicate_self 17 d false
  · show (List.replicate 17 (0 : Int)).getD d 0 = 0
    exact getD_replicate_self 17 d 0

theorem replicate_len_bound (x : Int) :
    (List.replicate (wrap_i32 x + 1).toNat (0 : Int)).length ≤ 2147483648 := by
  rw [List.length_replicate]
  have := wrap_i32_range x
  omega

theorem count_of_bound (n : Nat) (h : n ≠ 0 → 0 + n < (wrap_i32 (n : Int) + 1).toNat) :
    (wrap_i32 (n : Int) + 1).toNat = n + 1 := by
  by_cases hn : n = 0
  · subst hn
    decide
  · have h1 := h hn
    have hr := wrap_i32_range (n : Int)
    have hw : wrap_i32 (n : Int) = n := by
      apply wrap_i32_of_fits <;> omega
    rw [hw]
    omega

/-- The state of the bookkeeping behind both passes of `var_copy_contiguous`:
the flags are those of the visits, and the array of a depth is the running sum
of the shapes visited at that depth. -/
theorem var_copy_passes {t : ndt_t} (ht : var_dims t) (idx : Int) (m1 m3 : offsets_t)
    (h1 : var_copy_shapes false t { offsets_t.init with maxdim := t.ndim } idx = .ok m1)
    (h3 : var_copy_shapes true t
      { var_init_offsets m1 with index := List.replicate 17 0 } idx = .ok m3) :
    ∃ evs, var_visits t idx = .ok evs ∧ m3.maxdim = t.ndim ∧
      ∀ d : Nat, 1 ≤ d → (d : Int) ≤ t.ndim →
        m3.active.getD d false = depth_active evs d ∧
        m3.offsets.getD d none = some (running_sum32 (shapes_at evs d)) := by
  obtain ⟨evs, hev⟩ := var_copy_shapes_visits ht false idx _ m1 h1
  rw [var_copy_shapes_replay ht idx evs hev] at h1 h3
  have hle := var_dims_ndim_le ht
  have hs0 := (init_state t.ndim 0).1
  have hmd0 := (init_state t.ndim 0).2.1
  have hinit := fun d => (init_state t.ndim d).2.2
  generalize ({ offsets_t.init with maxdim := t.ndim } : offsets_t) = m0 at h1 hs0 hmd0 hinit
  obtain ⟨s1, p1, _, p3⟩ := replay_visits_state false evs m0 m1 hs0 h1
  have hs2 := (var_init_offsets_state m1 s1 0 (by omega)).1
  have hact2 := (var_init_offsets_state m1 s1 0 (by omega)).2.1
  have hmd2 := (var_init_offsets_state m1 s1 0 (by omega)).2.2.1
  have hst2 := fun d hd => (var_init_offsets_state m1 s1 d hd).2.2.2
  generalize ({ var_init_offsets m1 with index := List.replicate 17 0 } : offsets_t) = m2
    at h3 hs2 hact2 hmd2 hst2
  obtain ⟨_, q1, _, q3⟩ := replay_visits_state true evs m2 m3 hs2 h3
  refine ⟨evs, hev, by rw [q1, hmd2, p1, hmd0], ?_⟩
  intro d hd1 hdn
  have hd17 : d < 17 := by omega
  obtain ⟨a1, c1⟩ := p3 d hd17
  obtain ⟨a3, _⟩ := q3 d hd17
  obtain ⟨i2, o2⟩ := hst2 d hd17
  have hw0 : wrap_i32 0 = 0 := by decide
  rw [(hinit d).1] at a1
  rw [(hinit d).2] at c1
  have hc1 : m1.index.getD d 0 = wrap_i32 ((visits_at evs d).length : Int) := by
    rw [c1]
    have := foldl_count32 (visits_at evs d) 0
    rw [hw0, zero_add] at this
    exact this
  constructor
  · rw [a3, hact2, a1]
    exact depth_active_idem evs d
  · rw [if_pos ⟨hd1, by rw [p1, hmd0]; exact hdn⟩, hc1] at o2
    obtain ⟨w1, w2⟩ := replay_visits_offsets d hd17 evs m2 m3
      (List.replicate (wrap_i32 ((visits_at evs d).length : Int) + 1).toNat 0) 0 hs2 h3 o2
      (by rw [i2]; rfl) (replicate_len_bound _)
    rw [List.length_replicate] at w2
    have hcount := count_of_bound (visits_at evs d).length
      (fun hn => w2 (fun h0 => hn (by rw [h0]; rfl)))
    rw [w1, hcount]
    have hlen : (shapes_at evs d).length = (visits_at evs d).length := by
      unfold shapes_at
      exact List.length_map _ _
    rw [← hlen, write_sums_zeros]

theorem loop_tables_kept (evs : List var_visit) (m : offsets_t) :
    ∀ (k i : Nat),
      (∀ d, i ≤ d → d < i + k → m.active.getD d false = depth_active evs d ∧
        m.offsets.getD d none = some (running_sum32 (shapes_at evs d))) →
      loop_tables m k i =
        (kept_depths evs k i).map (fun d => running_sum32 (shapes_at evs d)) := by
  intro k
  induction k with
  | zero => intro i _; rfl
  | succ k ih =>
    intro i h
    obtain ⟨ha, ho⟩ := h i (le_refl i) (by omega)
    simp only [loop_tables, kept_depths, List.map_append]
    rw [ih (i + 1) (fun d h1 h2 => h d (by omega) (by omega)), ha, ho]
    cases depth_active evs i <;> rfl

theorem kept_depths_nil (evs : List var_visit) :
    ∀ (k i : Nat), kept_depths evs k i = [] →
      ∀ d, i ≤ d → d < i + k → depth_active evs d = false := by
  intro k
  induction k with
  | zero => intro i _ d h1 h2; omega
  | succ k ih =>
    intro i h d h1 h2
    simp only [kept_depths, List.append_eq_nil] at h
    by_cases hd : d = i
    · subst hd
      by_contra hc
      have : depth_active evs d = true := by simpa using hc
      rw [this] at h
      simp at h
    · exact ih (i + 1) h.1 d (by omega) (by omega)

theorem kept_depths_head (evs : List var_visit) :
    ∀ (k i a : Nat) (rest : List Nat), kept_depths evs k i = a :: rest →
      depth_active evs a = true ∧ i ≤ a ∧ a < i + k ∧
      ∀ d, a < d → d < i + k → depth_active evs d = false := by
  intro k
  induction k with
  | zero => intro i a rest h; simp [kept_depths] at h
  | succ k ih =>
    intro i a rest h
    simp only [kept_depths] at h
    cases hk : kept_depths evs k (i + 1) with
    | nil =>
      rw [hk, List.nil_append] at h
      by_cases hact : depth_active evs i = true
      · rw [if_pos hact] at h
        simp only [List.cons.injEq] at h
        obtain ⟨h1, _⟩ := h
        subst h1
        refine ⟨hact, le_refl _, by omega, ?_⟩
        intro d h1 h2
        exact kept_depths_nil evs k (i + 1) hk d (by omega) (by omega)
      · rw [if_neg hact] at h
        cases h
    | cons b r =>
      rw [hk, List.cons_append] at h
      simp only [List.cons.injEq] at h
      obtain ⟨h1, _⟩ := h
      subst h1
      obtain ⟨j1, j2, j3, j4⟩ := ih (i + 1) b r hk
      exact ⟨j1, by omega, by omega, fun d h1 h2 => j4 d h1 (by omega)⟩

theorem var_tables_dtype {d : ndt_t} (hd : is_dtype d) : var_tables d = [] := by
  obtain ⟨_, _, h2, _⟩ := hd
  cases d <;> first
    | rfl
    | exact absurd rfl h2

theorem var_from_offsets_loop_dtype (m : offsets_t) :
    ∀ (k i : Nat) (t0 u : ndt_t), var_from_offsets_loop m k i t0 = .ok u → 0 ≤ t0.ndim →
      0 ≤ u.ndim ∧ (ndt_dims_dtype u).2 = (ndt_dims_dtype t0).2 := by
  intro k
  induction k with
  | zero =>
    intro i t0 u h h0
    simp only [var_from_offsets_loop, Except.ok.injEq] at h
    subst h
    exact ⟨h0, rfl⟩
  | succ k ih =>
    intro i t0 u h h0
    simp only [var_from_offsets_loop] at h
    by_cases ha : m.active.getD i false = true
    · simp only [ha, Bool.not_true, Bool.false_eq_true, ↓reduceIte] at h
      cases ho : m.offsets.getD i none with
      | none => rw [ho] at h; cases h
      | some arr =>
        rw [ho] at h
        dsimp only at h
        cases hv : ndt_var_dim t0 arr [] false with
        | error e => rw [hv] at h; cases h
        | ok t1 =>
          rw [hv] at h
          dsimp only at h
          obtain ⟨⟨hd, isz, ht1, hnd, _, _⟩, _, _, _, _⟩ := ndt_var_dim_node hv
          have h1 : 0 ≤ t1.ndim := by
            rw [ht1]
            show 0 ≤ hd.ndim
            omega
          obtain ⟨j1, j2⟩ := ih (i + 1) t1 u h h1
          refine ⟨j1, ?_⟩
          rw [j2, ht1]
          have hpos : 0 < hd.ndim := by omega
          simp only [ndt_dims_dtype, hpos, ↓reduceIte, gt_iff_lt]
    · have ha2 : m.active.getD i false = false := by simpa using ha
      simp only [ha2, Bool.not_false, ↓reduceIte] at h
      exact ih (i + 1) t0 u h h0

/-- The tables of the contiguous copy of a chain of var dimensions. -/
theorem var_copy_contiguous_tables {t : ndt_t} (ht : var_dims t) (dtype u : ndt_t)
    (idx : Int) (hd : is_dtype dtype) (h : var_copy_contiguous t dtype idx = .ok u) :
    ∃ evs, var_visits t idx = .ok evs ∧
      var_tables u =
        (kept_depths evs t.ndim.toNat 1).map (fun d => running_sum32 (shapes_at evs d)) ∧
      ((u = dtype ∧ kept_depths evs t.ndim.toNat 1 = []) ∨
        (∃ hd type isz offs, u = .VarDim hd type isz (some offs) [] ∧
          hd.access = .Concrete)) ∧
      (var_chain dtype → (∀ tbl ∈ var_tables u, (tbl.length : Int) ≤ INT32_MAX) →
        var_chain u) ∧
      (ndt_dims_dtype u).2 = dtype := by
  unfold var_copy_contiguous at h
  dsimp only at h
  cases h1 : var_copy_shapes false t { offsets_t.init with maxdim := t.ndim } idx with
  | error e => rw [h1] at h; cases h
  | ok m1 =>
    rw [h1] at h
    dsimp only at h
    cases h3 : var_copy_shapes true t
        { var_init_offsets m1 with index := List.replicate 17 0 } idx with
    | error e => rw [h3] at h; cases h
    | ok m3 =>
      rw [h3] at h
      dsimp only at h
      obtain ⟨evs, hev, hmd, hst⟩ := var_copy_passes ht idx m1 m3 h1 h3
      unfold var_from_offsets_and_dtype at h
      rw [hmd] at h
      obtain ⟨j1, j2, j3⟩ := var_from_offsets_loop_tables m3 t.ndim.toNat 1 dtype u h
      have hn := var_dims_ndim ht
      have hk := loop_tables_kept evs m3 t.ndim.toNat 1
        (fun d h1 h2 => hst d h1 (by omega))
      rw [hk, var_tables_dtype hd, List.append_nil] at j1
      have hdt := (var_from_offsets_loop_dtype m3 t.ndim.toNat 1 dtype u h
        (by rw [hd.1])).2
      rw [ndt_dims_dtype_ndim0 dtype hd.1] at hdt
      refine ⟨evs, hev, j1, ?_, j3, hdt⟩
      rcases j2 with ⟨e1, e2⟩ | h2
      · left
        rw [hk] at e2
        exact ⟨e1, List.map_eq_nil_iff.mp e2⟩
      · right; exact h2

/-- C17: a successful `ndt_copy_contiguous_dtype(t, dtype, linear_index)` over
a dtype without dimensions returns a contiguous type over that dtype: for an
array of fixed dimensions a C-contiguous array with the shapes of `t`; for a
chain of var dimensions (`VarDim` or `VarDimElem`, sliced or not) a
var-contiguous type, the number of entries of every offset table being an
`int32_t`; for a type whose tag is no dimension the dtype itself. Both `t`
and `dtype` are concrete. -/
theorem ndt_copy_contiguous_dtype_contiguous (t dtype u : ndt_t) (idx : Int)
    (hd : is_dtype dtype) (h : ndt_copy_contiguous_dtype t dtype idx = .ok u) :
    ndt_is_concrete t = true ∧ ndt_is_concrete dtype = true ∧
    (fixed_dims t → t.tag = .FixedDim →
      ndt_is_c_contiguous u = true ∧ dim_shapes u = dim_shapes t ∧
      (ndt_dims_dtype u).2 = dtype) ∧
    (var_dims t → (t.tag = .VarDim ∨ t.tag = .VarDimElem) →
      (∀ tbl ∈ var_tables u, (tbl.length : Int) ≤ INT32_MAX) →
      ndt_is_var_contiguous u = true ∧ (ndt_dims_dtype u).2 = dtype) ∧
    (t.tag ≠ .FixedDim → t.tag ≠ .VarDim → t.tag ≠ .VarDimElem → u = dtype) := by
  unfold ndt_copy_contiguous_dtype at h
  by_cases hab : ndt_is_abstract t = true ∨ ndt_is_abstract dtype = true
  · rw [if_pos hab] at h; cases h
  rw [if_neg hab] at h
  have htc : t.access = .Concrete := by
    rcases access_cases t.access with h1 | h1
    · exact h1
    · exact absurd (Or.inl (by simp [ndt_is_abstract, h1])) hab
  have hdc : dtype.access = .Concrete := by
    rcases access_cases dtype.access with h1 | h1
    · exact h1
    · exact absurd (Or.inr (by simp [ndt_is_abstract, h1])) hab
  refine ⟨by simp [ndt_is_concrete, htc], by simp [ndt_is_concrete, hdc], ?_, ?_, ?_⟩
  · intro hf htag
    rw [htag] at h
    dsimp only at h
    rw [fixed_copy_eq_fixed_array hf dtype htc] at h
    obtain ⟨k1, k2, k3, _, _, k6⟩ := fixed_array_contig dtype hdc hd _ u h
    obtain ⟨i1, i2, _⟩ := fixed_array_inv dtype hdc hd _ u h
    refine ⟨?_, k2, k3⟩
    have hna : ndt_is_abstract u = false := by simp [ndt_is_abstract, i1]
    have hnd : ndt_is_ndarray u = true := by
      unfold ndt_is_ndarray
      by_cases hs : dim_shapes t = []
      · rw [hs] at i2
        split
        · rfl
        · simpa using i2
      · rw [k6 hs]
    unfold ndt_is_c_contiguous
    rw [hna, hnd]
    simp only [Bool.false_eq_true, ↓reduceIte, Bool.not_true]
    split
    · rfl
    · exact k1
  · intro hv htag hb
    have h2 : var_copy_contiguous t dtype idx = .ok u := by
      rcases htag with h1 | h1 <;> rw [h1] at h <;> exact h
    obtain ⟨evs, hev, j1, j2, j3, j4⟩ := var_copy_contiguous_tables hv dtype u idx hd h2
    refine ⟨?_, j4⟩
    have hch := j3 (var_chain.dtype dtype hd.1) hb
    obtain ⟨hbound, hta⟩ := var_visits_struct hv idx evs hev
    have hn := var_dims_ndim hv
    rcases j2 with ⟨e1, _⟩ | ⟨hdr, type, isz, offs, e1, hacc⟩
    · subst e1
      unfold ndt_is_var_contiguous
      rw [show ndt_is_abstract u = false by simp [ndt_is_abstract, hdc]]
      exact is_var_contiguous_ndim0 u 1 hd.1
    · unfold ndt_is_var_contiguous
      rw [show ndt_is_abstract u = false by rw [e1]; simp [ndt_is_abstract, ndt_t.access,
        ndt_t.hdr, hacc]]
      simp only [Bool.false_eq_true, ↓reduceIte]
      apply var_chain_contiguous hch
      right
      refine ⟨offs, by rw [e1]; rfl, ?_⟩
      rw [e1] at j1
      simp only [var_tables, Option.getD_some] at j1
      cases hk : kept_depths evs t.ndim.toNat 1 with
      | nil => rw [hk] at j1; cases j1
      | cons a rest =>
        rw [hk, List.map_cons] at j1
        simp only [List.cons.injEq] at j1
        obtain ⟨k1, k2, k3, k4⟩ := kept_depths_head evs _ 1 a rest hk
        have hone := hta a k1 (fun d2 h2 => by
          by_cases hlt : d2 < 1 + t.ndim.toNat
          · exact k4 d2 h2 hlt
          · apply depth_active_nil_of_ne
            intro x hx
            have := (hbound x hx).2.1
            omega)
        rw [j1.1, running_sum32_length]
        have : (shapes_at evs a).length = 1 := by
          unfold shapes_at
          rw [List.length_map, hone]
        rw [this]
        rfl
  · intro h1 h2 h3
    split at h
    · rename_i heq; exact absurd heq h1
    · rename_i heq; exact absurd heq h2
    · rename_i heq; exact absurd heq h3
    · cases h; rfl

theorem ex_int64_is_dtype : is_dtype ex_int64 := by
  refine ⟨rfl, ?_, ?_, ?_⟩ <;> decide

theorem ex_float64_is_dtype : is_dtype ex_float64 := by
  refine ⟨rfl, ?_, ?_, ?_⟩ <;> decide

theorem ex_var_sliced_float32_dims : var_dims ex_var_sliced_float32 :=
  var_dims.var _ _ [0, 2] [] false
    (var_dims.var ex_float32 _ [0, 3, 5] [{ start := 0, stop := INT64_MAX, step := 2 }] false
      (var_dims.dtype ex_float32 rfl) rfl) rfl

theorem ndt_copy_contiguous_dtype_contiguous_witness :
    ndt_copy_contiguous_dtype ex_var_sliced_float32 ex_int64 0 = .ok ex_var_sliced_copy ∧
    var_tables ex_var_sliced_copy = [[0, 2], [0, 2, 3]] ∧
    ndt_is_var_contiguous ex_var_sliced_copy = true ∧
    (ndt_dims_dtype ex_var_sliced_copy).2 = ex_int64 :=
  ⟨rfl, by decide,
    (ndt_copy_contiguous_dtype_contiguous ex_var_sliced_float32 ex_int64 ex_var_sliced_copy 0
      ex_int64_is_dtype rfl).2.2.2.1 ex_var_sliced_float32_dims (Or.inl rfl) (by decide)⟩

theorem ex_2_3_copy_contiguous :
    ndt_copy_contiguous_dtype ex_2_3_int64 ex_float64 0 = .ok ex_2_3_copy ∧
    ndt_is_c_contiguous ex_2_3_copy = true ∧ dim_shapes ex_2_3_copy = [2, 3] ∧
    (ndt_dims_dtype ex_2_3_copy).2 = ex_float64 := by
  refine ⟨rfl, by decide, by decide, rfl⟩

/-! ## The offset tables of the contiguous copy -/

theorem running_sum32_eq_aux :
    ∀ (shapes : List Int) (acc : Int), 0 ≤ acc → (∀ s ∈ shapes, 0 ≤ s) →
      acc + shapes.sum ≤ 2147483647 →
      shapes.scanl (fun acc s => wrap_i32 (acc + wrap_i32 s)) acc =
        shapes.scanl (fun acc s => acc + s) acc := by
  intro shapes
  induction shapes with
  | nil => intro acc _ _ _; rfl
  | cons s ss ih =>
    intro acc h0 hs hsum
    have hs0 := hs s (List.mem_cons_self _ _)
    have hss : ∀ x ∈ ss, 0 ≤ x := fun x hx => hs x (List.mem_cons_of_mem _ hx)
    have hnn : 0 ≤ ss.sum := List.sum_nonneg hss
    rw [List.sum_cons] at hsum
    have e1 : wrap_i32 s = s := by
      apply wrap_i32_of_fits <;> omega
    have e2 : wrap_i32 (acc + s) = acc + s := by
      apply wrap_i32_of_fits <;> omega
    simp only [List.scanl_cons]
    rw [e1, e2, ih (acc + s) (by omega) hss (by omega)]

theorem running_sum32_eq (shapes : List Int) (hs : ∀ s ∈ shapes, 0 ≤ s)
    (hsum : shapes.sum ≤ INT32_MAX) : running_sum32 shapes = running_sum shapes := by
  unfold running_sum32 running_sum
  unfold INT32_MAX at hsum
  exact running_sum32_eq_aux shapes 0 (le_refl 0) hs (by omega)

theorem running_sum32_head (shapes : List Int) : (running_sum32 shapes).head? = some 0 := by
  unfold running_sum32
  cases shapes <;> simp [List.scanl]

/-- The visits of the example: the outer list of 2 items at depth 2, then the
inner lists at depth 1 with the logical shapes 2 (`[0, 3)` under `[::2]`) and
1 (`[3, 5)` under `[::2]`); the tables of the copy are `[0, 2]` and
`[0, 2, 3]`. -/
theorem ex_var_sliced_visits :
    var_visits ex_var_sliced_float32 0 =
      .ok [{ depth := 2, active := true, shape := 2 },
           { depth := 1, active := true, shape := 2 },
           { depth := 1, active := true, shape := 1 }] ∧
    var_tables ex_var_sliced_copy = [[0, 2], [0, 2, 3]] := by
  constructor <;> decide

/-! ## Inner types of the dimension constructors -/

/-- C21: `ndt_fixed_dim` and `ndt_symbolic_dim` fail with `TypeError` for an
inner type with tag `VarDim`, `VarDimElem` or `Array`, whatever the other
arguments; `ndt_abstract_var_dim` and `ndt_var_dim` fail with `TypeError` for
an inner type with tag `FixedDim`, `SymbolicDim` or `Array`. -/
theorem dim_constructors_reject_inner (type : ndt_t) :
    ((type.tag = .VarDim ∨ type.tag = .VarDimElem ∨ type.tag = .Array) →
      (∀ shape step, ndt_fixed_dim type shape step = .error .TypeError) ∧
      (∀ name, ndt_symbolic_dim name type = .error .TypeError)) ∧
    ((type.tag = .FixedDim ∨ type.tag = .SymbolicDim ∨ type.tag = .Array) →
      (∀ opt, ndt_abstract_var_dim type opt = .error .TypeError) ∧
      (∀ offsets slices opt, ndt_var_dim type offsets slices opt = .error .TypeError)) := by
  constructor
  · intro h
    have hm : type.tag ≠ .Module := by
      rcases h with h | h | h <;> rw [h] <;> decide
    have hc : check_fixed_invariants type = .error .TypeError := by
      unfold check_fixed_invariants
      rw [if_neg hm, if_pos h]
    constructor
    · intro shape step
      unfold ndt_fixed_dim
      rw [hc]
    · intro name
      unfold ndt_symbolic_dim
      rw [hc]
  · intro h
    have hm : type.tag ≠ .Module := by
      rcases h with h | h | h <;> rw [h] <;> decide
    constructor
    · intro opt
      have hc : check_abstract_var_invariants type = .error .TypeError := by
        unfold check_abstract_var_invariants
        rw [if_neg hm, if_pos h]
      unfold ndt_abstract_var_dim
      rw [hc]
    · intro offsets slices opt
      have hc : check_var_invariants type = .error .TypeError := by
        unfold check_var_invariants
        rw [if_neg hm, if_pos h]
      unfold ndt_var_dim
      rw [hc]

theorem dim_constructors_reject_inner_witness :
    ndt_fixed_dim ex_var 3 INT64_MAX = .error .TypeError ∧
    ndt_symbolic_dim "N" ex_var = .error .TypeError ∧
    ndt_abstract_var_dim ex_3_4_float64 false = .error .TypeError ∧
    ndt_var_dim ex_3_4_float64 [0, 2] [] false = .error .TypeError :=
  ⟨((dim_constructors_reject_inner ex_var).1 (Or.inl rfl)).1 3 INT64_MAX,
   ((dim_constructors_reject_inner ex_var).1 (Or.inl rfl)).2 "N",
   ((dim_constructors_reject_inner ex_3_4_float64).2 (Or.inl rfl)).1 false,
   ((dim_constructors_reject_inner ex_3_4_float64).2 (Or.inl rfl)).2 [0, 2] [] false⟩

/-! ## Invariants of whole terms that a constructor does not enforce -/

/-- The primitive `int64` and the var dimension `ex_var` are built by the
constructors. -/
theorem ex_int64_constructed (reg : ndt_registry) : constructed reg ex_int64 :=
  constructed.primitive .Int64 {} ex_int64 rfl

theorem ex_var_constructed (reg : ndt_registry) : constructed reg ex_var :=
  constructed.var_dim ex_int64 [0, 2] [] false ex_var (ex_int64_constructed reg) rfl

/-- C22: the check of `ndt_abstract_var_dim` for "mixing abstract and concrete
var dimensions" looks at the direct inner type only. Over the ellipsis of
`... * var * int64`, whose var dimension is concrete, it succeeds: the chain
of the result is an abstract `VarDim`, the `EllipsisDim` and the concrete
`VarDim`. -/
theorem ndt_abstract_var_dim_mixed_chain :
    ndt_var_dim ex_int64 [0, 2] [] false = .ok ex_var ∧
    ndt_ellipsis_dim none ex_var = .ok ex_ellipsis_var ∧
    ∃ u, ndt_abstract_var_dim ex_ellipsis_var false = .ok u ∧
      (∀ reg, constructed reg u) ∧
      (ndt_dims_dtype u).1.map (fun d => (d.tag, d.access)) =
        [(.VarDim, .Abstract), (.EllipsisDim, .Abstract), (.VarDim, .Concrete)] ∧
      (ndt_dims_dtype u).2 = ex_int64 := by
  refine ⟨rfl, rfl, _, rfl, ?_, by decide, rfl⟩
  intro reg
  exact constructed.abstract_var_dim ex_ellipsis_var false _
    (constructed.ellipsis_dim none ex_var _ (ex_var_constructed reg) rfl) rfl

/-- C23: `ndt_array` accepts an ellipsis dimension as its inner type and passes
on the flags of `ndt_subtree_flags`, which leave out `NDT_ELLIPSIS`; the test
of `ndt_ellipsis_dim` for "more than one ellipsis" reads that flag. So
`... * array * ... * int64` is built, with two ellipsis dimensions in one
chain. -/
theorem ndt_ellipsis_dim_twice_through_array :
    ndt_ellipsis_dim none ex_int64 = .ok ex_ellipsis_int64 ∧
    ndt_array ex_ellipsis_int64 false = .ok ex_array_ellipsis ∧
    ex_ellipsis_int64.flags.ELLIPSIS = true ∧ ex_array_ellipsis.flags.ELLIPSIS = false ∧
    ∃ u, ndt_ellipsis_dim none ex_array_ellipsis = .ok u ∧
      (∀ reg, constructed reg u) ∧ u.ndim = 3 ∧
      (ndt_dims_dtype u).1.map ndt_t.tag = [.EllipsisDim, .Array, .EllipsisDim] ∧
      (ndt_dims_dtype u).2 = ex_int64 := by
  refine ⟨rfl, rfl, by decide, by decide, _, rfl, ?_, by decide, by decide, rfl⟩
  intro reg
  exact constructed.ellipsis_dim none ex_array_ellipsis _
    (constructed.array ex_ellipsis_int64 false _
      (constructed.ellipsis_dim none ex_int64 _ (ex_int64_constructed reg) rfl) rfl) rfl

/-- C24: `ndt_module` and `ndt_function` do not call `check_type_invariants`
(or any other check of the tag `Module`) on the types they are given: a module
around the module `ex_module` and a signature with `ex_module` as its argument
are built, while `ndt_ref` rejects the same child with `TypeError`. -/
theorem ndt_module_nested :
    ndt_module "n" ex_int64 = .ok ex_module ∧ ex_module.tag = .Module ∧
    (∃ h, ndt_module "m" ex_module = .ok (.Module h "m" ex_module) ∧
      ∀ reg, constructed reg (.Module h "m" ex_module)) ∧
    (∃ h e, ndt_function [ex_module] 1 0 = .ok (.Function h 1 0 e [ex_module]) ∧
      ∀ reg, constructed reg (.Function h 1 0 e [ex_module])) ∧
    ndt_ref ex_module false = .error .TypeError := by
  have hm : ∀ reg, constructed reg ex_module := fun reg =>
    constructed.module "n" ex_int64 _ (ex_int64_constructed reg) rfl
  refine ⟨rfl, by decide, ⟨_, rfl, ?_⟩, ⟨_, _, rfl, ?_⟩, rfl⟩
  · intro reg
    exact constructed.module "m" ex_module _ (hm reg) rfl
  · intro reg
    refine constructed.function [ex_module] 1 0 _ ?_ rfl
    intro u hu
    rw [List.mem_singleton] at hu
    rw [hu]
    exact hm reg

/-! ## Members of a union -/

theorem init_concrete_tags_loop_ref :
    ∀ (fields : List ndt_field_t) (maxsize : Int),
      (∃ f ∈ fields, f.type.flags.REF = true) →
      init_concrete_tags_loop fields maxsize = .error .ValueError := by
  intro fields
  induction fields with
  | nil => intro _ ⟨f, hf, _⟩; cases hf
  | cons g gs ih =>
    intro maxsize ⟨f, hf, hr⟩
    unfold init_concrete_tags_loop
    by_cases hg : g.type.flags.REF = true
    · rw [if_pos hg]
    · rw [if_neg hg]
      rcases List.mem_cons.mp hf with h | h
      · rw [h] at hr; exact absurd hr hg
      · exact ih _ ⟨f, h, hr⟩

theorem fields_access_of_concrete (fields : List ndt_field_t)
    (hacc : ∀ f ∈ fields, f.access = .Concrete) :
    fields_access .Concrete fields = .Concrete := by
  unfold fields_access
  have h : fields.any (fun f => f.access == .Abstract) = false := by
    rw [List.any_eq_false]
    intro f hf
    rw [hacc f hf]
    decide
  rw [h]
  rfl

/-- C26: for every list of concrete member fields whose types pass the type
invariants, `ndt_union` fails with `ValueError` whenever some member type has
the contains-reference flag `NDT_REF` set. The test is the one of
`init_concrete_tags`, which runs for a concrete union only; a union with an
abstract member is built without it, see
`ndt_union_abstract_reference_member`. -/
theorem ndt_union_reference_member (fields : List ndt_field_t) (opt : Bool)
    (hacc : ∀ f ∈ fields, f.access = .Concrete)
    (hinv : check_fields_invariants fields = .ok ())
    (href : ∃ f ∈ fields, f.type.flags.REF = true) :
    ndt_union (some fields) fields.length opt = .error .ValueError := by
  rw [ndt_union_eq_list]
  unfold ndt_union_list
  by_cases h0 : fields.length = 0
  · rw [if_pos h0]
  rw [if_neg h0]
  by_cases h1 : fields.length > 255
  · rw [if_pos h1]
  rw [if_neg h1, hinv]
  have ha : ¬ (fields_access .Concrete fields = .Abstract) := by
    rw [fields_access_of_concrete fields hacc]
    decide
  simp only []
  rw [if_neg ha, init_concrete_tags_loop_ref fields 0 href]

theorem ndt_union_reference_member_witness :
    ndt_union (some ex_ref_int64_fields) ex_ref_int64_fields.length false =
      .error .ValueError :=
  ndt_union_reference_member ex_ref_int64_fields false (by decide) rfl (by decide)

/-- C26, an abstract union: the union of `a: ref(int64)` and `b: T`, with
fields as `ndt_field` builds them, has a member that is a reference, and
`ndt_union` builds it: the abstract branch has no test for references. -/
theorem ndt_union_abstract_reference_member :
    ndt_ref ex_int64 false = .ok ex_ref_int64 ∧ ex_ref_int64.tag = .Ref ∧
    ex_ref_int64.flags.REF = true ∧
    ndt_field (some "a") ex_ref_int64 none none none =
      .ok (plain_field (some "a") ex_ref_int64 none) ∧
    ndt_field (some "b") ex_typevar_T none none none =
      .ok (abstract_field (some "b") ex_typevar_T) ∧
    ∃ h, ndt_union (some ex_ref_T_fields) 2 false =
        .ok (.Union h 2 ["a", "b"] [ex_ref_int64, ex_typevar_T]) ∧
      h.access = .Abstract ∧ h.flags.REF = true := by
  refine ⟨rfl, by decide, by decide, rfl, rfl, _, rfl, by decide, by decide⟩

theorem fields_names_length :
    ∀ (fields : List ndt_field_t) (names : List String),
      fields_names fields = .ok names → names.length = fields.length := by
  intro fields
  induction fields with
  | nil =>
    intro names h
    unfold fields_names at h
    simp only [Except.ok.injEq] at h
    rw [← h]
    rfl
  | cons f fs ih =>
    intro names h
    unfold fields_names at h
    cases hn : f.name with
    | none => rw [hn] at h; cases h
    | some n =>
      rw [hn] at h
      cases hr : fields_names fs with
      | error e => rw [hr] at h; cases h
      | ok ss =>
        rw [hr] at h
        simp only [Except.ok.injEq] at h
        rw [← h, List.length_cons, List.length_cons, ih ss hr]

theorem union_node_count {fields : List ndt_field_t} {ntags : Int} {opt : Bool} {u : ndt_t}
    (h : union_node fields ntags opt = .ok u) :
    ∃ h tags, u = .Union h ntags tags (fields.map (fun f => f.type)) ∧
      tags.length = fields.length := by
  unfold union_node at h
  cases hc : check_fields_invariants fields with
  | error e => rw [hc] at h; cases h
  | ok v =>
    rw [hc] at h
    simp only at h
    by_cases hm : (MULi64 2 (MULi64 ntags sizeof_ptr false).1
        (MULi64 ntags sizeof_ptr false).2).2 = true
    · rw [if_pos hm] at h; cases h
    rw [if_neg hm] at h
    by_cases ha : fields_access .Concrete fields = .Abstract
    · rw [if_pos ha] at h
      by_cases he : has_explicit_align fields = true
      · rw [if_pos he] at h; cases h
      rw [if_neg he] at h
      cases hn : fields_names fields with
      | error e => rw [hn] at h; cases h
      | ok names =>
        rw [hn] at h
        simp only [Except.ok.injEq] at h
        exact ⟨_, names, h.symm, fields_names_length fields names hn⟩
    · rw [if_neg ha] at h
      cases hi : init_concrete_tags_loop fields 0 with
      | error e => rw [hi] at h; cases h
      | ok maxsize =>
        rw [hi] at h
        cases hn : fields_names fields with
        | error e => rw [hn] at h; cases h
        | ok names =>
          rw [hn] at h
          simp only [Except.ok.injEq] at h
          exact ⟨_, names, h.symm, fields_names_length fields names hn⟩

theorem ndt_union_list_node {fields : List ndt_field_t} {opt : Bool} {u : ndt_t}
    (h : ndt_union (some fields) fields.length opt = .ok u) :
    ∃ h tags, u = .Union h fields.length tags (fields.map (fun f => f.type)) ∧
      tags.length = fields.length := by
  unfold ndt_union at h
  simp only [] at h
  by_cases h0 : (fields.length : Int) = 0
  · rw [if_pos h0] at h; cases h
  rw [if_neg h0] at h
  by_cases h1 : (fields.length : Int) > 255
  · rw [if_pos h1] at h; cases h
  rw [if_neg h1, if_neg (lt_irrefl _), Int.toNat_ofNat, List.take_length] at h
  exact union_node_count h

/-- C27: a call of `ndt_union` with `fields == NULL`, with the count 0 or with
a count above 255 fails with `ValueError`. Every union that `ndt_union` returns
stores the count `ntags` of the call, which is not 0 and at most 255, together
with the tags and types of the entries `fields[0]`, ..., `fields[ntags-1]`; for
a positive count these are `ntags` members, between 1 and 255. A negative count
passes both tests: the union that is returned then stores that count and no
member. -/
theorem ndt_union_member_count (fields : Option (List ndt_field_t)) (ntags : Int)
    (opt : Bool) :
    ((fields = none ∨ ntags = 0 ∨ 255 < ntags) →
      ndt_union fields ntags opt = .error .ValueError) ∧
    (∀ u, ndt_union fields ntags opt = .ok u →
      ∃ arr h tags, fields = some arr ∧
        u = .Union h ntags tags ((arr.take ntags.toNat).map (fun f => f.type)) ∧
        tags.length = ntags.toNat ∧ ntags ≠ 0 ∧ ntags ≤ 255 ∧
        (0 < ntags → 1 ≤ tags.length ∧ tags.length ≤ 255) ∧
        (ntags < 0 → tags = [])) := by
  constructor
  · intro h
    unfold ndt_union
    cases fields with
    | none => rfl
    | some arr =>
      simp only []
      by_cases h0 : ntags = 0
      · rw [if_pos h0]
      · rw [if_neg h0]
        have h1 : ntags > 255 := by
          rcases h with h | h | h
          · cases h
          · exact absurd h h0
          · exact h
        rw [if_pos h1]
  · intro u h
    unfold ndt_union at h
    cases fields with
    | none => cases h
    | some arr =>
      simp only [] at h
      by_cases h0 : ntags = 0
      · rw [if_pos h0] at h; cases h
      rw [if_neg h0] at h
      by_cases h1 : ntags > 255
      · rw [if_pos h1] at h; cases h
      rw [if_neg h1] at h
      by_cases h2 : (arr.length : Int) < ntags
      · rw [if_pos h2] at h; cases h
      rw [if_neg h2] at h
      obtain ⟨hd, tags, hu, hl⟩ := union_node_count h
      have hlen : tags.length = ntags.toNat := by
        rw [hl, List.length_take]
        omega
      refine ⟨arr, hd, tags, rfl, hu, hlen, h0, by omega, ?_, ?_⟩
      · intro hp
        omega
      · intro hn
        apply List.eq_nil_of_length_eq_zero
        omega

theorem ndt_union_member_count_witness :
    ndt_union (some []) 0 false = .error .ValueError ∧
    ndt_union none 2 false = .error .ValueError ∧
    ∃ arr h tags, some ex_record_fields = some arr ∧
      ex_union = .Union h 2 tags ((arr.take (2 : Int).toNat).map (fun f => f.type)) ∧
      tags.length = (2 : Int).toNat ∧ (2 : Int) ≠ 0 ∧ (2 : Int) ≤ 255 ∧
      ((0 : Int) < 2 → 1 ≤ tags.length ∧ tags.length ≤ 255) ∧
      ((2 : Int) < 0 → tags = []) :=
  ⟨(ndt_union_member_count (some []) 0 false).1 (Or.inr (Or.inl rfl)),
   (ndt_union_member_count none 2 false).1 (Or.inl rfl),
   (ndt_union_member_count (some ex_record_fields) 2 false).2 ex_union rfl⟩

/-- C27, the count -1: `ndt_union(fields, -1, false)` over the array of the
fields `a: int32` and `b: float64` passes the tests `ntags == 0` and
`ntags > 255`, runs no loop and returns a concrete `Union` that stores the
count -1 and no member, with `align = 1` and `datasize = 1`. -/
theorem ndt_union_negative_ntags :
    ndt_union (some ex_record_fields) (-1) false =
      .ok (.Union { access := .Concrete, flags := {}, ndim := 0, datasize := 1, align := 1 }
        (-1) [] []) := by
  rfl

/-! ## Ellipsis dimensions of a signature -/

theorem strcmp_null_iff (s t : Option String) : strcmp_null s t = true ↔ s = t := by
  cases s <;> cases t <;> simp [strcmp_null]

/-- C28 (as amended): `check_function_invariants` reads the outermost node of
every argument only. For every list of argument types, `ndt_function` fails
with `ValueError` whenever two of the arguments are ellipsis dimensions
(outermost tag `EllipsisDim`) with different names, or one named and one
unnamed. -/
theorem ndt_function_outer_ellipsis_names (types : List ndt_t) (nin nout : Int)
    (a b : ndt_t) (ha : a ∈ types) (hb : b ∈ types)
    (hta : a.tag = .EllipsisDim) (_ : b.tag = .EllipsisDim)
    (hne : strcmp_null (ellipsis_name a) (ellipsis_name b) = false) :
    ndt_function types nin nout = .error .ValueError := by
  have hc : check_function_invariants types nin = .error .ValueError := by
    unfold check_function_invariants
    cases types with
    | nil => cases ha
    | cons t0 rest =>
      simp only []
      by_cases h0 : nin = 0 ∧ (t0 :: rest).any ndt_is_abstract = true
      · rw [if_pos h0]
      rw [if_neg h0]
      have hmem : a ∈ (t0 :: rest).filter (fun t => t.tag == .EllipsisDim) := by
        rw [List.mem_filter]
        exact ⟨ha, by rw [hta]; decide⟩
      have hcount : ((t0 :: rest).filter (fun t => t.tag == .EllipsisDim)).length ≠ 0 := by
        intro hz
        rw [List.length_eq_zero] at hz
        rw [hz] at hmem
        cases hmem
      rw [if_neg hcount]
      by_cases hl : ((t0 :: rest).filter (fun t => t.tag == .EllipsisDim)).length ≠
          (t0 :: rest).length
      · rw [if_pos hl]
      rw [if_neg hl]
      by_cases hall : rest.all
          (fun t => strcmp_null (ellipsis_name t0) (ellipsis_name t)) = true
      · exfalso
        have key : ∀ x ∈ t0 :: rest, ellipsis_name t0 = ellipsis_name x := by
          intro x hx
          rcases List.mem_cons.mp hx with h | h
          · rw [h]
          · exact (strcmp_null_iff _ _).mp (List.all_eq_true.mp hall x h)
        have e : ellipsis_name a = ellipsis_name b := (key a ha).symm.trans (key b hb)
        rw [e, (strcmp_null_iff _ _).mpr rfl] at hne
        cases hne
      · rw [if_neg hall]
  unfold ndt_function
  rw [hc]

theorem ndt_function_outer_ellipsis_names_witness :
    ndt_function [ex_named_ellipsis "A", ex_named_ellipsis "B"] 1 1 = .error .ValueError :=
  ndt_function_outer_ellipsis_names [ex_named_ellipsis "A", ex_named_ellipsis "B"] 1 1
    (ex_named_ellipsis "A") (ex_named_ellipsis "B") (by simp) (by simp) rfl rfl (by decide)

/-- Two ellipsis dimensions with different names inside fixed dimensions go
unnoticed: the signature `2 * ...A * int64 -> 2 * ...B * int64` is built. -/
theorem ndt_function_inner_ellipsis_names :
    (ndt_dims_dtype (ex_fixed_ellipsis "A")).1.map (fun d => (d.tag, ellipsis_name d)) =
      [(.FixedDim, none), (.EllipsisDim, some "A")] ∧
    (ndt_dims_dtype (ex_fixed_ellipsis "B")).1.map (fun d => (d.tag, ellipsis_name d)) =
      [(.FixedDim, none), (.EllipsisDim, some "B")] ∧
    ∃ h e, ndt_function [ex_fixed_ellipsis "A", ex_fixed_ellipsis "B"] 1 1 =
      .ok (.Function h 1 1 e [ex_fixed_ellipsis "A", ex_fixed_ellipsis "B"]) := by
  refine ⟨by decide, by decide, _, _, rfl⟩

/-! ## A fixed dimension of shape `INT64_MAX` -/

theorem fixed_step_not_fixed {type : ndt_t} (h : type.tag ≠ .FixedDim) (ov : Bool) :
    fixed_step type INT64_MAX ov = (1, ov) := by
  unfold fixed_step
  rw [if_neg (by simp)]
  cases type <;> first
    | rfl
    | exact absurd rfl h

theorem ndt_itemsize_not_dim {type : ndt_t} (h1 : type.tag ≠ .FixedDim)
    (h2 : type.tag ≠ .VarDim) (h3 : type.tag ≠ .VarDimElem) :
    ndt_itemsize type = type.datasize := by
  cases type <;> first
    | rfl
    | exact absurd rfl h1
    | exact absurd rfl h2
    | exact absurd rfl h3

theorem check_fixed_invariants_tag {type : ndt_t} (h : check_fixed_invariants type = .ok ()) :
    type.tag ≠ .VarDim ∧ type.tag ≠ .VarDimElem ∧ type.tag ≠ .Array := by
  unfold check_fixed_invariants at h
  by_cases hm : type.tag = .Module
  · rw [if_pos hm] at h; cases h
  rw [if_neg hm] at h
  by_cases hv : type.tag = .VarDim ∨ type.tag = .VarDimElem ∨ type.tag = .Array
  · rw [if_pos hv] at h; cases h
  exact ⟨fun x => hv (Or.inl x), fun x => hv (Or.inr (Or.inl x)),
    fun x => hv (Or.inr (Or.inr x))⟩

/-- The overflow flag of `fixed_datasize` for the shape `INT64_MAX` and the
step 1 over an element of `d` bytes. -/
theorem max_shape_overflow (d : Int) (h : 2 ≤ d) :
    fits_i64 (wrap_i64 ((INT64_MAX - 1) * 1) * d) = false := by
  unfold fits_i64 wrap_i64 INT64_MAX INT64_MIN
  simp only [Bool.and_eq_false_imp, decide_eq_true_eq, decide_eq_false_iff_not]
  intro _
  omega

theorem fixed_datasize_max_shape (type : ndt_t) (h : 2 ≤ type.datasize) :
    (fixed_datasize type INT64_MAX 1 type.datasize false).2 = true := by
  unfold fixed_datasize
  have hz : ¬ (INT64_MAX = 0 ∨ type.datasize = 0) := by
    unfold INT64_MAX
    omega
  rw [if_neg hz]
  simp only [ABSi64, MULi64, ADDi64]
  rw [if_neg (by decide)]
  simp only [show ((0 : Int) ≤ 1) = True from by simp, if_true]
  rw [max_shape_overflow _ h]
  simp

theorem fixed_datasize_max_shape_one (type : ndt_t) (h : type.datasize = 1) :
    fixed_datasize type INT64_MAX 1 type.datasize false = (INT64_MAX, false) := by
  unfold fixed_datasize
  rw [h]
  decide

/-- The array `9223372036854775807 * int8` is built: its data size is
`(INT64_MAX - 1) * 1 * 1 + 1 = INT64_MAX`, without overflow. -/
theorem ndt_fixed_dim_max_shape_int8 :
    ndt_primitive .Int8 {} = .ok ex_int8 ∧ check_fixed_invariants ex_int8 = .ok () ∧
    ∃ u, ndt_fixed_dim ex_int8 INT64_MAX INT64_MAX = .ok u ∧
      fixed_shape u = INT64_MAX ∧ u.access = .Concrete ∧ u.datasize = INT64_MAX := by
  refine ⟨rfl, rfl, _, rfl, rfl, rfl, by decide⟩

/-! ## The values of a categorical type -/

theorem ndt_value_le_total (x y : ndt_value_t) :
    ndt_value_le x y = true ∨ ndt_value_le y x = true := by
  cases x <;> cases y <;>
    simp only [ndt_value_le, ndt_value_t.tag_index, decide_eq_true_eq, Bool.or_eq_true,
      Bool.not_eq_true', le_refl, Nat.zero_le, or_true, true_or, Nat.le_succ] <;>
    first
      | omega
      | exact le_total _ _
      | (rename_i a b; cases a <;> cases b <;> simp)

theorem ndt_value_le_trans (x y z : ndt_value_t) (h1 : ndt_value_le x y = true)
    (h2 : ndt_value_le y z = true) : ndt_value_le x z = true := by
  cases x <;> cases y <;> cases z <;>
    simp only [ndt_value_le, ndt_value_t.tag_index, decide_eq_true_eq, Bool.or_eq_true,
      Bool.not_eq_true'] at h1 h2 ⊢ <;>
    first
      | omega
      | exact le_trans h1 h2
      | (rename_i a b c; cases a <;> cases b <;> cases c <;> simp at h1 h2 ⊢)

theorem ndt_value_le_antisymm (x y : ndt_value_t) (h1 : ndt_value_le x y = true)
    (h2 : ndt_value_le y x = true) : x = y := by
  cases x <;> cases y <;>
    simp only [ndt_value_le, ndt_value_t.tag_index, decide_eq_true_eq, Bool.or_eq_true,
      Bool.not_eq_true'] at h1 h2 <;>
    first
      | rfl
      | omega
      | exact congrArg _ (le_antisymm h1 h2)
      | (rename_i a b; cases a <;> cases b <;> simp at h1 h2 ⊢)

theorem sorted_nodup_of_no_adjacent :
    ∀ (l : List ndt_value_t), ndt_value_sorted l → has_adjacent_equal l = false → l.Nodup := by
  intro l
  induction l with
  | nil => intro _ _; exact List.nodup_nil
  | cons x rest ih =>
    intro hs ha
    unfold ndt_value_sorted at hs
    rw [List.sorted_cons] at hs
    obtain ⟨hx, hrest⟩ := hs
    cases rest with
    | nil => exact List.nodup_singleton x
    | cons y more =>
      unfold has_adjacent_equal at ha
      rw [Bool.or_eq_false_iff] at ha
      obtain ⟨hxy, hmore⟩ := ha
      have hne : x ≠ y := by
        unfold ndt_value_mem_equal at hxy
        simpa using hxy
      rw [List.nodup_cons]
      refine ⟨?_, ih hrest hmore⟩
      intro hmem
      have hxy2 : ndt_value_le x y = true := hx y (List.mem_cons_self _ _)
      have hyx : ndt_value_le y x = true := by
        rcases List.mem_cons.mp hmem with h | h
        · exact absurd h hne
        · exact (List.sorted_cons.mp hrest).1 x h
      exact hne (ndt_value_le_antisymm x y hxy2 hyx)

theorem insertionSort_sorted (l : List ndt_value_t) :
    ndt_value_sorted (l.insertionSort (fun x y => ndt_value_le x y = true)) := by
  unfold ndt_value_sorted
  have i1 : IsTotal ndt_value_t (fun x y => ndt_value_le x y = true) :=
    ⟨ndt_value_le_total⟩
  have i2 : IsTrans ndt_value_t (fun x y => ndt_value_le x y = true) :=
    ⟨ndt_value_le_trans⟩
  exact List.sorted_insertionSort _ l

/-- C30 (as amended): every `Categorical` that `ndt_categorical` returns holds
the value list as it was given, which is free of duplicates; the list need not
be sorted, only the temporary copy that is searched for duplicates is. A value
list with two equal entries is rejected with `ValueError`. -/
theorem ndt_categorical_unique (types : List ndt_value_t) (opt : Bool) :
    (∀ t, ndt_categorical types opt = .ok t →
      (∃ h, t = .Categorical h types) ∧ types.Nodup) ∧
    (¬ types.Nodup → ndt_categorical types opt = .error .ValueError) := by
  have key : has_adjacent_equal
      (types.insertionSort (fun x y => ndt_value_le x y = true)) = false → types.Nodup := by
    intro h
    have hn := sorted_nodup_of_no_adjacent _ (insertionSort_sorted types) h
    exact (List.Perm.nodup_iff (List.perm_insertionSort _ types)).mp hn
  constructor
  · intro t h
    unfold ndt_categorical at h
    simp only [] at h
    by_cases ha : has_adjacent_equal
        (types.insertionSort (fun x y => ndt_value_le x y = true)) = true
    · rw [if_pos ha] at h; cases h
    · rw [if_neg ha] at h
      simp only [Except.ok.injEq] at h
      exact ⟨⟨_, h.symm⟩, key (by simpa using ha)⟩
  · intro hnd
    unfold ndt_categorical
    simp only []
    by_cases ha : has_adjacent_equal
        (types.insertionSort (fun x y => ndt_value_le x y = true)) = true
    · rw [if_pos ha]
    · exact absurd (key (by simpa using ha)) hnd

theorem ndt_categorical_unique_witness :
    ndt_categorical [.ValInt64 1, .ValString "a", .ValInt64 1] false = .error .ValueError :=
  (ndt_categorical_unique [.ValInt64 1, .ValString "a", .ValInt64 1] false).2 (by decide)

/-- The categorical type of the values `2, 1` is built and holds them in that
order, which is not the order of `cmp`. -/
theorem ndt_categorical_unsorted :
    (∃ h, ndt_categorical [.ValInt64 2, .ValInt64 1] false =
      .ok (.Categorical h [.ValInt64 2, .ValInt64 1])) ∧
    ¬ ndt_value_sorted [.ValInt64 2, .ValInt64 1] := by
  refine ⟨⟨_, rfl⟩, ?_⟩
  unfold ndt_value_sorted
  simp [ndt_value_le]

/-! ## References and flexible arrays -/

theorem flags_or_REF (a b : ndt_flags) : (a.or b).REF = (a.REF || b.REF) := rfl

theorem dim_flags_REF (type : ndt_t) : (ndt_dim_flags type).REF = type.flags.REF := by
  unfold ndt_dim_flags
  rw [flags_or_REF]
  simp [ndt_subtree_flags]

theorem subtree_flags_REF (type : ndt_t) : (ndt_subtree_flags type).REF = type.flags.REF := rfl

theorem ndt_ellipsis_dim_node {type t : ndt_t} {name : Option String}
    (h : ndt_ellipsis_dim name type = .ok t) :
    ∃ hd, t = .EllipsisDim hd .RequireNA name type ∧ hd.flags.REF = type.flags.REF := by
  unfold ndt_ellipsis_dim at h
  split at h
  · cases h
  · simp only at h
    split at h
    · cases h
    · cases h
      exact ⟨_, rfl, by simp [flags_or_REF, dim_flags_REF, ndt_new_hdr, NDT_ELLIPSIS]⟩

theorem ndt_nominal_same_refs {reg : ndt_registry} {name : String} {type : Option ndt_t}
    {opt : Bool} {t : ndt_t} (h : ndt_nominal reg name type opt = .ok t) :
    ∃ d ty, reg.ndt_typedef_find name = .ok d ∧ (type = some ty ∨ (type = none ∧ ty = d)) ∧
      same_refs t ty := by
  unfold ndt_nominal at h
  split at h
  · cases h
  · rename_i d hd
    simp only at h
    split at h
    · cases h
    · rename_i ty hty
      cases h
      refine ⟨d, ty, hd, ?_, by simp [ndt_t.flags, ndt_t.hdr, flags_or_REF, subtree_flags_REF,
          ndt_new_hdr, flags_of_opt],
        by simp [contains_ref], by simp [scalars_ref_free], by simp [arrays_ref_free]⟩
      cases type with
      | none =>
        simp only [Except.ok.injEq] at hty
        exact Or.inr ⟨rfl, hty.symm⟩
      | some ty2 =>
        simp only at hty
        split at hty
        · cases hty
        · cases hty
        · cases hty
          exact Or.inl rfl

/-- The reference `ref(int64)` contains a `Ref` and carries the flag, so that
`ndt_array` rejects it; the term `array * ref(int64)`, which no constructor
builds, is the one that the invariant excludes. -/
theorem ex_ref_int64_refs :
    contains_ref ex_ref_int64 = true ∧ ex_ref_int64.flags.REF = true ∧
    ndt_array ex_ref_int64 false = .error .TypeError ∧
    arrays_ref_free ex_array_ref = false := by
  refine ⟨by decide, by decide, rfl, by decide⟩

/-! ## `ndt_var_indices_non_empty` -/

theorem non_empty_loop_eq :
    ∀ (slices : List ndt_slice_t) (r : Int × Int × Int),
      slices_non_empty slices r.2.2 = true →
      var_indices_non_empty_loop slices r = var_indices_loop slices r := by
  intro slices
  induction slices with
  | nil => intro r _; rfl
  | cons sl rest ih =>
    intro r h
    obtain ⟨rs, rstep, rshape⟩ := r
    simp only [slices_non_empty, Bool.and_eq_true, decide_eq_true_eq] at h
    simp only [var_indices_non_empty_loop, var_indices_loop]
    rw [if_pos (by exact h.1)]
    exact ih _ h.2

/-- C38: for every var dimension `t` and index, if no slice of the stack of `t`
yields an empty result when the slices are applied in order to list `index`,
then `ndt_var_indices_non_empty` returns what `ndt_var_indices` returns: the
same start, step and shape, or the same error. -/
theorem ndt_var_indices_non_empty_eq (t : ndt_t) (index : Int)
    (h : slices_non_empty (var_slices t) (var_list_shape t index) = true) :
    ndt_var_indices_non_empty t index = ndt_var_indices t index := by
  unfold ndt_var_indices_non_empty ndt_var_indices
  cases ho : var_offsets t with
  | none => rfl
  | some offsets =>
    dsimp only
    by_cases hi : index < 0 ∨ wrap_i64 (index + 1) ≥ (offsets.length : Int)
    · rw [if_pos hi, if_pos hi]
    · rw [if_neg hi, if_neg hi]
      cases hs : offsets.get? index.toNat with
      | none => rfl
      | some list_start =>
        cases he : offsets.get? (index.toNat + 1) with
        | none => rfl
        | some list_stop =>
          dsimp only
          have hsh : var_list_shape t index = list_stop - list_start := by
            unfold var_list_shape
            rw [ho]
            simp only [Option.getD_some, List.getD_eq_getElem?_getD]
            rw [List.get?_eq_getElem?] at hs he
            rw [hs, he]
            rfl
          rw [hsh] at h
          rw [non_empty_loop_eq (var_slices t) (0, 1, list_stop - list_start) h]

theorem ndt_var_indices_non_empty_eq_witness :
    ndt_var_indices_non_empty ex_sliced_var 1 = ndt_var_indices ex_sliced_var 1 ∧
    ndt_var_indices ex_sliced_var 1 = .ok (8, -2, 3) :=
  ⟨ndt_var_indices_non_empty_eq ex_sliced_var 1 (by decide), by decide⟩

/-- Where a slice of the stack yields an empty result the two functions differ:
the slice `[5:]` of the three items of list 0 of `var * int64` over
`[0, 3, 10]` is empty, `ndt_var_indices` returns the shape 0 and
`ndt_var_indices_non_empty` skips the slice. -/
theorem ndt_var_indices_non_empty_skips :
    ∃ t, ndt_var_dim ex_int64 [0, 3, 10] [{ start := 5, stop := INT64_MAX, step := 1 }] false =
        .ok t ∧
      ndt_var_indices t 0 = .ok (3, 1, 0) ∧
      ndt_var_indices_non_empty t 0 = .ok (0, 1, 3) := by
  refine ⟨_, rfl, by decide, by decide⟩

/-! ## The shape that `ndt_var_indices` returns -/

theorem var_indices_loop_shape :
    ∀ (slices : List ndt_slice_t) (r : Int × Int × Int),
      (∀ sl ∈ slices, sl.step ≠ 0) → 0 ≤ r.2.2 → 0 ≤ (var_indices_loop slices r).2.2 := by
  intro slices
  induction slices with
  | nil => intro r _ h; exact h
  | cons sl rest ih =>
    intro r hk h
    obtain ⟨rs, rstep, rshape⟩ := r
    simp only [var_indices_loop]
    apply ih
    · intro s hs; exact hk s (List.mem_cons_of_mem _ hs)
    · exact (adjust_select rshape sl.start sl.stop sl.step h
        (hk sl (List.mem_cons_self _ _))).1

/-- C39 (as amended): for every `VarDim` returned by `ndt_var_dim` with a table
of at most `INT32_MAX` offsets and a slice stack whose steps are not 0, and for
every index with `0 ≤ index < noffsets - 1` such that
`offsets[index] ≤ offsets[index+1]`, `ndt_var_indices` succeeds and returns a
shape `≥ 0`. -/
theorem ndt_var_indices_shape_nonneg (type t : ndt_t) (offsets : List Int)
    (slices : List ndt_slice_t) (opt : Bool) (index : Int)
    (hb : ndt_var_dim type offsets slices opt = .ok t)
    (hn : (offsets.length : Int) ≤ INT32_MAX)
    (hi0 : 0 ≤ index) (hi1 : index < (offsets.length : Int) - 1)
    (hmono : offsets.getD index.toNat 0 ≤ offsets.getD (index.toNat + 1) 0)
    (hk : ∀ sl ∈ slices, sl.step ≠ 0) :
    ∃ start step shape, ndt_var_indices t index = .ok (start, step, shape) ∧ 0 ≤ shape := by
  obtain ⟨⟨hd, isz, ht, _, _, _⟩, _, _, _, _⟩ := ndt_var_dim_node hb
  subst ht
  have hw : wrap_i64 (index + 1) = index + 1 := by
    unfold INT32_MAX at hn
    apply wrap_i64_small <;> omega
  have h1 : index.toNat < offsets.length := by omega
  have h2 : index.toNat + 1 < offsets.length := by omega
  have hs : offsets.get? index.toNat = some (offsets.getD index.toNat 0) := by
    rw [List.get?_eq_getElem?, List.getD_eq_getElem?_getD, List.getElem?_eq_getElem h1]
    rfl
  have he : offsets.get? (index.toNat + 1) = some (offsets.getD (index.toNat + 1) 0) := by
    rw [List.get?_eq_getElem?, List.getD_eq_getElem?_getD, List.getElem?_eq_getElem h2]
    rfl
  have hsh := var_indices_loop_shape slices
    (0, 1, offsets.getD (index.toNat + 1) 0 - offsets.getD index.toNat 0) hk
    (by dsimp only; omega)
  refine ⟨wrap_i64 ((var_indices_loop slices
      (0, 1, offsets.getD (index.toNat + 1) 0 - offsets.getD index.toNat 0)).1 +
      offsets.getD index.toNat 0),
    (var_indices_loop slices
      (0, 1, offsets.getD (index.toNat + 1) 0 - offsets.getD index.toNat 0)).2.1,
    (var_indices_loop slices
      (0, 1, offsets.getD (index.toNat + 1) 0 - offsets.getD index.toNat 0)).2.2, ?_, hsh⟩
  unfold ndt_var_indices
  simp only [var_offsets, var_slices]
  rw [hw, if_neg (by omega), hs, he]

theorem ndt_var_indices_shape_nonneg_witness :
    ∃ start step shape, ndt_var_indices ex_sliced_var 1 = .ok (start, step, shape) ∧
      0 ≤ shape :=
  ndt_var_indices_shape_nonneg ex_int64 ex_sliced_var [0, 3, 10]
    [{ start := 1, stop := INT64_MAX, step := 2 }, { start := -1, stop := INT64_MIN, step := -1 }]
    false 1 rfl (by decide) (by decide) (by decide) (by decide) (by decide)

/-- The offsets `[1, 0]` are accepted by `ndt_var_dim`, and `ndt_var_indices`
returns for list 0 the shape `0 - 1 = -1` without an error. -/
theorem ndt_var_indices_negative_shape :
    ndt_var_dim ex_int64 [1, 0] [] false = .ok ex_var_unordered ∧
    ex_var_unordered.tag = .VarDim ∧
    ndt_var_indices ex_var_unordered 0 = .ok (1, 1, -1) := by
  refine ⟨rfl, by decide, by decide⟩

/-! ## The attributes `align` and `pack` of a field -/

/-- C40 (as amended): for every concrete field type, `ndt_field` fails with
`ValueError` when the explicit `pack` (given without `align`) is not a power
of two, and when the larger of the explicit `align` (given without `pack`) and
the alignment of the type is not a power of two; this is the case for every
`align` that is not a power of two and exceeds an alignment of the type that is
one. An `align` up to the alignment of the type is accepted whatever its
value, and the field gets the alignment of the type. -/
theorem ndt_field_align_power (name : Option String) (type : ndt_t) (pad : Option Nat)
    (hc : type.access = .Concrete) :
    (∀ p, ispower2 p = false → ndt_field name type none (some p) pad = .error .ValueError) ∧
    (∀ a, ispower2 (max_u16 a type.align) = false →
      ndt_field name type (some a) none pad = .error .ValueError) ∧
    (∀ a, ispower2 a = false → type.align < a →
      ndt_field name type (some a) none pad = .error .ValueError) ∧
    (∀ a, ispower2 type.align = true → a ≤ type.align →
      ∃ f, ndt_field name type (some a) none pad = .ok f ∧ f.align = type.align ∧
        f.explicit_align = true) := by
  have hna : ¬ (type.access = .Abstract) := by rw [hc]; decide
  have key : ∀ a, ispower2 (max_u16 a type.align) = false →
      ndt_field name type (some a) none pad = .error .ValueError := by
    intro a ha
    unfold ndt_field min_field_align
    simp only [if_neg hna, align_ispower2, ha, Bool.not_false, if_true]
  refine ⟨?_, key, ?_, ?_⟩
  · intro p hp
    unfold ndt_field min_field_align
    simp only [if_neg hna, align_ispower2, hp, Bool.not_false, if_true]
  · intro a ha hlt
    apply key
    have : max_u16 a type.align = a := by
      unfold max_u16
      rw [if_pos (by omega)]
    rw [this]
    exact ha
  · intro a hp hle
    have hm : max_u16 a type.align = type.align := by
      unfold max_u16
      by_cases h : a ≥ type.align
      · rw [if_pos h]; omega
      · rw [if_neg h]
    unfold ndt_field min_field_align
    simp only [if_neg hna, align_ispower2, hm, hp, Bool.not_true, Bool.false_eq_true, if_false,
      hc, if_true]
    exact ⟨_, rfl, rfl, rfl⟩

theorem ndt_field_align_power_witness :
    ndt_field (some "a") ex_int64 none (some 3) none = .error .ValueError ∧
    ndt_field (some "a") ex_int64 (some 12) none none = .error .ValueError :=
  ⟨(ndt_field_align_power (some "a") ex_int64 none rfl).1 3 (by decide),
   (ndt_field_align_power (some "a") ex_int64 none rfl).2.2.1 12 (by decide) (by decide)⟩

/-- The explicit `align` 3 of a field of type `int64` is not a power of two,
and `ndt_field` accepts it: the alignment of the field is the larger value 8. -/
theorem ndt_field_align_three :
    ispower2 3 = false ∧ ex_int64.access = .Concrete ∧
    ∃ f, ndt_field (some "a") ex_int64 (some 3) none none = .ok f ∧ f.align = 8 ∧
      f.explicit_align = true := by
  refine ⟨by decide, rfl, _, rfl, rfl, rfl⟩

/-! ## The tag of a shallow copy -/

theorem with_hdr_tag (u : ndt_t) (h : ndt_hdr) : (u.with_hdr h).tag = u.tag := by
  cases u <;> rfl

theorem copy_common_fields_tag {r : Except ndt_error ndt_t} {t u : ndt_t} {tag : ndt}
    (hr : ∀ v, r = .ok v → v.tag = tag) (h : copy_common_fields r t = .ok u) :
    u.tag = tag := by
  unfold copy_common_fields at h
  cases r with
  | error e => cases h
  | ok v =>
    simp only [Except.ok.injEq] at h
    rw [← h, with_hdr_tag]
    exact hr v rfl

theorem ndt_fixed_dim_tag_tag {type v : ndt_t} {tag : ndt_contig} {shape step : Int}
    (h : ndt_fixed_dim_tag type tag shape step = .ok v) : v.tag = .FixedDim := by
  unfold ndt_fixed_dim_tag at h
  split at h
  · cases h; rfl
  · obtain ⟨_, hd, isz, st, ht⟩ := ndt_fixed_dim_node h
    rw [ht]; rfl

theorem ndt_symbolic_dim_tag_tag {type v : ndt_t} {name : String} {tag : ndt_contig}
    (h : ndt_symbolic_dim_tag name type tag = .ok v) : v.tag = .SymbolicDim := by
  unfold ndt_symbolic_dim_tag at h
  split at h
  · cases h; rfl
  · obtain ⟨hd, ht, _⟩ := ndt_symbolic_dim_node h
    rw [ht]; rfl

theorem ndt_ellipsis_dim_tag_tag {type v : ndt_t} {name : Option String} {tag : ndt_contig}
    (h : ndt_ellipsis_dim_tag name type tag = .ok v) : v.tag = .EllipsisDim := by
  unfold ndt_ellipsis_dim_tag at h
  split at h
  · cases h; rfl
  · obtain ⟨hd, ht, _⟩ := ndt_ellipsis_dim_node h
    rw [ht]; rfl

theorem ndt_abstract_var_dim_tag {type v : ndt_t} {opt : Bool}
    (h : ndt_abstract_var_dim type opt = .ok v) : v.tag = .VarDim := by
  unfold ndt_abstract_var_dim at h
  split at h
  · cases h
  · cases h; rfl

theorem ndt_copy_var_dim_tag {t v : ndt_t} {opt : Bool}
    (h : ndt_copy_var_dim t opt = .ok v) : v.tag = .VarDim := by
  unfold ndt_copy_var_dim at h
  split at h
  · cases h
  · split at h
    · exact ndt_abstract_var_dim_tag h
    · split at h
      · cases h
      · obtain ⟨⟨hd, isz, ht, _, _, _⟩, _, _, _, _⟩ := ndt_var_dim_node h
        rw [ht]; rfl

/-- C34: a successful `ndt_copy` keeps the tag of every term except a
`VarDimElem`, whose copy is built by `ndt_copy_var_dim` and has the tag
`VarDim`; and no `Union` is copied (`t` is not a `Union` when the copy
succeeds): `ndt_copy_union` allocates with `ndt_new`,
the member count in the place of the tag, and stores through the uninitialised
array of tag names. -/
theorem ndt_copy_tag (reg : ndt_registry) (t u : ndt_t) (h : ndt_copy reg t = .ok u) :
    is_union t = false ∧
    (is_var_dim_elem t = true → t.tag = .VarDimElem ∧ u.tag = .VarDim) ∧
    (is_var_dim_elem t = false → u.tag = t.tag) := by
  cases t with
  | FixedDim hd c shape type isz st =>
    refine ⟨rfl, (fun hx => by cases hx), fun _ => ?_⟩
    exact copy_common_fields_tag (fun v hv => ndt_fixed_dim_tag_tag hv) h
  | VarDim hd type isz offs sl =>
    refine ⟨rfl, (fun hx => by cases hx), fun _ => ?_⟩
    exact copy_common_fields_tag (fun v hv => ndt_copy_var_dim_tag hv) h
  | VarDimElem hd type idx isz offs sl =>
    refine ⟨rfl, fun _ => ⟨rfl, ?_⟩, (fun hx => by cases hx)⟩
    simp only [ndt_copy] at h
    split at h
    · cases h
    · rename_i v hv
      exact copy_common_fields_tag
        (fun w hw => by cases hw; exact ndt_copy_var_dim_tag hv) h
  | SymbolicDim hd c name type =>
    refine ⟨rfl, (fun hx => by cases hx), fun _ => ?_⟩
    exact copy_common_fields_tag (fun v hv => ndt_symbolic_dim_tag_tag hv) h
  | EllipsisDim hd c name type =>
    refine ⟨rfl, (fun hx => by cases hx), fun _ => ?_⟩
    cases name with
    | none =>
      exact copy_common_fields_tag (fun v hv => ndt_ellipsis_dim_tag_tag hv) h
    | some n => cases h
  | Array hd isz type =>
    refine ⟨rfl, (fun hx => by cases hx), fun _ => ?_⟩
    exact copy_common_fields_tag
      (fun v hv => by obtain ⟨_, a, b, e⟩ := ndt_array_node hv; rw [e]; rfl) h
  | Tuple hd flag types offset align pad =>
    simp only [ndt_copy, Except.ok.injEq] at h
    subst h
    exact ⟨rfl, (fun hx => by cases hx), fun _ => rfl⟩
  | Record hd flag names types offset align pad =>
    simp only [ndt_copy, Except.ok.injEq] at h
    subst h
    exact ⟨rfl, (fun hx => by cases hx), fun _ => rfl⟩
  | Union hd ntags tags types =>
    simp only [ndt_copy] at h
    cases h
  | Ref hd type =>
    refine ⟨rfl, (fun hx => by cases hx), fun _ => ?_⟩
    exact copy_common_fields_tag
      (fun v hv => by obtain ⟨_, a, e⟩ := ndt_ref_node hv; rw [e]; rfl) h
  | Constr hd name type =>
    refine ⟨rfl, (fun hx => by cases hx), fun _ => ?_⟩
    refine copy_common_fields_tag (fun v hv => ?_) h
    unfold ndt_constr at hv
    split at hv
    · cases hv
    · cases hv; rfl
  | Nominal hd name type =>
    refine ⟨rfl, (fun hx => by cases hx), fun _ => ?_⟩
    exact copy_common_fields_tag
      (fun v hv => by obtain ⟨a, e, _⟩ := ndt_nominal_node hv; rw [e]; rfl) h
  | Categorical hd types =>
    refine ⟨rfl, (fun hx => by cases hx), fun _ => ?_⟩
    refine copy_common_fields_tag (fun v hv => ?_) h
    unfold ndt_copy_categorical ndt_categorical at hv
    simp only at hv
    split at hv
    · cases hv
    · cases hv; rfl
  | Typevar hd name =>
    refine ⟨rfl, (fun hx => by cases hx), fun _ => ?_⟩
    have h2 : copy_common_fields (ndt_typevar name) (.Typevar hd name) = .ok u := h
    exact copy_common_fields_tag (fun v hv => by cases hv; rfl) h2
  | Function hd nin nout e types =>
    simp only [ndt_copy, Except.ok.injEq] at h
    subst h
    exact ⟨rfl, (fun hx => by cases hx), fun _ => rfl⟩
  | Module hd name type =>
    refine ⟨rfl, (fun hx => by cases hx), fun _ => ?_⟩
    have h2 : copy_common_fields (ndt_module name type) (.Module hd name type) = .ok u := h
    exact copy_common_fields_tag (fun v hv => by cases hv; rfl) h2
  | FixedString hd size enc =>
    simp only [ndt_copy, Except.ok.injEq] at h
    subst h
    exact ⟨rfl, (fun hx => by cases hx), fun _ => rfl⟩
  | FixedBytes hd size al =>
    simp only [ndt_copy, Except.ok.injEq] at h
    subst h
    exact ⟨rfl, (fun hx => by cases hx), fun _ => rfl⟩
  | Bytes hd al =>
    simp only [ndt_copy, Except.ok.injEq] at h
    subst h
    exact ⟨rfl, (fun hx => by cases hx), fun _ => rfl⟩
  | Char hd enc =>
    simp only [ndt_copy, Except.ok.injEq] at h
    subst h
    exact ⟨rfl, (fun hx => by cases hx), fun _ => rfl⟩
  | Scalar tag hd =>
    simp only [ndt_copy, Except.ok.injEq] at h
    subst h
    exact ⟨rfl, (fun hx => by cases hx), fun _ => rfl⟩

theorem ndt_copy_tag_witness :
    ex_var_elem.tag = .VarDimElem ∧ ex_var.tag = .VarDim ∧
    ndt_copy empty_registry ex_var_elem = .ok ex_var ∧
    ndt_copy empty_registry ex_union = .error .Undefined :=
  ⟨((ndt_copy_tag empty_registry ex_var_elem ex_var rfl).2.1 rfl).1,
   ((ndt_copy_tag empty_registry ex_var_elem ex_var rfl).2.1 rfl).2, rfl, rfl⟩

/-! ## The copy of an ellipsis dimension -/

theorem itemsize_of_non_dim {t : ndt_t} (h : is_dim_node t = false) :
    ndt_itemsize t = (ndt_dtype t).datasize := by
  cases t <;> first
    | rfl
    | cases h

theorem var_itemsize_eq (type : ndt_t) (inner : List Int)
    (h : var_offsets type = some inner) : var_itemsize type = ndt_itemsize type := by
  cases type <;> first
    | rfl
    | cases h

theorem datasize_eq_itemsize (type : ndt_t) (h1 : type.tag ≠ .FixedDim)
    (h2 : ¬ (type.tag = .VarDim ∨ type.tag = .VarDimElem)) :
    type.datasize = ndt_itemsize type := by
  cases type <;> first
    | rfl
    | exact absurd rfl h1
    | exact absurd (Or.inl rfl) h2
    | exact absurd (Or.inr rfl) h2

/-- The node of a successful `ndt_var_dim`: its itemsize is that of the inner
type, which is concrete and no flexible array. -/
theorem ndt_var_dim_itemsize {type t : ndt_t} {offsets : List Int} {slices : List ndt_slice_t}
    {opt : Bool} (h : ndt_var_dim type offsets slices opt = .ok t) :
    (∃ hd, t = .VarDim hd type (ndt_itemsize type) (some offsets) slices) ∧
    type.access = .Concrete ∧ type.tag ≠ .Array := by
  have hconc := (ndt_var_dim_node h).2.2.2.1
  unfold ndt_var_dim at h
  cases hinv : check_var_invariants type with
  | error e => rw [hinv] at h; cases h
  | ok v =>
    have htag : type.tag ≠ .FixedDim ∧ type.tag ≠ .Array := by
      unfold check_var_invariants at hinv
      by_cases hm : type.tag = .Module
      · rw [if_pos hm] at hinv; cases hinv
      rw [if_neg hm] at hinv
      by_cases hf : type.tag = .FixedDim ∨ type.tag = .SymbolicDim ∨ type.tag = .Array
      · rw [if_pos hf] at hinv; cases hinv
      exact ⟨fun x => hf (Or.inl x), fun x => hf (Or.inr (Or.inr x))⟩
    rw [hinv] at h
    simp only at h
    split at h
    · cases h
    split at h
    · cases h
    by_cases hv : type.tag = .VarDim ∨ type.tag = .VarDimElem
    · rw [if_pos hv] at h
      cases ho : var_offsets type with
      | none => rw [ho] at h; cases h
      | some inner =>
        rw [ho] at h
        simp only at h
        by_cases hl : last_offset offsets ≠ (inner.length : Int) - 1
        · rw [if_pos hl] at h; cases h
        · rw [if_neg hl] at h
          simp only [Bool.false_eq_true, if_false, Except.ok.injEq] at h
          subst h
          rw [var_itemsize_eq type inner ho]
          exact ⟨⟨_, rfl⟩, by simpa [ndt_is_concrete] using hconc, htag.2⟩
    · rw [if_neg hv] at h
      simp only at h
      by_cases hov : (MULi64 (last_offset offsets) type.datasize false).2 = true
      · rw [if_pos hov] at h; cases h
      · rw [if_neg hov] at h
        simp only [Except.ok.injEq] at h
        subst h
        rw [datasize_eq_itemsize type htag.1 hv]
        exact ⟨⟨_, rfl⟩, by simpa [ndt_is_concrete] using hconc, htag.2⟩

/-- The itemsize of a built term that is concrete and no flexible array is the
data size of its dtype. -/
theorem constructed_itemsize (reg : ndt_registry) (t : ndt_t) (h : constructed reg t) :
    t.access = .Concrete → t.tag ≠ .Array → ndt_itemsize t = (ndt_dtype t).datasize := by
  induction h with
  | primitive tag flags t h =>
    intro _ _
    unfold ndt_primitive at h
    split at h
    · cases h; rfl
    · cases h
  | any_kind opt t h => intro _ _; cases h; rfl
  | scalar_kind opt t h => intro _ _; cases h; rfl
  | typevar name t h => intro _ _; cases h; rfl
  | fixed_string size encoding opt t h =>
    intro _ _
    unfold ndt_fixed_string at h
    simp only at h
    split at h
    · cases h
    · cases h; rfl
  | fixed_bytes size align opt t h =>
    intro _ _
    unfold ndt_fixed_bytes at h
    split at h
    · cases h
    · split at h
      · cases h
      · cases h; rfl
  | bytes target_align opt t h =>
    intro _ _
    unfold ndt_bytes at h
    split at h
    · cases h
    · cases h; rfl
  | char encoding opt t h => intro _ _; cases h; rfl
  | categorical types opt t h =>
    intro _ _
    unfold ndt_categorical at h
    simp only at h
    split at h
    · cases h
    · cases h; rfl
  | fixed_dim type shape step t _ h ih =>
    intro hc _
    obtain ⟨hacc, _⟩ := ndt_fixed_dim_node h
    have htc : type.access = .Concrete := by rw [← hacc]; exact hc
    have hinv : check_fixed_invariants type = .ok () := by
      unfold ndt_fixed_dim at h
      cases hi : check_fixed_invariants type with
      | error e => rw [hi] at h; cases h
      | ok v => rfl
    obtain ⟨_, _, _, ht⟩ := ndt_fixed_dim_concrete htc h
    subst ht
    show ndt_itemsize type = (ndt_dtype type).datasize
    exact ih htc (check_fixed_invariants_tag hinv).2.2
  | fixed_dim_tag type tag shape step t _ h ih =>
    intro hc _
    unfold ndt_fixed_dim_tag at h
    split at h
    · rename_i hd c sh ty isz st hfd
      obtain ⟨hacc, _⟩ := ndt_fixed_dim_node hfd
      simp only [Except.ok.injEq] at h
      subst h
      by_cases htag : tag ≠ .RequireNA
      · simp only [ndt_t.access, ndt_t.hdr, if_pos htag] at hc
        cases hc
      · simp only [ndt_t.access, ndt_t.hdr, if_neg htag] at hc
        have htc : type.access = .Concrete := by rw [← hacc]; exact hc
        have hinv : check_fixed_invariants type = .ok () := by
          unfold ndt_fixed_dim at hfd
          cases hi : check_fixed_invariants type with
          | error e => rw [hi] at hfd; cases hfd
          | ok v => rfl
        obtain ⟨_, _, _, ht⟩ := ndt_fixed_dim_concrete htc hfd
        cases ht
        show ndt_itemsize type = (ndt_dtype type).datasize
        exact ih htc (check_fixed_invariants_tag hinv).2.2
    · rename_i hne
      obtain ⟨_, hd, isz, st, ht⟩ := ndt_fixed_dim_node h
      subst ht
      exact absurd h (hne _ _ _ _ _ _)
  | abstract_var_dim type opt t _ h ih =>
    intro hc _
    unfold ndt_abstract_var_dim at h
    split at h
    · cases h
    · cases h
      cases hc
  | var_dim type offsets slices opt t _ h ih =>
    intro _ _
    obtain ⟨⟨hd, ht⟩, htc, hna⟩ := ndt_var_dim_itemsize h
    subst ht
    show ndt_itemsize type = (ndt_dtype type).datasize
    exact ih htc hna
  | var_elem u type index t _ h ih =>
    intro _ _
    unfold ndt_convert_to_var_elem at h
    split at h
    · cases h
    split at h
    · cases h
    split at h
    · cases h
    split at h
    · cases h
    · split at h
      · rename_i hd ty isz o sl hvd
        obtain ⟨⟨hd2, ht⟩, htc, hna⟩ := ndt_var_dim_itemsize hvd
        cases ht
        cases h
        show ndt_itemsize type = (ndt_dtype type).datasize
        exact ih htc hna
      · rename_i hne
        obtain ⟨⟨hd2, ht⟩, _, _⟩ := ndt_var_dim_itemsize h
        subst ht
        exact absurd h (hne _ _ _ _ _)
  | symbolic_dim name type t _ h ih =>
    intro hc _
    obtain ⟨hd, ht, ha⟩ := ndt_symbolic_dim_node h
    subst ht
    simp only [ndt_t.access, ndt_t.hdr] at hc
    rw [ha] at hc
    cases hc
  | symbolic_dim_tag name type tag t _ h ih =>
    intro hc _
    unfold ndt_symbolic_dim_tag at h
    split at h
    · rename_i hd c nm ty hsd
      obtain ⟨hd2, ht, ha⟩ := ndt_symbolic_dim_node hsd
      cases ht
      cases h
      simp only [ndt_t.access, ndt_t.hdr] at hc
      rw [ha] at hc
      cases hc
    · obtain ⟨hd2, ht, ha⟩ := ndt_symbolic_dim_node h
      subst ht
      simp only [ndt_t.access, ndt_t.hdr] at hc
      rw [ha] at hc
      cases hc
  | ellipsis_dim name type t _ h ih =>
    intro hc _
    unfold ndt_ellipsis_dim at h
    split at h
    · cases h
    · simp only at h
      split at h
      · cases h
      · cases h
        cases hc
  | ellipsis_dim_tag name type tag t _ h ih =>
    intro hc _
    unfold ndt_ellipsis_dim_tag at h
    split at h
    · rename_i hd c nm ty hsd
      unfold ndt_ellipsis_dim at hsd
      split at hsd
      · cases hsd
      · simp only at hsd
        split at hsd
        · cases hsd
        · cases hsd
          cases h
          cases hc
    · unfold ndt_ellipsis_dim at h
      split at h
      · cases h
      · simp only at h
        split at h
        · cases h
        · cases h
          cases hc
  | array type opt t _ h ih =>
    intro _ hna
    obtain ⟨_, hd, isz, ht⟩ := ndt_array_node h
    subst ht
    exact absurd rfl hna
  | ref type opt t _ h ih =>
    intro _ _
    obtain ⟨_, hd, ht⟩ := ndt_ref_node h
    subst ht
    rfl
  | constr name type opt t _ h ih =>
    intro _ _
    obtain ⟨_, hd, ht⟩ := ndt_constr_node h
    subst ht
    rfl
  | nominal name type opt t _ h ih =>
    intro _ _
    obtain ⟨hd, ht, _⟩ := ndt_nominal_node h
    subst ht
    rfl
  | nominal_typedef name d opt t hfind _ h ih =>
    intro _ _
    obtain ⟨d2, ty, _, _, hs⟩ := ndt_nominal_same_refs h
    apply itemsize_of_non_dim
    unfold ndt_nominal at h
    split at h
    · cases h
    · simp only at h
      cases h; rfl
  | tuple flag fields align pack opt t _ _ h ih =>
    intro _ _
    apply itemsize_of_non_dim
    unfold ndt_tuple at h
    cases hc : check_fields_invariants fields with
    | error e => rw [hc] at h; cases h
    | ok v =>
      rw [hc] at h
      simp only at h
      by_cases ha : fields_access (if flag = .Variadic then .Abstract else .Concrete) fields =
          .Abstract
      · rw [if_pos ha] at h
        by_cases he : has_explicit_align fields = true
        · rw [if_pos he] at h; cases h
        rw [if_neg he] at h
        cases h; rfl
      · rw [if_neg ha] at h
        cases hi2 : init_concrete_fields fields align pack with
        | error e => rw [hi2] at h; cases h
        | ok c =>
          rw [hi2] at h
          cases h; rfl
  | record flag fields align pack opt t _ _ h ih =>
    intro _ _
    apply itemsize_of_non_dim
    unfold ndt_record at h
    cases hc : check_fields_invariants fields with
    | error e => rw [hc] at h; cases h
    | ok v =>
      rw [hc] at h
      simp only at h
      by_cases ha : fields_access (if flag = .Variadic then .Abstract else .Concrete) fields =
          .Abstract
      · rw [if_pos ha] at h
        by_cases he : has_explicit_align fields = true
        · rw [if_pos he] at h; cases h
        rw [if_neg he] at h
        cases hn : fields_names fields with
        | error e => rw [hn] at h; cases h
        | ok names =>
          rw [hn] at h
          cases h; rfl
      · rw [if_neg ha] at h
        cases hi2 : init_concrete_fields fields align pack with
        | error e => rw [hi2] at h; cases h
        | ok c =>
          rw [hi2] at h
          cases hn : fields_names fields with
          | error e => rw [hn] at h; cases h
          | ok names =>
            rw [hn] at h
            cases h; rfl
  | union fields opt t _ _ h ih =>
    intro _ _
    obtain ⟨hd, tags, ht, _⟩ := ndt_union_list_node h
    subst ht
    rfl
  | function types nin nout t _ h ih =>
    intro _ _
    unfold ndt_function at h
    split at h
    · cases h
    · cases h; rfl
  | module name type t _ h ih =>
    intro _ _
    cases h
    rfl

theorem ndt_dtype_of_inner {t child : ndt_t} (h : dim_inner t = some child) :
    ndt_dtype t = ndt_dtype child := by
  cases t <;> first
    | (cases h; done)
    | (simp only [dim_inner, Option.some.injEq] at h; subst h; simp only [ndt_dtype])

theorem ndt_dtype_of_non_dim {t : ndt_t} (h : is_dim_node t = false) : ndt_dtype t = t := by
  cases t <;> first
    | rfl
    | cases h

/-- C33 (as amended): for every concrete `FixedDim`, `VarDim` or `VarDimElem`
term `d` built by the constructors, `ndt_itemsize(d)` is the data size of the
dtype of `d`, the element type below all dimensions; it is the data size of
the direct child of `d` when that child is not itself a dimension. -/
theorem ndt_itemsize_dtype (reg : ndt_registry) (d : ndt_t) (h : constructed reg d)
    (hc : d.access = .Concrete)
    (htag : d.tag = .FixedDim ∨ d.tag = .VarDim ∨ d.tag = .VarDimElem) :
    ndt_itemsize d = (ndt_dtype d).datasize ∧
    (∀ child, dim_inner d = some child → is_dim_node child = false →
      ndt_itemsize d = child.datasize) := by
  have hna : d.tag ≠ .Array := by
    rcases htag with h1 | h1 | h1 <;> rw [h1] <;> decide
  have key := constructed_itemsize reg d h hc hna
  refine ⟨key, ?_⟩
  intro child hi hn
  rw [key, ndt_dtype_of_inner hi, ndt_dtype_of_non_dim hn]

theorem ex_3_4_float64_constructed (reg : ndt_registry) : constructed reg ex_3_4_float64 :=
  constructed.fixed_dim _ 3 INT64_MAX _
    (constructed.fixed_dim ex_float64 4 INT64_MAX _
      (constructed.primitive .Float64 {} ex_float64 rfl) rfl) rfl

theorem ndt_itemsize_dtype_witness :
    ndt_itemsize ex_3_4_float64 = (ndt_dtype ex_3_4_float64).datasize ∧
    ndt_dtype ex_3_4_float64 = ex_float64 ∧ ex_float64.datasize = 8 :=
  ⟨(ndt_itemsize_dtype empty_registry ex_3_4_float64
      (ex_3_4_float64_constructed empty_registry) rfl (Or.inl rfl)).1, rfl, rfl⟩

/-- The itemsize of `3 * 4 * float64` is 8, the size of a `float64`; the data
size of its direct child `4 * float64` is 32. -/
theorem ndt_itemsize_nested :
    fixed_array [3, 4] ex_float64 = .ok ex_3_4_float64 ∧
    ex_3_4_float64.access = .Concrete ∧ ex_3_4_float64.tag = .FixedDim ∧
    ndt_itemsize ex_3_4_float64 = 8 ∧
    ∃ child, dim_inner ex_3_4_float64 = some child ∧ child.datasize = 32 := by
  refine ⟨rfl, rfl, rfl, rfl, _, rfl, rfl⟩

/-! ## C-contiguity in closed form -/

theorem contiguous_loop_snoc (l : List ndt_t) (x : ndt_t) :
    ∀ run : Int, contiguous_loop (l ++ [x]) run =
      (contiguous_loop l run &&
        (decide (fixed_shape x ≤ 1) || decide (fixed_dim_step x = running_step l run))) := by
  induction l with
  | nil =>
    intro run
    simp only [List.nil_append, contiguous_loop, running_step, List.foldl_nil, Bool.true_and]
    by_cases h1 : fixed_shape x ≤ 1
    · rw [if_neg (by intro hc; omega)]
      simp [h1]
    · by_cases h2 : fixed_dim_step x = run
      · rw [if_neg (by intro hc; exact hc.2 h2)]
        simp [h2]
      · rw [if_pos ⟨by omega, h2⟩]
        simp [h1, h2]
  | cons y l ih =>
    intro run
    simp only [List.cons_append, contiguous_loop]
    by_cases hc : fixed_shape y > 1 ∧ fixed_dim_step y ≠ run
    · rw [if_pos hc, if_pos hc]
      rfl
    · rw [if_neg hc, if_neg hc]
      exact ih _

theorem running_step_reverse (ds : List ndt_t) :
    running_step ds.reverse 1 = wrap_i64 ((ds.map fixed_shape).prod) := by
  have h := running_step_prod ds.reverse 1
  rw [show wrap_i64 1 = 1 from by decide, one_mul, List.map_reverse, List.prod_reverse] at h
  exact h

theorem contiguous_loop_reverse :
    ∀ dims : List ndt_t, contiguous_loop dims.reverse 1 = c_steps_wrapped dims := by
  intro dims
  induction dims with
  | nil => rfl
  | cons d ds ih =>
    rw [List.reverse_cons, contiguous_loop_snoc, ih, running_step_reverse, c_steps_wrapped,
      Bool.and_comm]

theorem c_steps_of_fit :
    ∀ dims : List ndt_t, products_fit dims = true → c_steps_wrapped dims = c_steps dims := by
  intro dims
  induction dims with
  | nil => intro _; rfl
  | cons d ds ih =>
    intro h
    simp only [products_fit, Bool.and_eq_true] at h
    rw [c_steps_wrapped, c_steps, ih h.2, wrap_i64_of_fits h.1]

theorem ndt_is_ndarray_iff (t : ndt_t) :
    ndt_is_ndarray t = true ↔ (t.tag = .FixedDim ∨ t.ndim = 0) := by
  unfold ndt_is_ndarray
  by_cases h : t.tag = .FixedDim
  · rw [h]
    simp
  · constructor
    · intro hn
      right
      split at hn
      · rename_i heq
        exact absurd heq h
      · simpa using hn
    · intro hn
      rcases hn with hn | hn
      · exact absurd hn h
      · split
        · rfl
        · simpa using hn

theorem ndt_is_c_contiguous_wrapped (t : ndt_t) :
    ndt_is_c_contiguous t = true ↔
      (ndt_is_concrete t = true ∧ (t.tag = .FixedDim ∨ t.ndim = 0) ∧
        c_steps_wrapped (ndt_dims_dtype t).1 = true) := by
  unfold ndt_is_c_contiguous
  have hac : ndt_is_abstract t = !ndt_is_concrete t := by
    unfold ndt_is_abstract ndt_is_concrete
    cases t.access <;> rfl
  by_cases hc : ndt_is_concrete t = true
  · rw [hac, hc]
    simp only [Bool.not_true, Bool.false_eq_true, if_false, true_and]
    by_cases hn : ndt_is_ndarray t = true
    · rw [hn]
      simp only [Bool.not_true, Bool.false_eq_true, if_false]
      have hn2 := (ndt_is_ndarray_iff t).mp hn
      by_cases h0 : t.ndim = 0
      · rw [if_pos h0, ndt_dims_dtype_ndim0 t h0]
        simp [c_steps_wrapped, hn2]
      · rw [if_neg h0, contiguous_loop_reverse]
        simp [hn2]
    · have hn3 : ¬ (t.tag = .FixedDim ∨ t.ndim = 0) := fun hx => hn ((ndt_is_ndarray_iff t).mpr hx)
      have hn4 : ndt_is_ndarray t = false := by simpa using hn
      rw [hn4]
      simp [hn3]
  · have hc2 : ndt_is_concrete t = false := by simpa using hc
    rw [hac, hc2]
    simp

/-- C31 (as amended): for every type `t`, `ndt_is_c_contiguous(t) = 1` if and
only if `t` is concrete, is a `FixedDim` array or has `ndim = 0`, and every
dimension with `shape > 1` has as its step the product of the shapes of the
dimensions inside it, reduced to the range of `int64_t` (the loop multiplies
unchecked); where these products fit `int64_t`, the step is the product
itself. -/
theorem ndt_is_c_contiguous_iff (t : ndt_t) :
    (ndt_is_c_contiguous t = true ↔
      (ndt_is_concrete t = true ∧ (t.tag = .FixedDim ∨ t.ndim = 0) ∧
        c_steps_wrapped (ndt_dims_dtype t).1 = true)) ∧
    (products_fit (ndt_dims_dtype t).1 = true →
      (ndt_is_c_contiguous t = true ↔
        (ndt_is_concrete t = true ∧ (t.tag = .FixedDim ∨ t.ndim = 0) ∧
          c_steps (ndt_dims_dtype t).1 = true))) := by
  refine ⟨ndt_is_c_contiguous_wrapped t, ?_⟩
  intro hf
  rw [ndt_is_c_contiguous_wrapped, c_steps_of_fit _ hf]

theorem ndt_is_c_contiguous_iff_witness :
    ndt_is_c_contiguous ex_3_4_float64 = true ∧ dim_shapes ex_3_4_float64 = [3, 4] ∧
    dim_steps ex_3_4_float64 = [4, 1] :=
  ⟨((ndt_is_c_contiguous_iff ex_3_4_float64).2 (by decide)).mpr
      ⟨by decide, Or.inl rfl, by decide⟩, by decide, by decide⟩

/-- The array `2 * 4294967296 * 4294967296 * ()` with the steps 0, 4294967296
and 1 is built by `ndt_fixed_dim` (the data size of the empty tuple is 0, so
that no data size overflows). The running step of the loop reaches `2^64`,
which is 0 in `int64_t`, and the predicate holds, although the step 0 of the
outermost dimension is not the product `2^64` of the shapes inside it. -/
theorem ndt_is_c_contiguous_wraps :
    ndt_tuple .Nonvariadic [] none none false = .ok ex_empty_tuple ∧
    (∃ a b, ndt_fixed_dim ex_empty_tuple 4294967296 1 = .ok a ∧
      ndt_fixed_dim a 4294967296 4294967296 = .ok b ∧
      ndt_fixed_dim b 2 0 = .ok ex_wrapping_steps) ∧
    ndt_is_concrete ex_wrapping_steps = true ∧ ex_wrapping_steps.tag = .FixedDim ∧
    dim_shapes ex_wrapping_steps = [2, 4294967296, 4294967296] ∧
    dim_steps ex_wrapping_steps = [0, 4294967296, 1] ∧
    ndt_is_c_contiguous ex_wrapping_steps = true ∧
    c_steps (ndt_dims_dtype ex_wrapping_steps).1 = false := by
  refine ⟨rfl, ⟨_, _, rfl, rfl, rfl⟩, rfl, rfl, by decide, by decide, by decide, by decide⟩

/-! ## F-contiguity as C-contiguity of the reversed array -/

theorem contiguous_loop_congr :
    ∀ (l1 l2 : List ndt_t) (run : Int),
      l1.map (fun d => (fixed_shape d, fixed_dim_step d)) =
        l2.map (fun d => (fixed_shape d, fixed_dim_step d)) →
      contiguous_loop l1 run = contiguous_loop l2 run := by
  intro l1
  induction l1 with
  | nil =>
    intro l2 run h
    cases l2 with
    | nil => rfl
    | cons y l2 => simp at h
  | cons x l1 ih =>
    intro l2 run h
    cases l2 with
    | nil => simp at h
    | cons y l2 =>
      simp only [List.map_cons, List.cons.injEq, Prod.mk.injEq] at h
      obtain ⟨⟨h1, h2⟩, h3⟩ := h
      simp only [contiguous_loop]
      rw [h1, h2, ih l2 _ h3]

theorem fixed_nodes_dims (d0 : ndt_t) (h0 : d0.ndim = 0) :
    ∀ ps : List (Int × Int),
      (fixed_nodes ps d0).ndim = (ps.length : Int) ∧
      (ndt_dims_dtype (fixed_nodes ps d0)).1.map (fun d => (fixed_shape d, fixed_dim_step d)) =
        ps ∧
      (ndt_dims_dtype (fixed_nodes ps d0)).2 = d0 := by
  intro ps
  induction ps with
  | nil =>
    simp only [fixed_nodes]
    rw [ndt_dims_dtype_ndim0 d0 h0]
    exact ⟨by simpa using h0, rfl, rfl⟩
  | cons p rest ih =>
    obtain ⟨i1, i2, i3⟩ := ih
    simp only [fixed_nodes]
    rw [ndt_dims_dtype_fixed _ _ _ _ _ _ (by
      show 0 < (fixed_nodes rest d0).ndim + 1
      rw [i1]
      omega)]
    refine ⟨?_, ?_, i3⟩
    · show (fixed_nodes rest d0).ndim + 1 = _
      rw [i1]
      simp
    · simp only [List.map_cons, i2]
      rfl

/-- The two predicates of a concrete node with tag `FixedDim` are the loop over
its dimensions, in either order. -/
theorem fixed_predicates (t : ndt_t) (hc : ndt_is_concrete t = true)
    (htag : t.tag = .FixedDim) :
    ndt_is_f_contiguous t = contiguous_loop (ndt_dims_dtype t).1 1 ∧
    ndt_is_c_contiguous t = contiguous_loop (ndt_dims_dtype t).1.reverse 1 := by
  have hab : ndt_is_abstract t = false := by
    unfold ndt_is_abstract
    unfold ndt_is_concrete at hc
    cases hacc : t.access
    · rw [hacc] at hc; cases hc
    · rfl
  have hnd : ndt_is_ndarray t = true := (ndt_is_ndarray_iff t).mpr (Or.inl htag)
  unfold ndt_is_f_contiguous ndt_is_c_contiguous
  rw [hab, hnd]
  simp only [Bool.false_eq_true, if_false, Bool.not_true]
  by_cases h0 : t.ndim = 0
  · rw [if_pos h0, if_pos h0, ndt_dims_dtype_ndim0 t h0]
    exact ⟨rfl, rfl⟩
  · rw [if_neg h0, if_neg h0]
    exact ⟨rfl, rfl⟩

theorem dims_nil_of_fixed (t : ndt_t) (htag : t.tag = .FixedDim)
    (h : (ndt_dims_dtype t).1 = []) : (ndt_dims_dtype t).2 = t := by
  cases t with
  | FixedDim hd c shape type isz st =>
    simp only [ndt_dims_dtype] at h ⊢
    split at h
    · cases h
    · rename_i hn
      rw [if_neg hn]
  | Scalar tag hd => simp only [ndt_dims_dtype]
  | _ => cases htag

/-- C32: for every concrete `FixedDim` array `t` over a dtype without
dimensions, `ndt_is_f_contiguous(t)` is `ndt_is_c_contiguous` of the array with
the dtype of `t` whose dimensions (shape and step) are those of `t` in reverse
order; with at most one dimension the two predicates agree on `t`, and
`ndt_really_fortran(t)` is 0. -/
theorem ndt_is_f_contiguous_reversed (t : ndt_t) (hc : ndt_is_concrete t = true)
    (htag : t.tag = .FixedDim) (hd : (ndt_dims_dtype t).2.ndim = 0) :
    ndt_is_f_contiguous t = ndt_is_c_contiguous (reversed_array t) ∧
    dim_pairs (reversed_array t) = (dim_pairs t).reverse ∧
    (ndt_dims_dtype (reversed_array t)).2 = (ndt_dims_dtype t).2 ∧
    ((ndt_dims_dtype t).1.length ≤ 1 →
      ndt_is_f_contiguous t = ndt_is_c_contiguous t ∧ ndt_really_fortran t = false) := by
  obtain ⟨hf, hcc⟩ := fixed_predicates t hc htag
  obtain ⟨j1, j2, j3⟩ := fixed_nodes_dims (ndt_dims_dtype t).2 hd (dim_pairs t).reverse
  refine ⟨?_, j2, j3, ?_⟩
  · cases hp : (ndt_dims_dtype t).1 with
    | nil =>
      have hr : reversed_array t = t := by
        unfold reversed_array dim_pairs
        rw [hp]
        simp only [List.map_nil, List.reverse_nil, fixed_nodes]
        exact dims_nil_of_fixed t htag hp
      rw [hr, hf, hcc, hp]
      rfl
    | cons x xs =>
      have hne : (dim_pairs t).reverse ≠ [] := by
        unfold dim_pairs
        rw [hp]
        simp
      have hrc : ndt_is_concrete (reversed_array t) = true ∧
          (reversed_array t).tag = .FixedDim := by
        unfold reversed_array
        cases hq : (dim_pairs t).reverse with
        | nil => exact absurd hq hne
        | cons p rest => exact ⟨rfl, rfl⟩
      obtain ⟨_, hcr⟩ := fixed_predicates (reversed_array t) hrc.1 hrc.2
      rw [hf, hcr]
      apply contiguous_loop_congr
      rw [List.map_reverse]
      unfold reversed_array
      rw [j2, List.reverse_reverse]
      rfl
  · intro hlen
    have hrev : (ndt_dims_dtype t).1.reverse = (ndt_dims_dtype t).1 := by
      cases hp : (ndt_dims_dtype t).1 with
      | nil => rfl
      | cons x xs =>
        rw [hp] at hlen
        cases xs with
        | nil => rfl
        | cons y ys => simp at hlen
    have heq : ndt_is_f_contiguous t = ndt_is_c_contiguous t := by
      rw [hf, hcc, hrev]
    refine ⟨heq, ?_⟩
    unfold ndt_really_fortran
    rw [heq]
    cases ndt_is_c_contiguous t <;> rfl

theorem ndt_is_f_contiguous_reversed_witness :
    ndt_is_f_contiguous ex_2_3_fortran = ndt_is_c_contiguous (reversed_array ex_2_3_fortran) ∧
    dim_pairs ex_2_3_fortran = [(2, 1), (3, 2)] ∧
    dim_pairs (reversed_array ex_2_3_fortran) = [(3, 2), (2, 1)] ∧
    ndt_is_f_contiguous ex_2_3_fortran = true :=
  ⟨(ndt_is_f_contiguous_reversed ex_2_3_fortran (by decide) (by decide) (by decide)).1,
   by decide, by decide, by decide⟩

/-! ## Termination of the substitution -/

theorem ndt_depth_dtype_le :
    ∀ (k : Nat) (x : ndt_t), ndt_depth x ≤ k → ndt_depth (ndt_dtype x) ≤ ndt_depth x := by
  intro k
  induction k with
  | zero =>
    intro x h
    cases x <;> first
      | exact le_refl _
      | (simp only [ndt_depth] at h; omega)
  | succ k ih =>
    intro x h
    cases x <;> first
      | exact le_refl _
      | (simp only [ndt_depth] at h
         simp only [ndt_dtype, ndt_depth]
         exact le_trans (ih _ (by omega)) (Nat.le_succ _))

theorem ndt_substitute_default (reg : ndt_registry) (tbl : symtable_t) (f : Nat) (t : ndt_t)
    (rc : Bool) (hc : ¬ ndt_is_concrete t = true) (hs : substitute_case t = false) :
    ndt_substitute reg tbl (f + 1) t rc =
      some (if substitute_keeps t.tag then .ok t else .error .NotImplementedError) := by
  unfold ndt_substitute
  simp only []
  rw [if_neg hc]
  cases t <;> first
    | rfl
    | (cases hs; done)
    | (simp only []; split_ifs <;> rfl)

theorem ndt_substitute_fuel (reg : ndt_registry) (tbl : symtable_t)
    (htbl : concrete_typevars tbl) :
    ∀ (n : Nat) (t : ndt_t) (rc : Bool), ndt_depth t ≤ n →
      ∃ r, ∀ f, n + 1 ≤ f → ndt_substitute reg tbl (f + 1) t rc = some r := by
  intro n
  refine Nat.strong_induction_on n ?_
  intro n ih t rc hn
  by_cases hc : ndt_is_concrete t = true
  · refine ⟨.ok t, fun f _ => ?_⟩
    unfold ndt_substitute
    simp only []
    rw [if_pos hc]
  -- the result of a call on an inner type of smaller depth
  have sub : ∀ (type : ndt_t) (rc2 : Bool), ndt_depth type < n →
      ∃ r, ∀ f, n + 1 ≤ f → ndt_substitute reg tbl f type rc2 = some r := by
    intro type rc2 hlt
    obtain ⟨r, hr⟩ := ih (ndt_depth type) hlt type rc2 (le_refl _)
    refine ⟨r, fun f hf => ?_⟩
    obtain ⟨g, rfl⟩ : ∃ g, f = g + 1 := ⟨f - 1, by omega⟩
    exact hr g (by omega)
  cases t with
  | FixedDim hd c shape type isz st =>
    obtain ⟨r, hr⟩ := sub type rc (by simp only [ndt_depth] at hn; omega)
    cases r with
    | error e =>
      refine ⟨.error e, fun f hf => ?_⟩
      unfold ndt_substitute
      simp only []
      rw [if_neg hc, hr f hf]
    | ok u =>
      refine ⟨ndt_fixed_dim u shape st, fun f hf => ?_⟩
      unfold ndt_substitute
      simp only []
      rw [if_neg hc, hr f hf]
  | VarDim hd type isz offs sl =>
    have hlt : ndt_depth (ndt_dtype (.VarDim hd type isz offs sl)) < n := by
      have := ndt_depth_dtype_le _ type (le_refl _)
      simp only [ndt_depth] at hn
      simp only [ndt_dtype]
      omega
    obtain ⟨r, hr⟩ := sub _ rc hlt
    cases r with
    | error e =>
      refine ⟨.error e, fun f hf => ?_⟩
      unfold ndt_substitute
      simp only []
      rw [if_neg hc, hr f hf]
    | ok u =>
      refine ⟨ndt_copy_abstract_var_dtype (.VarDim hd type isz offs sl) u, fun f hf => ?_⟩
      unfold ndt_substitute
      simp only []
      rw [if_neg hc, hr f hf]
  | SymbolicDim hd c name type =>
    obtain ⟨r, hr⟩ := sub type rc (by simp only [ndt_depth] at hn; omega)
    cases r with
    | error e =>
      refine ⟨.error e, fun f hf => ?_⟩
      unfold ndt_substitute
      simp only []
      rw [if_neg hc, hr f hf]
    | ok u =>
      refine ⟨if symtable_find_shape tbl name < 0 then
          (if rc = true then .error .ValueError else ndt_symbolic_dim name u)
        else ndt_fixed_dim u (symtable_find_shape tbl name) INT64_MAX, fun f hf => ?_⟩
      unfold ndt_substitute
      simp only []
      rw [if_neg hc, hr f hf]
      simp only []
      split_ifs <;> rfl
  | EllipsisDim hd c name type =>
    obtain ⟨r, hr⟩ := sub type true (by simp only [ndt_depth] at hn; omega)
    cases name with
    | none =>
      refine ⟨r, fun f hf => ?_⟩
      unfold ndt_substitute
      simp only []
      rw [if_neg hc, hr f hf]
    | some nm =>
      cases r with
      | error e =>
        refine ⟨.error e, fun f hf => ?_⟩
        unfold ndt_substitute
        simp only []
        rw [if_neg hc, hr f hf]
      | ok u =>
        refine ⟨substitute_named_ellipsis tbl nm u, fun f hf => ?_⟩
        unfold ndt_substitute
        simp only []
        rw [if_neg hc, hr f hf]
  | Typevar hd name =>
    cases hv : symtable_find_typevar tbl name with
    | none =>
      refine ⟨if rc = true then .error .ValueError else ndt_typevar name, fun f hf => ?_⟩
      unfold ndt_substitute
      simp only []
      rw [if_neg hc, hv]
      simp only []
      split_ifs <;> rfl
    | some v =>
      refine ⟨.ok v, fun f hf => ?_⟩
      obtain ⟨g, rfl⟩ : ∃ g, f = g + 1 := ⟨f - 1, by omega⟩
      have hvc := htbl name v hv
      unfold ndt_substitute
      simp only []
      rw [if_neg hc, hv]
      simp only []
      unfold ndt_substitute
      simp only []
      rw [if_pos hvc]
  | Constr hd name type =>
    obtain ⟨r, hr⟩ := sub type rc (by simp only [ndt_depth] at hn; omega)
    cases r with
    | error e =>
      refine ⟨.error e, fun f hf => ?_⟩
      unfold ndt_substitute
      simp only []
      rw [if_neg hc, hr f hf]
    | ok u =>
      refine ⟨ndt_constr name u (ndt_is_optional (.Constr hd name type)), fun f hf => ?_⟩
      unfold ndt_substitute
      simp only []
      rw [if_neg hc, hr f hf]
  | Nominal hd name type =>
    cases hcp : ndt_copy reg type with
    | error e =>
      refine ⟨.error e, fun f hf => ?_⟩
      unfold ndt_substitute
      simp only []
      rw [if_neg hc, hcp]
    | ok u =>
      refine ⟨ndt_nominal reg name (some u) (ndt_is_optional (.Nominal hd name type)),
        fun f hf => ?_⟩
      unfold ndt_substitute
      simp only []
      rw [if_neg hc, hcp]
  | Ref hd type =>
    obtain ⟨r, hr⟩ := sub type rc (by simp only [ndt_depth] at hn; omega)
    cases r with
    | error e =>
      refine ⟨.error e, fun f hf => ?_⟩
      unfold ndt_substitute
      simp only []
      rw [if_neg hc, hr f hf]
    | ok u =>
      refine ⟨ndt_ref u (ndt_is_optional (.Ref hd type)), fun f hf => ?_⟩
      unfold ndt_substitute
      simp only []
      rw [if_neg hc, hr f hf]
  | _ => exact ⟨_, fun f _ => ndt_substitute_default reg tbl f _ rc hc rfl⟩

theorem ex_tbl_T_concrete : concrete_typevars ex_tbl_T := by
  intro name v h
  unfold symtable_find_typevar ex_tbl_T at h
  simp only [symtable_find] at h
  by_cases hn : "T" = name
  · rw [if_pos hn] at h
    simp only [Option.some.injEq] at h
    rw [← h]
    rfl
  · rw [if_neg hn] at h
    cases h

/-! ## C36: the dimensions of the contiguous copy of a var chain -/

theorem var_from_offsets_loop_ndim (m : offsets_t) :
    ∀ (k i : Nat) (t0 u : ndt_t), var_from_offsets_loop m k i t0 = .ok u →
      u.ndim = t0.ndim + ((loop_tables m k i).length : Int) := by
  intro k
  induction k with
  | zero =>
    intro i t0 u h
    simp only [var_from_offsets_loop, Except.ok.injEq] at h
    subst h
    simp [loop_tables]
  | succ k ih =>
    intro i t0 u h
    simp only [var_from_offsets_loop] at h
    by_cases ha : m.active.getD i false = true
    · simp only [ha, Bool.not_true, Bool.false_eq_true, ↓reduceIte] at h
      cases ho : m.offsets.getD i none with
      | none => rw [ho] at h; cases h
      | some arr =>
        rw [ho] at h
        dsimp only at h
        cases hv : ndt_var_dim t0 arr [] false with
        | error e => rw [hv] at h; cases h
        | ok t1 =>
          rw [hv] at h
          dsimp only at h
          obtain ⟨⟨hd, isz, ht1, hnd, _, _⟩, _, _, _, _⟩ := ndt_var_dim_node hv
          have j := ih (i + 1) t1 u h
          have h1 : t1.ndim = t0.ndim + 1 := by
            rw [ht1]
            exact hnd
          rw [j, h1]
          simp only [loop_tables, ha, ↓reduceIte, List.length_append, List.length_singleton,
            Nat.cast_add, Nat.cast_one]
          omega
    · have ha2 : m.active.getD i false = false := by simpa using ha
      simp only [ha2, Bool.not_false, ↓reduceIte] at h
      rw [ih (i + 1) t0 u h]
      simp only [loop_tables, ha2, Bool.false_eq_true, ↓reduceIte, List.append_nil]

theorem kept_depths_length (evs : List var_visit) :
    ∀ (k i : Nat), (kept_depths evs k i).length = count_depths (depth_active evs) k i := by
  intro k
  induction k with
  | zero => intro i; rfl
  | succ k ih =>
    intro i
    simp only [kept_depths, count_depths, List.length_append, ih]
    by_cases h : depth_active evs i = true
    · simp [h]
    · simp [h]

theorem count_depths_congr (f g : Nat → Bool) :
    ∀ (k i : Nat), (∀ d, i ≤ d → d < i + k → f d = g d) →
      count_depths f k i = count_depths g k i := by
  intro k
  induction k with
  | zero => intro i _; rfl
  | succ k ih =>
    intro i h
    simp only [count_depths]
    rw [ih (i + 1) (fun d h1 h2 => h d (by omega) (by omega)), h i (le_refl i) (by omega)]

theorem count_depths_top (f : Nat → Bool) :
    ∀ (k i : Nat),
      count_depths f (k + 1) i = (if f (i + k) then 1 else 0) + count_depths f k i := by
  intro k
  induction k with
  | zero => intro i; simp [count_depths]
  | succ k ih =>
    intro i
    rw [count_depths, ih (i + 1), count_depths]
    have e : i + 1 + k = i + (k + 1) := by omega
    rw [e]
    omega

theorem var_levels_ndim0 (d : ndt_t) (h : d.ndim = 0) : var_levels d = 0 := by
  cases d <;> simp_all [var_levels, ndt_t.ndim, ndt_t.hdr]

/-- The `VarDim` depths of a chain are as many as its `VarDim` nodes. -/
theorem var_levels_count {t : ndt_t} (h : var_dims t) :
    count_depths (level_active t) t.ndim.toNat 1 = var_levels t := by
  induction h with
  | dtype d hd =>
    rw [hd, var_levels_ndim0 d hd]
    rfl
  | var type t offsets slices opt hty hb ih =>
    have hn := var_dims_ndim hty
    obtain ⟨⟨hd, isz, ht, hnd, _, _⟩, _, _, _, _⟩ := ndt_var_dim_node hb
    subst ht
    have hne : hd.ndim ≠ 0 := by omega
    have hk : hd.ndim.toNat = type.ndim.toNat + 1 := by omega
    show count_depths _ hd.ndim.toNat 1 = _
    rw [hk, count_depths_top]
    have htop : level_active (.VarDim hd type isz (some offsets) slices)
        (1 + type.ndim.toNat) = true := by
      simp only [level_active]
      rw [if_neg hne, if_pos (by omega)]
    rw [htop]
    have hlow : count_depths (level_active (.VarDim hd type isz (some offsets) slices))
        type.ndim.toNat 1 = count_depths (level_active type) type.ndim.toNat 1 := by
      apply count_depths_congr
      intro d h1 h2
      simp only [level_active]
      rw [if_neg hne, if_neg (by omega)]
    rw [hlow, ih]
    simp only [var_levels]
    rw [if_neg hne]
    simp only [↓reduceIte]
    omega
  | elem u type index t hty hb ih =>
    have hn := var_dims_ndim hty
    obtain ⟨hd, isz, offs, sl, ht, hnd, _⟩ := ndt_convert_to_var_elem_node hb
    subst ht
    have hne : hd.ndim ≠ 0 := by omega
    have hk : hd.ndim.toNat = type.ndim.toNat + 1 := by omega
    show count_depths _ hd.ndim.toNat 1 = _
    rw [hk, count_depths_top]
    have htop : level_active (.VarDimElem hd type index isz (some offs) sl)
        (1 + type.ndim.toNat) = false := by
      simp only [level_active]
      rw [if_neg hne, if_pos (by omega)]
    rw [htop]
    have hlow : count_depths (level_active (.VarDimElem hd type index isz (some offs) sl))
        type.ndim.toNat 1 = count_depths (level_active type) type.ndim.toNat 1 := by
      apply count_depths_congr
      intro d h1 h2
      simp only [level_active]
      rw [if_neg hne, if_neg (by omega)]
    rw [hlow, ih]
    simp only [var_levels]
    rw [if_neg hne]
    simp

/-- The visits below the first item of a list are among the visits. -/
theorem visits_fold_first (f : Nat → Except ndt_error (List var_visit)) (i : Nat)
    (is : List Nat) (acc evs : List var_visit)
    (h : (i :: is).foldlM (visits_step f) acc = .ok evs) :
    ∃ es, f i = .ok es ∧ ∀ e ∈ es, e ∈ evs := by
  rw [List.foldlM_cons] at h
  cases hfi : f i with
  | error e =>
    have hs : visits_step f acc i = .error e := by
      unfold visits_step
      rw [hfi]
    rw [hs] at h
    cases h
  | ok es =>
    have hs : visits_step f acc i = .ok (acc ++ es) := by
      unfold visits_step
      rw [hfi]
    rw [hs] at h
    obtain ⟨rest, hr, _⟩ := visits_fold_rest (fun _ => True) f is
      (fun _ _ _ _ _ _ => trivial) (acc ++ es) evs h
    refine ⟨es, rfl, ?_⟩
    intro e he
    rw [hr]
    simp [he]

theorem kept_depths_active (evs : List var_visit) :
    ∀ (k i : Nat), ∀ d ∈ kept_depths evs k i, depth_active evs d = true := by
  intro k
  induction k with
  | zero => intro i d hd; simp [kept_depths] at hd
  | succ k ih =>
    intro i d hd
    simp only [kept_depths, List.mem_append] at hd
    rcases hd with h1 | h1
    · exact ih (i + 1) d h1
    · by_cases ha : depth_active evs i = true
      · rw [if_pos ha] at h1
        simp only [List.mem_singleton] at h1
        rw [h1]; exact ha
      · rw [if_neg ha] at h1
        simp at h1

/-- Every visit carries the flag of the node of its depth, and when no visited
list is empty every depth of the chain is visited. -/
theorem var_visits_levels {t : ndt_t} (h : var_dims t) :
    ∀ (idx : Int) (evs : List var_visit), var_visits t idx = .ok evs →
      (∀ e ∈ evs, e.active = level_active t e.depth) ∧
      ((∀ e ∈ evs, 0 < e.shape) →
        ∀ d : Nat, 1 ≤ d → (d : Int) ≤ t.ndim → ∃ e ∈ evs, e.depth = d) := by
  induction h with
  | dtype d hd =>
    intro idx evs hv
    rw [var_visits_ndim0 d idx hd] at hv
    simp only [Except.ok.injEq] at hv
    subst hv
    refine ⟨fun e he => by simp at he, ?_⟩
    intro _ d h1 h2
    omega
  | var type t offsets slices opt hty hb ih =>
    intro idx evs hv
    have hn := var_dims_ndim hty
    obtain ⟨⟨hd, isz, ht, hnd, _, _⟩, _, _, _, _⟩ := ndt_var_dim_node hb
    subst ht
    have hne : hd.ndim ≠ 0 := by omega
    simp only [var_visits] at hv
    rw [if_neg hne] at hv
    cases hvi : ndt_var_indices (.VarDim hd type isz (some offsets) slices) idx with
    | error e => rw [hvi] at hv; cases hv
    | ok r =>
      obtain ⟨start, step, shape⟩ := r
      rw [hvi] at hv
      simp only at hv
      by_cases hs : shape < 0
      · rw [if_pos hs] at hv; cases hv
      · rw [if_neg hs] at hv
        obtain ⟨rest, hr, hrest⟩ := visits_fold_rest
          (fun e => e.active = level_active type e.depth ∧ (e.depth : Int) ≤ type.ndim)
          (fun (i : Nat) => var_visits type (wrap_i64 (start + wrap_i64 ((i : Int) * step))))
          (List.range shape.toNat)
          (fun i _ es hes e he =>
            ⟨(ih _ es hes).1 e he, ((var_visits_struct hty _ es hes).1 e he).2.1⟩) _ evs hv
        rw [List.singleton_append] at hr
        refine ⟨?_, ?_⟩
        · intro e he
          rw [hr] at he
          rcases List.mem_cons.mp he with h1 | h1
          · subst h1
            simp only [level_active]
            rw [if_neg hne]
            simp
          · obtain ⟨b1, b2⟩ := hrest e h1
            rw [b1]
            simp only [level_active]
            rw [if_neg hne, if_neg (by omega)]
        · intro hpos d h1 h2
          have h2x : (d : Int) ≤ hd.ndim := h2
          by_cases htop : d = hd.ndim.toNat
          · refine ⟨{ depth := hd.ndim.toNat, active := true, shape := shape }, ?_, htop.symm⟩
            rw [hr]
            exact List.mem_cons_self _ _
          · have hsp : 0 < shape := by
              have := hpos { depth := hd.ndim.toNat, active := true, shape := shape }
                (by rw [hr]; exact List.mem_cons_self _ _)
              exact this
            have hrange : List.range shape.toNat = 0 :: (List.range (shape.toNat - 1)).map
                (fun i => i + 1) := by
              have e1 : shape.toNat = (shape.toNat - 1) + 1 := by omega
              rw [e1, List.range_succ_eq_map]
              simp
            rw [hrange] at hv
            obtain ⟨es, hes, hsub⟩ := visits_fold_first _ 0 _ _ evs hv
            obtain ⟨e, he, hed⟩ := (ih _ es hes).2
              (fun e he => hpos e (hsub e he)) d h1 (by omega)
            exact ⟨e, hsub e he, hed⟩
  | elem u type index t hty hb ih =>
    intro idx evs hv
    have hn := var_dims_ndim hty
    obtain ⟨hd, isz, offs, sl, ht, hnd, _⟩ := ndt_convert_to_var_elem_node hb
    subst ht
    have hne : hd.ndim ≠ 0 := by omega
    simp only [var_visits] at hv
    rw [if_neg hne] at hv
    cases hvi : ndt_var_indices (.VarDimElem hd type index isz (some offs) sl) idx with
    | error e => rw [hvi] at hv; cases hv
    | ok r =>
      obtain ⟨start, step, shape⟩ := r
      rw [hvi] at hv
      simp only at hv
      by_cases hs : shape < 0
      · rw [if_pos hs] at hv; cases hv
      · rw [if_neg hs] at hv
        cases hk : get_index shape index with
        | error e => rw [hk] at hv; cases hv
        | ok k =>
          rw [hk] at hv
          simp only at hv
          cases hvt : var_visits type (wrap_i64 (start + wrap_i64 (k * step))) with
          | error e => rw [hvt] at hv; cases hv
          | ok rest =>
            rw [hvt] at hv
            simp only [Except.ok.injEq] at hv
            subst hv
            obtain ⟨ia, ib⟩ := ih _ rest hvt
            have hbound := (var_visits_struct hty _ rest hvt).1
            refine ⟨?_, ?_⟩
            · intro e he
              rcases List.mem_cons.mp he with h1 | h1
              · subst h1
                simp only [level_active]
                rw [if_neg hne]
                simp
              · have b2 := (hbound e h1).2.1
                rw [ia e h1]
                simp only [level_active]
                rw [if_neg hne, if_neg (by omega)]
            · intro hpos d h1 h2
              have h2x : (d : Int) ≤ hd.ndim := h2
              by_cases htop : d = hd.ndim.toNat
              · exact ⟨{ depth := hd.ndim.toNat, active := false, shape := 1 },
                  List.mem_cons_self _ _, htop.symm⟩
              · obtain ⟨e, he, hed⟩ := ib
                  (fun e he => hpos e (List.mem_cons_of_mem _ he)) d h1 (by omega)
                exact ⟨e, List.mem_cons_of_mem _ he, hed⟩

/-- When no visited list is empty, the flag `active[d]` of the copy is the
flag of the node of depth `d`. -/
theorem depth_active_level {t : ndt_t} (h : var_dims t) (idx : Int) (evs : List var_visit)
    (hv : var_visits t idx = .ok evs) (hpos : ∀ e ∈ evs, 0 < e.shape) (d : Nat)
    (h1 : 1 ≤ d) (h2 : (d : Int) ≤ t.ndim) : depth_active evs d = level_active t d := by
  obtain ⟨ia, ib⟩ := var_visits_levels h idx evs hv
  obtain ⟨e, he, hed⟩ := ib hpos d h1 h2
  have hmem : e ∈ visits_at evs d := by
    unfold visits_at
    rw [List.mem_filter]
    exact ⟨he, by simp [hed]⟩
  have hne : visits_at evs d ≠ [] := List.ne_nil_of_mem hmem
  obtain ⟨x, hx1, hx2⟩ : ∃ x, (visits_at evs d).getLast? = some x ∧ x ∈ visits_at evs d :=
    ⟨_, List.getLast?_eq_getLast _ hne, List.getLast_mem hne⟩
  unfold depth_active
  rw [hx1]
  show x.active = level_active t d
  unfold visits_at at hx2
  rw [List.mem_filter] at hx2
  obtain ⟨l1, l2⟩ := hx2
  have l3 : x.depth = d := by simpa using l2
  rw [← l3]
  exact ia x l1

theorem var_copy_contiguous_ndim {t : ndt_t} (ht : var_dims t) (dtype u : ndt_t)
    (idx : Int) (h : var_copy_contiguous t dtype idx = .ok u) :
    ∃ evs, var_visits t idx = .ok evs ∧
      u.ndim = dtype.ndim + ((kept_depths evs t.ndim.toNat 1).length : Int) := by
  unfold var_copy_contiguous at h
  dsimp only at h
  cases h1 : var_copy_shapes false t { offsets_t.init with maxdim := t.ndim } idx with
  | error e => rw [h1] at h; cases h
  | ok m1 =>
    rw [h1] at h
    dsimp only at h
    cases h3 : var_copy_shapes true t
        { var_init_offsets m1 with index := List.replicate 17 0 } idx with
    | error e => rw [h3] at h; cases h
    | ok m3 =>
      rw [h3] at h
      dsimp only at h
      obtain ⟨evs, hev, hmd, hst⟩ := var_copy_passes ht idx m1 m3 h1 h3
      unfold var_from_offsets_and_dtype at h
      rw [hmd] at h
      have j := var_from_offsets_loop_ndim m3 t.ndim.toNat 1 dtype u h
      have hn := var_dims_ndim ht
      have hk := loop_tables_kept evs m3 t.ndim.toNat 1
        (fun d h1 h2 => hst d h1 (by omega))
      rw [hk, List.length_map] at j
      exact ⟨evs, hev, j⟩

/-- C36: for a chain of var dimensions `t` (`VarDim` or `VarDimElem`, sliced
or not) on which `ndt_copy_contiguous_dtype` succeeds, the `ndim` of the
result is `dtype.ndim` plus the number of depths that the copy keeps: the
depths that are visited and whose node is a `VarDim`. When no visited list is
empty, these are the `VarDim` levels of `t`, so that exactly the `VarDimElem`
depths are collapsed away; below an empty list no depth is visited, and the
`VarDim` levels there are collapsed as well. -/
theorem ndt_copy_contiguous_dtype_ndim (t dtype u : ndt_t) (idx : Int)
    (ht : var_dims t) (htag : t.tag = .VarDim ∨ t.tag = .VarDimElem)
    (h : ndt_copy_contiguous_dtype t dtype idx = .ok u) :
    ∃ evs, var_visits t idx = .ok evs ∧
      u.ndim = dtype.ndim + ((kept_depths evs t.ndim.toNat 1).length : Int) ∧
      (∀ d ∈ kept_depths evs t.ndim.toNat 1, depth_active evs d = true) ∧
      ((∀ e ∈ evs, 0 < e.shape) → u.ndim = dtype.ndim + (var_levels t : Int)) := by
  unfold ndt_copy_contiguous_dtype at h
  by_cases hab : ndt_is_abstract t = true ∨ ndt_is_abstract dtype = true
  · rw [if_pos hab] at h; cases h
  rw [if_neg hab] at h
  have h2 : var_copy_contiguous t dtype idx = .ok u := by
    rcases htag with h1 | h1 <;> rw [h1] at h <;> exact h
  obtain ⟨evs, hev, j⟩ := var_copy_contiguous_ndim ht dtype u idx h2
  have hn := var_dims_ndim ht
  refine ⟨evs, hev, j, kept_depths_active evs _ _, ?_⟩
  intro hpos
  rw [j, kept_depths_length,
    count_depths_congr (depth_active evs) (level_active t) t.ndim.toNat 1
      (fun d h1 h2 => depth_active_level ht idx evs hev hpos d h1 (by omega)),
    var_levels_count ht]

theorem ex_var_elem_float32_dims : var_dims ex_var_elem_float32 :=
  var_dims.var _ _ [0, 2] [] false
    (var_dims.elem ex_var_float32 ex_float32 1 _ (var_dims.dtype ex_float32 rfl) rfl) rfl

theorem ndt_copy_contiguous_dtype_ndim_witness :
    ∃ evs, var_visits ex_var_elem_float32 0 = .ok evs ∧
      ex_var_elem_copy.ndim =
        ex_int64.ndim + ((kept_depths evs ex_var_elem_float32.ndim.toNat 1).length : Int) ∧
      (∀ d ∈ kept_depths evs ex_var_elem_float32.ndim.toNat 1, depth_active evs d = true) ∧
      ((∀ e ∈ evs, 0 < e.shape) →
        ex_var_elem_copy.ndim = ex_int64.ndim + (var_levels ex_var_elem_float32 : Int)) :=
  ndt_copy_contiguous_dtype_ndim ex_var_elem_float32 ex_int64 ex_var_elem_copy 0
    ex_var_elem_float32_dims (Or.inl rfl) rfl

/-- The example of the witness: the outer list of 2 items is visited at depth
2, below each item the one item of the `VarDimElem` at depth 1; the copy is
`var * int64` with the table `[0, 2]`, of `ndim` 1 for the one `VarDim` level
of the two levels of the type. -/
theorem ex_var_elem_visits :
    var_visits ex_var_elem_float32 0 =
      .ok [{ depth := 2, active := true, shape := 2 },
           { depth := 1, active := false, shape := 1 },
           { depth := 1, active := false, shape := 1 }] ∧
    ex_var_elem_float32.ndim = 2 ∧ var_levels ex_var_elem_float32 = 1 ∧
    ex_var_elem_copy.ndim = 1 ∧ var_tables ex_var_elem_copy = [[0, 2]] := by
  refine ⟨by decide, by decide, by decide, by decide, by decide⟩

/-- C36, an empty list: `var * var * float32` over the offsets `[0, 2]` and
`[0, 3, 5]` with the slice `[0:0]` on the outer dimension is concrete and has
two `VarDim` levels and no `VarDimElem`; linear index 0 is in bounds and its
list has the shape 0, so that depth 1 is never visited. The copy over `int64`
succeeds and is `var * int64` with the table `[0, 0]`: its `ndim` is 1, not
2. -/
theorem ndt_copy_contiguous_empty_outer :
    var_levels ex_var_empty_outer = 2 ∧ ex_var_empty_outer.ndim = 2 ∧
    ex_var_empty_outer.tag = .VarDim ∧ ndt_is_concrete ex_var_empty_outer = true ∧
    ndt_var_indices ex_var_empty_outer 0 = .ok (0, 1, 0) ∧
    var_visits ex_var_empty_outer 0 = .ok [{ depth := 2, active := true, shape := 0 }] ∧
    ex_int64.ndim = 0 ∧
    ∃ u, ndt_copy_contiguous_dtype ex_var_empty_outer ex_int64 0 = .ok u ∧
      u.ndim = 1 ∧ var_tables u = [[0, 0]] ∧ u.ndim ≠ ex_int64.ndim + 2 := by
  refine ⟨by decide, by decide, by decide, by decide, by decide, by decide, by decide,
    built ex_int64 (ndt_copy_contiguous_dtype ex_var_empty_outer ex_int64 0), rfl,
    by decide, by decide, by decide⟩

theorem ex_var_empty_outer_dims : var_dims ex_var_empty_outer :=
  var_dims.var _ _ [0, 2] [{ start := 0, stop := 0, step := 1 }] false
    (var_dims.var ex_float32 _ [0, 3, 5] [] false (var_dims.dtype ex_float32 rfl) rfl) rfl

/-! ## Explicit pads against the computed pads -/

theorem init_loop_lengths (pack : Option Nat) :
    ∀ (fs : List ndt_field_t) (i : Nat) (s s' : fields_layout),
      init_concrete_fields_loop pack fs i s = .ok s' →
      s'.offsets.length = s.offsets.length + fs.length ∧
      s'.pad.length = s.pad.length + (if i > 0 then fs.length else fs.length - 1) := by
  intro fs
  induction fs with
  | nil =>
    intro i s s' h
    simp only [init_concrete_fields_loop, Except.ok.injEq] at h
    subst h
    simp
  | cons f fs ih =>
    intro i s s' h
    simp only [init_concrete_fields_loop] at h
    cases ha : field_align pack f with
    | error e => rw [ha] at h; cases h
    | ok a =>
      rw [ha] at h
      simp only at h
      obtain ⟨h1, h2⟩ := ih (i + 1) _ s' h
      rw [if_pos (Nat.succ_pos i)] at h2
      by_cases hi : i > 0
      · simp only [init_concrete_fields_step, hi, if_true, List.length_append,
          List.length_singleton] at h1 h2
        rw [if_pos hi]
        simp only [List.length_cons]
        omega
      · simp only [init_concrete_fields_step, hi, if_false, List.length_append,
          List.length_singleton] at h1 h2
        rw [if_neg hi]
        simp only [List.length_cons]
        omega

theorem stored_pads_length {fields : List ndt_field_t} {pack : Option Nat} {m : Nat}
    {s : fields_layout} (size : Int)
    (hs : init_concrete_fields_loop pack fields 0 (init_layout m) = .ok s) :
    (s.pad ++ last_pad fields s.offsets size).length = fields.length := by
  obtain ⟨h1, h2⟩ := init_loop_lengths pack fields 0 _ s hs
  simp only [init_layout, List.length_nil, Nat.zero_add, gt_iff_lt, Nat.lt_irrefl,
    if_false] at h1 h2
  rw [List.length_append, h2]
  unfold last_pad
  cases hf : fields.getLast? with
  | none =>
    have : fields = [] := List.getLast?_eq_none_iff.mp hf
    subst this
    rfl
  | some f =>
    have hne : fields ≠ [] := by
      intro h0
      rw [h0] at hf
      cases hf
    have hpos : 0 < fields.length := List.length_pos.mpr hne
    cases ho : s.offsets.getLast? with
    | none =>
      have : s.offsets = [] := List.getLast?_eq_none_iff.mp ho
      rw [this] at h1
      simp only [List.length_nil] at h1
      omega
    | some o =>
      simp only [List.length_singleton]
      omega

/-- Without overflow and attribute error, `init_concrete_fields` fails with a
`ValueError` exactly when an explicit pad differs from the computed pad, and
succeeds otherwise. -/
theorem init_concrete_fields_computed {fields : List ndt_field_t} {align pack : Option Nat}
    (hattr : attrs_valid fields align pack)
    (hov : layout_overflows fields align pack = false) :
    (init_concrete_fields fields align pack = .error .ValueError ↔
      computed_pad_mismatch fields align pack) ∧
    (init_concrete_fields fields align pack = .error .ValueError ∨
      ∃ c, init_concrete_fields fields align pack = .ok c) := by
  have hga := get_align_of_power hattr.1
  have hgp := get_align_of_power (fun x hx => (hattr.2 x hx).1)
  obtain ⟨s, hs⟩ := loop_succeeds pack fields 0 (init_layout (align.getD 1))
    (fun p hp' => (hattr.2 p hp').2)
  have hsz : (round_up s.offset s.maxalign s.overflow).2 = false := by
    unfold layout_overflows at hov
    simpa only [hga, hs] using hov
  have hcp : computed_pads fields align pack =
      s.pad ++ last_pad fields s.offsets (round_up s.offset s.maxalign s.overflow).1 := by
    unfold computed_pads
    simp only [hga, hs]
  obtain ⟨c1, c2⟩ := check_explicit_pads_iff fields (computed_pads fields align pack)
    (by rw [hcp]; exact (stored_pads_length _ hs).symm)
  unfold init_concrete_fields
  simp only [hga, hgp, hs, hsz]
  rw [← hcp]
  unfold computed_pad_mismatch
  rw [← c2]
  rcases c1 with c1 | c1
  · simp [c1]
  · simp [c1]

/-- For fields of a size that is not negative, the computed pads are the pads
of the layout rules. -/
theorem computed_pads_natural {fields : List ndt_field_t} {align pack : Option Nat}
    (hwf : ∀ f ∈ fields, concrete_field f) (ha : attr_u16 align) (hp : attr_u16 pack)
    (hattr : attrs_valid fields align pack)
    (hov : layout_overflows fields align pack = false) :
    computed_pads fields align pack = natural_pads fields align pack := by
  have hga := get_align_of_power hattr.1
  have hgp := get_align_of_power (fun x hx => (hattr.2 x hx).1)
  obtain ⟨s, hs⟩ := loop_succeeds pack fields 0 (init_layout (align.getD 1))
    (fun p hp' => (hattr.2 p hp').2)
  have hsz : (round_up s.offset s.maxalign s.overflow).2 = false := by
    unfold layout_overflows at hov
    simpa only [hga, hs] using hov
  obtain ⟨hok, hm0e, hm0pos, hm0le⟩ := attrs_ok hwf ha hp hga hgp
  obtain ⟨_, _, r3, _⟩ := layout_stage_closed hok hm0e hm0pos hm0le hs hsz
  unfold computed_pads
  simp only [hga, hs]
  exact r3

theorem fields_access_all_concrete (fields : List ndt_field_t)
    (hacc : ∀ f ∈ fields, f.access = .Concrete) :
    fields_access .Concrete fields = .Concrete :=
  fields_access_of_concrete fields hacc

/-- C6 (as amended): for every list of concrete fields whose types pass the
type invariants, whose layout does not overflow and whose attributes raise no
error, a tuple that is not variadic fails with `ValueError` if and only if some
field declares an explicit pad that differs from the pad computed for that
field; so does a record that is not variadic, whose fields are named. For
fields of a size that is not negative (and alignments in the range of
`uint16_t`) the computed pads are the pads of the layout rules. -/
theorem ndt_tuple_record_pad_error (fields : List ndt_field_t) (align pack : Option Nat)
    (opt : Bool) (hacc : ∀ f ∈ fields, f.access = .Concrete)
    (hinv : check_fields_invariants fields = .ok ())
    (hattr : attrs_valid fields align pack)
    (hov : layout_overflows fields align pack = false) :
    (ndt_tuple .Nonvariadic fields align pack opt = .error .ValueError ↔
      computed_pad_mismatch fields align pack) ∧
    ((∀ f ∈ fields, f.name.isSome = true) →
      (ndt_record .Nonvariadic fields align pack opt = .error .ValueError ↔
        computed_pad_mismatch fields align pack)) ∧
    ((∀ f ∈ fields, concrete_field f) → attr_u16 align → attr_u16 pack →
      computed_pads fields align pack = natural_pads fields align pack ∧
      (computed_pad_mismatch fields align pack ↔ pad_mismatch fields align pack)) := by
  obtain ⟨h1, h2⟩ := init_concrete_fields_computed hattr hov
  have hfa := fields_access_all_concrete fields hacc
  refine ⟨?_, ?_, ?_⟩
  · unfold ndt_tuple
    simp only [hinv, hfa, if_false, reduceCtorEq]
    rw [← h1]
    rcases h2 with h2 | ⟨c, h2⟩ <;> simp [h2]
  · intro hn
    obtain ⟨names, hnames⟩ := fields_names_some fields hn
    unfold ndt_record
    simp only [hinv, hfa, if_false, reduceCtorEq, hnames]
    rw [← h1]
    rcases h2 with h2 | ⟨c, h2⟩ <;> simp [h2]
  · intro hwf ha hp
    have e := computed_pads_natural hwf ha hp hattr hov
    refine ⟨e, ?_⟩
    unfold computed_pad_mismatch pad_mismatch
    rw [e]

/-- The tuple `(int32 pad=1, float64)` fails with `ValueError`: the computed
pad is 4, the pad of the rules. With `pad=4` the tuple is built. The tuple
`(fixed_bytes(size=-12, align=4) pad=0, int32)` fails with `ValueError` as
well: the pad computed for the first field is 4, and with `pad=4` the tuple is
built. -/
theorem ndt_tuple_record_pad_error_witness :
    (ndt_tuple .Nonvariadic (ex_padded_fields 1) none none false = .error .ValueError ↔
      computed_pad_mismatch (ex_padded_fields 1) none none) ∧
    computed_pads (ex_padded_fields 1) none none = [4, 0] ∧
    ndt_tuple .Nonvariadic (ex_padded_fields 1) none none false = .error .ValueError ∧
    ndt_tuple .Nonvariadic (ex_padded_fields 4) none none false =
      .ok (.Tuple { access := .Concrete, flags := {}, ndim := 0, datasize := 16, align := 8 }
        .Nonvariadic [ex_int32, ex_float64] [0, 8] [4, 8] [4, 0]) ∧
    (ndt_tuple .Nonvariadic (ex_neg_fields (some 0)) none none false = .error .ValueError ↔
      computed_pad_mismatch (ex_neg_fields (some 0)) none none) ∧
    computed_pads (ex_neg_fields (some 0)) none none = [4, 4] ∧
    ndt_tuple .Nonvariadic (ex_neg_fields (some 0)) none none false = .error .ValueError ∧
    ndt_tuple .Nonvariadic (ex_neg_fields (some 4)) none none false =
      .ok (.Tuple { access := .Concrete, flags := {}, ndim := 0, datasize := 0, align := 4 }
        .Nonvariadic [ex_bytes_neg, ex_int32] [0, -8] [4, 4] [4, 4]) :=
  ⟨(ndt_tuple_record_pad_error (ex_padded_fields 1) none none false
      (by decide) rfl (attrs_valid_none _) rfl).1, by decide, rfl, rfl,
   (ndt_tuple_record_pad_error (ex_neg_fields (some 0)) none none false
      (by decide) rfl (attrs_valid_none _) rfl).1, by decide, rfl, rfl⟩

/-- C6, counterexample: (1) the variadic tuple `(int32 pad=1, float64, ...)` has
concrete fields, no overflow and no attribute error, and its first field
declares a pad that differs from the pad 4 that is computed for it (the pad of
the rules), yet `ndt_tuple` succeeds: the node is abstract and no pad is
checked. (2) The tuple with the single field `1 * ... * 1 * int64` of 16
dimensions and `pad=1` (the computed pad is 0) fails with `TypeError`, not
`ValueError`. -/
theorem ndt_tuple_pad_unchecked :
    ((∀ f ∈ ex_padded_fields 1, concrete_field f) ∧
      layout_overflows (ex_padded_fields 1) none none = false ∧
      computed_pads (ex_padded_fields 1) none none = [4, 0] ∧
      computed_pad_mismatch (ex_padded_fields 1) none none ∧
      pad_mismatch (ex_padded_fields 1) none none ∧
      ndt_tuple .Variadic (ex_padded_fields 1) none none false =
        .ok (.Tuple { access := .Abstract, flags := {}, ndim := 0, datasize := 0
                      align := UINT16_MAX }
          .Variadic [ex_int32, ex_float64] [0, 0] [1, 1] [0, 0])) ∧
    (fixed_chain 16 ex_int64 = .ok ex_dims16 ∧
      concrete_field (plain_field none ex_dims16 (some 1)) ∧
      layout_overflows [plain_field none ex_dims16 (some 1)] none none = false ∧
      computed_pads [plain_field none ex_dims16 (some 1)] none none = [0] ∧
      computed_pad_mismatch [plain_field none ex_dims16 (some 1)] none none ∧
      pad_mismatch [plain_field none ex_dims16 (some 1)] none none ∧
      ndt_tuple .Nonvariadic [plain_field none ex_dims16 (some 1)] none none false =
        .error .TypeError) := by
  refine ⟨⟨ex_padded_fields_concrete 1, rfl, by decide, ⟨0, _, rfl, rfl, by decide⟩,
    ⟨0, _, rfl, rfl, by decide⟩, rfl⟩, ?_⟩
  exact ⟨rfl, ⟨rfl, by decide, by decide, by decide⟩, rfl, by decide,
    ⟨0, _, rfl, rfl, by decide⟩, ⟨0, _, rfl, rfl, by decide⟩, rfl⟩

/-! ## C18: the offset tables and the nesting of the copy -/

theorem kept_depths_mem (evs : List var_visit) :
    ∀ (k i d : Nat), d ∈ kept_depths evs k i ↔ (i ≤ d ∧ d < i + k ∧ depth_active evs d = true) := by
  intro k
  induction k with
  | zero =>
    intro i d
    simp only [kept_depths, List.not_mem_nil, false_iff]
    omega
  | succ k ih =>
    intro i d
    simp only [kept_depths, List.mem_append, ih]
    by_cases ha : depth_active evs i = true
    · rw [if_pos ha]
      simp only [List.mem_singleton]
      constructor
      · rintro (⟨h1, h2, h3⟩ | h)
        · exact ⟨by omega, by omega, h3⟩
        · subst h
          exact ⟨le_refl _, by omega, ha⟩
      · rintro ⟨h1, h2, h3⟩
        by_cases hd : d = i
        · exact Or.inr hd
        · exact Or.inl ⟨by omega, by omega, h3⟩
    · rw [if_neg ha]
      simp only [List.not_mem_nil, or_false]
      constructor
      · rintro ⟨h1, h2, h3⟩
        exact ⟨by omega, by omega, h3⟩
      · rintro ⟨h1, h2, h3⟩
        have hd : d ≠ i := by
          intro h
          subst h
          exact ha h3
        exact ⟨by omega, by omega, h3⟩

/-- C18: for a chain of var dimensions `t` (`VarDim` or `VarDimElem`, sliced or
not) on which `ndt_copy_contiguous_dtype` succeeds, the offset tables of the
result, outermost first, belong to the depths that the copy keeps (the `VarDim`
depths that are visited); every table starts at 0 and is the running sum, in
the `int32_t` arithmetic of the copy, of the shapes that `ndt_var_indices`
reports for the lists visited at that depth, in visiting order. Where the
sums of the shapes fit `int32_t`, it is the plain running sum. When no visited
list is empty, the kept depths are the `VarDim` levels of `t`: the result has
one var dimension for every `VarDim` level of `t`, whose lists have the shapes
of the lists of that level, which is the ragged nesting of the selected part
of `t`. Below an empty list no depth is visited, see
`ndt_copy_contiguous_tables_empty_outer`. -/
theorem ndt_copy_contiguous_offset_tables (t dtype u : ndt_t) (idx : Int)
    (ht : var_dims t) (htag : t.tag = .VarDim ∨ t.tag = .VarDimElem)
    (hd : is_dtype dtype) (h : ndt_copy_contiguous_dtype t dtype idx = .ok u) :
    ∃ evs, var_visits t idx = .ok evs ∧
      var_tables u =
        (kept_depths evs t.ndim.toNat 1).map (fun d => running_sum32 (shapes_at evs d)) ∧
      (∀ tbl ∈ var_tables u, tbl.head? = some 0) ∧
      ((∀ d ∈ kept_depths evs t.ndim.toNat 1, (shapes_at evs d).sum ≤ INT32_MAX) →
        var_tables u =
          (kept_depths evs t.ndim.toNat 1).map (fun d => running_sum (shapes_at evs d))) ∧
      ((∀ e ∈ evs, 0 < e.shape) →
        (var_tables u).length = var_levels t ∧
        ∀ d, d ∈ kept_depths evs t.ndim.toNat 1 ↔
          (1 ≤ d ∧ (d : Int) ≤ t.ndim ∧ level_active t d = true)) := by
  unfold ndt_copy_contiguous_dtype at h
  by_cases hab : ndt_is_abstract t = true ∨ ndt_is_abstract dtype = true
  · rw [if_pos hab] at h; cases h
  rw [if_neg hab] at h
  have h2 : var_copy_contiguous t dtype idx = .ok u := by
    rcases htag with h1 | h1 <;> rw [h1] at h <;> exact h
  obtain ⟨evs, hev, j1, _, _, _⟩ := var_copy_contiguous_tables ht dtype u idx hd h2
  obtain ⟨hbound, _⟩ := var_visits_struct ht idx evs hev
  have hn := var_dims_ndim ht
  refine ⟨evs, hev, j1, ?_, ?_, ?_⟩
  · intro tbl htbl
    rw [j1] at htbl
    obtain ⟨d, _, hdt⟩ := List.mem_map.mp htbl
    rw [← hdt]
    exact running_sum32_head _
  · intro hfit
    rw [j1]
    apply List.map_congr_left
    intro d hdm
    apply running_sum32_eq _ _ (hfit d hdm)
    intro s hs
    unfold shapes_at at hs
    obtain ⟨e, he, hes⟩ := List.mem_map.mp hs
    rw [← hes]
    unfold visits_at at he
    exact (hbound e (List.mem_of_mem_filter he)).2.2
  · intro hpos
    have hlev : ∀ d, 1 ≤ d → d < 1 + t.ndim.toNat → depth_active evs d = level_active t d :=
      fun d h1 h2 => depth_active_level ht idx evs hev hpos d h1 (by omega)
    refine ⟨?_, ?_⟩
    · rw [j1, List.length_map, kept_depths_length,
        count_depths_congr (depth_active evs) (level_active t) t.ndim.toNat 1 hlev,
        var_levels_count ht]
    · intro d
      rw [kept_depths_mem]
      constructor
      · rintro ⟨h1, h2, h3⟩
        refine ⟨h1, by omega, ?_⟩
        rw [← hlev d h1 h2]
        exact h3
      · rintro ⟨h1, h2, h3⟩
        have h2x : d < 1 + t.ndim.toNat := by omega
        refine ⟨h1, h2x, ?_⟩
        rw [hlev d h1 h2x]
        exact h3

theorem ndt_copy_contiguous_offset_tables_witness :
    ∃ evs, var_visits ex_var_sliced_float32 0 = .ok evs ∧
      var_tables ex_var_sliced_copy =
        (kept_depths evs ex_var_sliced_float32.ndim.toNat 1).map
          (fun d => running_sum32 (shapes_at evs d)) ∧
      (∀ tbl ∈ var_tables ex_var_sliced_copy, tbl.head? = some 0) ∧
      ((∀ d ∈ kept_depths evs ex_var_sliced_float32.ndim.toNat 1,
          (shapes_at evs d).sum ≤ INT32_MAX) →
        var_tables ex_var_sliced_copy =
          (kept_depths evs ex_var_sliced_float32.ndim.toNat 1).map
            (fun d => running_sum (shapes_at evs d))) ∧
      ((∀ e ∈ evs, 0 < e.shape) →
        (var_tables ex_var_sliced_copy).length = var_levels ex_var_sliced_float32 ∧
        ∀ d, d ∈ kept_depths evs ex_var_sliced_float32.ndim.toNat 1 ↔
          (1 ≤ d ∧ (d : Int) ≤ ex_var_sliced_float32.ndim ∧
            level_active ex_var_sliced_float32 d = true)) :=
  ndt_copy_contiguous_offset_tables ex_var_sliced_float32 ex_int64 ex_var_sliced_copy 0
    ex_var_sliced_float32_dims (Or.inl rfl) ex_int64_is_dtype rfl

/-- C18, an empty list: `var * var * float32` over the offsets `[0, 2]` and
`[0, 3, 5]` with the slice `[0:0]` on the outer dimension selects an empty list
of lists, two levels of var dimensions. Linear index 0 is in bounds, its list
has the shape 0 and the inner level is never visited; the copy over `int64`
succeeds with the one offset table `[0, 0]`: the result is `var * int64`, an
empty list of numbers, and the inner level of the nesting is lost. -/
theorem ndt_copy_contiguous_tables_empty_outer :
    var_dims ex_var_empty_outer ∧ ex_var_empty_outer.tag = .VarDim ∧
    ndt_is_concrete ex_var_empty_outer = true ∧
    var_levels ex_var_empty_outer = 2 ∧
    ndt_var_indices ex_var_empty_outer 0 = .ok (0, 1, 0) ∧
    var_visits ex_var_empty_outer 0 = .ok [{ depth := 2, active := true, shape := 0 }] ∧
    ∃ u, ndt_copy_contiguous_dtype ex_var_empty_outer ex_int64 0 = .ok u ∧
      var_tables u = [[0, 0]] ∧ (var_tables u).length ≠ var_levels ex_var_empty_outer ∧
      (ndt_dims_dtype u).1.length = 1 :=
  ⟨ex_var_empty_outer_dims, by decide, by decide, by decide, by decide, by decide,
    built ex_int64 (ndt_copy_contiguous_dtype ex_var_empty_outer ex_int64 0), rfl,
    by decide, by decide, by decide⟩

/-! ## C29: the largest shape over any inner type -/

theorem fixed_dim_size_inv {type t : ndt_t} {shape step : Int}
    (h : ndt_fixed_dim type shape step = .ok t) (hc : type.access = .Concrete)
    (hi : size_inv type) : size_inv t := by
  obtain ⟨h0, _, hov, ht⟩ := ndt_fixed_dim_concrete hc h
  obtain ⟨_, e0, e1⟩ := fixed_datasize_exact hov
  subst ht
  unfold size_inv
  show (fixed_datasize type shape (fixed_step type step false).1 (ndt_itemsize type)
      (fixed_step type step false).2).1 = 0 ∨
    (0 < ndt_itemsize type ∧ ndt_itemsize type ≤ (fixed_datasize type shape
      (fixed_step type step false).1 (ndt_itemsize type) (fixed_step type step false).2).1) ∨
    (ndt_itemsize type < 0 ∧ (fixed_datasize type shape
      (fixed_step type step false).1 (ndt_itemsize type) (fixed_step type step false).2).1 ≤
        ndt_itemsize type)
  by_cases hz : shape = 0 ∨ type.datasize = 0
  · exact Or.inl (e0 hz)
  · have hs : shape ≠ 0 := fun h => hz (Or.inl h)
    have hd : type.datasize ≠ 0 := fun h => hz (Or.inr h)
    rw [e1 hs hd]
    have hk : 0 ≤ (shape - 1) * |(fixed_step type step false).1| :=
      mul_nonneg (by omega) (abs_nonneg _)
    generalize (shape - 1) * |(fixed_step type step false).1| = k at hk
    unfold size_inv at hi
    rcases hi with hi | ⟨p1, p2⟩ | ⟨n1, n2⟩
    · exact absurd hi hd
    · right; left
      have := mul_nonneg hk (le_of_lt p1)
      exact ⟨p1, by omega⟩
    · right; right
      have := mul_nonpos_of_nonneg_of_nonpos hk (le_of_lt n1)
      exact ⟨n1, by omega⟩

theorem fixed_built_size_inv {t : ndt_t} (h : fixed_built t) :
    t.access = .Concrete → t.tag ≠ .VarDim → t.tag ≠ .VarDimElem → size_inv t := by
  induction h with
  | base d hd =>
    intro _ h2 h3
    unfold size_inv
    rw [ndt_itemsize_not_dim hd h2 h3]
    omega
  | dim type t shape step _ h ih =>
    intro hc _ _
    obtain ⟨hacc, _⟩ := ndt_fixed_dim_node h
    have htc : type.access = .Concrete := by rw [← hacc]; exact hc
    have hinv : check_fixed_invariants type = .ok () := by
      unfold ndt_fixed_dim at h
      cases hi : check_fixed_invariants type with
      | error e => rw [hi] at h; cases h
      | ok v => rfl
    obtain ⟨t1, t2, _⟩ := check_fixed_invariants_tag hinv
    exact fixed_dim_size_inv h htc (ih htc t1 t2)
  | dim_tag type t tag shape step _ h ih =>
    intro hc _ _
    unfold ndt_fixed_dim_tag at h
    split at h
    · rename_i hd c sh ty isz st hfd
      obtain ⟨hacc, _⟩ := ndt_fixed_dim_node hfd
      simp only [Except.ok.injEq] at h
      subst h
      by_cases htag : tag ≠ .RequireNA
      · simp only [ndt_t.access, ndt_t.hdr, if_pos htag] at hc
        cases hc
      · simp only [ndt_t.access, ndt_t.hdr, if_neg htag] at hc
        have htc : type.access = .Concrete := by rw [← hacc]; exact hc
        have hinv : check_fixed_invariants type = .ok () := by
          unfold ndt_fixed_dim at hfd
          cases hi : check_fixed_invariants type with
          | error e => rw [hi] at hfd; cases hfd
          | ok v => rfl
        obtain ⟨t1, t2, _⟩ := check_fixed_invariants_tag hinv
        have := fixed_dim_size_inv hfd htc (ih htc t1 t2)
        rw [if_neg htag]
        exact this
    · rename_i hne
      obtain ⟨_, hd, isz, st, ht⟩ := ndt_fixed_dim_node h
      subst ht
      exact absurd h (hne _ _ _ _ _ _)

theorem tdiv_ge_one_pos {D I : Int} (h1 : 0 < I) (h2 : I ≤ D) : 1 ≤ Int.tdiv D I := by
  rw [Int.tdiv_eq_ediv (by omega) (by omega)]
  exact Int.le_ediv_of_mul_le h1 (by omega)

theorem tdiv_ge_one_neg {D I : Int} (h1 : I < 0) (h2 : D ≤ I) : 1 ≤ Int.tdiv D I := by
  have e : Int.tdiv D I = Int.tdiv (-D) (-I) := by
    rw [Int.tdiv_neg, Int.neg_tdiv, neg_neg]
  rw [e]
  exact tdiv_ge_one_pos (by omega) (by omega)

theorem tdiv_self_one {D : Int} (h : D ≠ 0) : Int.tdiv D D = 1 := by
  rcases lt_or_gt_of_ne h with h1 | h1
  · have e : Int.tdiv D D = Int.tdiv (-D) (-D) := by
      rw [Int.tdiv_neg, Int.neg_tdiv, neg_neg]
    rw [e, Int.tdiv_eq_ediv (by omega) (by omega)]
    exact Int.ediv_self (by omega)
  · rw [Int.tdiv_eq_ediv (by omega) (by omega)]
    exact Int.ediv_self (by omega)

/-- The overflow flag of `fixed_datasize` for the shape `INT64_MAX`, a step of
at least 1 and a type that is not empty: raised when the step or the itemsize
is at least 2 in absolute value. -/
theorem max_shape_flag_raised (type : ndt_t) (s I : Int) (ov : Bool)
    (hd : type.datasize ≠ 0) (hs : 1 ≤ s) (h2 : 2 ≤ s ∨ 2 ≤ I ∨ I ≤ -2) :
    (fixed_datasize type INT64_MAX s I ov).2 = true := by
  unfold fixed_datasize
  have hm : ¬ (INT64_MAX = 0 ∨ type.datasize = 0) := by
    rintro (h | h)
    · revert h; decide
    · exact hd h
  rw [if_neg hm]
  have habs : ABSi64 s ov = (s, ov) := by
    unfold ABSi64
    rw [if_neg (by simp only [INT64_MIN]; omega), if_pos (by omega)]
  simp only [habs, ADDi64, MULi64, Bool.or_eq_true, Bool.not_eq_true']
  by_cases hs2 : 2 ≤ s
  · left; left; right
    simp only [fits_i64, INT64_MIN, INT64_MAX, Bool.and_eq_false_iff, decide_eq_false_iff_not]
    omega
  · have hs1 : s = 1 := by omega
    subst hs1
    left; right
    have hw : wrap_i64 ((INT64_MAX - 1) * 1) = 9223372036854775806 := by decide
    rw [hw]
    simp only [fits_i64, INT64_MIN, INT64_MAX, Bool.and_eq_false_iff, decide_eq_false_iff_not]
    omega

theorem max_shape_flag_one (type : ndt_t) (h : type.datasize = 1 ∨ type.datasize = -1) :
    (fixed_datasize type INT64_MAX 1 type.datasize false).2 = false := by
  unfold fixed_datasize
  rcases h with h | h <;> rw [h] <;> decide

theorem DIVi64_self {D : Int} (hd : D ≠ 0) : DIVi64 D D false = (1, false) := by
  unfold DIVi64
  have hn : ¬ (D = 0 ∨ (D = INT64_MIN ∧ D = -1)) := by
    rintro (h | ⟨h1, h2⟩)
    · exact hd h
    · rw [h2] at h1
      revert h1
      decide
  rw [if_neg hn, tdiv_self_one hd]

/-- The default step over a type that is not empty and whose itemsize is not
0: the quotient of data size and itemsize, which is 1 over a type that is no
fixed dimension. -/
theorem fixed_step_div (type : ndt_t) (hinv : check_fixed_invariants type = .ok ())
    (hd : type.datasize ≠ 0) (hi : ndt_itemsize type ≠ 0) :
    fixed_step type INT64_MAX false = DIVi64 type.datasize (ndt_itemsize type) false := by
  obtain ⟨t1, t2, _⟩ := check_fixed_invariants_tag hinv
  by_cases htag : type.tag = .FixedDim
  · cases type with
    | FixedDim hd c sh ty isz st =>
      simp only [ndt_itemsize] at hi
      simp only [fixed_step, ne_eq, not_true_eq_false, if_false, ndt_itemsize, if_neg hi]
      rfl
    | Scalar tg hh =>
      have e : fixed_step (.Scalar tg hh) INT64_MAX false = (1, false) := by
        simp [fixed_step]
      rw [e]
      have hd2 : hh.datasize ≠ 0 := hd
      show (1, false) = DIVi64 hh.datasize hh.datasize false
      rw [DIVi64_self hd2]
    | _ => cases htag
  · rw [fixed_step_not_fixed htag, ndt_itemsize_not_dim htag t1 t2, DIVi64_self hd]

/-- The overflow flag of `ndt_fixed_dim(type, INT64_MAX, default step)` over a
concrete type with the size invariant: raised exactly when the data size is at
least 2 in absolute value, or 0 with a default step that overflows. -/
theorem max_shape_flag (type : ndt_t) (hinv : check_fixed_invariants type = .ok ())
    (hi : size_inv type) :
    (fixed_datasize type INT64_MAX (fixed_step type INT64_MAX false).1 (ndt_itemsize type)
      (fixed_step type INT64_MAX false).2).2 = true ↔
    (2 ≤ type.datasize ∨ type.datasize ≤ -2 ∨
      (type.datasize = 0 ∧ (fixed_step type INT64_MAX false).2 = true)) := by
  by_cases hz : type.datasize = 0
  · have e : fixed_datasize type INT64_MAX (fixed_step type INT64_MAX false).1
        (ndt_itemsize type) (fixed_step type INT64_MAX false).2 =
        (0, (fixed_step type INT64_MAX false).2) := by
      unfold fixed_datasize
      rw [if_pos (Or.inr hz)]
    rw [e]
    constructor
    · intro h
      exact Or.inr (Or.inr ⟨hz, h⟩)
    · rintro (h | h | ⟨_, h⟩)
      · omega
      · omega
      · exact h
  · have hI : ndt_itemsize type ≠ 0 := by
      unfold size_inv at hi
      rcases hi with hi | ⟨p1, _⟩ | ⟨n1, _⟩
      · exact absurd hi hz
      · omega
      · omega
    rw [fixed_step_div type hinv hz hI]
    generalize hIe : ndt_itemsize type = I at hi hI
    unfold size_inv at hi
    rw [hIe] at hi
    by_cases hmin : type.datasize = INT64_MIN ∧ I = -1
    · have e : DIVi64 type.datasize I false = (0, true) := by
        unfold DIVi64
        rw [if_pos (Or.inr hmin)]
      rw [e]
      have hf : (fixed_datasize type INT64_MAX 0 I true).2 = true := by
        unfold fixed_datasize
        have hm : ¬ (INT64_MAX = 0 ∨ type.datasize = 0) := by
          rintro (h | h)
          · revert h; decide
          · exact hz h
        rw [if_neg hm]
        simp [ABSi64, MULi64, ADDi64, INT64_MIN]
      simp only [hf, true_iff]
      right; left
      rw [hmin.1]
      decide
    · have e : DIVi64 type.datasize I false = (Int.tdiv type.datasize I, false) := by
        unfold DIVi64
        have hn : ¬ (I = 0 ∨ (type.datasize = INT64_MIN ∧ I = -1)) := by
          rintro (h | h)
          · exact hI h
          · exact hmin h
        rw [if_neg hn]
      rw [e]
      have hs : 1 ≤ Int.tdiv type.datasize I := by
        rcases hi with hi | ⟨p1, p2⟩ | ⟨n1, n2⟩
        · exact absurd hi hz
        · exact tdiv_ge_one_pos p1 p2
        · exact tdiv_ge_one_neg n1 n2
      by_cases hbig : 2 ≤ type.datasize ∨ type.datasize ≤ -2
      · have h2 : 2 ≤ Int.tdiv type.datasize I ∨ 2 ≤ I ∨ I ≤ -2 := by
          by_cases hI1 : I = 1
          · left
            rw [hI1, Int.tdiv_one]
            rcases hi with hi | ⟨p1, p2⟩ | ⟨n1, n2⟩ <;> omega
          · by_cases hI2 : I = -1
            · left
              rw [hI2, Int.tdiv_neg, Int.tdiv_one]
              rcases hi with hi | ⟨p1, p2⟩ | ⟨n1, n2⟩ <;> omega
            · right
              omega
        have hf := max_shape_flag_raised type _ I false hz hs h2
        simp only [hf, true_iff]
        rcases hbig with h | h
        · exact Or.inl h
        · exact Or.inr (Or.inl h)
      · have hone : type.datasize = 1 ∨ type.datasize = -1 := by omega
        have hIeq : I = type.datasize := by
          rcases hi with hi | ⟨p1, p2⟩ | ⟨n1, n2⟩ <;> omega
        rw [hIeq, tdiv_self_one hz, max_shape_flag_one type hone]
        constructor
        · intro h; cases h
        · rintro (h | h | ⟨h, _⟩) <;> omega

/-- C29 (as amended): for every inner type that the fixed-dimension invariants
accept and in which every fixed dimension has been built by `ndt_fixed_dim` or
`ndt_fixed_dim_tag`, `ndt_fixed_dim` with the shape `INT64_MAX` and the default
step fails
with `ValueError` exactly when the inner type is concrete and its data size is
at least 2 in absolute value, or is 0 with a default step that overflows; in
every other case, so for an abstract inner type and for the data sizes 1 and
-1, the dimension is built. The default step overflows only over a fixed
dimension, and with the data size 0 only over one whose itemsize is 0 (the
step is then `shape * step` of that dimension). -/
theorem ndt_fixed_dim_max_shape (type : ndt_t)
    (hinv : check_fixed_invariants type = .ok ()) (hb : fixed_built type) :
    (ndt_fixed_dim type INT64_MAX INT64_MAX = .error .ValueError ↔
      (type.access = .Concrete ∧
        (2 ≤ type.datasize ∨ type.datasize ≤ -2 ∨
          (type.datasize = 0 ∧ (fixed_step type INT64_MAX false).2 = true)))) ∧
    (ndt_fixed_dim type INT64_MAX INT64_MAX = .error .ValueError ∨
      ∃ u, ndt_fixed_dim type INT64_MAX INT64_MAX = .ok u ∧ fixed_shape u = INT64_MAX) ∧
    (type.tag ≠ .FixedDim ∨ (type.datasize = 0 ∧ ndt_itemsize type ≠ 0) →
      (fixed_step type INT64_MAX false).2 = false) := by
  obtain ⟨t1, t2, _⟩ := check_fixed_invariants_tag hinv
  have hs : ¬ (INT64_MAX < 0) := by decide
  have hstep : type.tag ≠ .FixedDim ∨ (type.datasize = 0 ∧ ndt_itemsize type ≠ 0) →
      (fixed_step type INT64_MAX false).2 = false := by
    rintro (h | ⟨h1, h2⟩)
    · rw [fixed_step_not_fixed h]
    · cases type with
      | FixedDim hd c sh ty isz st =>
        simp only [ndt_itemsize] at h2
        have h1x : hd.datasize = 0 := h1
        simp only [fixed_step, ne_eq, not_true_eq_false, if_false, if_neg h2, DIVi64, h1x]
        have hn : ¬ (isz = 0 ∨ ((0 : Int) = INT64_MIN ∧ isz = -1)) := by
          rintro (h | ⟨h, _⟩)
          · exact h2 h
          · revert h; decide
        rw [if_neg hn]
      | _ => simp [fixed_step]
  by_cases hc : type.access = .Concrete
  · have hi := fixed_built_size_inv hb hc t1 t2
    have hflag := max_shape_flag type hinv hi
    cases hf : (fixed_datasize type INT64_MAX (fixed_step type INT64_MAX false).1
        (ndt_itemsize type) (fixed_step type INT64_MAX false).2).2 with
    | true =>
      have he : ndt_fixed_dim type INT64_MAX INT64_MAX = .error .ValueError := by
        unfold ndt_fixed_dim
        rw [hinv]
        simp only []
        rw [if_neg hs, if_pos hc]
        try simp only []
        rw [hf]
        rfl
      refine ⟨?_, Or.inl he, hstep⟩
      constructor
      · intro _
        exact ⟨hc, hflag.mp hf⟩
      · intro _
        exact he
    | false =>
      have he : ∃ u, ndt_fixed_dim type INT64_MAX INT64_MAX = .ok u ∧
          fixed_shape u = INT64_MAX := by
        unfold ndt_fixed_dim
        rw [hinv]
        simp only []
        rw [if_neg hs, if_pos hc]
        try simp only []
        rw [hf]
        exact ⟨_, rfl, rfl⟩
      refine ⟨?_, Or.inr he, hstep⟩
      obtain ⟨u, hu, _⟩ := he
      constructor
      · intro h
        rw [hu] at h
        cases h
      · rintro ⟨_, h⟩
        have := hflag.mpr h
        rw [hf] at this
        cases this
  · have he : ∃ u, ndt_fixed_dim type INT64_MAX INT64_MAX = .ok u ∧
        fixed_shape u = INT64_MAX := by
      unfold ndt_fixed_dim
      rw [hinv]
      simp only []
      rw [if_neg hs, if_neg hc]
      exact ⟨_, rfl, rfl⟩
    refine ⟨?_, Or.inr he, hstep⟩
    obtain ⟨u, hu, _⟩ := he
    constructor
    · intro h
      rw [hu] at h
      cases h
    · rintro ⟨h, _⟩
      exact absurd h hc

theorem ex_2_3_array_built : fixed_built ex_2_3_array :=
  fixed_built.dim _ _ 2 INT64_MAX
    (fixed_built.dim ex_int64 _ 3 INT64_MAX (fixed_built.base ex_int64 (by decide)) rfl) rfl

/-- Over `int64` and over the array `2 * 3 * int64` of 48 bytes the dimension
of shape `INT64_MAX` is rejected; over the type variable `T`, over `int8` and
over the array `1 * int8` it is built. -/
theorem ndt_fixed_dim_max_shape_witness :
    ndt_fixed_dim ex_int64 INT64_MAX INT64_MAX = .error .ValueError ∧
    (ex_2_3_array.tag = .FixedDim ∧ ex_2_3_array.datasize = 48 ∧
      ndt_fixed_dim ex_2_3_array INT64_MAX INT64_MAX = .error .ValueError) ∧
    (∃ u, ndt_fixed_dim ex_typevar_T INT64_MAX INT64_MAX = .ok u ∧
      fixed_shape u = INT64_MAX) ∧
    (∃ u, ndt_fixed_dim ex_int8 INT64_MAX INT64_MAX = .ok u ∧ fixed_shape u = INT64_MAX) ∧
    (∃ v u, ndt_fixed_dim ex_int8 1 INT64_MAX = .ok v ∧
      ndt_fixed_dim v INT64_MAX INT64_MAX = .ok u ∧ fixed_shape u = INT64_MAX) :=
  ⟨(ndt_fixed_dim_max_shape ex_int64 rfl (fixed_built.base _ (by decide))).1.mpr
      ⟨rfl, Or.inl (by decide)⟩,
   ⟨by decide, by decide,
    (ndt_fixed_dim_max_shape ex_2_3_array rfl ex_2_3_array_built).1.mpr
      ⟨rfl, Or.inl (by decide)⟩⟩,
   ⟨_, rfl, rfl⟩, ⟨_, rfl, rfl⟩, ⟨_, _, rfl, rfl, rfl⟩⟩

/-- The corner of the data size 0: the array `4294967296 * ()` with the step
4294967296 has the data size 0 and the itemsize 0; the default step of a
dimension over it is `4294967296 * 4294967296`, which overflows, and the
dimension of shape `INT64_MAX` is rejected. -/
theorem ndt_fixed_dim_max_shape_wide :
    ndt_fixed_dim ex_empty_tuple 4294967296 4294967296 = .ok ex_wide_empty ∧
    ex_wide_empty.access = .Concrete ∧ ex_wide_empty.datasize = 0 ∧
    ndt_itemsize ex_wide_empty = 0 ∧
    (fixed_step ex_wide_empty INT64_MAX false).2 = true ∧
    ndt_fixed_dim ex_wide_empty INT64_MAX INT64_MAX = .error .ValueError := by
  refine ⟨rfl, rfl, by decide, by decide, by decide, rfl⟩

/-! ## Termination of the substitution over acyclic bindings -/

theorem inner_typevar_dtype :
    ∀ (k : Nat) (x : ndt_t), ndt_depth x ≤ k → inner_typevar (ndt_dtype x) = inner_typevar x := by
  intro k
  induction k with
  | zero =>
    intro x h
    cases x <;> first
      | rfl
      | (simp only [ndt_depth] at h; omega)
  | succ k ih =>
    intro x h
    cases x <;> first
      | rfl
      | (simp only [ndt_depth] at h
         simp only [ndt_dtype, inner_typevar]
         exact ih _ (by omega))

theorem ndt_substitute_default_returns (reg : ndt_registry) (tbl : symtable_t) (t : ndt_t)
    (rc : Bool) (hc : ¬ ndt_is_concrete t = true) (hs : substitute_case t = false) :
    ∃ r N, ∀ f, N ≤ f → ndt_substitute reg tbl f t rc = some r := by
  refine ⟨if substitute_keeps t.tag then .ok t else .error .NotImplementedError, 1,
    fun f hf => ?_⟩
  obtain ⟨g, rfl⟩ : ∃ g, f = g + 1 := ⟨f - 1, by omega⟩
  exact ndt_substitute_default reg tbl g t rc hc hs

theorem ndt_substitute_acyclic (reg : ndt_registry) (tbl : symtable_t) (rank : String → Nat)
    (htbl : acyclic_typevars tbl rank) :
    ∀ (k n : Nat) (t : ndt_t) (rc : Bool),
      (∀ m, inner_typevar t = some m → rank m < k) → ndt_depth t ≤ n →
      ∃ r N, ∀ f, N ≤ f → ndt_substitute reg tbl f t rc = some r := by
  intro k
  refine Nat.strong_induction_on k ?_
  intro k ihk n
  refine Nat.strong_induction_on n ?_
  intro n ih t rc hrk hn
  by_cases hc : ndt_is_concrete t = true
  · refine ⟨.ok t, 1, fun f hf => ?_⟩
    obtain ⟨g, rfl⟩ : ∃ g, f = g + 1 := ⟨f - 1, by omega⟩
    unfold ndt_substitute
    simp only []
    rw [if_pos hc]
  -- the result of a call on an inner type of smaller depth on the same path
  have sub : ∀ (type : ndt_t) (rc2 : Bool), ndt_depth type < n →
      inner_typevar type = inner_typevar t →
      ∃ r N, ∀ g, N ≤ g → ndt_substitute reg tbl g type rc2 = some r := by
    intro type rc2 hlt he
    exact ih (ndt_depth type) hlt type rc2 (by rw [he]; exact hrk) (le_refl _)
  cases t with
  | FixedDim hd c shape type isz st =>
    obtain ⟨r, N, hr⟩ := sub type rc (by simp only [ndt_depth] at hn; omega) rfl
    cases r with
    | error e =>
      refine ⟨.error e, N + 1, fun f hf => ?_⟩
      obtain ⟨g, rfl⟩ : ∃ g, f = g + 1 := ⟨f - 1, by omega⟩
      unfold ndt_substitute
      simp only []
      rw [if_neg hc, hr g (by omega)]
    | ok u =>
      refine ⟨ndt_fixed_dim u shape st, N + 1, fun f hf => ?_⟩
      obtain ⟨g, rfl⟩ : ∃ g, f = g + 1 := ⟨f - 1, by omega⟩
      unfold ndt_substitute
      simp only []
      rw [if_neg hc, hr g (by omega)]
  | VarDim hd type isz offs sl =>
    have hlt : ndt_depth (ndt_dtype (.VarDim hd type isz offs sl)) < n := by
      have := ndt_depth_dtype_le _ type (le_refl _)
      simp only [ndt_depth] at hn
      simp only [ndt_dtype]
      omega
    obtain ⟨r, N, hr⟩ := sub _ rc hlt (inner_typevar_dtype _ _ (le_refl _))
    cases r with
    | error e =>
      refine ⟨.error e, N + 1, fun f hf => ?_⟩
      obtain ⟨g, rfl⟩ : ∃ g, f = g + 1 := ⟨f - 1, by omega⟩
      unfold ndt_substitute
      simp only []
      rw [if_neg hc, hr g (by omega)]
    | ok u =>
      refine ⟨ndt_copy_abstract_var_dtype (.VarDim hd type isz offs sl) u, N + 1,
        fun f hf => ?_⟩
      obtain ⟨g, rfl⟩ : ∃ g, f = g + 1 := ⟨f - 1, by omega⟩
      unfold ndt_substitute
      simp only []
      rw [if_neg hc, hr g (by omega)]
  | SymbolicDim hd c name type =>
    obtain ⟨r, N, hr⟩ := sub type rc (by simp only [ndt_depth] at hn; omega) rfl
    cases r with
    | error e =>
      refine ⟨.error e, N + 1, fun f hf => ?_⟩
      obtain ⟨g, rfl⟩ : ∃ g, f = g + 1 := ⟨f - 1, by omega⟩
      unfold ndt_substitute
      simp only []
      rw [if_neg hc, hr g (by omega)]
    | ok u =>
      refine ⟨if symtable_find_shape tbl name < 0 then
          (if rc = true then .error .ValueError else ndt_symbolic_dim name u)
        else ndt_fixed_dim u (symtable_find_shape tbl name) INT64_MAX, N + 1, fun f hf => ?_⟩
      obtain ⟨g, rfl⟩ : ∃ g, f = g + 1 := ⟨f - 1, by omega⟩
      unfold ndt_substitute
      simp only []
      rw [if_neg hc, hr g (by omega)]
      simp only []
      split_ifs <;> rfl
  | EllipsisDim hd c name type =>
    obtain ⟨r, N, hr⟩ := sub type true (by simp only [ndt_depth] at hn; omega) rfl
    cases name with
    | none =>
      refine ⟨r, N + 1, fun f hf => ?_⟩
      obtain ⟨g, rfl⟩ : ∃ g, f = g + 1 := ⟨f - 1, by omega⟩
      unfold ndt_substitute
      simp only []
      rw [if_neg hc, hr g (by omega)]
    | some nm =>
      cases r with
      | error e =>
        refine ⟨.error e, N + 1, fun f hf => ?_⟩
        obtain ⟨g, rfl⟩ : ∃ g, f = g + 1 := ⟨f - 1, by omega⟩
        unfold ndt_substitute
        simp only []
        rw [if_neg hc, hr g (by omega)]
      | ok u =>
        refine ⟨substitute_named_ellipsis tbl nm u, N + 1, fun f hf => ?_⟩
        obtain ⟨g, rfl⟩ : ∃ g, f = g + 1 := ⟨f - 1, by omega⟩
        unfold ndt_substitute
        simp only []
        rw [if_neg hc, hr g (by omega)]
  | Typevar hd name =>
    cases hv : symtable_find_typevar tbl name with
    | none =>
      refine ⟨if rc = true then .error .ValueError else ndt_typevar name, 1, fun f hf => ?_⟩
      obtain ⟨g, rfl⟩ : ∃ g, f = g + 1 := ⟨f - 1, by omega⟩
      unfold ndt_substitute
      simp only []
      rw [if_neg hc, hv]
      simp only []
      split_ifs <;> rfl
    | some v =>
      have hname : rank name < k := hrk name rfl
      have hcall : ∃ r N, ∀ g, N ≤ g → ndt_substitute reg tbl g v rc = some r := by
        rcases htbl name v hv with hvc | hvr
        · refine ⟨.ok v, 1, fun g hg => ?_⟩
          obtain ⟨g2, rfl⟩ : ∃ g2, g = g2 + 1 := ⟨g - 1, by omega⟩
          unfold ndt_substitute
          simp only []
          rw [if_pos hvc]
        · exact ihk (rank name) hname (ndt_depth v) v rc hvr (le_refl _)
      obtain ⟨r, N, hr⟩ := hcall
      refine ⟨r, N + 1, fun f hf => ?_⟩
      obtain ⟨g, rfl⟩ : ∃ g, f = g + 1 := ⟨f - 1, by omega⟩
      unfold ndt_substitute
      simp only []
      rw [if_neg hc, hv]
      simp only []
      exact hr g (by omega)
  | Constr hd name type =>
    obtain ⟨r, N, hr⟩ := sub type rc (by simp only [ndt_depth] at hn; omega) rfl
    cases r with
    | error e =>
      refine ⟨.error e, N + 1, fun f hf => ?_⟩
      obtain ⟨g, rfl⟩ : ∃ g, f = g + 1 := ⟨f - 1, by omega⟩
      unfold ndt_substitute
      simp only []
      rw [if_neg hc, hr g (by omega)]
    | ok u =>
      refine ⟨ndt_constr name u (ndt_is_optional (.Constr hd name type)), N + 1,
        fun f hf => ?_⟩
      obtain ⟨g, rfl⟩ : ∃ g, f = g + 1 := ⟨f - 1, by omega⟩
      unfold ndt_substitute
      simp only []
      rw [if_neg hc, hr g (by omega)]
  | Nominal hd name type =>
    cases hcp : ndt_copy reg type with
    | error e =>
      refine ⟨.error e, 1, fun f hf => ?_⟩
      obtain ⟨g, rfl⟩ : ∃ g, f = g + 1 := ⟨f - 1, by omega⟩
      unfold ndt_substitute
      simp only []
      rw [if_neg hc, hcp]
    | ok u =>
      refine ⟨ndt_nominal reg name (some u) (ndt_is_optional (.Nominal hd name type)), 1,
        fun f hf => ?_⟩
      obtain ⟨g, rfl⟩ : ∃ g, f = g + 1 := ⟨f - 1, by omega⟩
      unfold ndt_substitute
      simp only []
      rw [if_neg hc, hcp]
  | Ref hd type =>
    obtain ⟨r, N, hr⟩ := sub type rc (by simp only [ndt_depth] at hn; omega) rfl
    cases r with
    | error e =>
      refine ⟨.error e, N + 1, fun f hf => ?_⟩
      obtain ⟨g, rfl⟩ : ∃ g, f = g + 1 := ⟨f - 1, by omega⟩
      unfold ndt_substitute
      simp only []
      rw [if_neg hc, hr g (by omega)]
    | ok u =>
      refine ⟨ndt_ref u (ndt_is_optional (.Ref hd type)), N + 1, fun f hf => ?_⟩
      obtain ⟨g, rfl⟩ : ∃ g, f = g + 1 := ⟨f - 1, by omega⟩
      unfold ndt_substitute
      simp only []
      rw [if_neg hc, hr g (by omega)]
  | _ => exact ndt_substitute_default_returns reg tbl _ rc hc rfl

/-- C37 (as amended): for every symbol table whose bindings of type variables
have no cycle, `ndt_substitute` returns on every term `t`, also when the
bindings are abstract types that mention type variables: there is a bound on
the depth of the calls from which on every bound gives the same result. For a
table whose type variables are bound to concrete types the depth of the calls
is at most the depth of `t` plus 2. -/
theorem ndt_substitute_terminates (reg : ndt_registry) (tbl : symtable_t)
    (rank : String → Nat) (htbl : acyclic_typevars tbl rank) (t : ndt_t) (rc : Bool) :
    (∃ r N, ∀ fuel, N ≤ fuel → ndt_substitute reg tbl fuel t rc = some r) ∧
    (concrete_typevars tbl →
      ∃ r, ∀ fuel, ndt_depth t + 2 ≤ fuel → ndt_substitute reg tbl fuel t rc = some r) := by
  constructor
  · cases hi : inner_typevar t with
    | none =>
      exact ndt_substitute_acyclic reg tbl rank htbl 0 (ndt_depth t) t rc
        (fun m hm => by rw [hi] at hm; cases hm) (le_refl _)
    | some m0 =>
      refine ndt_substitute_acyclic reg tbl rank htbl (rank m0 + 1) (ndt_depth t) t rc
        (fun m hm => ?_) (le_refl _)
      rw [hi] at hm
      cases hm
      exact Nat.lt_succ_self _
  · intro hconc
    obtain ⟨r, hr⟩ := ndt_substitute_fuel reg tbl hconc (ndt_depth t) t rc (le_refl _)
    refine ⟨r, fun fuel hf => ?_⟩
    obtain ⟨g, rfl⟩ : ∃ g, fuel = g + 1 := ⟨fuel - 1, by omega⟩
    exact hr g (by omega)

theorem ex_tbl_T_S_acyclic : acyclic_typevars ex_tbl_T_S ex_rank_T_S := by
  intro name v h
  unfold symtable_find_typevar ex_tbl_T_S at h
  simp only [symtable_find] at h
  by_cases hn : "T" = name
  · rw [if_pos hn] at h
    simp only [Option.some.injEq] at h
    right
    intro m hm
    rw [← h] at hm
    have e : m = "S" := by
      have h2 : inner_typevar (built ex_typevar_S (ndt_fixed_dim ex_typevar_S 2 INT64_MAX)) =
          some "S" := rfl
      rw [h2] at hm
      cases hm
      rfl
    rw [e, ← hn]
    decide
  · rw [if_neg hn] at h
    by_cases hs : "S" = name
    · rw [if_pos hs] at h
      simp only [Option.some.injEq] at h
      left
      rw [← h]
      rfl
    · rw [if_neg hs] at h
      cases h

/-- With `T` bound to the abstract type `2 * S` and `S` bound to `int64`, the
substitution of `T` returns. -/
theorem ndt_substitute_terminates_witness :
    (∃ r N, ∀ fuel, N ≤ fuel →
      ndt_substitute empty_registry ex_tbl_T_S fuel ex_typevar_T true = some r) ∧
    (concrete_typevars ex_tbl_T_S →
      ∃ r, ∀ fuel, ndt_depth ex_typevar_T + 2 ≤ fuel →
        ndt_substitute empty_registry ex_tbl_T_S fuel ex_typevar_T true = some r) :=
  ndt_substitute_terminates empty_registry ex_tbl_T_S ex_rank_T_S ex_tbl_T_S_acyclic
    ex_typevar_T true

/-- The example of the witness, evaluated: the binding of `T` is abstract and
mentions `S`; the call on `T` needs the depth 4 and returns `2 * int64`. -/
theorem ex_tbl_T_S_substitute :
    symtable_find_typevar ex_tbl_T_S "T" =
      some (built ex_typevar_S (ndt_fixed_dim ex_typevar_S 2 INT64_MAX)) ∧
    ndt_is_concrete (built ex_typevar_S (ndt_fixed_dim ex_typevar_S 2 INT64_MAX)) = false ∧
    inner_typevar (built ex_typevar_S (ndt_fixed_dim ex_typevar_S 2 INT64_MAX)) = some "S" ∧
    ndt_substitute empty_registry ex_tbl_T_S 3 ex_typevar_T true = none ∧
    ndt_substitute empty_registry ex_tbl_T_S 4 ex_typevar_T true =
      some (ndt_fixed_dim ex_int64 2 INT64_MAX) := by
  refine ⟨rfl, rfl, rfl, rfl, rfl⟩

/-- With the type variable `T` bound to `T` itself, an abstract type, the
bindings have a cycle (no rank falls along them), and the call of
`ndt_substitute` on `T` looks `T` up and calls itself on the binding, which is
`T` again: no bound on the depth of the calls gives a result. -/
theorem ndt_substitute_self_binding :
    symtable_find_typevar ex_tbl_self "T" = some ex_typevar_T ∧
    ndt_is_concrete ex_typevar_T = false ∧
    (∀ rank, ¬ acyclic_typevars ex_tbl_self rank) ∧
    ∀ (reg : ndt_registry) (fuel : Nat) (rc : Bool),
      ndt_substitute reg ex_tbl_self fuel ex_typevar_T rc = none := by
  refine ⟨rfl, rfl, ?_, ?_⟩
  · intro rank h
    rcases h "T" ex_typevar_T rfl with h1 | h1
    · cases h1
    · exact absurd (h1 "T" rfl) (Nat.lt_irrefl _)
  intro reg fuel
  induction fuel with
  | zero => intro rc; rfl
  | succ f ih =>
    intro rc
    have h : ndt_substitute reg ex_tbl_self (f + 1) ex_typevar_T rc =
        ndt_substitute reg ex_tbl_self f ex_typevar_T rc := rfl
    rw [h]
    exact ih rc

/-! ## C25: a scalar with the reference flag -/

theorem round_up_zero {a : Nat} (ha : 0 < a) (hale : a ≤ UINT16_MAX) :
    (round_up 0 a false).1 = 0 := by
  simp only [round_up, ADDi64, UINT16_MAX] at hale ⊢
  have hf : fits_i64 (0 + ((a : Int) - 1)) = true := by
    simp only [fits_i64, INT64_MIN, INT64_MAX, Bool.and_eq_true, decide_eq_true_eq]
    omega
  rw [wrap_i64_of_fits hf]
  rw [Int.tdiv_eq_ediv (by omega) (by omega)]
  rw [Int.ediv_eq_zero_of_lt (by omega) (by omega)]
  simp

theorem step_computed {i : Nat} {s : fields_layout} {a : Nat} {f : ndt_field_t}
    (hi : 0 < i) (h : (init_concrete_fields_step i s a f).overflow = false) :
    init_concrete_fields_step i s a f =
      { offsets := s.offsets ++ [(round_up s.offset a false).1]
        align := s.align ++ [a]
        pad := s.pad ++ [wrap_u16 ((round_up s.offset a false).1 - s.offset)]
        offset := (round_up s.offset a false).1 + f.type.datasize
        maxalign := max_u16 a s.maxalign
        overflow := false } := by
  have hs := step_overflow_mono h
  simp only [init_concrete_fields_step, hi, if_true, gt_iff_lt] at h ⊢
  rw [hs] at h ⊢
  obtain ⟨_, e3⟩ := ADDi64_exact h
  rw [h, e3]

theorem init_loop_computed (pack : Option Nat) :
    ∀ (fs : List ndt_field_t) (i : Nat) (s s' : fields_layout),
      0 < i → init_concrete_fields_loop pack fs i s = .ok s' → s'.overflow = false →
      s'.offsets = s.offsets ++ offsets_computed pack s.offset fs ∧
      s'.align = s.align ++ fs.map (effective_align pack) ∧
      s'.pad = s.pad ++ gaps_computed pack s.offset fs ∧
      s'.offset = end_computed pack s.offset fs ∧
      s'.maxalign =
        (fs.map (effective_align pack)).foldl (fun m a => max_u16 a m) s.maxalign := by
  intro fs
  induction fs with
  | nil =>
    intro i s s' _ h hov
    simp only [init_concrete_fields_loop, Except.ok.injEq] at h
    subst h
    simp [offsets_computed, gaps_computed, end_computed]
  | cons f fs ih =>
    intro i s s' hi h hov
    simp only [init_concrete_fields_loop] at h
    split at h
    · cases h
    · rename_i a ha
      have ha' := field_align_ok ha
      subst ha'
      have hs1 := step_computed (f := f) hi (loop_overflow_mono pack _ _ _ _ h hov)
      rw [hs1] at h
      obtain ⟨r2, r3, r4, r5, r6⟩ := ih (i + 1) _ s' (Nat.succ_pos _) h hov
      simp only at r2 r3 r4 r5 r6
      refine ⟨?_, ?_, ?_, ?_, ?_⟩
      · rw [r2]; simp [offsets_computed]
      · rw [r3]; simp
      · rw [r4]; simp [gaps_computed]
      · rw [r5]; simp [end_computed]
      · rw [r6]; simp

theorem offsets_computed_length (pack : Option Nat) :
    ∀ (fs : List ndt_field_t) (cur : Int),
      (offsets_computed pack cur fs).length = fs.length := by
  intro fs
  induction fs with
  | nil => intro cur; rfl
  | cons f fs ih => intro cur; simp [offsets_computed, ih]

theorem gaps_computed_length (pack : Option Nat) :
    ∀ (fs : List ndt_field_t) (cur : Int),
      (gaps_computed pack cur fs).length = fs.length := by
  intro fs
  induction fs with
  | nil => intro cur; rfl
  | cons f fs ih => intro cur; simp [gaps_computed, ih]

theorem offsets_computed_succ (pack : Option Nat) :
    ∀ (fs : List ndt_field_t) (cur : Int) (i : Nat), i + 1 < fs.length →
      (offsets_computed pack cur fs).getD (i + 1) 0 =
        (round_up ((offsets_computed pack cur fs).getD i 0 + field_size fs i)
          (field_eff_align pack fs (i + 1)) false).1 := by
  intro fs
  induction fs with
  | nil => intro cur i h; simp at h
  | cons f fs ih =>
    intro cur i h
    cases fs with
    | nil => simp at h
    | cons g rest =>
      cases i with
      | zero =>
        simp [offsets_computed, field_size, field_eff_align]
      | succ j =>
        have := ih ((round_up cur (effective_align pack f) false).1 + f.type.datasize) j
          (by simpa using h)
        simpa [offsets_computed, field_size, field_eff_align] using this

theorem gaps_computed_succ (pack : Option Nat) :
    ∀ (fs : List ndt_field_t) (cur : Int) (i : Nat), i + 1 < fs.length →
      (gaps_computed pack cur fs).getD (i + 1) 0 =
        wrap_u16 ((offsets_computed pack cur fs).getD (i + 1) 0 -
          ((offsets_computed pack cur fs).getD i 0 + field_size fs i)) := by
  intro fs
  induction fs with
  | nil => intro cur i h; simp at h
  | cons f fs ih =>
    intro cur i h
    cases fs with
    | nil => simp at h
    | cons g rest =>
      cases i with
      | zero =>
        simp only [gaps_computed, offsets_computed, field_size, List.getD_cons_succ,
          List.getD_cons_zero, List.map_cons, zero_add]
      | succ j =>
        have := ih ((round_up cur (effective_align pack f) false).1 + f.type.datasize) j
          (by simpa using h)
        simpa [offsets_computed, gaps_computed, field_size] using this

theorem offsets_computed_last (pack : Option Nat) :
    ∀ (fs : List ndt_field_t) (cur : Int), 0 < fs.length →
      (offsets_computed pack cur fs).getD (fs.length - 1) 0 + field_size fs (fs.length - 1) =
        end_computed pack cur fs := by
  intro fs
  induction fs with
  | nil => intro cur h; simp at h
  | cons f fs ih =>
    intro cur _
    cases fs with
    | nil => simp [offsets_computed, end_computed, field_size]
    | cons g rest =>
      have := ih ((round_up cur (effective_align pack f) false).1 + f.type.datasize) (by simp)
      simpa [offsets_computed, end_computed, field_size] using this

theorem offsets_computed_getLast (pack : Option Nat) :
    ∀ (fs : List ndt_field_t) (cur : Int),
      (offsets_computed pack cur fs).getLast? =
        if fs.length = 0 then none
        else some ((offsets_computed pack cur fs).getD (fs.length - 1) 0) := by
  intro fs cur
  have hl := offsets_computed_length pack fs cur
  rw [List.getLast?_eq_getElem?, hl]
  split
  · rename_i h; simp [List.length_eq_zero.mp h, offsets_computed]
  · rename_i h
    rw [List.getD_eq_getElem?_getD, List.getElem?_eq_getElem (by omega)]
    simp

/-- The closed form of a successful `init_concrete_fields` in terms of the
helper `round_up`, for fields of any size. -/
theorem init_concrete_fields_round_up {fields : List ndt_field_t} {align pack : Option Nat}
    {c : concrete_fields}
    (hal : ∀ f ∈ fields, 0 < effective_align pack f ∧ effective_align pack f ≤ UINT16_MAX)
    (h : init_concrete_fields fields align pack = .ok c) :
    c.offsets = offsets_computed pack 0 fields ∧
    c.align = fields.map (effective_align pack) ∧
    c.pad = (gaps_computed pack 0 fields).tail ++
      (if fields.length = 0 then []
       else [wrap_u16 (c.size - end_computed pack 0 fields)]) ∧
    c.maxalign = (fields.map (effective_align pack)).foldl max (align.getD 1) ∧
    c.size = (round_up (end_computed pack 0 fields) c.maxalign false).1 ∧
    0 < align.getD 1 := by
  unfold init_concrete_fields at h
  split at h
  · cases h
  rename_i m0 hm0
  obtain ⟨hm0e, hm0pos⟩ := get_align_ok hm0
  split at h
  · cases h
  split at h
  · cases h
  rename_i s hs
  simp only at h
  split at h
  · cases h
  split at h
  · cases h
  rename_i hsz
  simp only [Bool.not_eq_true] at hsz
  cases h
  simp only
  have hsov : s.overflow = false := by
    simp only [round_up, ADDi64, Bool.or_eq_false_iff] at hsz
    exact hsz.1
  rw [hsov]
  unfold init_layout at hs
  cases fields with
  | nil =>
    simp only [init_concrete_fields_loop, Except.ok.injEq] at hs
    subst hs
    exact ⟨rfl, rfl, rfl, hm0e, rfl, hm0e ▸ hm0pos⟩
  | cons f fs =>
    simp only [init_concrete_fields_loop] at hs
    split at hs
    · cases hs
    rename_i a hfa
    have hae := field_align_ok hfa
    obtain ⟨hapos, hale⟩ := hal f (List.mem_cons_self _ _)
    have h1ov := loop_overflow_mono pack _ _ _ _ hs hsov
    have hstep : init_concrete_fields_step 0
        { offsets := [], align := [], pad := [], offset := 0, maxalign := m0, overflow := false } a f =
        { offsets := [0], align := [a], pad := [], offset := f.type.datasize
          maxalign := max_u16 a m0, overflow := false } := by
      simp only [init_concrete_fields_step, gt_iff_lt, lt_self_iff_false, if_false] at h1ov ⊢
      obtain ⟨_, e⟩ := ADDi64_exact h1ov
      rw [h1ov, e]
      simp
    rw [hstep] at hs
    obtain ⟨r2, r3, r4, r5, r6⟩ := init_loop_computed pack fs 1 _ s Nat.one_pos hs hsov
    simp only at r2 r3 r4 r5 r6
    have hz := round_up_zero hapos hale
    have hmaxeq : s.maxalign = ((f :: fs).map (effective_align pack)).foldl max (align.getD 1) := by
      rw [r6, foldl_max_u16, List.map_cons, List.foldl_cons, ← hae, ← hm0e]
      congr 1
    have hend : end_computed pack 0 (f :: fs) = s.offset := by
      rw [r5]; simp only [end_computed, hz, zero_add]
    have hoff : s.offsets = offsets_computed pack 0 (f :: fs) := by
      rw [r2]; simp only [offsets_computed, hz, zero_add, List.singleton_append]
    refine ⟨hoff, ?_, ?_, hmaxeq, ?_, hm0e ▸ hm0pos⟩
    · rw [r3, hae]; simp
    · rw [r4, hend]
      simp only [gaps_computed, hz, zero_add, List.tail_cons, List.nil_append, List.length_cons,
        Nat.add_one_ne_zero, if_false]
      congr 1
      have hl : (f :: fs).getLast? = some ((f :: fs).getLast (by simp)) :=
        List.getLast?_eq_getLast _ _
      have ho := offsets_computed_getLast pack (f :: fs) 0
      have hlast := offsets_computed_last pack (f :: fs) 0 (by simp)
      obtain ⟨_, hfl⟩ := fields_getLast _ _ hl
      have ho2 : (s.offsets).getLast? =
          some ((offsets_computed pack 0 (f :: fs)).getD ((f :: fs).length - 1) 0) := by
        rw [hoff, ho]; simp
      unfold last_pad
      rw [hl, ho2]
      simp only
      rw [hfl, ← hend, ← hlast]
      congr 2
      ring
    · rw [hend]

/-- The layout stored by a successful `init_concrete_fields` is the layout in
terms of the helper `round_up`. -/
theorem tuple_layout_computed_of_closed {fields : List ndt_field_t} {align pack : Option Nat}
    {c : concrete_fields} {t : ndt_t}
    (hal : ∀ f ∈ fields, 0 < effective_align pack f ∧ effective_align pack f ≤ UINT16_MAX)
    (ha : attr_u16 align)
    (h : init_concrete_fields fields align pack = .ok c)
    (h1 : tuple_offset t = c.offsets) (h2 : tuple_align t = c.align)
    (h3 : tuple_pad t = c.pad) (h4 : t.align = c.maxalign) (h5 : t.datasize = c.size) :
    tuple_layout_computed fields align pack t := by
  obtain ⟨c1, c2, c3, c4, c5, c6⟩ := init_concrete_fields_round_up hal h
  unfold tuple_layout_computed
  rw [h1, h2, h3, h4, h5, c1, c2, c3]
  have hgl := gaps_computed_length pack fields 0
  refine ⟨offsets_computed_length _ _ _, by simp, ?_, ?_, ?_, ?_, c4, ?_, ?_⟩
  · simp only [List.length_append, List.length_tail, hgl]
    split
    · rename_i hz; simp [hz]
    · rename_i hz; simp only [List.length_singleton]; omega
  · intro i _; rfl
  · intro hpos
    cases fields with
    | nil => simp at hpos
    | cons f fs =>
      simp only [offsets_computed, List.getD_cons_zero]
      exact round_up_zero (hal f (List.mem_cons_self _ _)).1 (hal f (List.mem_cons_self _ _)).2
  · intro i hi
    refine ⟨offsets_computed_succ pack fields 0 i hi, ?_⟩
    rw [getD_tail_append _ _ _ _ (by rw [hgl]; exact hi)]
    exact gaps_computed_succ pack fields 0 i hi
  · intro hz
    have hnil := List.length_eq_zero.mp hz
    subst hnil
    rw [c5]
    simp only [end_computed]
    have hm : 0 < c.maxalign ∧ c.maxalign ≤ UINT16_MAX := by
      rw [c4]
      simp only [List.map_nil, List.foldl_nil]
      refine ⟨c6, ?_⟩
      cases align with
      | none => simp [UINT16_MAX]
      | some x => exact ha x rfl
    exact round_up_zero hm.1 hm.2
  · intro hpos
    have hlast := offsets_computed_last pack fields 0 hpos
    rw [hlast]
    refine ⟨c5, ?_⟩
    have hne : ¬ fields.length = 0 := by omega
    simp only [hne, if_false]
    have := getD_tail_append_last (gaps_computed pack 0 fields)
      (wrap_u16 (c.size - end_computed pack 0 fields)) 0
      (by rw [hgl]; exact hpos)
    rw [hgl] at this
    rw [this]

theorem effective_align_ok {fields : List ndt_field_t} {align pack : Option Nat}
    {c : concrete_fields} (hwf : ∀ f ∈ fields, aligned_field f) (hp : attr_u16 pack)
    (h : init_concrete_fields fields align pack = .ok c) :
    ∀ f ∈ fields, 0 < effective_align pack f ∧ effective_align pack f ≤ UINT16_MAX := by
  unfold init_concrete_fields at h
  split at h
  · cases h
  split at h
  · cases h
  rename_i p0 hp0
  intro f hf
  obtain ⟨_, h1, h2⟩ := hwf f hf
  unfold effective_align
  cases pack with
  | none => exact ⟨h1, h2⟩
  | some p =>
    have := get_align_ok hp0
    simp only [Option.getD_some] at this
    exact ⟨this.1 ▸ this.2, hp p rfl⟩

theorem ndt_tuple_access_concrete {fields : List ndt_field_t} {align pack : Option Nat}
    {opt : Bool} {t : ndt_t} (hacc : ∀ f ∈ fields, f.access = .Concrete)
    (h : ndt_tuple .Nonvariadic fields align pack opt = .ok t) : t.access = .Concrete := by
  unfold ndt_tuple at h
  split at h
  · cases h
  simp only [fields_access_of_concrete fields hacc, if_false, reduceCtorEq] at h
  split at h
  · cases h
  · cases h; rfl

theorem ndt_record_access_concrete {fields : List ndt_field_t} {align pack : Option Nat}
    {opt : Bool} {t : ndt_t} (hacc : ∀ f ∈ fields, f.access = .Concrete)
    (h : ndt_record .Nonvariadic fields align pack opt = .ok t) : t.access = .Concrete := by
  unfold ndt_record at h
  split at h
  · cases h
  simp only [fields_access_of_concrete fields hacc, if_false, reduceCtorEq] at h
  split at h
  · cases h
  · split at h
    · cases h
    · cases h; rfl

theorem concrete_of_aligned {fields : List ndt_field_t}
    (hwf : ∀ f ∈ fields, aligned_field f) (hd : ∀ f ∈ fields, 0 ≤ f.type.datasize) :
    ∀ f ∈ fields, concrete_field f :=
  fun f hf => ⟨(hwf f hf).1, hd f hf, (hwf f hf).2.1, (hwf f hf).2.2⟩

/-- C2 (as amended): for every list of concrete fields, of any size, a
successful `ndt_tuple` or `ndt_record` that is not variadic stores the layout
that the helper `round_up` of the library gives: offset 0 for the first field,
every further offset `round_up` of the end of the field before and the
effective alignment of the field, every pad the gap to the next offset as
`uint16_t`, the alignment of the node the maximum of the `align` attribute (or
1) and all effective alignments, the size `round_up` of the end of the last
field and that alignment, and the last pad the gap to the size. When no field
has a negative size this is the layout of the rules: `round_up` is the least
multiple of the alignment that is not below the end, and every pad is the
gap. -/
theorem ndt_tuple_record_layout (fields : List ndt_field_t) (align pack : Option Nat)
    (opt : Bool) (t : ndt_t) (hwf : ∀ f ∈ fields, aligned_field f)
    (ha : attr_u16 align) (hp : attr_u16 pack)
    (h : ndt_tuple .Nonvariadic fields align pack opt = .ok t ∨
      ndt_record .Nonvariadic fields align pack opt = .ok t) :
    tuple_layout_computed fields align pack t ∧
    ((∀ f ∈ fields, 0 ≤ f.type.datasize) → tuple_layout fields align pack t) := by
  have hacc : ∀ f ∈ fields, f.access = .Concrete := fun f hf => (hwf f hf).1
  rcases h with h | h
  · obtain ⟨c, hc, h1, h2, h3, h4, h5⟩ := ndt_tuple_concrete h (ndt_tuple_access_concrete hacc h)
    exact ⟨tuple_layout_computed_of_closed (effective_align_ok hwf hp hc) ha hc h1 h2 h3 h4 h5,
      fun hd => tuple_layout_of_closed (concrete_of_aligned hwf hd) ha hp hc h1 h2 h3 h4 h5⟩
  · obtain ⟨c, hc, h1, h2, h3, h4, h5⟩ := ndt_record_concrete h (ndt_record_access_concrete hacc h)
    exact ⟨tuple_layout_computed_of_closed (effective_align_ok hwf hp hc) ha hc h1 h2 h3 h4 h5,
      fun hd => tuple_layout_of_closed (concrete_of_aligned hwf hd) ha hp hc h1 h2 h3 h4 h5⟩

theorem ex_record_fields_aligned : ∀ f ∈ ex_record_fields, aligned_field f := by
  intro f hf
  simp only [ex_record_fields, List.mem_cons, List.mem_singleton, List.not_mem_nil, or_false] at hf
  rcases hf with rfl | rfl <;> exact ⟨rfl, by decide, by decide⟩

theorem ex_neg_fields_aligned : ∀ f ∈ ex_neg_fields none, aligned_field f := by
  intro f hf
  simp only [ex_neg_fields, List.mem_cons, List.mem_singleton, List.not_mem_nil, or_false] at hf
  rcases hf with rfl | rfl <;> exact ⟨rfl, by decide, by decide⟩

/-- The record `{a: int32, b: float64}` is built from fields of `ndt_field`, has
`offset=[0,8]`, `align=[4,8]`, `pad=[4,0]`, `datasize=16` and `align=8`, and
obeys the layout rules. The tuple `(fixed_bytes(size=-12, align=4), int32)`
has `offset=[0,-8]`, `pad=[4,4]` and `datasize=0`, the layout that `round_up`
gives: `round_up(-12, 4) = -8` and `round_up(-4, 4) = 0`. -/
theorem ndt_tuple_record_layout_witness :
    ndt_primitive .Int32 {} = .ok ex_int32 ∧
    ndt_primitive .Float64 {} = .ok ex_float64 ∧
    ndt_field (some "a") ex_int32 none none none = .ok (plain_field (some "a") ex_int32 none) ∧
    ndt_field (some "b") ex_float64 none none none =
      .ok (plain_field (some "b") ex_float64 none) ∧
    ndt_record .Nonvariadic ex_record_fields none none false =
      .ok (.Record { access := .Concrete, flags := {}, ndim := 0, datasize := 16, align := 8 }
        .Nonvariadic ["a", "b"] [ex_int32, ex_float64] [0, 8] [4, 8] [4, 0]) ∧
    tuple_layout_computed ex_record_fields none none
      (.Record { access := .Concrete, flags := {}, ndim := 0, datasize := 16, align := 8 }
        .Nonvariadic ["a", "b"] [ex_int32, ex_float64] [0, 8] [4, 8] [4, 0]) ∧
    tuple_layout ex_record_fields none none
      (.Record { access := .Concrete, flags := {}, ndim := 0, datasize := 16, align := 8 }
        .Nonvariadic ["a", "b"] [ex_int32, ex_float64] [0, 8] [4, 8] [4, 0]) ∧
    ndt_tuple .Nonvariadic (ex_neg_fields none) none none false =
      .ok (.Tuple { access := .Concrete, flags := {}, ndim := 0, datasize := 0, align := 4 }
        .Nonvariadic [ex_bytes_neg, ex_int32] [0, -8] [4, 4] [4, 4]) ∧
    (round_up (0 + ex_bytes_neg.datasize) 4 false).1 = -8 ∧
    (round_up (-8 + ex_int32.datasize) 4 false).1 = 0 ∧
    tuple_layout_computed (ex_neg_fields none) none none
      (.Tuple { access := .Concrete, flags := {}, ndim := 0, datasize := 0, align := 4 }
        .Nonvariadic [ex_bytes_neg, ex_int32] [0, -8] [4, 4] [4, 4]) :=
  ⟨rfl, rfl, rfl, rfl, rfl,
    (ndt_tuple_record_layout ex_record_fields none none false _ ex_record_fields_aligned
      attr_u16_none attr_u16_none (Or.inr rfl)).1,
    (ndt_tuple_record_layout ex_record_fields none none false _ ex_record_fields_aligned
      attr_u16_none attr_u16_none (Or.inr rfl)).2 (by decide),
    rfl, by decide, by decide,
    (ndt_tuple_record_layout (ex_neg_fields none) none none false _ ex_neg_fields_aligned
      attr_u16_none attr_u16_none (Or.inl rfl)).1⟩

end Xnd
